import Mathlib

/-!
# LaCAM high-level search (`lacam/src/lacam.cpp`)

A shallow embedding of the search engine of `lacam.cpp`.

* A `Vertex*` is identified with the vertex id (a natural number); a
  `Config` is the list of the agents' vertices.
* Search nodes live in an arena (`LaCAM.nodes`, the C++ `GC_HNodes`, in creation
  order); an `HNode*` is the index of the node in the arena, `nullptr` is `none`.
  The root `H_init` is always index `0`.
* Everything the engine receives from outside (the random generator `MT`, the
  step solver `pibt`, the distance table `D`, the deadline, `std::sort`,
  `std::shuffle`) is a field of `Ctx`; the generator and the step solver thread
  an explicit state of type `σ`. The `std::sort` of libstdc++ is `stdSort`.
* `int` cost values are natural numbers (they are never negative and stay far
  below the machine range).
* A `float` value is the rational number it stands for. Every `float` operation
  of `HNode::HNode` (the conversion `(float)D`, the division by `10000`, `p + 1`,
  `p - (int)p`) gives the exact result rounded to the nearest `float` (IEEE 754
  binary32, round to nearest, ties to even): `roundF32`.
-/

namespace Lacam

/-- The positions of all agents, `Config = std::vector<Vertex*>`: one vertex id per agent. -/
abbrev Config := List Nat

/-- The sequence of configurations returned by `solve`. -/
abbrev Solution := List Config

/-- The graph: entry `v` is the `actions` vector of the vertex with id `v`. -/
abbrev Graph := List (List Nat)

/-- Low-level search node (a constraint): `who`, `where`, `depth`. -/
structure LNode where
  who : List Nat
  where_ : List Nat
  depth : Nat
deriving DecidableEq, Repr

/-- The constructor `LNode::LNode()`. -/
def LNode.root : LNode := { who := [], where_ := [], depth := 0 }

/-- The constructor `LNode::LNode(LNode *parent, int i, Vertex *v)`. -/
def LNode.child (parent : LNode) (i : Nat) (v : Nat) : LNode :=
  { who := parent.who ++ [i], where_ := parent.where_ ++ [v], depth := parent.depth + 1 }

/-- High-level search node. `parent` and the members of `neighbors` are arena indices. -/
structure HNode where
  Q : Config
  parent : Option Nat
  neighbors : List Nat
  g : Nat
  h : Nat
  f : Nat
  depth : Nat
  priorities : List Rat
  order : List Nat
  search_tree : List LNode
deriving DecidableEq

instance : Inhabited HNode :=
  ⟨{ Q := [], parent := none, neighbors := [], g := 0, h := 0, f := 0, depth := 0,
     priorities := [], order := [], search_tree := [] }⟩

/-- The problem instance: number of agents, start and goal configurations. -/
structure Instance where
  N : Nat
  starts : Config
  goals : Config

/-- Everything `LaCAM` is constructed with or links against.
`σ` is the joint state of the random generator `MT` and of the step solver. -/
structure Ctx (σ : Type) where
  /-- the instance `ins` -/
  ins : Instance
  /-- the static flag `LaCAM::ANYTIME` -/
  ANYTIME : Bool
  /-- the static `LaCAM::RANDOM_INSERT_PROB1` -/
  RANDOM_INSERT_PROB1 : Rat
  /-- the static `LaCAM::RANDOM_INSERT_PROB2` -/
  RANDOM_INSERT_PROB2 : Rat
  /-- the distance table, `D->get(i, v)` -/
  D : Nat → Nat → Nat
  /-- outcome of `is_expired(deadline)` at the loop test reached with `loop_cnt = k` -/
  is_expired : Nat → Bool
  /-- one draw `rrd(MT)` -/
  rrd : σ → Rat × σ
  /-- one draw `get_random_int(MT, from, to)` -/
  get_random_int : σ → Nat → Nat → Nat × σ
  /-- the effect of `std::shuffle(C.begin(), C.end(), MT)` on the vector `C` -/
  shuffle : σ → List Nat → List Nat × σ
  /-- the call `pibt.set_new_config(Q_from, Q_to, order)`: `Q_to` comes in with the pinned
  entries (`none` is `nullptr`); `some Q` is a `true` return with `Q_to` filled as `Q`. -/
  pibt : σ → Graph → Config → List (Option Nat) → List Nat → Option Config × σ
  /-- the result of `std::sort(first, last, cmp)` on a vector of agent indices -/
  sort : (Nat → Nat → Bool) → List Nat → List Nat

/-- The search state of `LaCAM::solve`. -/
structure LaCAM where
  /-- the arena `GC_HNodes` -/
  nodes : List HNode
  /-- the deque `OPEN`, front first -/
  OPEN : List Nat
  /-- the table `EXPLORED`, as an association list -/
  EXPLORED : List (Config × Nat)
  H_goal : Option Nat
  loop_cnt : Nat
  /-- the `actions` vectors of the graph, which `solve` shuffles in place -/
  G : Graph
  /-- record of the successful step-solver calls `(H->Q, Q_to)`; never read by the search -/
  calls : List (Config × Config)
deriving DecidableEq

/-- Dereference of an `HNode*`. -/
def nodeAt (nodes : List HNode) (i : Nat) : HNode := nodes.getD i default

/-- Assignment through an `HNode*`. -/
def updNode (nodes : List HNode) (i : Nat) (f : HNode → HNode) : List HNode :=
  nodes.modify f i

/-- Modelled from the spec: `is_same_config` is declared outside `lacam.cpp`; the spec makes
configuration equality value-based over the full sequence. -/
def is_same_config (C1 C2 : Config) : Bool := decide (C1 = C2)

/-- The scan of `CompareHNodePointers::operator()` over the agent indices still to compare. -/
def compareFrom (lQ rQ : Config) : List Nat → Bool
  | [] => false
  | i :: rest =>
    if lQ.getD i 0 ≠ rQ.getD i 0 then decide (lQ.getD i 0 < rQ.getD i 0)
    else compareFrom lQ rQ rest

/-- The comparator `CompareHNodePointers::operator()`. -/
def CompareHNodePointers (l r : HNode) : Bool :=
  compareFrom l.Q r.Q (List.range l.Q.length)

/-- The operation `std::set<HNode*, CompareHNodePointers>::insert`: the set is kept in
comparator order and an element equivalent to a present one is not inserted. -/
def setInsert (nodes : List HNode) (x : Nat) : List Nat → List Nat
  | [] => [x]
  | y :: ys =>
    if CompareHNodePointers (nodeAt nodes x) (nodeAt nodes y) then x :: y :: ys
    else if CompareHNodePointers (nodeAt nodes y) (nodeAt nodes x) then y :: setInsert nodes x ys
    else y :: ys

/-- The function `LaCAM::get_edge_cost`. -/
def get_edge_cost (ins : Instance) (Q1 Q2 : Config) : Nat :=
  (List.range ins.N).foldl
    (fun cost i =>
      if Q1.getD i 0 ≠ ins.goals.getD i 0 ∨ Q2.getD i 0 ≠ ins.goals.getD i 0 then cost + 1
      else cost) 0

/-- The count of the spec: the agents `i < N` for which it is not the case that both
`Q1[i]` and `Q2[i]` equal `goal[i]`. -/
def edge_cost_spec (ins : Instance) (Q1 Q2 : Config) : Nat :=
  ((List.range ins.N).filter
    (fun i => !(decide (Q1.getD i 0 = ins.goals.getD i 0)
                && decide (Q2.getD i 0 = ins.goals.getD i 0)))).length

/-- The function `LaCAM::get_g_val`. -/
def get_g_val (ins : Instance) (nodes : List HNode) (H_parent : Nat) (Q_to : Config) : Nat :=
  (nodeAt nodes H_parent).g + get_edge_cost ins (nodeAt nodes H_parent).Q Q_to

/-- The function `LaCAM::get_h_val`. -/
def get_h_val {σ : Type} (C : Ctx σ) (Q : Config) : Nat :=
  (List.range C.ins.N).foldl (fun c i => c + C.D i (Q.getD i 0)) 0

/-- The loop of `log2`: the number of halvings that bring `n` below `2`. -/
def log2Fuel : Nat → Nat → Nat
  | 0, _ => 0
  | fuel + 1, n => if n < 2 then 0 else log2Fuel fuel (n / 2) + 1

/-- The position of the leading bit of `n`: `2^(log2 n) ≤ n < 2^(log2 n + 1)` for `n ≠ 0`. -/
def log2 (n : Nat) : Nat := log2Fuel n n

/-- Rounding to the nearest integer, a tie to the even one. -/
def roundHalfEven (x : Rat) : Int :=
  if x - x.floor < 1 / 2 then x.floor
  else if 1 / 2 < x - x.floor then x.floor + 1
  else if x.floor % 2 = 0 then x.floor else x.floor + 1

/-- The binary exponent of a rational `x ≠ 0`: the `e` with `2^e ≤ |x| < 2^(e+1)`. -/
def binExp (x : Rat) : Int :=
  if (2 : Rat) ^ ((log2 x.num.natAbs : Int) - (log2 x.den : Int)) ≤ |x| then
    (log2 x.num.natAbs : Int) - (log2 x.den : Int)
  else (log2 x.num.natAbs : Int) - (log2 x.den : Int) - 1

/-- The spacing of the `float` values (IEEE 754 binary32: 24 significant bits, least normal
exponent `-126`) at the magnitude of `x`. -/
def ulp32 (x : Rat) : Rat := (2 : Rat) ^ (max (binExp x) (-126) - 23)

/-- The `float` nearest to the real number `x`, a tie going to the value with an even
significand: the result of a `float` operation whose exact result is `x`, and of the conversion
of `x` to `float`. Values beyond the range of `float` (`2^128` and more) are not cut off; no
priority gets there (`priorities_in_int_range`). -/
def roundF32 (x : Rat) : Rat :=
  if x = 0 then 0 else (roundHalfEven (x / ulp32 x) : Rat) * ulp32 x

/-- The rational `p` is a `float` value: an integer of less than 24 bits times a power of two
not below `2^(-149)`. -/
def IsF32 (p : Rat) : Prop :=
  ∃ m k : Int, -149 ≤ k ∧ |m| < 2 ^ 24 ∧ p = (m : Rat) * (2 : Rat) ^ k

/-- The C cast `(int)p` of a float: truncation toward zero. The priorities of a run are at
most `2^24` when the distances are `int` values (`priorities_in_int_range`), so the cast stays
in the range of `int`. -/
def truncInt (p : Rat) : Int := if p < 0 then -((-p).floor) else p.floor

/-- The priorities computed by `HNode::HNode`, in `float` arithmetic:
`(float)D->get(i, Q[i]) / 10000` for the root (the `int` distance is converted to `float`, the
quotient is rounded), `parent->priorities[i] + 1` (rounded) for an agent not at its goal, and
`parent->priorities[i] - (int)parent->priorities[i]` (the `int` is converted back to `float`,
the difference is rounded) for an agent at its goal. -/
def initPriorities {σ : Type} (C : Ctx σ) (nodes : List HNode) (Q : Config)
    (parent : Option Nat) : List Rat :=
  (List.range Q.length).map fun i =>
    match parent with
    | none => roundF32 (roundF32 (C.D i (Q.getD i 0) : Rat) / 10000)
    | some p =>
      if C.D i (Q.getD i 0) ≠ 0 then roundF32 ((nodeAt nodes p).priorities.getD i 0 + 1)
      else roundF32 ((nodeAt nodes p).priorities.getD i 0
            - roundF32 (truncInt ((nodeAt nodes p).priorities.getD i 0) : Rat))

/-- The order computed by `HNode::HNode`: `iota` followed by `std::sort` with
`cmp(i, j) = priorities[i] > priorities[j]`. -/
def initOrder {σ : Type} (C : Ctx σ) (priorities : List Rat) (n : Nat) : List Nat :=
  C.sort (fun i j => decide (priorities.getD i 0 > priorities.getD j 0)) (List.range n)

/-- The object built by `HNode::HNode(_Q, D, _parent, _g, _h)`. -/
def HNode.init {σ : Type} (C : Ctx σ) (nodes : List HNode) (Q : Config) (parent : Option Nat)
    (g h : Nat) : HNode :=
  { Q := Q
    parent := parent
    neighbors := []
    g := g
    h := h
    f := g + h
    depth := match parent with
      | none => 0
      | some p => (nodeAt nodes p).depth + 1
    priorities := initPriorities C nodes Q parent
    order := initOrder C (initPriorities C nodes Q parent) Q.length
    search_tree := [LNode.root] }

/-- The arena after `new HNode(Q, D, parent, g, h)` followed by `GC_HNodes.push_back`:
the new node gets the next index and is inserted into `parent->neighbors`. -/
def newHNode {σ : Type} (C : Ctx σ) (nodes : List HNode) (Q : Config) (parent : Option Nat)
    (g h : Nat) : List HNode :=
  let H_new := HNode.init C nodes Q parent g h
  let all := nodes ++ [H_new]
  match parent with
  | none => all
  | some p => updNode all p fun n => { n with neighbors := setInsert all nodes.length n.neighbors }

/-- The state after the setup of `solve`: the initial node is in `OPEN`, `EXPLORED` and the
arena. -/
def initState {σ : Type} (C : Ctx σ) (G : Graph) : LaCAM :=
  { nodes := newHNode C [] C.ins.starts none 0 0
    OPEN := [0]
    EXPLORED := [(C.ins.starts, 0)]
    H_goal := none
    loop_cnt := 0
    G := G
    calls := [] }

/-- The loop `for (uint d = 0; d < L->depth; ++d) Q_to[L->who[d]] = L->where[d]` of
`LaCAM::set_new_config`. -/
def pin (L : LNode) (Q_to : List (Option Nat)) : List (Option Nat) :=
  (List.range L.depth).foldl
    (fun Q d => Q.set (L.who.getD d 0) (some (L.where_.getD d 0))) Q_to

/-- The function `LaCAM::set_new_config`. -/
def set_new_config {σ : Type} (C : Ctx σ) (s : LaCAM) (H : Nat) (L : LNode)
    (Q_to : List (Option Nat)) (w : σ) : Option Config × σ :=
  C.pibt w s.G (nodeAt s.nodes H).Q (pin L Q_to) (nodeAt s.nodes H).order

/-- The body of the loop `for (auto n_to : n_from->neighbors)` of `LaCAM::rewrite`, for one
`n_to`; `Q` is the relaxation queue. -/
def relax {σ : Type} (C : Ctx σ) (n_from n_to : Nat) (s : LaCAM) (Q : List Nat) :
    LaCAM × List Nat :=
  let g_val := (nodeAt s.nodes n_from).g
    + get_edge_cost C.ins (nodeAt s.nodes n_from).Q (nodeAt s.nodes n_to).Q
  if g_val < (nodeAt s.nodes n_to).g then
    let nodes1 := updNode s.nodes n_to fun n =>
      { n with g := g_val, f := g_val + n.h, parent := some n_from,
               depth := (nodeAt s.nodes n_from).depth + 1 }
    let OPEN1 := match s.H_goal with
      | none => s.OPEN
      | some H_goal =>
        if (nodeAt nodes1 n_to).f < (nodeAt nodes1 H_goal).f then n_to :: s.OPEN else s.OPEN
    ({ s with nodes := nodes1, OPEN := OPEN1 }, Q ++ [n_to])
  else (s, Q)

/-- The loop `for (auto n_to : n_from->neighbors)` of `LaCAM::rewrite`. -/
def relaxAll {σ : Type} (C : Ctx σ) (n_from : Nat) : List Nat → LaCAM → List Nat →
    LaCAM × List Nat
  | [], s, Q => (s, Q)
  | n_to :: rest, s, Q => relaxAll C n_from rest (relax C n_from n_to s Q).1 (relax C n_from n_to s Q).2

/-- The loop `while (!Q.empty())` of `LaCAM::rewrite`, run for at most `fuel` rounds.
Returns the state and the queue that is left. -/
def rewriteLoop {σ : Type} (C : Ctx σ) : Nat → List Nat → LaCAM → LaCAM × List Nat
  | 0, Q, s => (s, Q)
  | _ + 1, [], s => (s, [])
  | fuel + 1, n_from :: Q, s =>
    rewriteLoop C fuel
      (relaxAll C n_from (nodeAt s.nodes n_from).neighbors s Q).2
      (relaxAll C n_from (nodeAt s.nodes n_from).neighbors s Q).1

/-- Sum of the `g` values of the arena. -/
def sumG (nodes : List HNode) : Nat := (nodes.map fun n => n.g).sum

/-- The function `LaCAM::rewrite`. The queue loop gets `2 * sumG + 2` rounds; it ends with an
empty queue before they are used up (`rewrite_rounds_suffice`), since every push to the queue
comes with a strictly lower `g`. -/
def rewrite {σ : Type} (C : Ctx σ) (s : LaCAM) (H_from H_to : Nat) : LaCAM :=
  if !C.ANYTIME then s
  else
    let nodes1 := updNode s.nodes H_from fun n =>
      { n with neighbors := setInsert s.nodes H_to n.neighbors }
    (rewriteLoop C (2 * sumG nodes1 + 2) [H_from] { s with nodes := nodes1 }).1

/-- The block `// random insert` of the search loop. -/
def random_insert {σ : Type} (C : Ctx σ) (s : LaCAM) (w : σ) : LaCAM × σ :=
  match s.H_goal with
  | none => (s, w)
  | some _ =>
    if (C.rrd w).1 < C.RANDOM_INSERT_PROB2 / 2 then
      ({ s with OPEN := 0 :: s.OPEN }, (C.rrd w).2)
    else if (C.rrd w).1 < C.RANDOM_INSERT_PROB2 then
      ({ s with OPEN :=
          s.OPEN.getD (C.get_random_int (C.rrd w).2 0 (s.OPEN.length - 1)).1 0 :: s.OPEN },
        (C.get_random_int (C.rrd w).2 0 (s.OPEN.length - 1)).2)
    else (s, (C.rrd w).2)

/-- The block `// low level search` of the search loop: the `actions` vector of the vertex of
agent `H->order[L->depth]` is shuffled in place and one child constraint per action is pushed to
the back of `H->search_tree`. -/
def low_level {σ : Type} (C : Ctx σ) (s : LaCAM) (H : Nat) (L : LNode) (w : σ) : LaCAM × σ :=
  if L.depth < (nodeAt s.nodes H).Q.length then
    let i := (nodeAt s.nodes H).order.getD L.depth 0
    let v := (nodeAt s.nodes H).Q.getD i 0
    let Cs := (C.shuffle w (s.G.getD v [])).1
    ({ s with
        G := s.G.set v Cs
        nodes := updNode s.nodes H fun n =>
          { n with search_tree := n.search_tree ++ Cs.map (LNode.child L i) } },
      (C.shuffle w (s.G.getD v [])).2)
  else (s, w)

/-- The block `// check explored list` of the search loop, entered with a configuration `Q_to`
that the step solver returned for node `H`. -/
def successor {σ : Type} (C : Ctx σ) (s : LaCAM) (H : Nat) (Q_to : Config) (w : σ) :
    LaCAM × σ :=
  match s.EXPLORED.lookup Q_to with
  | none =>
    ({ s with
        nodes := newHNode C s.nodes Q_to (some H) (get_g_val C.ins s.nodes H Q_to)
          (get_h_val C Q_to)
        OPEN := s.nodes.length :: s.OPEN
        EXPLORED := (Q_to, s.nodes.length) :: s.EXPLORED }, w)
  | some H_known =>
    if (C.rrd w).1 ≥ C.RANDOM_INSERT_PROB1 then
      ({ rewrite C s H H_known with OPEN := H_known :: (rewrite C s H H_known).OPEN }, (C.rrd w).2)
    else
      ({ rewrite C s H H_known with OPEN := 0 :: (rewrite C s H H_known).OPEN }, (C.rrd w).2)

/-- How an iteration of the search loop ends: `next` goes back to the loop test (the end of
the body or `continue`), `stop` is `break`. -/
inductive Flow where
  | next
  | stop
deriving DecidableEq, Repr

/-- The part of the loop body from `// extract constraints` on, for the front node `H`. -/
def expand {σ : Type} (C : Ctx σ) (s : LaCAM) (H : Nat) (w : σ) : LaCAM × σ :=
  match (nodeAt s.nodes H).search_tree with
  | [] => ({ s with OPEN := s.OPEN.tail }, w)
  | L :: rest =>
    let s1 := { s with nodes := updNode s.nodes H fun n => { n with search_tree := rest } }
    let s2 := (low_level C s1 H L w).1
    let w2 := (low_level C s1 H L w).2
    let res := set_new_config C s2 H L (List.replicate C.ins.N none) w2
    match res.1 with
    | none => (s2, res.2)
    | some Q_to =>
      successor C { s2 with calls := ((nodeAt s2.nodes H).Q, Q_to) :: s2.calls } H Q_to res.2

/-- The part of the loop body after `// random insert`. -/
def visit {σ : Type} (C : Ctx σ) (s : LaCAM) (w : σ) : Flow × LaCAM × σ :=
  let H := s.OPEN.headD 0
  if s.H_goal.isSome && decide ((nodeAt s.nodes H).g ≥ (nodeAt s.nodes (s.H_goal.getD 0)).g) then
    (Flow.next, { s with OPEN := 0 :: s.OPEN.tail }, w)
  else if s.H_goal.isNone && is_same_config (nodeAt s.nodes H).Q C.ins.goals then
    (if C.ANYTIME then Flow.next else Flow.stop, { s with H_goal := some H }, w)
  else (Flow.next, expand C s H w)

/-- One pass through the body of the search loop of `LaCAM::solve`. -/
def iteration {σ : Type} (C : Ctx σ) (s : LaCAM) (w : σ) : Flow × LaCAM × σ :=
  visit C (random_insert C { s with loop_cnt := s.loop_cnt + 1 } w).1
    (random_insert C { s with loop_cnt := s.loop_cnt + 1 } w).2

/-- The search loop `while (!OPEN.empty() && !is_expired(deadline))`, run for at most `fuel`
iterations; `none` when the loop has not ended by then. -/
def searchLoop {σ : Type} (C : Ctx σ) : Nat → LaCAM → σ → Option (LaCAM × σ)
  | 0, _, _ => none
  | fuel + 1, s, w =>
    if s.OPEN.isEmpty || C.is_expired s.loop_cnt then some (s, w)
    else
      match iteration C s w with
      | (Flow.stop, s1, w1) => some (s1, w1)
      | (Flow.next, s1, w1) => searchLoop C fuel s1 w1

/-- The loop `while (H != nullptr)` of the block `// backtrack`, run for at most `fuel` rounds;
`sol` is the vector `solution` built by `push_back`. `none` when `H` is not yet null. -/
def backtrack (nodes : List HNode) : Nat → Option Nat → Solution → Option Solution
  | _, none, sol => some sol
  | 0, some _, _ => none
  | fuel + 1, some H, sol =>
    backtrack nodes fuel (nodeAt nodes H).parent (sol ++ [(nodeAt nodes H).Q])

/-- The four final messages of `solve`. -/
inductive Outcome where
  /-- "fin. unsolvable instance" -/
  | unsolvable
  /-- "fin. reach time limit" -/
  | time_limit
  /-- "fin. optimal solution" -/
  | optimal
  /-- "fin. suboptimal solution" -/
  | suboptimal
deriving DecidableEq, Repr

/-- The block `// solution` of `solve`. -/
def classify (solution : Solution) (OPEN : List Nat) : Outcome :=
  if solution.isEmpty then
    if OPEN.isEmpty then Outcome.unsolvable else Outcome.time_limit
  else
    if OPEN.isEmpty then Outcome.optimal else Outcome.suboptimal

/-- The part of `solve` after the search loop: backtrack (at most one round per node of the
arena), reverse, classify. -/
def finish (s : LaCAM) : Option (Solution × Outcome) :=
  match backtrack s.nodes s.nodes.length s.H_goal [] with
  | none => none
  | some sol => some (sol.reverse, classify sol.reverse s.OPEN)

/-- The function `LaCAM::solve`, on the graph `G` and from the generator state `w`, with at most
`fuel` iterations of the search loop. -/
def solve {σ : Type} (C : Ctx σ) (G : Graph) (w : σ) (fuel : Nat) : Option (Solution × Outcome) :=
  match searchLoop C fuel (initState C G) w with
  | none => none
  | some (s, _) => finish s


/-! ## Runs, well-formed inputs and the invariant of the search loop -/

/-- The runs of the search loop: `Run C s0 w0 fl s w` says that the loop, started at its test in
state `s0` with generator state `w0`, can be in state `s` with generator state `w`, either at
the loop test (`fl = Flow.next`) or just after `break` (`fl = Flow.stop`). -/
inductive Run {σ : Type} (C : Ctx σ) : LaCAM → σ → Flow → LaCAM → σ → Prop where
  | refl (s : LaCAM) (w : σ) : Run C s w Flow.next s w
  | step {s0 : LaCAM} {w0 : σ} {s : LaCAM} {w : σ} :
      Run C s0 w0 Flow.next s w → s.OPEN.isEmpty = false → C.is_expired s.loop_cnt = false →
      Run C s0 w0 (iteration C s w).1 (iteration C s w).2.1 (iteration C s w).2.2

/-- The inputs are well formed: the start configuration has one entry per agent, and so has
every configuration the step solver returns (`Q_to` is allocated as `Config(ins->N, nullptr)`). -/
structure WellFormed {σ : Type} (C : Ctx σ) : Prop where
  starts_len : C.ins.starts.length = C.ins.N
  pibt_len : ∀ w G Qf Qt ord Q, (C.pibt w G Qf Qt ord).1 = some Q → Q.length = C.ins.N

/-- The invariant of the arena of search nodes. -/
structure ArenaInv (ins : Instance) (nodes : List HNode) (calls : List (Config × Config)) :
    Prop where
  pos : 0 < nodes.length
  root_Q : (nodeAt nodes 0).Q = ins.starts
  root_parent : (nodeAt nodes 0).parent = none
  root_g : (nodeAt nodes 0).g = 0
  parent_ok : ∀ i, i < nodes.length → i ≠ 0 →
    ∃ p, (nodeAt nodes i).parent = some p ∧ p < nodes.length ∧ p ≠ i
      ∧ i ∈ (nodeAt nodes p).neighbors
      ∧ (nodeAt nodes p).g + get_edge_cost ins (nodeAt nodes p).Q (nodeAt nodes i).Q
          ≤ (nodeAt nodes i).g
  nbr_ok : ∀ i, i < nodes.length → ∀ j ∈ (nodeAt nodes i).neighbors,
    j < nodes.length ∧ ((nodeAt nodes i).Q, (nodeAt nodes j).Q) ∈ calls
  Q_inj : ∀ i j, i < nodes.length → j < nodes.length →
    (nodeAt nodes i).Q = (nodeAt nodes j).Q → i = j
  Q_len : ∀ i, i < nodes.length → (nodeAt nodes i).Q.length = ins.N
  f_eq : ∀ i, i < nodes.length → (nodeAt nodes i).f = (nodeAt nodes i).g + (nodeAt nodes i).h

/-- The step solver returned `Q2` with success on a call whose current configuration `Q_from`
was `Q1`. -/
def StepSolverReturned {σ : Type} (C : Ctx σ) (Q1 Q2 : Config) : Prop :=
  ∃ w G Qt ord, (C.pibt w G Q1 Qt ord).1 = some Q2

/-- The invariant of the search loop. -/
structure Inv {σ : Type} (C : Ctx σ) (s : LaCAM) : Prop where
  arena : ArenaInv C.ins s.nodes s.calls
  explored : ∀ Q k, s.EXPLORED.lookup Q = some k ↔ (k < s.nodes.length ∧ (nodeAt s.nodes k).Q = Q)
  open_ok : ∀ k, k ∈ s.OPEN → k < s.nodes.length
  goal_ok : ∀ k, s.H_goal = some k → k < s.nodes.length ∧ (nodeAt s.nodes k).Q = C.ins.goals
  explored_mem : ∀ Q k, (Q, k) ∈ s.EXPLORED → k < s.nodes.length ∧ (nodeAt s.nodes k).Q = Q
  calls_ok : ∀ c, c ∈ s.calls → StepSolverReturned C c.1 c.2

/-- How a later state `t` of a run relates to an earlier state `s`: nodes are only added; a
node keeps `Q`, `h`, `priorities` and `order`; its `g` never grows, and `f`, `parent` and
`depth` stay as they are unless `g` got strictly lower; a recorded goal stays recorded. -/
structure Later (s t : LaCAM) : Prop where
  len_le : s.nodes.length ≤ t.nodes.length
  Q_eq : ∀ i, i < s.nodes.length → (nodeAt t.nodes i).Q = (nodeAt s.nodes i).Q
  h_eq : ∀ i, i < s.nodes.length → (nodeAt t.nodes i).h = (nodeAt s.nodes i).h
  priorities_eq : ∀ i, i < s.nodes.length →
    (nodeAt t.nodes i).priorities = (nodeAt s.nodes i).priorities
  order_eq : ∀ i, i < s.nodes.length → (nodeAt t.nodes i).order = (nodeAt s.nodes i).order
  g_le : ∀ i, i < s.nodes.length → (nodeAt t.nodes i).g ≤ (nodeAt s.nodes i).g
  keep : ∀ i, i < s.nodes.length → (nodeAt t.nodes i).g = (nodeAt s.nodes i).g →
    (nodeAt t.nodes i).f = (nodeAt s.nodes i).f
      ∧ (nodeAt t.nodes i).parent = (nodeAt s.nodes i).parent
      ∧ (nodeAt t.nodes i).depth = (nodeAt s.nodes i).depth
  goal_eq : ∀ k, s.H_goal = some k → t.H_goal = some k
  calls_sub : ∀ c, c ∈ s.calls → c ∈ t.calls

/-- Two node values agree on every field but `search_tree`. -/
def SameCore (a b : HNode) : Prop :=
  a.Q = b.Q ∧ a.parent = b.parent ∧ a.neighbors = b.neighbors ∧ a.g = b.g ∧ a.h = b.h
    ∧ a.f = b.f ∧ a.depth = b.depth ∧ a.priorities = b.priorities ∧ a.order = b.order

/-- The nodes visited by the loop `while (H != nullptr)` of the block `// backtrack`, in the
order of the visits (the same loop as `backtrack`, collecting the node instead of `H->Q`). -/
def parentChain (nodes : List HNode) : Nat → Option Nat → Option (List Nat)
  | _, none => some []
  | 0, some _ => none
  | fuel + 1, some H => (parentChain nodes fuel (nodeAt nodes H).parent).map fun c => H :: c

/-- The cost of a solution: the sum of `get_edge_cost` over its consecutive pairs. -/
def solution_cost (ins : Instance) : Solution → Nat
  | Q1 :: Q2 :: rest => get_edge_cost ins Q1 Q2 + solution_cost ins (Q2 :: rest)
  | _ => 0

/-! ## Observers of a run and a small instance -/

/-- The loop of `searchLoop` after at most `n` iterations: the flow of the last iteration
done, the state and the generator state. It stops where the loop stops. -/
def loopState {σ : Type} (C : Ctx σ) : Nat → LaCAM → σ → Flow × LaCAM × σ
  | 0, s, w => (Flow.next, s, w)
  | n + 1, s, w =>
    match loopState C n s w with
    | (Flow.stop, s1, w1) => (Flow.stop, s1, w1)
    | (Flow.next, s1, w1) =>
      if s1.OPEN.isEmpty || C.is_expired s1.loop_cnt then (Flow.next, s1, w1)
      else iteration C s1 w1

/-- The `g` that the goal node has at the end of the iteration that records it as `H_goal`,
for a search loop started without a recorded goal and run for at most `fuel` iterations. -/
def first_goal_g {σ : Type} (C : Ctx σ) : Nat → LaCAM → σ → Option Nat
  | 0, _, _ => none
  | fuel + 1, s, w =>
    if s.OPEN.isEmpty || C.is_expired s.loop_cnt then none
    else
      match (iteration C s w).2.1.H_goal with
      | some k => some (nodeAt (iteration C s w).2.1.nodes k).g
      | none =>
        match (iteration C s w).1 with
        | Flow.stop => none
        | Flow.next => first_goal_g C fuel (iteration C s w).2.1 (iteration C s w).2.2

/-- The outcome that goes with a recorded goal (or none) and an `OPEN` that is empty or not. -/
def outcomeOf (goal_recorded OPEN_empty : Bool) : Outcome :=
  match goal_recorded, OPEN_empty with
  | true, true => Outcome.optimal
  | true, false => Outcome.suboptimal
  | false, true => Outcome.unsolvable
  | false, false => Outcome.time_limit

/-- A graph with four vertices: `0 → 1 → 2 → 3`, the shortcut `0 → 3` and a loop at `3`. -/
def demoGraph : Graph := [[1, 3], [2], [3], [3]]

/-- One agent that has to go from vertex `0` to vertex `goal` of `demoGraph`. The step solver
moves the agent to the vertex it is pinned to and lets it wait when it is not pinned; the
generator always draws `1/2`, the shuffle keeps the order, and the deadline expires at the
loop test number `deadline`. -/
def demoCtx (anytime : Bool) (goal deadline : Nat) : Ctx Unit :=
  { ins := { N := 1, starts := [0], goals := [goal] }
    ANYTIME := anytime
    RANDOM_INSERT_PROB1 := 1 / 1000
    RANDOM_INSERT_PROB2 := 1 / 1000
    D := fun _ v => if v = goal then 0 else 1
    is_expired := fun k => decide (deadline ≤ k)
    rrd := fun w => (1 / 2, w)
    get_random_int := fun w lo _ => (lo, w)
    shuffle := fun w l => (l, w)
    pibt := fun w _ Qf Qt _ =>
      (some ((List.range 1).map fun i => (Qt.getD i none).getD (Qf.getD i 0)), w)
    sort := fun _ l => l }

/-- Two node values agree on `g`, `f`, `parent` and `depth`. -/
def SameCost (a b : HNode) : Prop :=
  a.g = b.g ∧ a.f = b.f ∧ a.parent = b.parent ∧ a.depth = b.depth

/-! ## Finite graphs and the termination measure of the search loop -/

/-- The graph is finite: the start vertices are vertices of `G`, the step solver returns only
vertices of `G`, and `std::shuffle` permutes the vector it is given. -/
structure FiniteGraph {σ : Type} (C : Ctx σ) (G : Graph) : Prop where
  starts_in : ∀ v, v ∈ C.ins.starts → v < G.length
  pibt_in : ∀ w G1 Qf Qt ord Q, (C.pibt w G1 Qf Qt ord).1 = some Q → ∀ v, v ∈ Q → v < G.length
  shuffle_perm : ∀ w l, List.Perm (C.shuffle w l).1 l

/-- The step solver never returns the goal configuration. -/
def GoalNeverProduced {σ : Type} (C : Ctx σ) : Prop :=
  ∀ w G Qf Qt ord, (C.pibt w G Qf Qt ord).1 ≠ some C.ins.goals

/-- During the run of the search loop from `initState C G` with generator state `w0`, every
configuration that the step solver returns with success has all its vertices in `G`. -/
def RunStaysInGraph {σ : Type} (C : Ctx σ) (G : Graph) (w0 : σ) : Prop :=
  ∀ fl s w, Run C (initState C G) w0 fl s w → ∀ c, c ∈ s.calls → ∀ v, v ∈ c.2 → v < G.length

/-- During the run of the search loop from `initState C G` with generator state `w0`, the step
solver never returns the goal configuration. Nothing is said of calls that the run does not
make. -/
def RunNeverProducesGoal {σ : Type} (C : Ctx σ) (G : Graph) (w0 : σ) : Prop :=
  ∀ fl s w, Run C (initState C G) w0 fl s w → ∀ c, c ∈ s.calls → c.2 ≠ C.ins.goals

/-- The largest number of actions of a vertex. -/
def maxActions (G : Graph) : Nat := (G.map List.length).foldr max 0

/-- All configurations of `n` agents on the vertices `0 .. nV - 1`. -/
def allConfigs (nV : Nat) : Nat → List Config
  | 0 => [[]]
  | n + 1 => (List.range nV).flatMap fun v => (allConfigs nV n).map fun c => v :: c

/-- A bound on the number of constraints below a constraint with `k` agents still to pin, the
constraint itself included, when a vertex has at most `A` actions. -/
def levelWeight (A : Nat) : Nat → Nat
  | 0 => 1
  | k + 1 => 1 + A * levelWeight A k

/-- The weight of a constraint queue. -/
def treeWeight (A N : Nat) (tree : List LNode) : Nat :=
  (tree.map fun L => levelWeight A (N - L.depth)).sum

/-- The weight of the constraint queues of all nodes. -/
def treeSum (A N : Nat) (nodes : List HNode) : Nat :=
  (nodes.map fun n => treeWeight A N n.search_tree).sum

/-- The termination measure of the search loop while no goal is recorded: every iteration
lowers it. `M` bounds the number of search nodes. -/
def potential (A N M : Nat) (s : LaCAM) : Nat :=
  2 * (treeSum A N s.nodes + (M - s.nodes.length) * levelWeight A N) + s.OPEN.length

/-- A number of iterations after which the search loop has ended when no goal is found. -/
def iterBound (N : Nat) (G : Graph) : Nat :=
  2 * ((allConfigs G.length N).length * levelWeight (maxActions G) N) + 2

/-- One agent on `demoGraph` whose start is its goal, with a step solver that always fails. -/
def stuckCtx (anytime : Bool) : Ctx Unit :=
  { ins := { N := 1, starts := [0], goals := [0] }
    ANYTIME := anytime
    RANDOM_INSERT_PROB1 := 1 / 1000
    RANDOM_INSERT_PROB2 := 1 / 1000
    D := fun _ _ => 0
    is_expired := fun _ => false
    rrd := fun w => (1 / 2, w)
    get_random_int := fun w lo _ => (lo, w)
    shuffle := fun w l => (l, w)
    pibt := fun w _ _ _ _ => (none, w)
    sort := fun _ l => l }

/-- A graph in two parts that no edge joins: the vertices `0`, `1` and the vertices `2`, `3`.
Every vertex has the action of staying where it is and the action of moving to the other
vertex of its part. -/
def splitGraph : Graph := [[0, 1], [1, 0], [2, 3], [3, 2]]

/-- One agent on `splitGraph` that starts at vertex `0` and has its goal at vertex `2`, in the
other part of the graph, with the step solver of `demoCtx` (it moves the agent where it is
pinned and lets it wait otherwise, so it returns the goal configuration when called at the
goal configuration) and no deadline. -/
def splitCtx (anytime : Bool) : Ctx Unit :=
  { demoCtx anytime 2 0 with is_expired := fun _ => false }

/-- The graph of the instance as a run of `solve` leaves it: the `actions` vectors after the
in-place shuffles of the run. -/
def graphAfter {σ : Type} (C : Ctx σ) (G : Graph) (w : σ) (fuel : Nat) : Option Graph :=
  (searchLoop C fuel (initState C G) w).map fun r => r.1.G

/-! ## Priorities, orders, constraints and the cost fixpoint -/

/-- The part of the contract of `std::sort` that every caller relies on: the sorted vector is a
rearrangement of the given one. -/
def SortPermutes {σ : Type} (C : Ctx σ) : Prop :=
  ∀ (cmp : Nat → Nat → Bool) (l : List Nat), List.Perm (C.sort cmp l) l

/-- The contract of `get_random_int(MT, from, to)`: the draw lies in `from .. to`. -/
def RandomIntInRange {σ : Type} (C : Ctx σ) : Prop :=
  ∀ (w : σ) (lo hi : Nat), lo ≤ hi →
    lo ≤ (C.get_random_int w lo hi).1 ∧ (C.get_random_int w lo hi).1 ≤ hi

/-- A sorting procedure that leaves elements which compare equivalent in the order they came
in (insertion sort). -/
def sortKeepingTies (cmp : Nat → Nat → Bool) (l : List Nat) : List Nat :=
  l.insertionSort fun a b => cmp b a = false

/-- Two agents on `demoGraph`: agent `0` goes from vertex `0` to vertex `3`, agent `1` from
vertex `1` to vertex `2`; both are one step away from their goals. The step solver moves an
agent to the vertex it is pinned to and lets it wait when it is not pinned; `std::sort` is the
given procedure; there is no deadline. -/
def duoCtx (sort : (Nat → Nat → Bool) → List Nat → List Nat) : Ctx Unit :=
  { ins := { N := 2, starts := [0, 1], goals := [3, 2] }
    ANYTIME := true
    RANDOM_INSERT_PROB1 := 1 / 1000
    RANDOM_INSERT_PROB2 := 1 / 1000
    D := fun i v => if v = [3, 2].getD i 0 then 0 else 1
    is_expired := fun _ => false
    rrd := fun w => (1 / 2, w)
    get_random_int := fun w lo _ => (lo, w)
    shuffle := fun w l => (l, w)
    pibt := fun w _ Qf Qt _ =>
      (some ((List.range 2).map fun i => (Qt.getD i none).getD (Qf.getD i 0)), w)
    sort := sort }

/-- The context `demoCtx` with an agent whose start is 10000 steps away from its goal. -/
def farCtx : Ctx Unit :=
  { demoCtx false 3 0 with D := fun _ v => if v = 3 then 0 else 10000 }

/-- The constraint `L` fits the node `n`: `who` and `where` have `depth` entries, `depth` is at
most the number of agents, and the `d`-th pinned agent is `n.order[d]`. -/
def ConstraintOk (n : HNode) (L : LNode) : Prop :=
  L.who.length = L.depth ∧ L.where_.length = L.depth ∧ L.depth ≤ n.Q.length
    ∧ ∀ d, d < L.depth → L.who.getD d 0 = n.order.getD d 0

/-- What holds of the fields of a search node that are set by `HNode::HNode` and of its
constraint queue. -/
structure NodeOk {σ : Type} (C : Ctx σ) (n : HNode) : Prop where
  prio_len : n.priorities.length = n.Q.length
  prio_nonneg : ∀ a, 0 ≤ n.priorities.getD a 0
  prio_f32 : ∀ a, IsF32 (n.priorities.getD a 0)
  prio_goal : ∀ a, a < n.Q.length → C.D a (n.Q.getD a 0) = 0 → n.priorities.getD a 0 < 1
  order_eq : n.order = initOrder C n.priorities n.Q.length
  tree_ok : ∀ L, L ∈ n.search_tree → ConstraintOk n L

/-- The link between `depth` and `g` that holds at every point of a run, also inside
`rewrite`: the root has depth `0`, and a node whose `g` is the `g` of its parent plus the cost
of the edge between them has the depth of its parent plus one. -/
structure DepthInv (ins : Instance) (nodes : List HNode) : Prop where
  root_depth : (nodeAt nodes 0).depth = 0
  depth_ok : ∀ i p, (nodeAt nodes i).parent = some p →
    (nodeAt nodes i).g
      = (nodeAt nodes p).g + get_edge_cost ins (nodeAt nodes p).Q (nodeAt nodes i).Q →
    (nodeAt nodes i).depth = (nodeAt nodes p).depth + 1

/-- The edge from node `a` to node `b` is relaxed: `b.g ≤ a.g + get_edge_cost(a.Q, b.Q)`. -/
def Relaxed (ins : Instance) (nodes : List HNode) (a b : Nat) : Prop :=
  (nodeAt nodes b).g ≤ (nodeAt nodes a).g + get_edge_cost ins (nodeAt nodes a).Q (nodeAt nodes b).Q

/-- The state of the relaxation loop of `rewrite` with queue `Q`, inside the loop over the
neighbors of `n_from` of which `l` are still to come: every recorded edge is relaxed, or its
source is in the queue, or it is an edge from `n_from` that is still to come. -/
def Pending (ins : Instance) (nodes : List HNode) (Q : List Nat) (n_from : Nat) (l : List Nat) :
    Prop :=
  ∀ a b, b ∈ (nodeAt nodes a).neighbors →
    Relaxed ins nodes a b ∨ a ∈ Q ∨ (a = n_from ∧ b ∈ l)

/-- What holds in addition to `Inv` whenever the search loop is at its test. -/
structure Settled {σ : Type} (C : Ctx σ) (s : LaCAM) : Prop where
  node_ok : ∀ i, i < s.nodes.length → NodeOk C (nodeAt s.nodes i)
  depth_inv : DepthInv C.ins s.nodes
  g_eq : ∀ i p, (nodeAt s.nodes i).parent = some p →
    (nodeAt s.nodes i).g
      = (nodeAt s.nodes p).g + get_edge_cost C.ins (nodeAt s.nodes p).Q (nodeAt s.nodes i).Q
  edge_fix : C.ANYTIME = true → ∀ a b, b ∈ (nodeAt s.nodes a).neighbors →
    Relaxed C.ins s.nodes a b

/-- The number of parent links from node `k` to the root, followed for at most `fuel` links;
`none` when the root is not reached by then. -/
def hops (nodes : List HNode) : Nat → Nat → Option Nat
  | 0, _ => none
  | fuel + 1, k =>
    match (nodeAt nodes k).parent with
    | none => some 0
    | some p => (hops nodes fuel p).map fun n => n + 1

/-! ## The `std::sort` of libstdc++ (`bits/stl_algo.h`, `bits/stl_heap.h`)

The vector is a list, an iterator is a position in it, and `comp(i, j)` on two iterators
compares the elements at the two positions. The scans that the library leaves unguarded
(`__unguarded_linear_insert`, `__unguarded_partition`) rely on an element that stops them
inside the range, which a comparator that is a strict weak order always provides; in the model
they also stop at the ends of the vector, where the library would read outside the vector;
with the comparator of `HNode::HNode` no scan gets there (`stdSort_checked_eq`).
Loops that are not a recursion on a position get a number of steps; the numbers passed are
enough for the loops to run to their end (`scan_up_more_fuel`, `unguarded_partition_more_fuel`,
`push_heap_more_fuel`, `sift_down_more_fuel`). -/

/-- The call `std::iter_swap(i, j)`. -/
def iter_swap (v : List Nat) (i j : Nat) : List Nat :=
  (v.set i (v.getD j 0)).set j (v.getD i 0)

/-- The function `std::__move_median_to_first(result, a, b, c, comp)`. -/
def move_median_to_first (cmp : Nat → Nat → Bool) (v : List Nat) (result a b c : Nat) :
    List Nat :=
  if cmp (v.getD a 0) (v.getD b 0) then
    if cmp (v.getD b 0) (v.getD c 0) then iter_swap v result b
    else if cmp (v.getD a 0) (v.getD c 0) then iter_swap v result c
    else iter_swap v result a
  else if cmp (v.getD a 0) (v.getD c 0) then iter_swap v result a
  else if cmp (v.getD b 0) (v.getD c 0) then iter_swap v result c
  else iter_swap v result b

/-- The scan `while (comp(first, pivot)) ++first;` of `__unguarded_partition`, for at most
`fuel` steps: the position where it stops. -/
def scan_up (cmp : Nat → Nat → Bool) (v : List Nat) (pivot : Nat) : Nat → Nat → Nat
  | 0, first => first
  | fuel + 1, first =>
    if first < v.length ∧ cmp (v.getD first 0) (v.getD pivot 0) = true then
      scan_up cmp v pivot fuel (first + 1)
    else first

/-- The scan `while (comp(pivot, last)) --last;` of `__unguarded_partition`: the position
where it stops. -/
def scan_down (cmp : Nat → Nat → Bool) (v : List Nat) (pivot : Nat) : Nat → Nat
  | 0 => 0
  | last + 1 =>
    if cmp (v.getD pivot 0) (v.getD (last + 1) 0) = true then scan_down cmp v pivot last
    else last + 1

/-- The function `std::__unguarded_partition(first, last, pivot, comp)`, for at most `fuel`
rounds of its outer loop: the vector and the returned position. -/
def unguarded_partition (cmp : Nat → Nat → Bool) (pivot : Nat) :
    Nat → List Nat → Nat → Nat → List Nat × Nat
  | 0, v, first, _ => (v, first)
  | fuel + 1, v, first, last =>
    if scan_up cmp v pivot v.length first < scan_down cmp v pivot (last - 1) then
      unguarded_partition cmp pivot fuel
        (iter_swap v (scan_up cmp v pivot v.length first) (scan_down cmp v pivot (last - 1)))
        (scan_up cmp v pivot v.length first + 1) (scan_down cmp v pivot (last - 1))
    else (v, scan_up cmp v pivot v.length first)

/-- The function `std::__unguarded_partition_pivot(first, last, comp)`. -/
def unguarded_partition_pivot (cmp : Nat → Nat → Bool) (v : List Nat) (first last : Nat) :
    List Nat × Nat :=
  unguarded_partition cmp first v.length
    (move_median_to_first cmp v first (first + 1) (first + (last - first) / 2) (last - 1))
    (first + 1) last

/-- The function `std::__push_heap(first, holeIndex, topIndex, value, comp)`; the loop runs
for at most `fuel` steps. -/
def push_heap (cmp : Nat → Nat → Bool) (first topIndex value : Nat) :
    Nat → List Nat → Nat → List Nat
  | 0, v, holeIndex => v.set (first + holeIndex) value
  | fuel + 1, v, holeIndex =>
    if holeIndex > topIndex ∧ cmp (v.getD (first + (holeIndex - 1) / 2) 0) value = true then
      push_heap cmp first topIndex value fuel
        (v.set (first + holeIndex) (v.getD (first + (holeIndex - 1) / 2) 0))
        ((holeIndex - 1) / 2)
    else v.set (first + holeIndex) value

/-- The first loop of `std::__adjust_heap`, which moves the hole down to a leaf, for at most
`fuel` steps: the vector and the final `secondChild` (which is also `holeIndex`). -/
def sift_down (cmp : Nat → Nat → Bool) (first len : Nat) : Nat → List Nat → Nat → List Nat × Nat
  | 0, v, secondChild => (v, secondChild)
  | fuel + 1, v, secondChild =>
    if secondChild < (len - 1) / 2 then
      if cmp (v.getD (first + 2 * (secondChild + 1)) 0)
          (v.getD (first + (2 * (secondChild + 1) - 1)) 0) = true then
        sift_down cmp first len fuel
          (v.set (first + secondChild) (v.getD (first + (2 * (secondChild + 1) - 1)) 0))
          (2 * (secondChild + 1) - 1)
      else
        sift_down cmp first len fuel
          (v.set (first + secondChild) (v.getD (first + 2 * (secondChild + 1)) 0))
          (2 * (secondChild + 1))
    else (v, secondChild)

/-- The function `std::__adjust_heap(first, holeIndex, len, value, comp)`. -/
def adjust_heap (cmp : Nat → Nat → Bool) (v : List Nat) (first holeIndex len value : Nat) :
    List Nat :=
  if len % 2 = 0 ∧ (sift_down cmp first len len v holeIndex).2 = (len - 2) / 2 then
    push_heap cmp first holeIndex value len
      ((sift_down cmp first len len v holeIndex).1.set
        (first + (sift_down cmp first len len v holeIndex).2)
        ((sift_down cmp first len len v holeIndex).1.getD
          (first + (2 * ((sift_down cmp first len len v holeIndex).2 + 1) - 1)) 0))
      (2 * ((sift_down cmp first len len v holeIndex).2 + 1) - 1)
  else
    push_heap cmp first holeIndex value len (sift_down cmp first len len v holeIndex).1
      (sift_down cmp first len len v holeIndex).2

/-- The function `std::__pop_heap(first, last, result, comp)`. -/
def pop_heap (cmp : Nat → Nat → Bool) (v : List Nat) (first last result : Nat) : List Nat :=
  adjust_heap cmp (v.set result (v.getD first 0)) first 0 (last - first) (v.getD result 0)

/-- The loop of `std::__make_heap`, from `parent` down to `0`. -/
def make_heap_loop (cmp : Nat → Nat → Bool) (first len : Nat) : Nat → List Nat → List Nat
  | 0, v => adjust_heap cmp v first 0 len (v.getD first 0)
  | parent + 1, v =>
    make_heap_loop cmp first len parent
      (adjust_heap cmp v first (parent + 1) len (v.getD (first + (parent + 1)) 0))

/-- The function `std::__make_heap(first, last, comp)`. -/
def make_heap (cmp : Nat → Nat → Bool) (v : List Nat) (first last : Nat) : List Nat :=
  if last - first < 2 then v
  else make_heap_loop cmp first (last - first) ((last - first - 2) / 2) v

/-- The function `std::__heap_select(first, middle, last, comp)`. -/
def heap_select (cmp : Nat → Nat → Bool) (v : List Nat) (first middle last : Nat) : List Nat :=
  (List.range' middle (last - middle)).foldl
    (fun v i => if cmp (v.getD i 0) (v.getD first 0) = true then pop_heap cmp v first middle i
      else v)
    (make_heap cmp v first middle)

/-- The function `std::__sort_heap(first, last, comp)`: `count` is `last - first`. -/
def sort_heap (cmp : Nat → Nat → Bool) (first : Nat) : Nat → List Nat → List Nat
  | 0, v => v
  | count + 1, v =>
    if count + 1 > 1 then
      sort_heap cmp first count (pop_heap cmp v first (first + count) (first + count))
    else v

/-- The function `std::__partial_sort(first, middle, last, comp)`. -/
def partial_sort (cmp : Nat → Nat → Bool) (v : List Nat) (first middle last : Nat) : List Nat :=
  sort_heap cmp first (middle - first) (heap_select cmp v first middle last)

/-- The function `std::__introsort_loop(first, last, depth_limit, comp)`, with
`_S_threshold = 16`. -/
def introsort_loop (cmp : Nat → Nat → Bool) : Nat → List Nat → Nat → Nat → List Nat
  | 0, v, first, last =>
    if last - first > 16 then partial_sort cmp v first last last else v
  | depth_limit + 1, v, first, last =>
    if last - first > 16 then
      introsort_loop cmp depth_limit
        (introsort_loop cmp depth_limit (unguarded_partition_pivot cmp v first last).1
          (unguarded_partition_pivot cmp v first last).2 last)
        first (unguarded_partition_pivot cmp v first last).2
    else v

/-- The function `std::__unguarded_linear_insert(last, comp)` with `val` the element taken
from `*last`. -/
def unguarded_linear_insert (cmp : Nat → Nat → Bool) (val : Nat) : Nat → List Nat → List Nat
  | 0, v => v.set 0 val
  | next + 1, v =>
    if cmp val (v.getD next 0) = true then
      unguarded_linear_insert cmp val next (v.set (next + 1) (v.getD next 0))
    else v.set (next + 1) val

/-- The call `std::move_backward(first, first + count, first + count + 1)`. -/
def move_backward (first : Nat) : Nat → List Nat → List Nat
  | 0, v => v
  | count + 1, v =>
    move_backward first count (v.set (first + count + 1) (v.getD (first + count) 0))

/-- The function `std::__insertion_sort(first, last, comp)`. -/
def insertion_sort (cmp : Nat → Nat → Bool) (v : List Nat) (first last : Nat) : List Nat :=
  if first = last then v
  else
    (List.range' (first + 1) (last - (first + 1))).foldl
      (fun v i =>
        if cmp (v.getD i 0) (v.getD first 0) = true then
          (move_backward first (i - first) v).set first (v.getD i 0)
        else unguarded_linear_insert cmp (v.getD i 0) i v)
      v

/-- The function `std::__unguarded_insertion_sort(first, last, comp)`. -/
def unguarded_insertion_sort (cmp : Nat → Nat → Bool) (v : List Nat) (first last : Nat) :
    List Nat :=
  (List.range' first (last - first)).foldl
    (fun v i => unguarded_linear_insert cmp (v.getD i 0) i v) v

/-- The function `std::__final_insertion_sort(first, last, comp)`. -/
def final_insertion_sort (cmp : Nat → Nat → Bool) (v : List Nat) (first last : Nat) :
    List Nat :=
  if last - first > 16 then
    unguarded_insertion_sort cmp (insertion_sort cmp v first (first + 16)) (first + 16) last
  else insertion_sort cmp v first last

/-- The call `std::sort(v.begin(), v.end(), comp)`: `std::__sort`, with `std::__lg` the
position of the leading bit. -/
def stdSort (cmp : Nat → Nat → Bool) (v : List Nat) : List Nat :=
  if v.length = 0 then v
  else final_insertion_sort cmp (introsort_loop cmp (log2 v.length * 2) v 0 v.length) 0 v.length

/-! ## The unguarded scans of `std::sort`, with the reads checked

The functions above that scan without a guard, with the scans as the library has them: a scan
that would read outside the vector gives `none`, and so does a loop that is cut short by its
number of steps. With the comparator of `HNode::HNode` the result is never `none` and is the
result of `stdSort` (`stdSort_checked_eq`). -/

/-- The comparator of `HNode::HNode` for the keys `key`: `cmp(i, j) = key[i] > key[j]`. -/
def keyCmp (key : Nat → Rat) (i j : Nat) : Bool := decide (key i > key j)

/-- The scan `while (comp(first, pivot)) ++first;`: `none` when it runs past the end of the
vector. -/
def scan_up_checked (cmp : Nat → Nat → Bool) (v : List Nat) (pivot : Nat) :
    Nat → Nat → Option Nat
  | 0, _ => none
  | fuel + 1, first =>
    if first < v.length then
      if cmp (v.getD first 0) (v.getD pivot 0) = true then
        scan_up_checked cmp v pivot fuel (first + 1)
      else some first
    else none

/-- The scan `while (comp(pivot, last)) --last;`: `none` when it runs past the start of the
vector. -/
def scan_down_checked (cmp : Nat → Nat → Bool) (v : List Nat) (pivot : Nat) : Nat → Option Nat
  | 0 => if cmp (v.getD pivot 0) (v.getD 0 0) = true then none else some 0
  | last + 1 =>
    if cmp (v.getD pivot 0) (v.getD (last + 1) 0) = true then scan_down_checked cmp v pivot last
    else some (last + 1)

/-- The function `std::__unguarded_partition` with checked scans. -/
def unguarded_partition_checked (cmp : Nat → Nat → Bool) (pivot : Nat) :
    Nat → List Nat → Nat → Nat → Option (List Nat × Nat)
  | 0, _, _, _ => none
  | fuel + 1, v, first, last =>
    match scan_up_checked cmp v pivot v.length first with
    | none => none
    | some first1 =>
      if last = 0 ∨ v.length < last then none
      else
        match scan_down_checked cmp v pivot (last - 1) with
        | none => none
        | some last1 =>
          if first1 < last1 then
            unguarded_partition_checked cmp pivot fuel (iter_swap v first1 last1) (first1 + 1)
              last1
          else some (v, first1)

/-- The function `std::__unguarded_partition_pivot` with checked scans. -/
def unguarded_partition_pivot_checked (cmp : Nat → Nat → Bool) (v : List Nat)
    (first last : Nat) : Option (List Nat × Nat) :=
  unguarded_partition_checked cmp first v.length
    (move_median_to_first cmp v first (first + 1) (first + (last - first) / 2) (last - 1))
    (first + 1) last

/-- The function `std::__introsort_loop` with checked scans. -/
def introsort_loop_checked (cmp : Nat → Nat → Bool) :
    Nat → List Nat → Nat → Nat → Option (List Nat)
  | 0, v, first, last =>
    if last - first > 16 then some (partial_sort cmp v first last last) else some v
  | depth_limit + 1, v, first, last =>
    if last - first > 16 then
      match unguarded_partition_pivot_checked cmp v first last with
      | none => none
      | some r =>
        match introsort_loop_checked cmp depth_limit r.1 r.2 last with
        | none => none
        | some v1 => introsort_loop_checked cmp depth_limit v1 first r.2
    else some v

/-- The function `std::__unguarded_linear_insert` with the read checked: `none` when the scan
runs past the start of the vector. -/
def unguarded_linear_insert_checked (cmp : Nat → Nat → Bool) (val : Nat) :
    Nat → List Nat → Option (List Nat)
  | 0, _ => none
  | next + 1, v =>
    if cmp val (v.getD next 0) = true then
      unguarded_linear_insert_checked cmp val next (v.set (next + 1) (v.getD next 0))
    else some (v.set (next + 1) val)

/-- A loop over the positions `l` whose rounds can fail. -/
def loop_checked (round : List Nat → Nat → Option (List Nat)) :
    List Nat → List Nat → Option (List Nat)
  | [], v => some v
  | i :: l, v =>
    match round v i with
    | none => none
    | some v1 => loop_checked round l v1

/-- The function `std::__insertion_sort` with the reads of `__unguarded_linear_insert`
checked. -/
def insertion_sort_checked (cmp : Nat → Nat → Bool) (v : List Nat) (first last : Nat) :
    Option (List Nat) :=
  if first = last then some v
  else
    loop_checked
      (fun v i =>
        if cmp (v.getD i 0) (v.getD first 0) = true then
          some ((move_backward first (i - first) v).set first (v.getD i 0))
        else unguarded_linear_insert_checked cmp (v.getD i 0) i v)
      (List.range' (first + 1) (last - (first + 1))) v

/-- The function `std::__unguarded_insertion_sort` with the reads checked. -/
def unguarded_insertion_sort_checked (cmp : Nat → Nat → Bool) (v : List Nat)
    (first last : Nat) : Option (List Nat) :=
  loop_checked (fun v i => unguarded_linear_insert_checked cmp (v.getD i 0) i v)
    (List.range' first (last - first)) v

/-- The function `std::__final_insertion_sort` with the reads checked. -/
def final_insertion_sort_checked (cmp : Nat → Nat → Bool) (v : List Nat) (first last : Nat) :
    Option (List Nat) :=
  if last - first > 16 then
    match insertion_sort_checked cmp v first (first + 16) with
    | none => none
    | some v1 => unguarded_insertion_sort_checked cmp v1 (first + 16) last
  else insertion_sort_checked cmp v first last

/-- The call `std::sort(v.begin(), v.end(), comp)` with every unguarded read checked: `none`
when a scan would leave the vector. -/
def stdSort_checked (cmp : Nat → Nat → Bool) (v : List Nat) : Option (List Nat) :=
  if v.length = 0 then some v
  else
    match introsort_loop_checked cmp (log2 v.length * 2) v 0 v.length with
    | none => none
    | some v1 => final_insertion_sort_checked cmp v1 0 v.length

/-- Every element of the second list has, among the first list and the elements of the second
list before it, an element that it does not precede under the comparator: the scan of
`__unguarded_linear_insert` for it stops inside the vector. -/
def Stopped (cmp : Nat → Nat → Bool) : List Nat → List Nat → Prop
  | _, [] => True
  | p, c :: rest => (∃ x, x ∈ p ∧ cmp c x = false) ∧ Stopped cmp (p ++ [c]) rest

/-! ## Invariants of the heap and of the ranges of `std::sort` -/

/-- The heap property of the positions `first .. first + len - 1` for the parents from `top`
on: no key is below the key of its parent, so the element at the top of the heap is one that
the comparator puts last. -/
def HeapFrom (key : Nat → Rat) (v : List Nat) (first len top : Nat) : Prop :=
  ∀ c, 1 ≤ c → c < len → top ≤ (c - 1) / 2 →
    key (v.getD (first + (c - 1) / 2) 0) ≤ key (v.getD (first + c) 0)

/-- The heap property for the pairs of a parent and a child that do not involve the hole `h`. -/
def HeapAvoid (key : Nat → Rat) (v : List Nat) (first len top h : Nat) : Prop :=
  ∀ c, 1 ≤ c → c < len → top ≤ (c - 1) / 2 → c ≠ h → (c - 1) / 2 ≠ h →
    key (v.getD (first + (c - 1) / 2) 0) ≤ key (v.getD (first + c) 0)

/-- The parent of the hole `h` is not above the children of the hole. -/
def Bridge (key : Nat → Rat) (v : List Nat) (first len top h : Nat) : Prop :=
  top < h → ∀ c, 1 ≤ c → c < len → (c - 1) / 2 = h →
    key (v.getD (first + (h - 1) / 2) 0) ≤ key (v.getD (first + c) 0)

/-- The position `h` lies in the subtree of the heap below `top`. -/
inductive IsDesc (top : Nat) : Nat → Prop
  | self : IsDesc top top
  | child (q c : Nat) : IsDesc top q → 1 ≤ c → (c - 1) / 2 = q → IsDesc top c

/-- The vector `v1` differs from `v` only at the positions `first .. last - 1`, and every
property that holds for `value` and for all the elements of `v` at these positions holds for
the elements of `v1` at these positions. -/
def WithinWith (value first last : Nat) (v v1 : List Nat) : Prop :=
  v1.length = v.length
    ∧ (∀ i, i < first ∨ last ≤ i → v1.getD i 0 = v.getD i 0)
    ∧ ∀ P : Nat → Prop, P value → (∀ i, first ≤ i → i < last → P (v.getD i 0)) →
        ∀ i, first ≤ i → i < last → P (v1.getD i 0)

/-- The vector `v1` differs from `v` only at the positions `first .. last - 1`, and every
property that holds for all the elements of `v` at these positions holds for the elements of
`v1` at these positions. -/
def Within (first last : Nat) (v v1 : List Nat) : Prop :=
  v1.length = v.length
    ∧ (∀ i, i < first ∨ last ≤ i → v1.getD i 0 = v.getD i 0)
    ∧ ∀ P : Nat → Prop, (∀ i, first ≤ i → i < last → P (v.getD i 0)) →
        ∀ i, first ≤ i → i < last → P (v1.getD i 0)

/-- The two conditions that link the comparator to an order `R` for an element `y` that comes
after `x` in the vector: if `y` precedes `x` under the comparator then `R y x`, and otherwise
`R x y`. -/
def Linked (cmp : Nat → Nat → Bool) (R : Nat → Nat → Prop) (x y : Nat) : Prop :=
  (cmp y x = true → R y x) ∧ (cmp y x = false → R x y)

/-- A graph with 34 vertices: vertex `v < 17` has the actions of staying and of moving to
vertex `v + 17`; the other vertices have the action of staying. -/
def crowdGraph : Graph := (List.range 34).map fun v => if v < 17 then [v, v + 17] else [v]

/-- Seventeen agents on `crowdGraph`: agent `i` starts at vertex `i` and has its goal at vertex
`i + 17`, one step away. The step solver moves an agent to the vertex it is pinned to and lets
it wait when it is not pinned; `std::sort` is the one of libstdc++; there is no deadline. -/
def crowdCtx : Ctx Unit :=
  { ins := { N := 17, starts := List.range 17, goals := (List.range 17).map fun i => i + 17 }
    ANYTIME := false
    RANDOM_INSERT_PROB1 := 1 / 1000
    RANDOM_INSERT_PROB2 := 1 / 1000
    D := fun i v => if v = i + 17 then 0 else 1
    is_expired := fun _ => false
    rrd := fun w => (1 / 2, w)
    get_random_int := fun w lo _ => (lo, w)
    shuffle := fun w l => (l, w)
    pibt := fun w _ Qf Qt _ =>
      (some ((List.range 17).map fun i => (Qt.getD i none).getD (Qf.getD i 0)), w)
    sort := stdSort }

/-! ## Arena access -/

theorem length_updNode (nodes : List HNode) (i : Nat) (f : HNode → HNode) :
    (updNode nodes i f).length = nodes.length := by
  simp [updNode]

theorem nodeAt_updNode (nodes : List HNode) (i j : Nat) (f : HNode → HNode) :
    nodeAt (updNode nodes i f) j
      = if i = j ∧ i < nodes.length then f (nodeAt nodes j) else nodeAt nodes j := by
  unfold nodeAt updNode
  simp only [List.getD_eq_getElem?_getD, List.getElem?_modify]
  by_cases hij : i = j
  · subst hij
    by_cases hlt : i < nodes.length
    · simp [hlt, List.getElem?_eq_getElem hlt]
    · have : nodes[i]? = none := List.getElem?_eq_none (by omega)
      simp [hlt, this]
  · cases h : nodes[j]? <;> simp [hij]

theorem nodeAt_updNode_ne (nodes : List HNode) {i j : Nat} (f : HNode → HNode) (h : i ≠ j) :
    nodeAt (updNode nodes i f) j = nodeAt nodes j := by
  simp [nodeAt_updNode, h]

theorem nodeAt_updNode_self (nodes : List HNode) {i : Nat} (f : HNode → HNode)
    (h : i < nodes.length) : nodeAt (updNode nodes i f) i = f (nodeAt nodes i) := by
  simp [nodeAt_updNode, h]

theorem nodeAt_append_left (nodes : List HNode) (x : HNode) {i : Nat} (h : i < nodes.length) :
    nodeAt (nodes ++ [x]) i = nodeAt nodes i := by
  unfold nodeAt
  simp [List.getElem?_append_left h]

theorem nodeAt_append_length (nodes : List HNode) (x : HNode) :
    nodeAt (nodes ++ [x]) nodes.length = x := by
  unfold nodeAt
  simp

theorem nodeAt_of_le (nodes : List HNode) {i : Nat} (h : nodes.length ≤ i) :
    nodeAt nodes i = default := by
  unfold nodeAt
  simp [List.getElem?_eq_none h]

/-! ## Edge cost -/

theorem foldl_count_eq (p : Nat → Bool) (l : List Nat) (c : Nat) :
    l.foldl (fun cost i => if p i = true then cost + 1 else cost) c
      = c + (l.filter p).length := by
  induction l generalizing c with
  | nil => simp
  | cons a l ih =>
    simp only [List.foldl_cons, List.filter_cons]
    rw [ih]
    by_cases h : p a = true
    · simp [h]; omega
    · simp [h]

theorem get_edge_cost_eq_spec (ins : Instance) (Q1 Q2 : Config) :
    get_edge_cost ins Q1 Q2 = edge_cost_spec ins Q1 Q2 := by
  unfold get_edge_cost edge_cost_spec
  have h := foldl_count_eq
    (fun i => !(decide (Q1.getD i 0 = ins.goals.getD i 0)
                && decide (Q2.getD i 0 = ins.goals.getD i 0))) (List.range ins.N) 0
  simp only [Nat.zero_add] at h
  rw [← h]
  congr 1
  funext cost i
  by_cases h1 : Q1.getD i 0 = ins.goals.getD i 0 <;>
    by_cases h2 : Q2.getD i 0 = ins.goals.getD i 0 <;> simp [h1, h2]

theorem edge_cost_pos_of_ne (ins : Instance) (Q1 Q2 : Config) (h1 : Q1.length = ins.N)
    (h2 : Q2.length = ins.N) (hne : Q1 ≠ Q2) : 1 ≤ get_edge_cost ins Q1 Q2 := by
  rw [get_edge_cost_eq_spec]
  unfold edge_cost_spec
  have hex : ∃ i, i < ins.N ∧ Q1.getD i 0 ≠ Q2.getD i 0 := by
    by_contra hcon
    push_neg at hcon
    apply hne
    apply List.ext_getElem (by omega)
    intro i hi1 hi2
    have := hcon i (by omega)
    simpa [List.getD_eq_getElem?_getD, List.getElem?_eq_getElem hi1,
      List.getElem?_eq_getElem hi2] using this
  obtain ⟨i, hi, hd⟩ := hex
  apply List.length_pos_of_mem (a := i)
  rw [List.mem_filter]
  refine ⟨List.mem_range.mpr hi, ?_⟩
  by_cases e1 : Q1.getD i 0 = ins.goals.getD i 0
  · by_cases e2 : Q2.getD i 0 = ins.goals.getD i 0
    · exact absurd (e1.trans e2.symm) hd
    · simp only [e1, e2, decide_True, decide_False, Bool.and_false, Bool.not_false]
  · simp only [e1, decide_False, Bool.false_and, Bool.not_false]

/-! ## The ordered set of neighbours -/

theorem compareFrom_equiv (a b : Config) (idxs : List Nat)
    (h1 : compareFrom a b idxs = false) (h2 : compareFrom b a idxs = false) :
    ∀ i, i ∈ idxs → a.getD i 0 = b.getD i 0 := by
  induction idxs with
  | nil => intro i hi; cases hi
  | cons j rest ih =>
    intro i hi
    by_cases hj : a.getD j 0 = b.getD j 0
    · have e1 : compareFrom a b rest = false := by
        simpa only [compareFrom, hj, ne_eq, not_true_eq_false, if_false] using h1
      have e2 : compareFrom b a rest = false := by
        simpa only [compareFrom, hj, ne_eq, not_true_eq_false, if_false] using h2
      rcases List.mem_cons.mp hi with rfl | hr
      · exact hj
      · exact ih e1 e2 i hr
    · exfalso
      have hj' : ¬ b.getD j 0 = a.getD j 0 := fun e => hj e.symm
      simp only [compareFrom, ne_eq, hj, not_false_eq_true, if_true, decide_eq_false_iff_not]
        at h1
      simp only [compareFrom, ne_eq, hj', not_false_eq_true, if_true, decide_eq_false_iff_not]
        at h2
      omega

theorem Q_eq_of_equiv (x y : HNode) (hlen : x.Q.length = y.Q.length)
    (h1 : CompareHNodePointers x y = false) (h2 : CompareHNodePointers y x = false) :
    x.Q = y.Q := by
  unfold CompareHNodePointers at h1 h2
  rw [← hlen] at h2
  have h := compareFrom_equiv x.Q y.Q _ h1 h2
  apply List.ext_getElem hlen
  intro i hi1 hi2
  have := h i (List.mem_range.mpr hi1)
  simpa [List.getD_eq_getElem?_getD, List.getElem?_eq_getElem hi1,
    List.getElem?_eq_getElem hi2] using this

theorem mem_setInsert (nodes : List HNode) (x : Nat) (l : List Nat) (y : Nat)
    (h : y ∈ setInsert nodes x l) : y = x ∨ y ∈ l := by
  induction l with
  | nil => simpa [setInsert] using h
  | cons a l ih =>
    unfold setInsert at h
    split at h
    · rcases List.mem_cons.mp h with h | h
      · exact Or.inl h
      · exact Or.inr h
    · split at h
      · rcases List.mem_cons.mp h with h | h
        · exact Or.inr (h ▸ List.mem_cons_self _ _)
        · rcases ih h with h | h
          · exact Or.inl h
          · exact Or.inr (List.mem_cons_of_mem _ h)
      · exact Or.inr h

theorem mem_setInsert_of_mem (nodes : List HNode) (x : Nat) (l : List Nat) (y : Nat)
    (h : y ∈ l) : y ∈ setInsert nodes x l := by
  induction l with
  | nil => cases h
  | cons a l ih =>
    unfold setInsert
    split
    · exact List.mem_cons_of_mem _ h
    · split
      · rcases List.mem_cons.mp h with h | h
        · exact h ▸ List.mem_cons_self _ _
        · exact List.mem_cons_of_mem _ (ih h)
      · exact h

theorem setInsert_self_or_equiv (nodes : List HNode) (x : Nat) (l : List Nat) :
    x ∈ setInsert nodes x l ∨ ∃ y, y ∈ l ∧
      CompareHNodePointers (nodeAt nodes x) (nodeAt nodes y) = false ∧
      CompareHNodePointers (nodeAt nodes y) (nodeAt nodes x) = false := by
  induction l with
  | nil => left; simp [setInsert]
  | cons a l ih =>
    unfold setInsert
    split
    · left; exact List.mem_cons_self _ _
    · split
      · rcases ih with h | ⟨y, hy, h1, h2⟩
        · left; exact List.mem_cons_of_mem _ h
        · right; exact ⟨y, List.mem_cons_of_mem _ hy, h1, h2⟩
      · right
        refine ⟨a, List.mem_cons_self _ _, ?_, ?_⟩ <;> simp_all

theorem self_mem_setInsert (nodes : List HNode) (x : Nat) (l : List Nat) (n : Nat)
    (hx : x < nodes.length) (hl : ∀ y, y ∈ l → y < nodes.length)
    (hlen : ∀ i, i < nodes.length → (nodeAt nodes i).Q.length = n)
    (hinj : ∀ i j, i < nodes.length → j < nodes.length →
      (nodeAt nodes i).Q = (nodeAt nodes j).Q → i = j) :
    x ∈ setInsert nodes x l := by
  rcases setInsert_self_or_equiv nodes x l with h | ⟨y, hy, h1, h2⟩
  · exact h
  · have hq := Q_eq_of_equiv _ _ ((hlen x hx).trans (hlen y (hl y hy)).symm) h1 h2
    have := hinj x y hx (hl y hy) hq
    subst this
    exact mem_setInsert_of_mem _ _ _ _ hy

/-! ## Preservation of the arena invariant -/

theorem nodeAt_updNode_proj {α : Type} (π : HNode → α) (nodes : List HNode) (i j : Nat)
    (f : HNode → HNode) (hf : ∀ n, π (f n) = π n) :
    π (nodeAt (updNode nodes i f) j) = π (nodeAt nodes j) := by
  rw [nodeAt_updNode]
  split
  · exact hf _
  · rfl

theorem ArenaInv.arena_frame {ins : Instance} {nodes nodes1 : List HNode}
    {calls calls1 : List (Config × Config)} (h : ArenaInv ins nodes calls)
    (hlen : nodes1.length = nodes.length)
    (hQ : ∀ i, (nodeAt nodes1 i).Q = (nodeAt nodes i).Q)
    (hp : ∀ i, (nodeAt nodes1 i).parent = (nodeAt nodes i).parent)
    (hn : ∀ i, (nodeAt nodes1 i).neighbors = (nodeAt nodes i).neighbors)
    (hg : ∀ i, (nodeAt nodes1 i).g = (nodeAt nodes i).g)
    (hh : ∀ i, (nodeAt nodes1 i).h = (nodeAt nodes i).h)
    (hf : ∀ i, (nodeAt nodes1 i).f = (nodeAt nodes i).f)
    (hc : ∀ c, c ∈ calls → c ∈ calls1) : ArenaInv ins nodes1 calls1 where
  pos := by rw [hlen]; exact h.pos
  root_Q := by rw [hQ]; exact h.root_Q
  root_parent := by rw [hp]; exact h.root_parent
  root_g := by rw [hg]; exact h.root_g
  parent_ok := by
    intro i hi h0
    rw [hlen] at hi
    obtain ⟨p, h1, h2, h3, h4, h5⟩ := h.parent_ok i hi h0
    refine ⟨p, by rw [hp, h1], by rw [hlen]; exact h2, h3, by rw [hn]; exact h4, ?_⟩
    rw [hg, hg, hQ, hQ]; exact h5
  nbr_ok := by
    intro i hi j hj
    rw [hlen] at hi
    rw [hn] at hj
    obtain ⟨h1, h2⟩ := h.nbr_ok i hi j hj
    refine ⟨by rw [hlen]; exact h1, ?_⟩
    rw [hQ, hQ]; exact hc _ h2
  Q_inj := by
    intro i j hi hj e
    rw [hlen] at hi hj
    rw [hQ, hQ] at e
    exact h.Q_inj i j hi hj e
  Q_len := by
    intro i hi
    rw [hlen] at hi
    rw [hQ]; exact h.Q_len i hi
  f_eq := by
    intro i hi
    rw [hlen] at hi
    rw [hf, hg, hh]; exact h.f_eq i hi

theorem ArenaInv.g_parent_lt {ins : Instance} {nodes : List HNode}
    {calls : List (Config × Config)} (h : ArenaInv ins nodes calls) {i p : Nat}
    (hi : i < nodes.length) (hp : (nodeAt nodes i).parent = some p) :
    p < nodes.length ∧ (nodeAt nodes p).g < (nodeAt nodes i).g := by
  by_cases h0 : i = 0
  · subst h0
    rw [h.root_parent] at hp
    cases hp
  · obtain ⟨p1, h1, h2, h3, _, h5⟩ := h.parent_ok i hi h0
    have hpp : p1 = p := by rw [h1] at hp; exact Option.some.inj hp
    subst hpp
    refine ⟨h2, ?_⟩
    have hne : (nodeAt nodes p1).Q ≠ (nodeAt nodes i).Q := fun e => h3 (h.Q_inj _ _ h2 hi e)
    have := edge_cost_pos_of_ne ins _ _ (h.Q_len p1 h2) (h.Q_len i hi) hne
    omega

theorem ArenaInv.relax_update {ins : Instance} {nodes : List HNode}
    {calls : List (Config × Config)} (h : ArenaInv ins nodes calls) {n_from n_to : Nat}
    (hfrom : n_from < nodes.length) (hmem : n_to ∈ (nodeAt nodes n_from).neighbors)
    (hlt : (nodeAt nodes n_from).g
        + get_edge_cost ins (nodeAt nodes n_from).Q (nodeAt nodes n_to).Q
      < (nodeAt nodes n_to).g)
    (F : HNode → HNode) (hFQ : ∀ n, (F n).Q = n.Q) (hFn : ∀ n, (F n).neighbors = n.neighbors)
    (hFh : ∀ n, (F n).h = n.h)
    (hFg : ∀ n, (F n).g = (nodeAt nodes n_from).g
        + get_edge_cost ins (nodeAt nodes n_from).Q (nodeAt nodes n_to).Q)
    (hFf : ∀ n, (F n).f = (nodeAt nodes n_from).g
        + get_edge_cost ins (nodeAt nodes n_from).Q (nodeAt nodes n_to).Q + n.h)
    (hFp : ∀ n, (F n).parent = some n_from) :
    ArenaInv ins (updNode nodes n_to F) calls := by
  have hto : n_to < nodes.length := (h.nbr_ok n_from hfrom n_to hmem).1
  have hne : n_from ≠ n_to := by
    intro e; subst e; omega
  have hto0 : n_to ≠ 0 := by
    intro e; subst e; rw [h.root_g] at hlt; omega
  have hQ : ∀ i, (nodeAt (updNode nodes n_to F) i).Q = (nodeAt nodes i).Q :=
    fun i => nodeAt_updNode_proj (fun n => n.Q) nodes n_to i F hFQ
  have hN : ∀ i, (nodeAt (updNode nodes n_to F) i).neighbors = (nodeAt nodes i).neighbors :=
    fun i => nodeAt_updNode_proj (fun n => n.neighbors) nodes n_to i F hFn
  refine
    { pos := by rw [length_updNode]; exact h.pos
      root_Q := by rw [hQ]; exact h.root_Q
      root_parent := by rw [nodeAt_updNode_ne _ _ hto0]; exact h.root_parent
      root_g := by rw [nodeAt_updNode_ne _ _ hto0]; exact h.root_g
      parent_ok := ?_
      nbr_ok := ?_
      Q_inj := ?_
      Q_len := ?_
      f_eq := ?_ }
  · intro i hi h0
    rw [length_updNode] at hi
    by_cases hi2 : i = n_to
    · subst hi2
      refine ⟨n_from, ?_, by rw [length_updNode]; exact hfrom, hne, by rw [hN]; exact hmem, ?_⟩
      · rw [nodeAt_updNode_self _ _ hto, hFp]
      · rw [nodeAt_updNode_ne _ _ (Ne.symm hne), hQ, nodeAt_updNode_self _ _ hto, hFg]
    · obtain ⟨p, h1, h2, h3, h4, h5⟩ := h.parent_ok i hi h0
      refine ⟨p, ?_, by rw [length_updNode]; exact h2, h3, by rw [hN]; exact h4, ?_⟩
      · rw [nodeAt_updNode_ne _ _ (Ne.symm hi2)]; exact h1
      · rw [hQ, hQ, nodeAt_updNode_ne _ _ (Ne.symm hi2)]
        by_cases hp : p = n_to
        · subst hp
          rw [nodeAt_updNode_self _ _ hto, hFg]
          omega
        · rw [nodeAt_updNode_ne _ _ (Ne.symm hp)]; exact h5
  · intro i hi j hj
    rw [length_updNode] at hi
    rw [hN] at hj
    obtain ⟨h1, h2⟩ := h.nbr_ok i hi j hj
    refine ⟨by rw [length_updNode]; exact h1, ?_⟩
    rw [hQ, hQ]; exact h2
  · intro i j hi hj e
    rw [length_updNode] at hi hj
    rw [hQ, hQ] at e
    exact h.Q_inj i j hi hj e
  · intro i hi
    rw [length_updNode] at hi
    rw [hQ]; exact h.Q_len i hi
  · intro i hi
    rw [length_updNode] at hi
    by_cases hi2 : i = n_to
    · subst hi2
      rw [nodeAt_updNode_self _ _ hto, hFf, hFg, hFh]
    · rw [nodeAt_updNode_ne _ _ (Ne.symm hi2)]; exact h.f_eq i hi

theorem ArenaInv.insert_neighbor {ins : Instance} {nodes : List HNode}
    {calls : List (Config × Config)} (h : ArenaInv ins nodes calls) {H_from H_to : Nat}
    (hfrom : H_from < nodes.length) (hto : H_to < nodes.length)
    (hc : ((nodeAt nodes H_from).Q, (nodeAt nodes H_to).Q) ∈ calls) :
    ArenaInv ins
      (updNode nodes H_from fun n => { n with neighbors := setInsert nodes H_to n.neighbors })
      calls := by
  have hQ : ∀ i, (nodeAt (updNode nodes H_from fun n =>
      { n with neighbors := setInsert nodes H_to n.neighbors }) i).Q = (nodeAt nodes i).Q :=
    fun i => nodeAt_updNode_proj (fun n => n.Q) nodes H_from i _ (fun _ => rfl)
  have hP : ∀ i, (nodeAt (updNode nodes H_from fun n =>
      { n with neighbors := setInsert nodes H_to n.neighbors }) i).parent
        = (nodeAt nodes i).parent :=
    fun i => nodeAt_updNode_proj (fun n => n.parent) nodes H_from i _ (fun _ => rfl)
  have hG : ∀ i, (nodeAt (updNode nodes H_from fun n =>
      { n with neighbors := setInsert nodes H_to n.neighbors }) i).g = (nodeAt nodes i).g :=
    fun i => nodeAt_updNode_proj (fun n => n.g) nodes H_from i _ (fun _ => rfl)
  have hH : ∀ i, (nodeAt (updNode nodes H_from fun n =>
      { n with neighbors := setInsert nodes H_to n.neighbors }) i).h = (nodeAt nodes i).h :=
    fun i => nodeAt_updNode_proj (fun n => n.h) nodes H_from i _ (fun _ => rfl)
  have hF : ∀ i, (nodeAt (updNode nodes H_from fun n =>
      { n with neighbors := setInsert nodes H_to n.neighbors }) i).f = (nodeAt nodes i).f :=
    fun i => nodeAt_updNode_proj (fun n => n.f) nodes H_from i _ (fun _ => rfl)
  have hN : ∀ i j, j ∈ (nodeAt nodes i).neighbors → j ∈ (nodeAt (updNode nodes H_from fun n =>
      { n with neighbors := setInsert nodes H_to n.neighbors }) i).neighbors := by
    intro i j hj
    rw [nodeAt_updNode]
    split
    · exact mem_setInsert_of_mem _ _ _ _ hj
    · exact hj
  have hN2 : ∀ i j, j ∈ (nodeAt (updNode nodes H_from fun n =>
      { n with neighbors := setInsert nodes H_to n.neighbors }) i).neighbors →
      j ∈ (nodeAt nodes i).neighbors ∨ (i = H_from ∧ j = H_to) := by
    intro i j hj
    rw [nodeAt_updNode] at hj
    split at hj
    · rename_i hc
      rcases mem_setInsert _ _ _ _ hj with e | e
      · exact Or.inr ⟨hc.1.symm, e⟩
      · exact Or.inl e
    · exact Or.inl hj
  refine
    { pos := by rw [length_updNode]; exact h.pos
      root_Q := by rw [hQ]; exact h.root_Q
      root_parent := by rw [hP]; exact h.root_parent
      root_g := by rw [hG]; exact h.root_g
      parent_ok := ?_
      nbr_ok := ?_
      Q_inj := ?_
      Q_len := ?_
      f_eq := ?_ }
  · intro i hi h0
    rw [length_updNode] at hi
    obtain ⟨p, h1, h2, h3, h4, h5⟩ := h.parent_ok i hi h0
    refine ⟨p, by rw [hP]; exact h1, by rw [length_updNode]; exact h2, h3, hN _ _ h4, ?_⟩
    rw [hQ, hQ, hG, hG]; exact h5
  · intro i hi j hj
    rw [length_updNode] at hi
    rw [length_updNode, hQ, hQ]
    rcases hN2 i j hj with e | ⟨e1, e2⟩
    · exact h.nbr_ok i hi j e
    · subst e1; subst e2; exact ⟨hto, hc⟩
  · intro i j hi hj e
    rw [length_updNode] at hi hj
    rw [hQ, hQ] at e
    exact h.Q_inj i j hi hj e
  · intro i hi
    rw [length_updNode] at hi
    rw [hQ]; exact h.Q_len i hi
  · intro i hi
    rw [length_updNode] at hi
    rw [hF, hG, hH]; exact h.f_eq i hi

theorem length_newHNode {σ : Type} (C : Ctx σ) (nodes : List HNode) (Q : Config)
    (parent : Option Nat) (g h : Nat) :
    (newHNode C nodes Q parent g h).length = nodes.length + 1 := by
  unfold newHNode
  cases parent <;> simp [length_updNode]

theorem nodeAt_newHNode_new {σ : Type} (C : Ctx σ) (nodes : List HNode) (Q : Config)
    (H g h : Nat) (hH : H < nodes.length) :
    nodeAt (newHNode C nodes Q (some H) g h) nodes.length = HNode.init C nodes Q (some H) g h := by
  unfold newHNode
  simp only
  rw [nodeAt_updNode_ne _ _ (by omega), nodeAt_append_length]

theorem nodeAt_newHNode_old_proj {σ : Type} {α : Type} (π : HNode → α)
    (hπ : ∀ n l, π { n with neighbors := l } = π n) (C : Ctx σ) (nodes : List HNode)
    (Q : Config) (H g h : Nat) {i : Nat} (hi : i < nodes.length) :
    π (nodeAt (newHNode C nodes Q (some H) g h) i) = π (nodeAt nodes i) := by
  unfold newHNode
  simp only
  rw [nodeAt_updNode_proj π _ _ _ _ (fun n => hπ n _), nodeAt_append_left _ _ hi]

theorem nodeAt_newHNode_old_neighbors {σ : Type} (C : Ctx σ) (nodes : List HNode)
    (Q : Config) (H g h : Nat) {i : Nat} (hi : i < nodes.length) :
    (nodeAt (newHNode C nodes Q (some H) g h) i).neighbors
      = if H = i then
          setInsert (nodes ++ [HNode.init C nodes Q (some H) g h]) nodes.length
            (nodeAt nodes i).neighbors
        else (nodeAt nodes i).neighbors := by
  unfold newHNode
  simp only
  rw [nodeAt_updNode]
  by_cases e : H = i
  · subst e
    rw [if_pos ⟨rfl, by simp; omega⟩, if_pos rfl, nodeAt_append_left _ _ hi]
  · simp [e, nodeAt_append_left _ _ hi]

theorem ArenaInv.new_node {σ : Type} (C : Ctx σ) {nodes : List HNode}
    {calls calls1 : List (Config × Config)} (h : ArenaInv C.ins nodes calls) {H : Nat}
    (Q : Config) (hval : Nat) (hH : H < nodes.length) (hQlen : Q.length = C.ins.N)
    (hnew : ∀ i, i < nodes.length → (nodeAt nodes i).Q ≠ Q)
    (hc : ((nodeAt nodes H).Q, Q) ∈ calls1) (hsub : ∀ c, c ∈ calls → c ∈ calls1) :
    ArenaInv C.ins (newHNode C nodes Q (some H) (get_g_val C.ins nodes H Q) hval) calls1 := by
  have hlen := length_newHNode C nodes Q (some H) (get_g_val C.ins nodes H Q) hval
  have hnw := nodeAt_newHNode_new C nodes Q H (get_g_val C.ins nodes H Q) hval hH
  have hQ : ∀ i, i < nodes.length →
      (nodeAt (newHNode C nodes Q (some H) (get_g_val C.ins nodes H Q) hval) i).Q
        = (nodeAt nodes i).Q :=
    fun i hi => nodeAt_newHNode_old_proj (fun n => n.Q) (fun _ _ => rfl) C nodes Q H _ _ hi
  have hP : ∀ i, i < nodes.length →
      (nodeAt (newHNode C nodes Q (some H) (get_g_val C.ins nodes H Q) hval) i).parent
        = (nodeAt nodes i).parent :=
    fun i hi => nodeAt_newHNode_old_proj (fun n => n.parent) (fun _ _ => rfl) C nodes Q H _ _ hi
  have hG : ∀ i, i < nodes.length →
      (nodeAt (newHNode C nodes Q (some H) (get_g_val C.ins nodes H Q) hval) i).g
        = (nodeAt nodes i).g :=
    fun i hi => nodeAt_newHNode_old_proj (fun n => n.g) (fun _ _ => rfl) C nodes Q H _ _ hi
  have hHh : ∀ i, i < nodes.length →
      (nodeAt (newHNode C nodes Q (some H) (get_g_val C.ins nodes H Q) hval) i).h
        = (nodeAt nodes i).h :=
    fun i hi => nodeAt_newHNode_old_proj (fun n => n.h) (fun _ _ => rfl) C nodes Q H _ _ hi
  have hF : ∀ i, i < nodes.length →
      (nodeAt (newHNode C nodes Q (some H) (get_g_val C.ins nodes H Q) hval) i).f
        = (nodeAt nodes i).f :=
    fun i hi => nodeAt_newHNode_old_proj (fun n => n.f) (fun _ _ => rfl) C nodes Q H _ _ hi
  have hNb := fun i hi =>
    nodeAt_newHNode_old_neighbors C nodes Q H (get_g_val C.ins nodes H Q) hval (i := i) hi
  -- the new node is really inserted into its parent's neighbours
  have hins : nodes.length ∈
      setInsert (nodes ++ [HNode.init C nodes Q (some H) (get_g_val C.ins nodes H Q) hval])
        nodes.length (nodeAt nodes H).neighbors := by
    apply self_mem_setInsert _ _ _ C.ins.N
    · simp
    · intro y hy
      have := (h.nbr_ok H hH y hy).1
      simp; omega
    · intro i hi
      simp only [List.length_append, List.length_singleton] at hi
      by_cases e : i < nodes.length
      · rw [nodeAt_append_left _ _ e]; exact h.Q_len i e
      · have : i = nodes.length := by omega
        subst this
        rw [nodeAt_append_length]; exact hQlen
    · intro i j hi hj e
      simp only [List.length_append, List.length_singleton] at hi hj
      by_cases ei : i < nodes.length
      · by_cases ej : j < nodes.length
        · rw [nodeAt_append_left _ _ ei, nodeAt_append_left _ _ ej] at e
          exact h.Q_inj i j ei ej e
        · have : j = nodes.length := by omega
          subst this
          rw [nodeAt_append_left _ _ ei, nodeAt_append_length] at e
          exact absurd e (hnew i ei)
      · have : i = nodes.length := by omega
        subst this
        by_cases ej : j < nodes.length
        · rw [nodeAt_append_left _ _ ej, nodeAt_append_length] at e
          exact absurd e.symm (hnew j ej)
        · omega
  refine
    { pos := by omega
      root_Q := by rw [hQ 0 h.pos]; exact h.root_Q
      root_parent := by rw [hP 0 h.pos]; exact h.root_parent
      root_g := by rw [hG 0 h.pos]; exact h.root_g
      parent_ok := ?_
      nbr_ok := ?_
      Q_inj := ?_
      Q_len := ?_
      f_eq := ?_ }
  · intro i hi h0
    rw [hlen] at hi
    by_cases e : i < nodes.length
    · obtain ⟨p, h1, h2, h3, h4, h5⟩ := h.parent_ok i e h0
      refine ⟨p, by rw [hP i e]; exact h1, by omega, h3, ?_, ?_⟩
      · rw [hNb p h2]
        split
        · exact mem_setInsert_of_mem _ _ _ _ h4
        · exact h4
      · rw [hQ i e, hQ p h2, hG i e, hG p h2]; exact h5
    · have : i = nodes.length := by omega
      subst this
      refine ⟨H, by rw [hnw]; rfl, by omega, by omega, ?_, ?_⟩
      · rw [hNb H hH, if_pos rfl]; exact hins
      · rw [hnw, hQ H hH, hG H hH]
        exact Nat.le_refl _
  · intro i hi j hj
    rw [hlen] at hi
    by_cases e : i < nodes.length
    · rw [hNb i e] at hj
      have hold : j ∈ (nodeAt nodes i).neighbors →
          j < (newHNode C nodes Q (some H) (get_g_val C.ins nodes H Q) hval).length ∧
          ((nodeAt (newHNode C nodes Q (some H) (get_g_val C.ins nodes H Q) hval) i).Q,
            (nodeAt (newHNode C nodes Q (some H) (get_g_val C.ins nodes H Q) hval) j).Q)
            ∈ calls1 := by
        intro hj
        obtain ⟨h1, h2⟩ := h.nbr_ok i e j hj
        refine ⟨by omega, ?_⟩
        rw [hQ i e, hQ j h1]; exact hsub _ h2
      split at hj
      · rename_i eH
        subst eH
        rcases mem_setInsert _ _ _ _ hj with e1 | e1
        · subst e1
          refine ⟨by omega, ?_⟩
          rw [hQ H hH, hnw]; exact hc
        · exact hold e1
      · exact hold hj
    · have : i = nodes.length := by omega
      subst this
      rw [hnw] at hj
      cases hj
  · intro i j hi hj e
    rw [hlen] at hi hj
    by_cases ei : i < nodes.length
    · by_cases ej : j < nodes.length
      · rw [hQ i ei, hQ j ej] at e
        exact h.Q_inj i j ei ej e
      · have : j = nodes.length := by omega
        subst this
        rw [hQ i ei, hnw] at e
        exact absurd e (hnew i ei)
    · have : i = nodes.length := by omega
      subst this
      by_cases ej : j < nodes.length
      · rw [hQ j ej, hnw] at e
        exact absurd e.symm (hnew j ej)
      · omega
  · intro i hi
    rw [hlen] at hi
    by_cases e : i < nodes.length
    · rw [hQ i e]; exact h.Q_len i e
    · have : i = nodes.length := by omega
      subst this
      rw [hnw]; exact hQlen
  · intro i hi
    rw [hlen] at hi
    by_cases e : i < nodes.length
    · rw [hF i e, hG i e, hHh i e]; exact h.f_eq i e
    · have : i = nodes.length := by omega
      subst this
      rw [hnw]; rfl

/-! ## The relaxation of `rewrite` keeps the invariant -/

theorem relax_length {σ : Type} (C : Ctx σ) (n_from n_to : Nat) (s : LaCAM) (Q : List Nat) :
    (relax C n_from n_to s Q).1.nodes.length = s.nodes.length := by
  unfold relax
  simp only
  split
  · simp [length_updNode]
  · rfl

theorem relax_proj {σ : Type} {α : Type} (π : HNode → α)
    (hπ : ∀ (n : HNode) g f p d, π { n with g := g, f := f, parent := p, depth := d } = π n)
    (C : Ctx σ) (n_from n_to : Nat) (s : LaCAM) (Q : List Nat) (i : Nat) :
    π (nodeAt (relax C n_from n_to s Q).1.nodes i) = π (nodeAt s.nodes i) := by
  unfold relax
  simp only
  split
  · exact nodeAt_updNode_proj π _ _ _ _ (fun n => hπ n _ _ _ _)
  · rfl

theorem relax_neighbors {σ : Type} (C : Ctx σ) (n_from n_to : Nat) (s : LaCAM) (Q : List Nat)
    (i : Nat) :
    (nodeAt (relax C n_from n_to s Q).1.nodes i).neighbors = (nodeAt s.nodes i).neighbors :=
  relax_proj (fun n => n.neighbors) (fun _ _ _ _ _ => rfl) C n_from n_to s Q i

theorem relax_Q {σ : Type} (C : Ctx σ) (n_from n_to : Nat) (s : LaCAM) (Q : List Nat)
    (i : Nat) :
    (nodeAt (relax C n_from n_to s Q).1.nodes i).Q = (nodeAt s.nodes i).Q :=
  relax_proj (fun n => n.Q) (fun _ _ _ _ _ => rfl) C n_from n_to s Q i

theorem relax_other {σ : Type} (C : Ctx σ) (n_from n_to : Nat) (s : LaCAM) (Q : List Nat) :
    (relax C n_from n_to s Q).1.EXPLORED = s.EXPLORED
      ∧ (relax C n_from n_to s Q).1.H_goal = s.H_goal
      ∧ (relax C n_from n_to s Q).1.calls = s.calls
      ∧ (relax C n_from n_to s Q).1.G = s.G
      ∧ (relax C n_from n_to s Q).1.loop_cnt = s.loop_cnt := by
  unfold relax
  simp only
  split <;> simp

theorem relax_open {σ : Type} (C : Ctx σ) (n_from n_to : Nat) (s : LaCAM) (Q : List Nat) :
    (relax C n_from n_to s Q).1.OPEN = s.OPEN
      ∨ (s.H_goal ≠ none ∧ (relax C n_from n_to s Q).1.OPEN = n_to :: s.OPEN) := by
  unfold relax
  simp only
  split
  · cases hg : s.H_goal with
    | none => left; rfl
    | some k =>
      simp only
      split
      · right; exact ⟨by simp, rfl⟩
      · left; rfl
  · left; rfl

theorem relax_queue {σ : Type} (C : Ctx σ) (n_from n_to : Nat) (s : LaCAM) (Q : List Nat) :
    (relax C n_from n_to s Q).2 = Q ∨ (relax C n_from n_to s Q).2 = Q ++ [n_to] := by
  unfold relax
  simp only
  split
  · right; rfl
  · left; rfl

theorem relax_inv {σ : Type} (C : Ctx σ) {n_from n_to : Nat} {s : LaCAM} (Q : List Nat)
    (h : Inv C s) (hfrom : n_from < s.nodes.length)
    (hmem : n_to ∈ (nodeAt s.nodes n_from).neighbors) :
    Inv C (relax C n_from n_to s Q).1 := by
  have hto : n_to < s.nodes.length := (h.arena.nbr_ok n_from hfrom n_to hmem).1
  have hlen := relax_length C n_from n_to s Q
  have hQ := relax_Q C n_from n_to s Q
  obtain ⟨hE, hGl, hC, _, _⟩ := relax_other C n_from n_to s Q
  refine { arena := ?_, explored := ?_, open_ok := ?_, goal_ok := ?_, explored_mem := ?_,
           calls_ok := ?_ }
  · rw [hC]
    unfold relax
    simp only
    split
    · rename_i hlt
      exact h.arena.relax_update hfrom hmem hlt _ (fun _ => rfl) (fun _ => rfl) (fun _ => rfl)
        (fun _ => rfl) (fun _ => rfl) (fun _ => rfl)
    · exact h.arena
  · intro Q1 k
    rw [hE, hlen, hQ]; exact h.explored Q1 k
  · intro k hk
    rw [hlen]
    rcases relax_open C n_from n_to s Q with e | ⟨_, e⟩
    · rw [e] at hk; exact h.open_ok k hk
    · rw [e] at hk
      rcases List.mem_cons.mp hk with e1 | e1
      · rw [e1]; exact hto
      · exact h.open_ok k e1
  · intro k hk
    rw [hGl] at hk
    rw [hlen, hQ]; exact h.goal_ok k hk
  · intro Q1 k hm
    rw [hE] at hm
    rw [hlen, hQ]; exact h.explored_mem Q1 k hm
  · intro c hc
    rw [hC] at hc
    exact h.calls_ok c hc

theorem Later.refl (s : LaCAM) : Later s s where
  len_le := Nat.le_refl _
  Q_eq := fun _ _ => rfl
  h_eq := fun _ _ => rfl
  priorities_eq := fun _ _ => rfl
  order_eq := fun _ _ => rfl
  g_le := fun _ _ => Nat.le_refl _
  keep := fun _ _ _ => ⟨rfl, rfl, rfl⟩
  goal_eq := fun _ h => h
  calls_sub := fun _ h => h

theorem Later.later_trans {s t u : LaCAM} (h1 : Later s t) (h2 : Later t u) : Later s u where
  len_le := Nat.le_trans h1.len_le h2.len_le
  Q_eq := fun i hi => (h2.Q_eq i (Nat.lt_of_lt_of_le hi h1.len_le)).trans (h1.Q_eq i hi)
  h_eq := fun i hi => (h2.h_eq i (Nat.lt_of_lt_of_le hi h1.len_le)).trans (h1.h_eq i hi)
  priorities_eq := fun i hi =>
    (h2.priorities_eq i (Nat.lt_of_lt_of_le hi h1.len_le)).trans (h1.priorities_eq i hi)
  order_eq := fun i hi =>
    (h2.order_eq i (Nat.lt_of_lt_of_le hi h1.len_le)).trans (h1.order_eq i hi)
  g_le := fun i hi =>
    Nat.le_trans (h2.g_le i (Nat.lt_of_lt_of_le hi h1.len_le)) (h1.g_le i hi)
  keep := by
    intro i hi e
    have hi2 := Nat.lt_of_lt_of_le hi h1.len_le
    have a := h1.g_le i hi
    have b := h2.g_le i hi2
    have e1 : (nodeAt t.nodes i).g = (nodeAt s.nodes i).g := by omega
    have e2 : (nodeAt u.nodes i).g = (nodeAt t.nodes i).g := by omega
    obtain ⟨k1, k2, k3⟩ := h1.keep i hi e1
    obtain ⟨l1, l2, l3⟩ := h2.keep i hi2 e2
    exact ⟨l1.trans k1, l2.trans k2, l3.trans k3⟩
  goal_eq := fun k h => h2.goal_eq k (h1.goal_eq k h)
  calls_sub := fun c h => h2.calls_sub c (h1.calls_sub c h)

/-- A state change that touches no node field other than `neighbors` and `search_tree`, adds
calls and keeps the goal is a `Later` step. -/
theorem Later.of_frame {s t : LaCAM} (hlen : s.nodes.length ≤ t.nodes.length)
    (hQ : ∀ i, i < s.nodes.length → (nodeAt t.nodes i).Q = (nodeAt s.nodes i).Q)
    (hh : ∀ i, i < s.nodes.length → (nodeAt t.nodes i).h = (nodeAt s.nodes i).h)
    (hpr : ∀ i, i < s.nodes.length →
      (nodeAt t.nodes i).priorities = (nodeAt s.nodes i).priorities)
    (hor : ∀ i, i < s.nodes.length → (nodeAt t.nodes i).order = (nodeAt s.nodes i).order)
    (hg : ∀ i, i < s.nodes.length → (nodeAt t.nodes i).g = (nodeAt s.nodes i).g)
    (hf : ∀ i, i < s.nodes.length → (nodeAt t.nodes i).f = (nodeAt s.nodes i).f)
    (hp : ∀ i, i < s.nodes.length → (nodeAt t.nodes i).parent = (nodeAt s.nodes i).parent)
    (hd : ∀ i, i < s.nodes.length → (nodeAt t.nodes i).depth = (nodeAt s.nodes i).depth)
    (hgoal : ∀ k, s.H_goal = some k → t.H_goal = some k)
    (hc : ∀ c, c ∈ s.calls → c ∈ t.calls) : Later s t where
  len_le := hlen
  Q_eq := hQ
  h_eq := hh
  priorities_eq := hpr
  order_eq := hor
  g_le := fun i hi => Nat.le_of_eq (hg i hi)
  keep := fun i hi _ => ⟨hf i hi, hp i hi, hd i hi⟩
  goal_eq := hgoal
  calls_sub := hc

theorem relax_later {σ : Type} (C : Ctx σ) (n_from n_to : Nat) (s : LaCAM) (Q : List Nat) :
    Later s (relax C n_from n_to s Q).1 := by
  obtain ⟨_, hGl, hC, _, _⟩ := relax_other C n_from n_to s Q
  refine
    { len_le := Nat.le_of_eq (relax_length C n_from n_to s Q).symm
      Q_eq := fun i _ => relax_Q C n_from n_to s Q i
      h_eq := fun i _ => relax_proj (fun n => n.h) (fun _ _ _ _ _ => rfl) C n_from n_to s Q i
      priorities_eq := fun i _ =>
        relax_proj (fun n => n.priorities) (fun _ _ _ _ _ => rfl) C n_from n_to s Q i
      order_eq := fun i _ =>
        relax_proj (fun n => n.order) (fun _ _ _ _ _ => rfl) C n_from n_to s Q i
      g_le := ?_
      keep := ?_
      goal_eq := fun k h => by rw [hGl]; exact h
      calls_sub := fun c h => by rw [hC]; exact h }
  · intro i hi
    unfold relax
    simp only
    split
    · rw [nodeAt_updNode]
      split
      · rename_i hlt hc
        obtain ⟨rfl, _⟩ := hc
        exact Nat.le_of_lt hlt
      · exact Nat.le_refl _
    · exact Nat.le_refl _
  · intro i hi
    unfold relax
    simp only
    split
    · rw [nodeAt_updNode]
      split
      · rename_i hlt hc
        obtain ⟨rfl, _⟩ := hc
        intro e
        simp only at e
        omega
      · intro _; exact ⟨rfl, rfl, rfl⟩
    · intro _; exact ⟨rfl, rfl, rfl⟩

/-! ## Induction over the loops of `rewrite` -/

theorem relaxAll_preserves {σ : Type} (C : Ctx σ) (P : LaCAM → Prop) (n_from : Nat)
    (hP : ∀ s n_to Q, Inv C s → n_from < s.nodes.length →
      n_to ∈ (nodeAt s.nodes n_from).neighbors → P s → P (relax C n_from n_to s Q).1)
    (l : List Nat) (s : LaCAM) (Q : List Nat) (hinv : Inv C s)
    (hfrom : n_from < s.nodes.length)
    (hl : ∀ x, x ∈ l → x ∈ (nodeAt s.nodes n_from).neighbors)
    (hQ : ∀ q, q ∈ Q → q < s.nodes.length) (hp : P s) :
    Inv C (relaxAll C n_from l s Q).1 ∧ P (relaxAll C n_from l s Q).1
      ∧ (relaxAll C n_from l s Q).1.nodes.length = s.nodes.length
      ∧ ∀ q, q ∈ (relaxAll C n_from l s Q).2 → q < s.nodes.length := by
  induction l generalizing s Q with
  | nil => exact ⟨hinv, hp, rfl, hQ⟩
  | cons n_to rest ih =>
    unfold relaxAll
    have hmem := hl n_to (List.mem_cons_self _ _)
    have hlen := relax_length C n_from n_to s Q
    have hto : n_to < s.nodes.length := (hinv.arena.nbr_ok n_from hfrom n_to hmem).1
    have h1 := ih (relax C n_from n_to s Q).1 (relax C n_from n_to s Q).2
      (relax_inv C Q hinv hfrom hmem) (by rw [hlen]; exact hfrom)
      (by
        intro x hx
        rw [relax_neighbors]
        exact hl x (List.mem_cons_of_mem _ hx))
      (by
        intro q hq
        rw [hlen]
        rcases relax_queue C n_from n_to s Q with e | e
        · rw [e] at hq; exact hQ q hq
        · rw [e] at hq
          rcases List.mem_append.mp hq with h | h
          · exact hQ q h
          · rw [List.mem_singleton.mp h]; exact hto)
      (hP s n_to Q hinv hfrom hmem hp)
    rw [hlen] at h1
    exact h1

theorem rewriteLoop_preserves {σ : Type} (C : Ctx σ) (P : LaCAM → Prop)
    (hP : ∀ s n_from n_to Q, Inv C s → n_from < s.nodes.length →
      n_to ∈ (nodeAt s.nodes n_from).neighbors → P s → P (relax C n_from n_to s Q).1)
    (fuel : Nat) (Q : List Nat) (s : LaCAM) (hinv : Inv C s)
    (hQ : ∀ q, q ∈ Q → q < s.nodes.length) (hp : P s) :
    Inv C (rewriteLoop C fuel Q s).1 ∧ P (rewriteLoop C fuel Q s).1 := by
  induction fuel generalizing Q s with
  | zero => exact ⟨hinv, hp⟩
  | succ fuel ih =>
    cases Q with
    | nil => exact ⟨hinv, hp⟩
    | cons n_from Q =>
      unfold rewriteLoop
      have hfrom := hQ n_from (List.mem_cons_self _ _)
      obtain ⟨a, b, c, d⟩ := relaxAll_preserves C P n_from (fun s n_to Q => hP s n_from n_to Q)
        (nodeAt s.nodes n_from).neighbors s Q hinv hfrom (fun _ h => h)
        (fun q hq => hQ q (List.mem_cons_of_mem _ hq)) hp
      exact ih _ _ a (by rw [c]; exact d) b

/-! ## Steps that only touch constraint queues, `OPEN`, the graph or the call record -/

theorem SameCore.rfl (a : HNode) : SameCore a a :=
  ⟨Eq.refl _, Eq.refl _, Eq.refl _, Eq.refl _, Eq.refl _, Eq.refl _, Eq.refl _, Eq.refl _,
    Eq.refl _⟩

theorem sameCore_updNode (nodes : List HNode) (H : Nat) (f : HNode → HNode)
    (hf : ∀ n, SameCore (f n) n) (i : Nat) :
    SameCore (nodeAt (updNode nodes H f) i) (nodeAt nodes i) := by
  rw [nodeAt_updNode]
  split
  · exact hf _
  · exact SameCore.rfl _

theorem Inv.inv_frame {σ : Type} {C : Ctx σ} {s t : LaCAM} (h : Inv C s)
    (hlen : t.nodes.length = s.nodes.length)
    (hcore : ∀ i, SameCore (nodeAt t.nodes i) (nodeAt s.nodes i))
    (hE : t.EXPLORED = s.EXPLORED) (hO : ∀ k, k ∈ t.OPEN → k < s.nodes.length)
    (hG : ∀ k, t.H_goal = some k → k < s.nodes.length ∧ (nodeAt s.nodes k).Q = C.ins.goals)
    (hc : ∀ c, c ∈ s.calls → c ∈ t.calls)
    (hc2 : ∀ c, c ∈ t.calls → c ∈ s.calls ∨ StepSolverReturned C c.1 c.2) : Inv C t where
  arena := h.arena.arena_frame hlen (fun i => (hcore i).1) (fun i => (hcore i).2.1)
    (fun i => (hcore i).2.2.1) (fun i => (hcore i).2.2.2.1) (fun i => (hcore i).2.2.2.2.1)
    (fun i => (hcore i).2.2.2.2.2.1) hc
  explored := by
    intro Q k
    rw [hE, hlen, (hcore k).1]; exact h.explored Q k
  open_ok := by
    intro k hk
    rw [hlen]; exact hO k hk
  goal_ok := by
    intro k hk
    rw [hlen, (hcore k).1]; exact hG k hk
  explored_mem := by
    intro Q k hm
    rw [hE] at hm
    rw [hlen, (hcore k).1]; exact h.explored_mem Q k hm
  calls_ok := by
    intro c hc1
    rcases hc2 c hc1 with e | e
    · exact h.calls_ok c e
    · exact e

theorem Later.later_frame {s t : LaCAM} (hlen : t.nodes.length = s.nodes.length)
    (hcore : ∀ i, SameCore (nodeAt t.nodes i) (nodeAt s.nodes i))
    (hG : ∀ k, s.H_goal = some k → t.H_goal = some k)
    (hc : ∀ c, c ∈ s.calls → c ∈ t.calls) : Later s t :=
  Later.of_frame (Nat.le_of_eq hlen.symm) (fun i _ => (hcore i).1)
    (fun i _ => (hcore i).2.2.2.2.1) (fun i _ => (hcore i).2.2.2.2.2.2.2.1)
    (fun i _ => (hcore i).2.2.2.2.2.2.2.2) (fun i _ => (hcore i).2.2.2.1)
    (fun i _ => (hcore i).2.2.2.2.2.1) (fun i _ => (hcore i).2.1)
    (fun i _ => (hcore i).2.2.2.2.2.2.1) hG hc

/-! ## `rewrite` -/

theorem rewrite_not_anytime {σ : Type} (C : Ctx σ) (s : LaCAM) (H_from H_to : Nat)
    (h : C.ANYTIME = false) : rewrite C s H_from H_to = s := by
  unfold rewrite
  simp [h]

theorem rewrite_preserves {σ : Type} (C : Ctx σ) (P : LaCAM → Prop)
    (hP : ∀ s n_from n_to Q, Inv C s → n_from < s.nodes.length →
      n_to ∈ (nodeAt s.nodes n_from).neighbors → P s → P (relax C n_from n_to s Q).1)
    (s : LaCAM) (H_from H_to : Nat) (hinv : Inv C s) (hfrom : H_from < s.nodes.length)
    (hto : H_to < s.nodes.length)
    (hc : ((nodeAt s.nodes H_from).Q, (nodeAt s.nodes H_to).Q) ∈ s.calls) (hs : P s)
    (hins : P { s with nodes := updNode s.nodes H_from fun n =>
      { n with neighbors := setInsert s.nodes H_to n.neighbors } }) :
    Inv C (rewrite C s H_from H_to) ∧ P (rewrite C s H_from H_to) := by
  unfold rewrite
  cases hA : C.ANYTIME with
  | false => exact ⟨hinv, hs⟩
  | true =>
    simp only [Bool.not_true, Bool.false_eq_true, if_false]
    apply rewriteLoop_preserves C P hP
    · have hQ : ∀ i, (nodeAt (updNode s.nodes H_from fun n =>
          { n with neighbors := setInsert s.nodes H_to n.neighbors }) i).Q
            = (nodeAt s.nodes i).Q :=
        fun i => nodeAt_updNode_proj (fun n => n.Q) s.nodes H_from i _ (fun _ => rfl)
      refine { arena := hinv.arena.insert_neighbor hfrom hto hc, explored := ?_,
               open_ok := ?_, goal_ok := ?_, explored_mem := ?_, calls_ok := hinv.calls_ok }
      · intro Q k
        simp only [length_updNode]
        rw [hQ]; exact hinv.explored Q k
      · intro k hk
        simp only [length_updNode]
        exact hinv.open_ok k hk
      · intro k hk
        simp only [length_updNode]
        rw [hQ]; exact hinv.goal_ok k hk
      · intro Q k hm
        simp only [length_updNode]
        rw [hQ]; exact hinv.explored_mem Q k hm
    · intro q hq
      simp only [length_updNode]
      rw [List.mem_singleton.mp hq]; exact hfrom
    · exact hins

theorem rewrite_inv {σ : Type} (C : Ctx σ) (s : LaCAM) (H_from H_to : Nat) (hinv : Inv C s)
    (hfrom : H_from < s.nodes.length) (hto : H_to < s.nodes.length)
    (hc : ((nodeAt s.nodes H_from).Q, (nodeAt s.nodes H_to).Q) ∈ s.calls) :
    Inv C (rewrite C s H_from H_to) :=
  (rewrite_preserves C (fun _ => True) (fun _ _ _ _ _ _ _ _ => trivial) s H_from H_to hinv hfrom
    hto hc trivial trivial).1

theorem rewrite_later {σ : Type} (C : Ctx σ) (s : LaCAM) (H_from H_to : Nat) (hinv : Inv C s)
    (hfrom : H_from < s.nodes.length) (hto : H_to < s.nodes.length)
    (hc : ((nodeAt s.nodes H_from).Q, (nodeAt s.nodes H_to).Q) ∈ s.calls) :
    Later s (rewrite C s H_from H_to) := by
  refine (rewrite_preserves C (fun t => Later s t)
    (fun t n_from n_to Q _ _ _ ht => ht.later_trans (relax_later C n_from n_to t Q)) s H_from H_to
    hinv hfrom hto hc (Later.refl s) ?_).2
  refine Later.of_frame (by simp [length_updNode]) ?_ ?_ ?_ ?_ ?_ ?_ ?_ ?_ (fun _ h => h)
    (fun _ h => h)
  · exact fun i _ => nodeAt_updNode_proj (fun n => n.Q) s.nodes H_from i _ (fun _ => rfl)
  · exact fun i _ => nodeAt_updNode_proj (fun n => n.h) s.nodes H_from i _ (fun _ => rfl)
  · exact fun i _ => nodeAt_updNode_proj (fun n => n.priorities) s.nodes H_from i _ (fun _ => rfl)
  · exact fun i _ => nodeAt_updNode_proj (fun n => n.order) s.nodes H_from i _ (fun _ => rfl)
  · exact fun i _ => nodeAt_updNode_proj (fun n => n.g) s.nodes H_from i _ (fun _ => rfl)
  · exact fun i _ => nodeAt_updNode_proj (fun n => n.f) s.nodes H_from i _ (fun _ => rfl)
  · exact fun i _ => nodeAt_updNode_proj (fun n => n.parent) s.nodes H_from i _ (fun _ => rfl)
  · exact fun i _ => nodeAt_updNode_proj (fun n => n.depth) s.nodes H_from i _ (fun _ => rfl)

/-! ## One iteration of the search loop keeps the invariant -/

theorem Inv.inv_of_nodes_eq {σ : Type} {C : Ctx σ} {s t : LaCAM} (h : Inv C s)
    (hn : t.nodes = s.nodes) (hE : t.EXPLORED = s.EXPLORED)
    (hO : ∀ k, k ∈ t.OPEN → k < s.nodes.length)
    (hG : ∀ k, t.H_goal = some k → k < s.nodes.length ∧ (nodeAt s.nodes k).Q = C.ins.goals)
    (hc : t.calls = s.calls) : Inv C t :=
  h.inv_frame (by rw [hn]) (fun i => by rw [hn]; exact SameCore.rfl _) hE hO hG
    (fun c h1 => by rw [hc]; exact h1) (fun c h1 => Or.inl (by rw [← hc]; exact h1))

theorem Later.later_of_nodes_eq {s t : LaCAM} (hn : t.nodes = s.nodes)
    (hG : ∀ k, s.H_goal = some k → t.H_goal = some k)
    (hc : ∀ c, c ∈ s.calls → c ∈ t.calls) : Later s t :=
  Later.later_frame (by rw [hn]) (fun i => by rw [hn]; exact SameCore.rfl _) hG hc

theorem random_insert_frame {σ : Type} (C : Ctx σ) (s : LaCAM) (w : σ) :
    (random_insert C s w).1.nodes = s.nodes ∧ (random_insert C s w).1.EXPLORED = s.EXPLORED
      ∧ (random_insert C s w).1.H_goal = s.H_goal ∧ (random_insert C s w).1.calls = s.calls
      ∧ (random_insert C s w).1.G = s.G ∧ (random_insert C s w).1.loop_cnt = s.loop_cnt := by
  unfold random_insert
  split
  · simp
  · split
    · simp
    · split <;> simp

theorem random_insert_open {σ : Type} (C : Ctx σ) (s : LaCAM) (w : σ) :
    (random_insert C s w).1.OPEN = s.OPEN
      ∨ ∃ k, (k = 0 ∨ k ∈ s.OPEN) ∧ (random_insert C s w).1.OPEN = k :: s.OPEN := by
  unfold random_insert
  split
  · left; rfl
  · split
    · right; exact ⟨0, Or.inl rfl, rfl⟩
    · split
      · right
        refine ⟨_, ?_, rfl⟩
        generalize (C.get_random_int (C.rrd w).2 0 (s.OPEN.length - 1)).1 = j
        by_cases hj : j < s.OPEN.length
        · right
          rw [List.getD_eq_getElem?_getD, List.getElem?_eq_getElem hj]
          exact List.getElem_mem _
        · left
          rw [List.getD_eq_getElem?_getD, List.getElem?_eq_none (by omega)]
          rfl
      · left; rfl

theorem random_insert_good {σ : Type} (C : Ctx σ) (s : LaCAM) (w : σ) (h : Inv C s) :
    Inv C (random_insert C s w).1 ∧ Later s (random_insert C s w).1 := by
  obtain ⟨h1, h2, h3, h4, _, _⟩ := random_insert_frame C s w
  refine ⟨h.inv_of_nodes_eq h1 h2 ?_ (fun k hk => h.goal_ok k (h3 ▸ hk)) h4,
    Later.later_of_nodes_eq h1 (fun k hk => h3 ▸ hk) (fun c hc => h4 ▸ hc)⟩
  intro k hk
  rcases random_insert_open C s w with e | ⟨j, hj, e⟩
  · rw [e] at hk; exact h.open_ok k hk
  · rw [e] at hk
    rcases List.mem_cons.mp hk with e1 | e1
    · subst e1
      rcases hj with rfl | hj
      · exact h.arena.pos
      · exact h.open_ok _ hj
    · exact h.open_ok k e1

theorem successor_good {σ : Type} (C : Ctx σ) (s : LaCAM) (H : Nat) (Q_to : Config) (w : σ)
    (h : Inv C s) (hH : H < s.nodes.length) (hlen : Q_to.length = C.ins.N)
    (hc : ((nodeAt s.nodes H).Q, Q_to) ∈ s.calls) :
    Inv C (successor C s H Q_to w).1 ∧ Later s (successor C s H Q_to w).1 := by
  unfold successor
  split
  · rename_i hE
    have hnew : ∀ i, i < s.nodes.length → (nodeAt s.nodes i).Q ≠ Q_to := by
      intro i hi e
      have := (h.explored Q_to i).mpr ⟨hi, e⟩
      rw [hE] at this
      cases this
    have hA := h.arena.new_node C Q_to (get_h_val C Q_to) hH hlen hnew hc (fun _ hc => hc)
    have hL := length_newHNode C s.nodes Q_to (some H) (get_g_val C.ins s.nodes H Q_to)
      (get_h_val C Q_to)
    have hnw := nodeAt_newHNode_new C s.nodes Q_to H (get_g_val C.ins s.nodes H Q_to)
      (get_h_val C Q_to) hH
    have hQ : ∀ i, i < s.nodes.length →
        (nodeAt (newHNode C s.nodes Q_to (some H) (get_g_val C.ins s.nodes H Q_to)
          (get_h_val C Q_to)) i).Q = (nodeAt s.nodes i).Q :=
      fun i hi =>
        nodeAt_newHNode_old_proj (fun n => n.Q) (fun _ _ => rfl) C s.nodes Q_to H _ _ hi
    constructor
    · refine { arena := hA, explored := ?_, open_ok := ?_, goal_ok := ?_, explored_mem := ?_,
               calls_ok := h.calls_ok }
      · intro Q k
        simp only [hL]
        rw [List.lookup_cons]
        by_cases e : Q = Q_to
        · subst e
          simp only [beq_self_eq_true]
          constructor
          · intro hk
            have : s.nodes.length = k := Option.some.inj hk
            subst this
            exact ⟨by omega, by rw [hnw]; rfl⟩
          · rintro ⟨hk, hq⟩
            by_cases ek : k < s.nodes.length
            · rw [hQ k ek] at hq
              exact absurd hq (hnew k ek)
            · have : k = s.nodes.length := by omega
              rw [this]
        · have e' : (Q == Q_to) = false := by simpa using e
          simp only [e']
          rw [h.explored Q k]
          constructor
          · rintro ⟨hk, hq⟩
            exact ⟨by omega, by rw [hQ k hk]; exact hq⟩
          · rintro ⟨hk, hq⟩
            by_cases ek : k < s.nodes.length
            · exact ⟨ek, by rw [← hQ k ek]; exact hq⟩
            · have : k = s.nodes.length := by omega
              subst this
              rw [hnw] at hq
              exact absurd hq.symm e
      · intro k hk
        simp only [hL]
        rcases List.mem_cons.mp hk with e | e
        · omega
        · have := h.open_ok k e
          omega
      · intro k hk
        simp only [hL]
        obtain ⟨a, b⟩ := h.goal_ok k hk
        exact ⟨by omega, by rw [hQ k a]; exact b⟩
      · intro Q k hm
        simp only [hL]
        rcases List.mem_cons.mp hm with e | e
        · have e1 : Q = Q_to := congrArg Prod.fst e
          have e2 : k = s.nodes.length := congrArg Prod.snd e
          subst e1; subst e2
          exact ⟨by omega, by rw [hnw]; rfl⟩
        · obtain ⟨a, b⟩ := h.explored_mem Q k e
          exact ⟨by omega, by rw [hQ k a]; exact b⟩
    · refine Later.of_frame (by simp only [hL]; omega) hQ ?_ ?_ ?_ ?_ ?_ ?_ ?_ (fun _ h => h)
        (fun _ h => h)
      · exact fun i hi =>
          nodeAt_newHNode_old_proj (fun n => n.h) (fun _ _ => rfl) C s.nodes Q_to H _ _ hi
      · exact fun i hi =>
          nodeAt_newHNode_old_proj (fun n => n.priorities) (fun _ _ => rfl) C s.nodes Q_to H _ _
            hi
      · exact fun i hi =>
          nodeAt_newHNode_old_proj (fun n => n.order) (fun _ _ => rfl) C s.nodes Q_to H _ _ hi
      · exact fun i hi =>
          nodeAt_newHNode_old_proj (fun n => n.g) (fun _ _ => rfl) C s.nodes Q_to H _ _ hi
      · exact fun i hi =>
          nodeAt_newHNode_old_proj (fun n => n.f) (fun _ _ => rfl) C s.nodes Q_to H _ _ hi
      · exact fun i hi =>
          nodeAt_newHNode_old_proj (fun n => n.parent) (fun _ _ => rfl) C s.nodes Q_to H _ _ hi
      · exact fun i hi =>
          nodeAt_newHNode_old_proj (fun n => n.depth) (fun _ _ => rfl) C s.nodes Q_to H _ _ hi
  · rename_i H_known hE
    obtain ⟨hk, hq⟩ := (h.explored Q_to H_known).mp hE
    have hc' : ((nodeAt s.nodes H).Q, (nodeAt s.nodes H_known).Q) ∈ s.calls := by
      rw [hq]; exact hc
    have hI := rewrite_inv C s H H_known h hH hk hc'
    have hLt := rewrite_later C s H H_known h hH hk hc'
    have hpush : ∀ x, x < s.nodes.length →
        Inv C { rewrite C s H H_known with OPEN := x :: (rewrite C s H H_known).OPEN }
        ∧ Later s { rewrite C s H H_known with OPEN := x :: (rewrite C s H H_known).OPEN } := by
      intro x hx
      constructor
      · refine hI.inv_of_nodes_eq rfl rfl ?_ (fun k hk => hI.goal_ok k hk) rfl
        intro k hk
        rcases List.mem_cons.mp hk with e | e
        · rw [e]; exact Nat.lt_of_lt_of_le hx hLt.len_le
        · exact hI.open_ok k e
      · exact hLt.later_trans (Later.later_of_nodes_eq rfl (fun _ h => h) (fun _ h => h))
    split
    · exact hpush H_known hk
    · exact hpush 0 h.arena.pos

theorem low_level_frame {σ : Type} (C : Ctx σ) (s : LaCAM) (H : Nat) (L : LNode) (w : σ) :
    (low_level C s H L w).1.nodes.length = s.nodes.length
      ∧ (∀ i, SameCore (nodeAt (low_level C s H L w).1.nodes i) (nodeAt s.nodes i))
      ∧ (low_level C s H L w).1.EXPLORED = s.EXPLORED
      ∧ (low_level C s H L w).1.OPEN = s.OPEN
      ∧ (low_level C s H L w).1.H_goal = s.H_goal
      ∧ (low_level C s H L w).1.calls = s.calls
      ∧ (low_level C s H L w).1.loop_cnt = s.loop_cnt := by
  unfold low_level
  simp only
  split
  · refine ⟨by simp [length_updNode], ?_, rfl, rfl, rfl, rfl, rfl⟩
    intro i
    refine sameCore_updNode _ _ _ ?_ i
    intro n
    exact ⟨rfl, rfl, rfl, rfl, rfl, rfl, rfl, rfl, rfl⟩
  · exact ⟨rfl, fun i => SameCore.rfl _, rfl, rfl, rfl, rfl, rfl⟩

theorem SameCore.core_trans {a b c : HNode} (h1 : SameCore a b) (h2 : SameCore b c) :
    SameCore a c :=
  ⟨h1.1.trans h2.1, h1.2.1.trans h2.2.1, h1.2.2.1.trans h2.2.2.1,
    h1.2.2.2.1.trans h2.2.2.2.1, h1.2.2.2.2.1.trans h2.2.2.2.2.1,
    h1.2.2.2.2.2.1.trans h2.2.2.2.2.2.1, h1.2.2.2.2.2.2.1.trans h2.2.2.2.2.2.2.1,
    h1.2.2.2.2.2.2.2.1.trans h2.2.2.2.2.2.2.2.1, h1.2.2.2.2.2.2.2.2.trans h2.2.2.2.2.2.2.2.2⟩

/-- The state in which the step solver is called: one constraint has left the queue of `H`
and the low-level expansion is done. -/
theorem dequeued_frame {σ : Type} (C : Ctx σ) (s : LaCAM) (H : Nat) (L : LNode)
    (rest : List LNode) (w : σ) :
    (low_level C { s with nodes := updNode s.nodes H fun n => { n with search_tree := rest } }
        H L w).1.nodes.length = s.nodes.length
      ∧ (∀ i, SameCore
          (nodeAt (low_level C
            { s with nodes := updNode s.nodes H fun n => { n with search_tree := rest } }
            H L w).1.nodes i) (nodeAt s.nodes i))
      ∧ (low_level C { s with nodes := updNode s.nodes H fun n => { n with search_tree := rest } }
          H L w).1.EXPLORED = s.EXPLORED
      ∧ (low_level C { s with nodes := updNode s.nodes H fun n => { n with search_tree := rest } }
          H L w).1.OPEN = s.OPEN
      ∧ (low_level C { s with nodes := updNode s.nodes H fun n => { n with search_tree := rest } }
          H L w).1.H_goal = s.H_goal
      ∧ (low_level C { s with nodes := updNode s.nodes H fun n => { n with search_tree := rest } }
          H L w).1.calls = s.calls
      ∧ (low_level C { s with nodes := updNode s.nodes H fun n => { n with search_tree := rest } }
          H L w).1.loop_cnt = s.loop_cnt := by
  obtain ⟨a, b, c, d, e, f, g⟩ := low_level_frame C
    { s with nodes := updNode s.nodes H fun n => { n with search_tree := rest } } H L w
  refine ⟨by rw [a]; simp [length_updNode], ?_, c, d, e, f, g⟩
  intro i
  refine (b i).core_trans (sameCore_updNode _ _ _ ?_ i)
  intro n
  exact ⟨rfl, rfl, rfl, rfl, rfl, rfl, rfl, rfl, rfl⟩

theorem expand_good {σ : Type} (C : Ctx σ) (hwf : WellFormed C) (s : LaCAM) (H : Nat) (w : σ)
    (h : Inv C s) (hH : H < s.nodes.length) :
    Inv C (expand C s H w).1 ∧ Later s (expand C s H w).1 := by
  unfold expand
  split
  · constructor
    · refine h.inv_of_nodes_eq rfl rfl ?_ (fun k hk => h.goal_ok k hk) rfl
      intro k hk
      exact h.open_ok k (List.mem_of_mem_tail hk)
    · exact Later.later_of_nodes_eq rfl (fun _ h => h) (fun _ h => h)
  · rename_i L rest _
    obtain ⟨a, b, c, d, e, f, _⟩ := dequeued_frame C s H L rest w
    simp only
    split
    · constructor
      · exact h.inv_frame a b c (fun k hk => h.open_ok k (by rw [← d]; exact hk))
          (fun k hk => h.goal_ok k (by rw [← e]; exact hk)) (fun x hx => by rw [f]; exact hx)
          (fun x hx => Or.inl (by rw [← f]; exact hx))
      · exact Later.later_frame a b (fun k hk => by rw [e]; exact hk) (fun x hx => by rw [f]; exact hx)
    · rename_i Q_to hres
      have hQlen : Q_to.length = C.ins.N := hwf.pibt_len _ _ _ _ _ _ hres
      have hI : Inv C
          { (low_level C
              { s with nodes := updNode s.nodes H fun n => { n with search_tree := rest } }
              H L w).1 with
            calls := ((nodeAt (low_level C
              { s with nodes := updNode s.nodes H fun n => { n with search_tree := rest } }
              H L w).1.nodes H).Q, Q_to) :: (low_level C
              { s with nodes := updNode s.nodes H fun n => { n with search_tree := rest } }
              H L w).1.calls } :=
        h.inv_frame a b c (fun k hk => h.open_ok k (by rw [← d]; exact hk))
          (fun k hk => h.goal_ok k (by rw [← e]; exact hk))
          (fun x hx => List.mem_cons_of_mem _ (by rw [f]; exact hx))
          (by
            intro x hx
            rcases List.mem_cons.mp hx with e1 | e1
            · right
              subst e1
              exact ⟨_, _, _, _, hres⟩
            · left
              rw [← f]; exact e1)
      have hLt : Later s
          { (low_level C
              { s with nodes := updNode s.nodes H fun n => { n with search_tree := rest } }
              H L w).1 with
            calls := ((nodeAt (low_level C
              { s with nodes := updNode s.nodes H fun n => { n with search_tree := rest } }
              H L w).1.nodes H).Q, Q_to) :: (low_level C
              { s with nodes := updNode s.nodes H fun n => { n with search_tree := rest } }
              H L w).1.calls } :=
        Later.later_frame a b (fun k hk => by rw [e]; exact hk) (fun x hx => List.mem_cons_of_mem _ (by rw [f]; exact hx))
      obtain ⟨g1, g2⟩ := successor_good C _ H Q_to
        (set_new_config C (low_level C
          { s with nodes := updNode s.nodes H fun n => { n with search_tree := rest } }
          H L w).1 H L (List.replicate C.ins.N none) (low_level C
          { s with nodes := updNode s.nodes H fun n => { n with search_tree := rest } }
          H L w).2).2 hI (by simp only [a]; exact hH) hQlen (List.mem_cons_self _ _)
      exact ⟨g1, hLt.later_trans g2⟩

theorem visit_good {σ : Type} (C : Ctx σ) (hwf : WellFormed C) (s : LaCAM) (w : σ)
    (h : Inv C s) : Inv C (visit C s w).2.1 ∧ Later s (visit C s w).2.1 := by
  have hH : s.OPEN.headD 0 < s.nodes.length := by
    cases hO : s.OPEN with
    | nil => exact h.arena.pos
    | cons a l => exact h.open_ok a (by rw [hO]; exact List.mem_cons_self _ _)
  unfold visit
  simp only
  split
  · constructor
    · refine h.inv_of_nodes_eq rfl rfl ?_ (fun k hk => h.goal_ok k hk) rfl
      intro k hk
      rcases List.mem_cons.mp hk with e | e
      · rw [e]; exact h.arena.pos
      · exact h.open_ok k (List.mem_of_mem_tail e)
    · exact Later.later_of_nodes_eq rfl (fun _ h => h) (fun _ h => h)
  · split
    · rename_i hg
      simp only [Bool.and_eq_true, Option.isNone_iff_eq_none, is_same_config,
        decide_eq_true_eq] at hg
      constructor
      · refine h.inv_of_nodes_eq rfl rfl (fun k hk => h.open_ok k hk) ?_ rfl
        intro k hk
        have : s.OPEN.headD 0 = k := Option.some.inj hk
        subst this
        exact ⟨hH, hg.2⟩
      · refine Later.later_of_nodes_eq rfl ?_ (fun _ h => h)
        intro k hk
        rw [hg.1] at hk
        cases hk
    · exact expand_good C hwf s _ w h hH

theorem iteration_good {σ : Type} (C : Ctx σ) (hwf : WellFormed C) (s : LaCAM) (w : σ)
    (h : Inv C s) : Inv C (iteration C s w).2.1 ∧ Later s (iteration C s w).2.1 := by
  unfold iteration
  have h0 : Inv C { s with loop_cnt := s.loop_cnt + 1 } :=
    h.inv_of_nodes_eq rfl rfl (fun k hk => h.open_ok k hk) (fun k hk => h.goal_ok k hk) rfl
  have l0 : Later s { s with loop_cnt := s.loop_cnt + 1 } :=
    Later.later_of_nodes_eq rfl (fun _ h => h) (fun _ h => h)
  obtain ⟨h1, l1⟩ := random_insert_good C { s with loop_cnt := s.loop_cnt + 1 } w h0
  obtain ⟨h2, l2⟩ := visit_good C hwf _ (random_insert C { s with loop_cnt := s.loop_cnt + 1 } w).2 h1
  exact ⟨h2, (l0.later_trans l1).later_trans l2⟩

/-! ## The invariant along a run -/

theorem nodeAt_init_zero {σ : Type} (C : Ctx σ) (Q : Config) :
    nodeAt (newHNode C [] Q none 0 0) 0 = HNode.init C [] Q none 0 0 := by
  simp [newHNode, nodeAt]

theorem initState_inv {σ : Type} (C : Ctx σ) (hwf : WellFormed C) (G : Graph) :
    Inv C (initState C G) := by
  have hlen : (initState C G).nodes.length = 1 := by simp [initState, newHNode]
  have h0 : nodeAt (initState C G).nodes 0 = HNode.init C [] C.ins.starts none 0 0 :=
    nodeAt_init_zero C _
  have hone : ∀ i, i < (initState C G).nodes.length → i = 0 := by
    intro i hi; omega
  refine { arena := ?_, explored := ?_, open_ok := ?_, goal_ok := ?_, explored_mem := ?_,
           calls_ok := ?_ }
  · refine
      { pos := by omega
        root_Q := by rw [h0]; rfl
        root_parent := by rw [h0]; rfl
        root_g := by rw [h0]; rfl
        parent_ok := fun i hi hne => absurd (hone i hi) hne
        nbr_ok := ?_
        Q_inj := fun i j hi hj _ => (hone i hi).trans (hone j hj).symm
        Q_len := ?_
        f_eq := ?_ }
    · intro i hi j hj
      rw [hone i hi, h0] at hj
      cases hj
    · intro i hi
      rw [hone i hi, h0]; exact hwf.starts_len
    · intro i hi
      rw [hone i hi, h0]; rfl
  · intro Q k
    rw [hlen]
    show List.lookup Q [(C.ins.starts, 0)] = some k ↔ _
    rw [List.lookup_cons]
    by_cases e : Q = C.ins.starts
    · subst e
      simp only [beq_self_eq_true]
      constructor
      · intro hk
        have : 0 = k := Option.some.inj hk
        subst this
        exact ⟨by omega, by rw [h0]; rfl⟩
      · rintro ⟨hk, _⟩
        have : k = 0 := by omega
        rw [this]
    · have e' : (Q == C.ins.starts) = false := by simpa using e
      simp only [e', List.lookup_nil]
      constructor
      · intro hk; cases hk
      · rintro ⟨hk, hq⟩
        have : k = 0 := by omega
        subst this
        rw [h0] at hq
        exact absurd hq.symm e
  · intro k hk
    have : k = 0 := by simpa [initState] using hk
    omega
  · intro k hk
    cases hk
  · intro Q k hm
    have e : (Q, k) = (C.ins.starts, 0) := by simpa [initState] using hm
    have e1 : Q = C.ins.starts := congrArg Prod.fst e
    have e2 : k = 0 := congrArg Prod.snd e
    subst e1; subst e2
    exact ⟨by omega, by rw [h0]; rfl⟩
  · intro c hc
    cases hc

theorem Run.good {σ : Type} {C : Ctx σ} (hwf : WellFormed C) {s0 : LaCAM} {w0 : σ} {fl : Flow}
    {s : LaCAM} {w : σ} (hr : Run C s0 w0 fl s w) (h : Inv C s0) : Inv C s ∧ Later s0 s := by
  induction hr with
  | refl => exact ⟨h, Later.refl _⟩
  | step _ _ _ ih =>
    obtain ⟨a, b⟩ := ih
    obtain ⟨c, d⟩ := iteration_good C hwf _ _ a
    exact ⟨c, b.later_trans d⟩

theorem Run.append {σ : Type} {C : Ctx σ} {s0 : LaCAM} {w0 : σ} {s1 : LaCAM} {w1 : σ}
    {fl : Flow} {s : LaCAM} {w : σ} (h1 : Run C s0 w0 Flow.next s1 w1)
    (h2 : Run C s1 w1 fl s w) : Run C s0 w0 fl s w := by
  induction h2 with
  | refl => exact h1
  | step _ hO hE ih => exact Run.step ih hO hE

/-- What `searchLoop` returns is the end of a run: the loop was left by `break`, or its test
failed. -/
theorem searchLoop_run {σ : Type} (C : Ctx σ) (fuel : Nat) (s : LaCAM) (w : σ) (t : LaCAM)
    (w1 : σ) (h : searchLoop C fuel s w = some (t, w1)) :
    ∃ fl, Run C s w fl t w1
      ∧ (fl = Flow.stop ∨ t.OPEN.isEmpty = true ∨ C.is_expired t.loop_cnt = true) := by
  induction fuel generalizing s w with
  | zero => simp [searchLoop] at h
  | succ fuel ih =>
    unfold searchLoop at h
    split at h
    · rename_i hc
      have e : s = t ∧ w = w1 := by simpa using h
      obtain ⟨rfl, rfl⟩ := e
      refine ⟨Flow.next, Run.refl _ _, Or.inr ?_⟩
      simpa using hc
    · rename_i hc
      have hO : s.OPEN.isEmpty = false := by
        cases h1 : s.OPEN.isEmpty <;> simp_all
      have hE : C.is_expired s.loop_cnt = false := by
        cases h1 : C.is_expired s.loop_cnt <;> simp_all
      have hstep := Run.step (Run.refl s w) hO hE
      split at h
      · rename_i s1 w2 hit
        have e : s1 = t ∧ w2 = w1 := by simpa using h
        obtain ⟨rfl, rfl⟩ := e
        rw [hit] at hstep
        exact ⟨Flow.stop, hstep, Or.inl rfl⟩
      · rename_i s1 w2 hit
        rw [hit] at hstep
        obtain ⟨fl, hr, hend⟩ := ih s1 w2 h
        exact ⟨fl, Run.append hstep hr, hend⟩

/-! ## The parent chain and the backtrack -/

theorem backtrack_eq (nodes : List HNode) (fuel : Nat) (H : Option Nat) (sol : Solution) :
    backtrack nodes fuel H sol
      = (parentChain nodes fuel H).map fun c => sol ++ c.map fun i => (nodeAt nodes i).Q := by
  induction fuel generalizing H sol with
  | zero =>
    cases H with
    | none => simp [backtrack, parentChain]
    | some k => simp [backtrack, parentChain]
  | succ fuel ih =>
    cases H with
    | none => simp [backtrack, parentChain]
    | some k =>
      simp only [backtrack, parentChain, ih, Option.map_map]
      congr 1
      funext c
      simp

theorem nodup_bounded_length (c : List Nat) (n : Nat) (hnd : c.Nodup)
    (hb : ∀ x, x ∈ c → x < n) : c.length ≤ n := by
  have hsub : c ⊆ List.range n := fun x hx => List.mem_range.mpr (hb x hx)
  have := (hnd.subperm hsub).length_le
  simpa using this

theorem chain_spec {ins : Instance} {nodes : List HNode} {calls : List (Config × Config)}
    (hA : ArenaInv ins nodes calls) (n k : Nat) (hk : k < nodes.length)
    (hg : (nodeAt nodes k).g ≤ n) :
    ∃ c, (∀ fuel, c.length ≤ fuel → parentChain nodes fuel (some k) = some c)
      ∧ c.head? = some k ∧ c.getLast? = some 0
      ∧ (∀ x, x ∈ c → x < nodes.length ∧ (nodeAt nodes x).g ≤ (nodeAt nodes k).g)
      ∧ c.Nodup
      ∧ List.Chain' (fun a b => (nodeAt nodes a).parent = some b) c := by
  induction n generalizing k with
  | zero =>
    have hk0 : k = 0 := by
      by_contra hne
      obtain ⟨p, h1, _, _, _, _⟩ := hA.parent_ok k hk hne
      have := (hA.g_parent_lt hk h1).2
      omega
    subst hk0
    refine ⟨[0], ?_, rfl, rfl, ?_, by simp, by simp⟩
    · intro fuel hf
      cases fuel with
      | zero => simp at hf
      | succ fuel => simp [parentChain, hA.root_parent]
    · intro x hx
      have : x = 0 := by simpa using hx
      subst this
      exact ⟨hk, Nat.le_refl _⟩
  | succ n ih =>
    by_cases hk0 : k = 0
    · subst hk0
      refine ⟨[0], ?_, rfl, rfl, ?_, by simp, by simp⟩
      · intro fuel hf
        cases fuel with
        | zero => simp at hf
        | succ fuel => simp [parentChain, hA.root_parent]
      · intro x hx
        have : x = 0 := by simpa using hx
        subst this
        exact ⟨hk, Nat.le_refl _⟩
    · obtain ⟨p, h1, _, _, _, _⟩ := hA.parent_ok k hk hk0
      obtain ⟨hp, hlt⟩ := hA.g_parent_lt hk h1
      obtain ⟨c, c1, c2, c3, c4, c5, c6⟩ := ih p hp (by omega)
      refine ⟨k :: c, ?_, rfl, ?_, ?_, ?_, ?_⟩
      · intro fuel hf
        cases fuel with
        | zero => simp at hf
        | succ fuel =>
          simp only [parentChain, h1]
          rw [c1 fuel (by simpa using hf)]
          rfl
      · cases c with
        | nil => simp at c2
        | cons a l => simpa [List.getLast?_cons_cons] using c3
      · intro x hx
        rcases List.mem_cons.mp hx with e | e
        · subst e; exact ⟨hk, Nat.le_refl _⟩
        · have := c4 x e
          exact ⟨this.1, by omega⟩
      · refine List.nodup_cons.mpr ⟨?_, c5⟩
        intro hmem
        have := (c4 k hmem).2
        omega
      · cases c with
        | nil => simp at c2
        | cons a l =>
          have : a = p := by simpa using c2
          subst this
          exact List.Chain'.cons h1 c6

/-- Under the invariant the backtrack from any node ends within one round per node of the
arena, at the root, and visits no node twice. -/
theorem chain_exists {ins : Instance} {nodes : List HNode} {calls : List (Config × Config)}
    (hA : ArenaInv ins nodes calls) (k : Nat) (hk : k < nodes.length) :
    ∃ c, parentChain nodes nodes.length (some k) = some c
      ∧ c.head? = some k ∧ c.getLast? = some 0
      ∧ (∀ x, x ∈ c → x < nodes.length)
      ∧ c.Nodup
      ∧ List.Chain' (fun a b => (nodeAt nodes a).parent = some b) c := by
  obtain ⟨c, c1, c2, c3, c4, c5, c6⟩ := chain_spec hA _ k hk (Nat.le_refl _)
  exact ⟨c, c1 _ (nodup_bounded_length c _ c5 (fun x hx => (c4 x hx).1)), c2, c3,
    fun x hx => (c4 x hx).1, c5, c6⟩

theorem solution_cost_snoc (ins : Instance) (l : Solution) (b a : Config) :
    solution_cost ins (l ++ [b] ++ [a]) = solution_cost ins (l ++ [b]) + get_edge_cost ins b a := by
  induction l with
  | nil => simp [solution_cost]
  | cons x l ih =>
    cases l with
    | nil => simp [solution_cost, Nat.add_assoc]
    | cons y l =>
      have e1 : x :: y :: l ++ [b] ++ [a] = x :: y :: (l ++ [b] ++ [a]) := by simp
      have e2 : x :: y :: l ++ [b] = x :: y :: (l ++ [b]) := by simp
      have e3 : y :: l ++ [b] ++ [a] = y :: (l ++ [b] ++ [a]) := by simp
      have e4 : y :: l ++ [b] = y :: (l ++ [b]) := by simp
      rw [e3, e4] at ih
      rw [e1, e2]
      simp only [solution_cost]
      rw [ih]
      omega

theorem reverse_map_cons_cons (nodes : List HNode) (k p : Nat) (r : List Nat) :
    ((k :: p :: r).map fun i => (nodeAt nodes i).Q).reverse
      = ((r.map fun i => (nodeAt nodes i).Q).reverse ++ [(nodeAt nodes p).Q])
          ++ [(nodeAt nodes k).Q] := by
  simp

theorem reverse_map_cons (nodes : List HNode) (p : Nat) (r : List Nat) :
    ((p :: r).map fun i => (nodeAt nodes i).Q).reverse
      = (r.map fun i => (nodeAt nodes i).Q).reverse ++ [(nodeAt nodes p).Q] := by
  simp

/-- The cost of the backtracked path is at most the `g` of the node it starts from. -/
theorem chain_cost {ins : Instance} {nodes : List HNode} {calls : List (Config × Config)}
    (hA : ArenaInv ins nodes calls) (rest : List Nat) (k : Nat) (hk : k < nodes.length)
    (hc : List.Chain' (fun a b => (nodeAt nodes a).parent = some b) (k :: rest)) :
    solution_cost ins ((k :: rest).map fun i => (nodeAt nodes i).Q).reverse
      ≤ (nodeAt nodes k).g := by
  induction rest generalizing k with
  | nil => simp [solution_cost]
  | cons p r ih =>
    have hkp : (nodeAt nodes k).parent = some p := (List.chain'_cons.mp hc).1
    have hp : p < nodes.length := (hA.g_parent_lt hk hkp).1
    have h1 := ih p hp (List.chain'_cons.mp hc).2
    have hk0 : k ≠ 0 := by
      intro e; subst e; rw [hA.root_parent] at hkp; cases hkp
    obtain ⟨p1, e1, _, _, _, e5⟩ := hA.parent_ok k hk hk0
    have : p1 = p := by rw [e1] at hkp; exact Option.some.inj hkp
    subst this
    rw [reverse_map_cons_cons, solution_cost_snoc]
    rw [reverse_map_cons] at h1
    omega

/-- Every step of the backtracked path is a recorded call of the step solver. -/
theorem chain_calls {ins : Instance} {nodes : List HNode} {calls : List (Config × Config)}
    (hA : ArenaInv ins nodes calls) (rest : List Nat) (k : Nat) (hk : k < nodes.length)
    (hc : List.Chain' (fun a b => (nodeAt nodes a).parent = some b) (k :: rest)) :
    List.Chain' (fun Q1 Q2 => (Q1, Q2) ∈ calls)
      ((k :: rest).map fun i => (nodeAt nodes i).Q).reverse := by
  induction rest generalizing k with
  | nil => simp
  | cons p r ih =>
    have hkp : (nodeAt nodes k).parent = some p := (List.chain'_cons.mp hc).1
    have hp : p < nodes.length := (hA.g_parent_lt hk hkp).1
    have h1 := ih p hp (List.chain'_cons.mp hc).2
    have hk0 : k ≠ 0 := by
      intro e; subst e; rw [hA.root_parent] at hkp; cases hkp
    obtain ⟨p1, e1, _, _, e4, _⟩ := hA.parent_ok k hk hk0
    have : p1 = p := by rw [e1] at hkp; exact Option.some.inj hkp
    subst this
    rw [reverse_map_cons_cons]
    rw [reverse_map_cons] at h1
    rw [List.chain'_append]
    refine ⟨h1, by simp, ?_⟩
    intro x hx y hy
    have ex : x = (nodeAt nodes p1).Q := by simpa using hx.symm
    have ey : y = (nodeAt nodes k).Q := by simpa using hy.symm
    subst ex; subst ey
    exact (hA.nbr_ok p1 hp k e4).2

theorem chain_ends (nodes : List HNode) (c : List Nat) (k : Nat) (hh : c.head? = some k)
    (hl : c.getLast? = some 0) :
    (c.map fun i => (nodeAt nodes i).Q).reverse.head? = some (nodeAt nodes 0).Q
      ∧ (c.map fun i => (nodeAt nodes i).Q).reverse.getLast? = some (nodeAt nodes k).Q := by
  constructor
  · rw [List.head?_reverse, List.getLast?_map, hl]; rfl
  · rw [List.getLast?_reverse, List.head?_map, hh]; rfl

/-! ## Parts of the state that an expansion leaves alone -/

theorem relaxAll_ind {σ : Type} (C : Ctx σ) (P : LaCAM → Prop) (n_from : Nat)
    (hP : ∀ s n_to Q, P s → P (relax C n_from n_to s Q).1) (l : List Nat) (s : LaCAM)
    (Q : List Nat) (hs : P s) : P (relaxAll C n_from l s Q).1 := by
  induction l generalizing s Q with
  | nil => exact hs
  | cons n_to rest ih =>
    unfold relaxAll
    exact ih _ _ (hP s n_to Q hs)

theorem rewriteLoop_ind {σ : Type} (C : Ctx σ) (P : LaCAM → Prop)
    (hP : ∀ s n_from n_to Q, P s → P (relax C n_from n_to s Q).1) (fuel : Nat) (Q : List Nat)
    (s : LaCAM) (hs : P s) : P (rewriteLoop C fuel Q s).1 := by
  induction fuel generalizing Q s with
  | zero => exact hs
  | succ fuel ih =>
    cases Q with
    | nil => exact hs
    | cons n_from Q =>
      unfold rewriteLoop
      exact ih _ _ (relaxAll_ind C P n_from (fun s n_to Q => hP s n_from n_to Q) _ s Q hs)

theorem rewrite_ind {σ : Type} (C : Ctx σ) (P : LaCAM → Prop)
    (hP : ∀ s n_from n_to Q, P s → P (relax C n_from n_to s Q).1) (s : LaCAM)
    (H_from H_to : Nat) (hs : P s)
    (hins : P { s with nodes := updNode s.nodes H_from fun n =>
      { n with neighbors := setInsert s.nodes H_to n.neighbors } }) :
    P (rewrite C s H_from H_to) := by
  unfold rewrite
  cases hA : C.ANYTIME with
  | false => exact hs
  | true =>
    simp only [Bool.not_true, Bool.false_eq_true, if_false]
    exact rewriteLoop_ind C P hP _ _ _ hins

theorem rewrite_other {σ : Type} (C : Ctx σ) (s : LaCAM) (H_from H_to : Nat) :
    (rewrite C s H_from H_to).EXPLORED = s.EXPLORED
      ∧ (rewrite C s H_from H_to).H_goal = s.H_goal
      ∧ (rewrite C s H_from H_to).calls = s.calls
      ∧ (rewrite C s H_from H_to).G = s.G
      ∧ (rewrite C s H_from H_to).loop_cnt = s.loop_cnt
      ∧ (rewrite C s H_from H_to).nodes.length = s.nodes.length := by
  refine rewrite_ind C
    (fun t => t.EXPLORED = s.EXPLORED ∧ t.H_goal = s.H_goal ∧ t.calls = s.calls ∧ t.G = s.G
      ∧ t.loop_cnt = s.loop_cnt ∧ t.nodes.length = s.nodes.length) ?_ s H_from H_to
    ⟨rfl, rfl, rfl, rfl, rfl, rfl⟩ ⟨rfl, rfl, rfl, rfl, rfl, by simp [length_updNode]⟩
  intro t n_from n_to Q ⟨a, b, c, d, e, f⟩
  obtain ⟨a1, b1, c1, d1, e1⟩ := relax_other C n_from n_to t Q
  exact ⟨a1.trans a, b1.trans b, c1.trans c, d1.trans d, e1.trans e,
    (relax_length C n_from n_to t Q).trans f⟩

theorem rewrite_open_of_no_goal {σ : Type} (C : Ctx σ) (s : LaCAM) (H_from H_to : Nat)
    (hg : s.H_goal = none) : (rewrite C s H_from H_to).OPEN = s.OPEN := by
  refine (rewrite_ind C (fun t => t.H_goal = none ∧ t.OPEN = s.OPEN) ?_ s H_from H_to
    ⟨hg, rfl⟩ ⟨hg, rfl⟩).2
  intro t n_from n_to Q ⟨a, b⟩
  obtain ⟨_, b1, _, _, _⟩ := relax_other C n_from n_to t Q
  refine ⟨b1.trans a, ?_⟩
  rcases relax_open C n_from n_to t Q with e | ⟨e, _⟩
  · exact e.trans b
  · exact absurd a e

theorem successor_other {σ : Type} (C : Ctx σ) (s : LaCAM) (H : Nat) (Q_to : Config) (w : σ) :
    (successor C s H Q_to w).1.H_goal = s.H_goal
      ∧ (successor C s H Q_to w).1.loop_cnt = s.loop_cnt
      ∧ (successor C s H Q_to w).1.calls = s.calls := by
  unfold successor
  split
  · exact ⟨rfl, rfl, rfl⟩
  · rename_i H_known _
    obtain ⟨_, b, c, _, e, _⟩ := rewrite_other C s H H_known
    split <;> exact ⟨b, e, c⟩

theorem expand_other {σ : Type} (C : Ctx σ) (s : LaCAM) (H : Nat) (w : σ) :
    (expand C s H w).1.H_goal = s.H_goal ∧ (expand C s H w).1.loop_cnt = s.loop_cnt := by
  unfold expand
  split
  · exact ⟨rfl, rfl⟩
  · rename_i L rest _
    obtain ⟨_, _, _, _, e, _, g⟩ := dequeued_frame C s H L rest w
    simp only
    split
    · exact ⟨e, g⟩
    · obtain ⟨a1, b1, _⟩ := successor_other C
        { (low_level C
              { s with nodes := updNode s.nodes H fun n => { n with search_tree := rest } }
              H L w).1 with
            calls := ((nodeAt (low_level C
              { s with nodes := updNode s.nodes H fun n => { n with search_tree := rest } }
              H L w).1.nodes H).Q, _) :: (low_level C
              { s with nodes := updNode s.nodes H fun n => { n with search_tree := rest } }
              H L w).1.calls } H _ (set_new_config C (low_level C
          { s with nodes := updNode s.nodes H fun n => { n with search_tree := rest } }
          H L w).1 H L (List.replicate C.ins.N none) (low_level C
          { s with nodes := updNode s.nodes H fun n => { n with search_tree := rest } }
          H L w).2).2
      exact ⟨a1.trans e, b1.trans g⟩

/-- An iteration that starts without a recorded goal either ends without one, at the end of
the body or at `continue`, or it is the goal check that fires: then nothing but `loop_cnt` and
`H_goal` changes, no random number is drawn and the step solver is not called. -/
theorem iteration_of_no_goal {σ : Type} (C : Ctx σ) (s : LaCAM) (w : σ)
    (hg : s.H_goal = none) :
    (is_same_config (nodeAt s.nodes (s.OPEN.headD 0)).Q C.ins.goals = false
        ∧ (iteration C s w).1 = Flow.next ∧ (iteration C s w).2.1.H_goal = none)
      ∨ (is_same_config (nodeAt s.nodes (s.OPEN.headD 0)).Q C.ins.goals = true
        ∧ iteration C s w
          = (if C.ANYTIME then Flow.next else Flow.stop,
              { s with loop_cnt := s.loop_cnt + 1, H_goal := some (s.OPEN.headD 0) }, w)) := by
  have hri : random_insert C { s with loop_cnt := s.loop_cnt + 1 } w
      = ({ s with loop_cnt := s.loop_cnt + 1 }, w) := by
    unfold random_insert
    simp [hg]
  unfold iteration
  rw [hri]
  unfold visit
  simp only [hg, Option.isSome_none, Bool.false_and, Bool.false_eq_true, if_false,
    Option.isNone_none, Bool.true_and]
  cases hs : is_same_config (nodeAt s.nodes (s.OPEN.headD 0)).Q C.ins.goals with
  | true => right; simp
  | false =>
    left
    simp only [Bool.false_eq_true, if_false, true_and]
    exact (expand_other C _ _ w).1

/-! ## The end of `solve` -/

theorem finish_of_no_goal (s : LaCAM) (h : s.H_goal = none) :
    finish s = some ([], classify [] s.OPEN) := by
  unfold finish
  rw [h]
  cases s.nodes.length <;> rfl

theorem finish_of_goal {σ : Type} {C : Ctx σ} {s : LaCAM} (hinv : Inv C s) {k : Nat}
    (h : s.H_goal = some k) :
    ∃ c, parentChain s.nodes s.nodes.length (some k) = some c
      ∧ c.head? = some k ∧ c.getLast? = some 0 ∧ c.Nodup
      ∧ List.Chain' (fun a b => (nodeAt s.nodes a).parent = some b) c
      ∧ finish s = some ((c.map fun i => (nodeAt s.nodes i).Q).reverse,
          classify (c.map fun i => (nodeAt s.nodes i).Q).reverse s.OPEN) := by
  obtain ⟨hk, _⟩ := hinv.goal_ok k h
  obtain ⟨c, c1, c2, c3, _, c5, c6⟩ := chain_exists hinv.arena k hk
  refine ⟨c, c1, c2, c3, c5, c6, ?_⟩
  unfold finish
  rw [h, backtrack_eq, c1]
  simp

theorem solve_eq {σ : Type} (C : Ctx σ) (G : Graph) (w : σ) (fuel : Nat) (s : LaCAM) (w1 : σ)
    (h : searchLoop C fuel (initState C G) w = some (s, w1)) :
    solve C G w fuel = finish s := by
  unfold solve
  rw [h]

theorem solve_some {σ : Type} (C : Ctx σ) (G : Graph) (w : σ) (fuel : Nat) (r : Solution × Outcome)
    (h : solve C G w fuel = some r) :
    ∃ s w1, searchLoop C fuel (initState C G) w = some (s, w1) ∧ finish s = some r := by
  unfold solve at h
  split at h
  · cases h
  · rename_i s w1 hs
    exact ⟨s, w1, hs, h⟩

theorem searchLoop_good {σ : Type} (C : Ctx σ) (hwf : WellFormed C) (fuel : Nat) (s : LaCAM)
    (w : σ) (t : LaCAM) (w1 : σ) (hinv : Inv C s)
    (h : searchLoop C fuel s w = some (t, w1)) : Inv C t ∧ Later s t := by
  obtain ⟨fl, hr, _⟩ := searchLoop_run C fuel s w t w1 h
  exact hr.good hwf hinv

theorem loopState_run {σ : Type} (C : Ctx σ) (n : Nat) (s : LaCAM) (w : σ) :
    Run C s w (loopState C n s w).1 (loopState C n s w).2.1 (loopState C n s w).2.2 := by
  induction n with
  | zero => exact Run.refl _ _
  | succ n ih =>
    unfold loopState
    split
    · rename_i s1 w1 he
      rw [he] at ih
      exact ih
    · rename_i s1 w1 he
      rw [he] at ih
      split
      · exact ih
      · rename_i hc
        have hO : s1.OPEN.isEmpty = false := by
          cases h1 : s1.OPEN.isEmpty <;> simp_all
        have hE : C.is_expired s1.loop_cnt = false := by
          cases h1 : C.is_expired s1.loop_cnt <;> simp_all
        exact Run.step ih hO hE

theorem demo_wf (anytime : Bool) (goal deadline : Nat) :
    WellFormed (demoCtx anytime goal deadline) where
  starts_len := rfl
  pibt_len := by
    intro w G Qf Qt ord Q h
    have e : (List.range 1).map (fun i => (Qt.getD i none).getD (Qf.getD i 0)) = Q :=
      Option.some.inj h
    rw [← e]
    rfl

theorem exists_diff_of_ne (Q1 Q2 : Config) (n : Nat) (h1 : Q1.length = n) (h2 : Q2.length = n)
    (hne : Q1 ≠ Q2) : ∃ a, a < n ∧ Q1.getD a 0 ≠ Q2.getD a 0 := by
  by_contra hcon
  push_neg at hcon
  apply hne
  apply List.ext_getElem (by omega)
  intro i hi1 hi2
  have := hcon i (by omega)
  simpa [List.getD_eq_getElem?_getD, List.getElem?_eq_getElem hi1,
    List.getElem?_eq_getElem hi2] using this

/-! ## The contract of `solve` -/

/-- C1. Whenever the search loop of `solve` ends (anytime or not, whatever the random draws
and the step solver return), `solve` returns: the backtrack from the recorded goal node visits
no node twice and ends at the root within one round per node. A non-empty returned solution
starts with the start configuration and ends with the goal configuration. -/
theorem solve_path_from_start_to_goal {σ : Type} (C : Ctx σ) (hwf : WellFormed C) (G : Graph)
    (w : σ) (fuel : Nat) (hloop : (searchLoop C fuel (initState C G) w).isSome = true) :
    ∃ sol out s w1, searchLoop C fuel (initState C G) w = some (s, w1)
      ∧ solve C G w fuel = some (sol, out)
      ∧ (sol ≠ [] → sol.head? = some C.ins.starts ∧ sol.getLast? = some C.ins.goals)
      ∧ ∀ k, s.H_goal = some k →
          ∃ c, parentChain s.nodes s.nodes.length (some k) = some c
            ∧ c.Nodup ∧ c.head? = some k ∧ c.getLast? = some 0
            ∧ sol = (c.map fun i => (nodeAt s.nodes i).Q).reverse := by
  obtain ⟨⟨s, w1⟩, hs⟩ := Option.isSome_iff_exists.mp hloop
  obtain ⟨hinv, _⟩ := searchLoop_good C hwf fuel _ w s w1 (initState_inv C hwf G) hs
  rw [solve_eq C G w fuel s w1 hs]
  cases hg : s.H_goal with
  | none =>
    refine ⟨[], _, s, w1, hs, finish_of_no_goal s hg, fun h => absurd rfl h, ?_⟩
    intro k hk
    rw [hg] at hk
    cases hk
  | some k =>
    obtain ⟨c, c1, c2, c3, c4, _, c6⟩ := finish_of_goal hinv hg
    obtain ⟨e1, e2⟩ := chain_ends s.nodes c k c2 c3
    refine ⟨_, _, s, w1, hs, c6, fun _ => ⟨?_, ?_⟩, ?_⟩
    · rw [e1, hinv.arena.root_Q]
    · rw [e2, (hinv.goal_ok k hg).2]
    · intro k1 hk1
      rw [hg] at hk1
      have : k = k1 := Option.some.inj hk1
      subst this
      exact ⟨c, c1, c4, c2, c3, rfl⟩

theorem solve_path_from_start_to_goal_witness :
    WellFormed (demoCtx true 3 100)
      ∧ (searchLoop (demoCtx true 3 100) 100 (initState (demoCtx true 3 100) demoGraph) ()).isSome
          = true
      ∧ ∃ sol out s w1,
          searchLoop (demoCtx true 3 100) 100 (initState (demoCtx true 3 100) demoGraph) ()
            = some (s, w1)
          ∧ solve (demoCtx true 3 100) demoGraph () 100 = some (sol, out)
          ∧ (sol ≠ [] → sol.head? = some (demoCtx true 3 100).ins.starts
              ∧ sol.getLast? = some (demoCtx true 3 100).ins.goals)
          ∧ ∀ k, s.H_goal = some k →
              ∃ c, parentChain s.nodes s.nodes.length (some k) = some c
                ∧ c.Nodup ∧ c.head? = some k ∧ c.getLast? = some 0
                ∧ sol = (c.map fun i => (nodeAt s.nodes i).Q).reverse :=
  ⟨demo_wf true 3 100, by decide!,
    solve_path_from_start_to_goal (demoCtx true 3 100) (demo_wf true 3 100) demoGraph () 100
      (by decide!)⟩

/-- C2. In a solution returned by `solve`, every consecutive pair `(Q_t, Q_{t+1})` is a
recorded successful call of the step solver on the node with configuration `Q_t` that returned
`Q_{t+1}`; and every parent link of the arena, rewired or not, is such a recorded call, with the
child in the `neighbors` of the parent. -/
theorem solve_path_steps_from_step_solver {σ : Type} (C : Ctx σ) (hwf : WellFormed C)
    (G : Graph) (w : σ) (fuel : Nat)
    (hloop : (searchLoop C fuel (initState C G) w).isSome = true) :
    ∃ sol out s w1, searchLoop C fuel (initState C G) w = some (s, w1)
      ∧ solve C G w fuel = some (sol, out)
      ∧ List.Chain' (fun Q1 Q2 => (Q1, Q2) ∈ s.calls ∧ StepSolverReturned C Q1 Q2) sol
      ∧ ∀ i p, i < s.nodes.length → (nodeAt s.nodes i).parent = some p →
          i ∈ (nodeAt s.nodes p).neighbors
            ∧ ((nodeAt s.nodes p).Q, (nodeAt s.nodes i).Q) ∈ s.calls
            ∧ StepSolverReturned C (nodeAt s.nodes p).Q (nodeAt s.nodes i).Q := by
  obtain ⟨⟨s, w1⟩, hs⟩ := Option.isSome_iff_exists.mp hloop
  obtain ⟨hinv, _⟩ := searchLoop_good C hwf fuel _ w s w1 (initState_inv C hwf G) hs
  rw [solve_eq C G w fuel s w1 hs]
  have hlinks : ∀ i p, i < s.nodes.length → (nodeAt s.nodes i).parent = some p →
      i ∈ (nodeAt s.nodes p).neighbors
        ∧ ((nodeAt s.nodes p).Q, (nodeAt s.nodes i).Q) ∈ s.calls
        ∧ StepSolverReturned C (nodeAt s.nodes p).Q (nodeAt s.nodes i).Q := by
    intro i p hi hp
    have h0 : i ≠ 0 := by
      intro e; subst e; rw [hinv.arena.root_parent] at hp; cases hp
    obtain ⟨p1, e1, e2, _, e4, _⟩ := hinv.arena.parent_ok i hi h0
    have : p1 = p := by rw [e1] at hp; exact Option.some.inj hp
    subst this
    have hc := (hinv.arena.nbr_ok p1 e2 i e4).2
    exact ⟨e4, hc, hinv.calls_ok _ hc⟩
  cases hg : s.H_goal with
  | none => exact ⟨[], _, s, w1, hs, finish_of_no_goal s hg, List.chain'_nil, hlinks⟩
  | some k =>
    obtain ⟨c, _, c2, _, _, c5, c6⟩ := finish_of_goal hinv hg
    refine ⟨_, _, s, w1, hs, c6, ?_, hlinks⟩
    cases c with
    | nil => simp
    | cons a rest =>
      have ha : a = k := by simpa using c2
      subst ha
      refine (chain_calls hinv.arena rest a (hinv.goal_ok a hg).1 c5).imp ?_
      intro Q1 Q2 h
      exact ⟨h, hinv.calls_ok _ h⟩

theorem solve_path_steps_from_step_solver_witness :
    WellFormed (demoCtx true 3 100)
      ∧ (searchLoop (demoCtx true 3 100) 100 (initState (demoCtx true 3 100) demoGraph) ()).isSome
          = true
      ∧ ∃ sol out s w1,
          searchLoop (demoCtx true 3 100) 100 (initState (demoCtx true 3 100) demoGraph) ()
            = some (s, w1)
          ∧ solve (demoCtx true 3 100) demoGraph () 100 = some (sol, out)
          ∧ List.Chain'
              (fun Q1 Q2 => (Q1, Q2) ∈ s.calls ∧ StepSolverReturned (demoCtx true 3 100) Q1 Q2) sol
          ∧ ∀ i p, i < s.nodes.length → (nodeAt s.nodes i).parent = some p →
              i ∈ (nodeAt s.nodes p).neighbors
                ∧ ((nodeAt s.nodes p).Q, (nodeAt s.nodes i).Q) ∈ s.calls
                ∧ StepSolverReturned (demoCtx true 3 100) (nodeAt s.nodes p).Q
                    (nodeAt s.nodes i).Q :=
  ⟨demo_wf true 3 100, by decide!,
    solve_path_steps_from_step_solver (demoCtx true 3 100) (demo_wf true 3 100) demoGraph () 100
      (by decide!)⟩

/-- Started without a recorded goal, the loop ends with a recorded goal only if
`first_goal_g` saw the recording, and the goal node's `g` has not grown since. -/
theorem first_goal_g_spec {σ : Type} (C : Ctx σ) (hwf : WellFormed C) (fuel : Nat) (s : LaCAM)
    (w : σ) (t : LaCAM) (w1 : σ) (hinv : Inv C s) (hg : s.H_goal = none)
    (h : searchLoop C fuel s w = some (t, w1)) (k : Nat) (hk : t.H_goal = some k) :
    ∃ g0, first_goal_g C fuel s w = some g0 ∧ (nodeAt t.nodes k).g ≤ g0 := by
  induction fuel generalizing s w with
  | zero => simp [searchLoop] at h
  | succ fuel ih =>
    unfold searchLoop at h
    unfold first_goal_g
    split at h
    · have e : s = t ∧ w = w1 := by simpa using h
      obtain ⟨rfl, rfl⟩ := e
      rw [hg] at hk
      cases hk
    · rename_i hc
      rw [if_neg hc]
      obtain ⟨hinv1, _⟩ := iteration_good C hwf s w hinv
      rcases iteration_of_no_goal C s w hg with ⟨_, hfl, hno⟩ | ⟨_, hit⟩
      · rw [hno]
        simp only [hfl]
        split at h
        · rename_i s1 w2 he
          rw [he] at hfl
          cases hfl
        · rename_i s1 w2 he
          have e1 : (iteration C s w).2.1 = s1 := by rw [he]
          have e2 : (iteration C s w).2.2 = w2 := by rw [he]
          rw [e1, e2]
          rw [e1] at hinv1 hno
          exact ih s1 w2 hinv1 hno h
      · have hrec : (iteration C s w).2.1.H_goal = some (s.OPEN.headD 0) := by rw [hit]
        rw [hrec]
        simp only
        refine ⟨_, rfl, ?_⟩
        split at h
        · rename_i s1 w2 he
          have e : s1 = t ∧ w2 = w1 := by simpa using h
          obtain ⟨rfl, rfl⟩ := e
          have e1 : (iteration C s w).2.1 = s1 := by rw [he]
          rw [e1] at hrec ⊢
          rw [hrec] at hk
          rw [← Option.some.inj hk]
        · rename_i s1 w2 he
          have e1 : (iteration C s w).2.1 = s1 := by rw [he]
          rw [e1] at hrec hinv1 ⊢
          obtain ⟨_, hl⟩ := searchLoop_good C hwf fuel s1 w2 t w1 hinv1 h
          have hk2 := hl.goal_eq _ hrec
          rw [hk2] at hk
          rw [← Option.some.inj hk]
          exact hl.g_le _ (hinv1.goal_ok _ hrec).1

/-- C3. The cost of a non-empty solution returned by `solve` (the sum of `get_edge_cost` over
its consecutive pairs) is at most the `g` that the goal node had in the iteration that
recorded it as `H_goal`; this holds in anytime mode (and without it). -/
theorem solve_cost_le_first_goal_g {σ : Type} (C : Ctx σ) (hwf : WellFormed C) (G : Graph)
    (w : σ) (fuel : Nat) (sol : Solution) (out : Outcome)
    (h : solve C G w fuel = some (sol, out)) (hne : sol ≠ []) :
    ∃ g0, first_goal_g C fuel (initState C G) w = some g0 ∧ solution_cost C.ins sol ≤ g0 := by
  obtain ⟨s, w1, hs, hf⟩ := solve_some C G w fuel _ h
  obtain ⟨hinv, _⟩ := searchLoop_good C hwf fuel _ w s w1 (initState_inv C hwf G) hs
  cases hg : s.H_goal with
  | none =>
    rw [finish_of_no_goal s hg] at hf
    have : sol = [] := by
      have := congrArg Prod.fst (Option.some.inj hf)
      exact this.symm
    exact absurd this hne
  | some k =>
    obtain ⟨g0, h1, h2⟩ := first_goal_g_spec C hwf fuel _ w s w1 (initState_inv C hwf G) rfl hs k hg
    refine ⟨g0, h1, ?_⟩
    obtain ⟨c, _, c2, _, _, c5, c6⟩ := finish_of_goal hinv hg
    rw [c6] at hf
    have e : (c.map fun i => (nodeAt s.nodes i).Q).reverse = sol :=
      congrArg Prod.fst (Option.some.inj hf)
    rw [← e]
    cases c with
    | nil => simp at c2
    | cons a rest =>
      have ha : a = k := by simpa using c2
      subst ha
      exact Nat.le_trans (chain_cost hinv.arena rest a (hinv.goal_ok a hg).1 c5) h2

theorem solve_cost_le_first_goal_g_witness :
    WellFormed (demoCtx true 3 100)
      ∧ solve (demoCtx true 3 100) demoGraph () 100 = some ([[0], [3]], Outcome.optimal)
      ∧ ([[0], [3]] : Solution) ≠ []
      ∧ first_goal_g (demoCtx true 3 100) 100 (initState (demoCtx true 3 100) demoGraph) ()
          = some 3
      ∧ ∃ g0, first_goal_g (demoCtx true 3 100) 100 (initState (demoCtx true 3 100) demoGraph) ()
            = some g0
          ∧ solution_cost (demoCtx true 3 100).ins [[0], [3]] ≤ g0 :=
  ⟨demo_wf true 3 100, by decide!, by decide, by decide!,
    solve_cost_le_first_goal_g (demoCtx true 3 100) (demo_wf true 3 100) demoGraph () 100
      [[0], [3]] Outcome.optimal (by decide!) (by decide)⟩

/-- Without anytime mode no goal is recorded at any loop test. -/
theorem no_goal_at_loop_test {σ : Type} (C : Ctx σ) (hA : C.ANYTIME = false) {s0 : LaCAM}
    {w0 : σ} {fl : Flow} {s : LaCAM} {w : σ} (hr : Run C s0 w0 fl s w)
    (h0 : s0.H_goal = none) : fl = Flow.next → s.H_goal = none := by
  induction hr with
  | refl => exact fun _ => h0
  | @step s1 w1 _ _ _ ih =>
    intro hfl
    rcases iteration_of_no_goal C s1 w1 (ih rfl) with ⟨_, _, hno⟩ | ⟨_, hit⟩
    · exact hno
    · rw [hit, hA] at hfl
      cases hfl

/-- C4. Without anytime mode, in the first iteration whose front node of `OPEN` has the goal
configuration the search loop is left: the iteration only counts `loop_cnt` and records the
node as `H_goal`, so no constraint is dequeued, no node is created, and the generator and the
step solver are not called; the returned solution is the parent chain of that node. -/
theorem non_anytime_stops_at_first_goal {σ : Type} (C : Ctx σ) (hA : C.ANYTIME = false)
    (hwf : WellFormed C) (G : Graph) (w0 : σ) (s : LaCAM) (w : σ)
    (hr : Run C (initState C G) w0 Flow.next s w) (H : Nat) (rest : List Nat)
    (hO : s.OPEN = H :: rest) (hE : C.is_expired s.loop_cnt = false)
    (hQ : (nodeAt s.nodes H).Q = C.ins.goals) :
    iteration C s w = (Flow.stop, { s with loop_cnt := s.loop_cnt + 1, H_goal := some H }, w)
      ∧ (∀ fuel, searchLoop C (fuel + 1) s w
          = some ({ s with loop_cnt := s.loop_cnt + 1, H_goal := some H }, w))
      ∧ ∃ c, parentChain s.nodes s.nodes.length (some H) = some c
          ∧ c.head? = some H ∧ c.getLast? = some 0
          ∧ finish { s with loop_cnt := s.loop_cnt + 1, H_goal := some H }
              = some ((c.map fun i => (nodeAt s.nodes i).Q).reverse, Outcome.suboptimal) := by
  have hg : s.H_goal = none := no_goal_at_loop_test C hA hr rfl rfl
  have hit : iteration C s w
      = (Flow.stop, { s with loop_cnt := s.loop_cnt + 1, H_goal := some H }, w) := by
    rcases iteration_of_no_goal C s w hg with ⟨hn, _, _⟩ | ⟨_, hit⟩
    · rw [hO] at hn
      simp [is_same_config, hQ] at hn
    · rw [hit, hA, hO]
      rfl
  refine ⟨hit, ?_, ?_⟩
  · intro fuel
    have hne : s.OPEN.isEmpty = false := by rw [hO]; rfl
    unfold searchLoop
    rw [hne, hE, hit]
    rfl
  · obtain ⟨hinv, _⟩ := hr.good hwf (initState_inv C hwf G)
    obtain ⟨hinv1, _⟩ := iteration_good C hwf s w hinv
    rw [hit] at hinv1
    obtain ⟨c, c1, c2, c3, _, _, c6⟩ :=
      finish_of_goal (s := { s with loop_cnt := s.loop_cnt + 1, H_goal := some H }) hinv1 rfl
    refine ⟨c, c1, c2, c3, ?_⟩
    rw [c6]
    have hne : (c.map fun i => (nodeAt s.nodes i).Q).reverse ≠ [] := by
      cases c with
      | nil => simp at c2
      | cons a l => simp
    simp only [classify, hO]
    cases hcl : (c.map fun i => (nodeAt s.nodes i).Q).reverse with
    | nil => exact absurd hcl hne
    | cons a l => rfl

theorem non_anytime_stops_at_first_goal_witness :
    (demoCtx false 3 100).ANYTIME = false
      ∧ WellFormed (demoCtx false 3 100)
      ∧ Run (demoCtx false 3 100) (initState (demoCtx false 3 100) demoGraph) () Flow.next
          (loopState (demoCtx false 3 100) 6 (initState (demoCtx false 3 100) demoGraph) ()).2.1
          ()
      ∧ (loopState (demoCtx false 3 100) 6 (initState (demoCtx false 3 100) demoGraph) ()).2.1.OPEN
          = 3 :: [2, 2, 1, 1, 0, 0]
      ∧ solve (demoCtx false 3 100) demoGraph () 100
          = some ([[0], [1], [2], [3]], Outcome.suboptimal)
      ∧ iteration (demoCtx false 3 100)
          (loopState (demoCtx false 3 100) 6 (initState (demoCtx false 3 100) demoGraph) ()).2.1 ()
        = (Flow.stop,
            { (loopState (demoCtx false 3 100) 6
                (initState (demoCtx false 3 100) demoGraph) ()).2.1 with
              loop_cnt := (loopState (demoCtx false 3 100) 6
                (initState (demoCtx false 3 100) demoGraph) ()).2.1.loop_cnt + 1
              H_goal := some 3 }, ()) :=
  have e : (loopState (demoCtx false 3 100) 6 (initState (demoCtx false 3 100) demoGraph) ())
      = (Flow.next,
          (loopState (demoCtx false 3 100) 6 (initState (demoCtx false 3 100) demoGraph) ()).2.1,
          ()) := by decide!
  have hr : Run (demoCtx false 3 100) (initState (demoCtx false 3 100) demoGraph) () Flow.next
      (loopState (demoCtx false 3 100) 6 (initState (demoCtx false 3 100) demoGraph) ()).2.1
      () := by
    have := loopState_run (demoCtx false 3 100) 6 (initState (demoCtx false 3 100) demoGraph) ()
    rw [e] at this
    exact this
  ⟨rfl, demo_wf false 3 100, hr, by decide!, by decide!,
    (non_anytime_stops_at_first_goal (demoCtx false 3 100) rfl (demo_wf false 3 100) demoGraph ()
      _ () hr 3 [2, 2, 1, 1, 0, 0] (by decide!) (by decide!) (by decide!)).1⟩

theorem classify_eq_outcomeOf (sol : Solution) (OPEN : List Nat) (goal : Option Nat)
    (h : sol = [] ↔ goal = none) :
    classify sol OPEN = outcomeOf goal.isSome OPEN.isEmpty := by
  unfold classify outcomeOf
  cases sol with
  | nil =>
    have : goal = none := h.mp rfl
    subst this
    cases OPEN <;> rfl
  | cons a l =>
    cases goal with
    | none => exact absurd (h.mpr rfl) (by simp)
    | some k => cases OPEN <;> rfl

/-- C5. When the search loop ends, `solve` returns, and the outcome is the one of the four
that goes with "a goal node is recorded" and "`OPEN` is empty": optimal, suboptimal,
unsolvable, time limit. The returned solution is empty exactly when no goal node is recorded,
and a goal node recorded at any earlier loop test of the run is still recorded. -/
theorem solve_outcome_classification {σ : Type} (C : Ctx σ) (hwf : WellFormed C) (G : Graph)
    (w : σ) (fuel : Nat) (hloop : (searchLoop C fuel (initState C G) w).isSome = true) :
    ∃ sol out s w1, searchLoop C fuel (initState C G) w = some (s, w1)
      ∧ solve C G w fuel = some (sol, out)
      ∧ out = outcomeOf s.H_goal.isSome s.OPEN.isEmpty
      ∧ (sol = [] ↔ s.H_goal = none)
      ∧ ∀ t wt fl k, Run C (initState C G) w Flow.next t wt → Run C t wt fl s w1 →
          t.H_goal = some k → s.H_goal = some k := by
  obtain ⟨⟨s, w1⟩, hs⟩ := Option.isSome_iff_exists.mp hloop
  obtain ⟨hinv, _⟩ := searchLoop_good C hwf fuel _ w s w1 (initState_inv C hwf G) hs
  rw [solve_eq C G w fuel s w1 hs]
  have hever : ∀ t wt fl k, Run C (initState C G) w Flow.next t wt → Run C t wt fl s w1 →
      t.H_goal = some k → s.H_goal = some k := by
    intro t wt fl k h1 h2 hk
    obtain ⟨hinvt, _⟩ := h1.good hwf (initState_inv C hwf G)
    exact (h2.good hwf hinvt).2.goal_eq k hk
  cases hg : s.H_goal with
  | none =>
    have hiff : ([] : Solution) = [] ↔ s.H_goal = none := ⟨fun _ => hg, fun _ => rfl⟩
    exact ⟨[], _, s, w1, hs, finish_of_no_goal s hg, classify_eq_outcomeOf _ _ _ hiff, hiff,
      hever⟩
  | some k =>
    obtain ⟨c, _, c2, _, _, _, c6⟩ := finish_of_goal hinv hg
    have hne : (c.map fun i => (nodeAt s.nodes i).Q).reverse ≠ [] := by
      cases c with
      | nil => simp at c2
      | cons a l => simp
    have hiff : (c.map fun i => (nodeAt s.nodes i).Q).reverse = [] ↔ s.H_goal = none :=
      ⟨fun e => absurd e hne, fun e => by rw [hg] at e; cases e⟩
    exact ⟨_, _, s, w1, hs, c6, classify_eq_outcomeOf _ _ _ hiff, hiff, hever⟩

theorem solve_outcome_classification_witness :
    WellFormed (demoCtx true 3 9)
      ∧ (searchLoop (demoCtx true 3 9) 100 (initState (demoCtx true 3 9) demoGraph) ()).isSome
          = true
      ∧ solve (demoCtx true 3 9) demoGraph () 100 = some ([[0], [3]], Outcome.suboptimal)
      ∧ solve (demoCtx true 3 100) demoGraph () 100 = some ([[0], [3]], Outcome.optimal)
      ∧ solve (demoCtx true 3 5) demoGraph () 100 = some ([], Outcome.time_limit)
      ∧ solve (demoCtx true 4 100) demoGraph () 100 = some ([], Outcome.unsolvable)
      ∧ ∃ sol out s w1,
          searchLoop (demoCtx true 3 9) 100 (initState (demoCtx true 3 9) demoGraph) ()
            = some (s, w1)
          ∧ solve (demoCtx true 3 9) demoGraph () 100 = some (sol, out)
          ∧ out = outcomeOf s.H_goal.isSome s.OPEN.isEmpty
          ∧ (sol = [] ↔ s.H_goal = none)
          ∧ ∀ t wt fl k,
              Run (demoCtx true 3 9) (initState (demoCtx true 3 9) demoGraph) () Flow.next t wt →
              Run (demoCtx true 3 9) t wt fl s w1 → t.H_goal = some k → s.H_goal = some k :=
  ⟨demo_wf true 3 9, by decide!, by decide!, by decide!, by decide!, by decide!,
    solve_outcome_classification (demoCtx true 3 9) (demo_wf true 3 9) demoGraph () 100
      (by decide!)⟩

/-- C8. At every point of a run, two distinct search nodes differ in the vertex of at least
one agent; `EXPLORED` holds at most one node per configuration, and finds for a configuration
exactly the node that has it; and the `Q` of a node is the same at every later point. -/
theorem search_nodes_have_distinct_configs {σ : Type} (C : Ctx σ) (hwf : WellFormed C)
    (G : Graph) (w0 : σ) (fl : Flow) (s : LaCAM) (w : σ)
    (hr : Run C (initState C G) w0 fl s w) :
    (∀ i j, i < s.nodes.length → j < s.nodes.length → i ≠ j →
        ∃ a, a < C.ins.N ∧ (nodeAt s.nodes i).Q.getD a 0 ≠ (nodeAt s.nodes j).Q.getD a 0)
      ∧ (∀ Q k1 k2, (Q, k1) ∈ s.EXPLORED → (Q, k2) ∈ s.EXPLORED → k1 = k2)
      ∧ (∀ Q k, s.EXPLORED.lookup Q = some k ↔ (k < s.nodes.length ∧ (nodeAt s.nodes k).Q = Q))
      ∧ ∀ fl2 t w2, Run C s w fl2 t w2 →
          ∀ i, i < s.nodes.length → (nodeAt t.nodes i).Q = (nodeAt s.nodes i).Q := by
  obtain ⟨hinv, _⟩ := hr.good hwf (initState_inv C hwf G)
  refine ⟨?_, ?_, hinv.explored, ?_⟩
  · intro i j hi hj hne
    apply exists_diff_of_ne _ _ _ (hinv.arena.Q_len i hi) (hinv.arena.Q_len j hj)
    intro e
    exact hne (hinv.arena.Q_inj i j hi hj e)
  · intro Q k1 k2 h1 h2
    obtain ⟨a1, b1⟩ := hinv.explored_mem Q k1 h1
    obtain ⟨a2, b2⟩ := hinv.explored_mem Q k2 h2
    exact hinv.arena.Q_inj k1 k2 a1 a2 (b1.trans b2.symm)
  · intro fl2 t w2 h2 i hi
    exact (h2.good hwf hinv).2.Q_eq i hi

theorem search_nodes_have_distinct_configs_witness :
    WellFormed (demoCtx true 3 100)
      ∧ (loopState (demoCtx true 3 100) 9 (initState (demoCtx true 3 100) demoGraph) ()).2.1.nodes.length
          = 4
      ∧ ∀ i j,
          i < (loopState (demoCtx true 3 100) 9
                (initState (demoCtx true 3 100) demoGraph) ()).2.1.nodes.length →
          j < (loopState (demoCtx true 3 100) 9
                (initState (demoCtx true 3 100) demoGraph) ()).2.1.nodes.length →
          i ≠ j →
          ∃ a, a < (demoCtx true 3 100).ins.N
            ∧ (nodeAt (loopState (demoCtx true 3 100) 9
                (initState (demoCtx true 3 100) demoGraph) ()).2.1.nodes i).Q.getD a 0
              ≠ (nodeAt (loopState (demoCtx true 3 100) 9
                (initState (demoCtx true 3 100) demoGraph) ()).2.1.nodes j).Q.getD a 0 :=
  ⟨demo_wf true 3 100, by decide!,
    (search_nodes_have_distinct_configs (demoCtx true 3 100) (demo_wf true 3 100) demoGraph () _ _
      _ (loopState_run (demoCtx true 3 100) 9 (initState (demoCtx true 3 100) demoGraph) ())).1⟩

/-! ## Edge cost -/

theorem filter_length_one (p : Nat → Bool) (n i : Nat) (hi : i < n) (hp : p i = true)
    (hq : ∀ j, j < n → j ≠ i → p j = false) : ((List.range n).filter p).length = 1 := by
  have hcongr : (List.range n).filter p = (List.range n).filter (fun j => j == i) := by
    apply List.filter_congr
    intro j hj
    have hj' := List.mem_range.mp hj
    by_cases e : j = i
    · subst e; simp [hp]
    · rw [hq j hj' e]
      simp [e]
  rw [hcongr, ← List.countP_eq_length_filter]
  exact List.count_eq_one_of_mem (List.nodup_range n) (List.mem_range.mpr hi)

/-- C9. `get_edge_cost(Q1, Q2)` is the number of agents `i < N` for which it is not the case
that both `Q1[i]` and `Q2[i]` equal `goal[i]`. It is `0` for `Q1 = Q2 = goal`, and exactly `1`
when `Q1 = goal` and `Q2` differs from the goal in exactly one agent. -/
theorem get_edge_cost_counts_agents_off_goal (ins : Instance) (Q1 Q2 : Config) :
    get_edge_cost ins Q1 Q2 = edge_cost_spec ins Q1 Q2
      ∧ get_edge_cost ins ins.goals ins.goals = 0
      ∧ ∀ i, i < ins.N → Q2.getD i 0 ≠ ins.goals.getD i 0 →
          (∀ j, j < ins.N → j ≠ i → Q2.getD j 0 = ins.goals.getD j 0) →
          get_edge_cost ins ins.goals Q2 = 1 := by
  refine ⟨get_edge_cost_eq_spec ins Q1 Q2, ?_, ?_⟩
  · rw [get_edge_cost_eq_spec]
    unfold edge_cost_spec
    simp
  · intro i hi hne hother
    rw [get_edge_cost_eq_spec]
    unfold edge_cost_spec
    apply filter_length_one _ _ i hi
    · simp only [decide_True, Bool.true_and, Bool.not_eq_true', decide_eq_false_iff_not]
      exact hne
    · intro j hj hji
      simp only [decide_True, Bool.true_and, Bool.not_eq_false', decide_eq_true_eq]
      exact hother j hj hji

theorem get_edge_cost_counts_agents_off_goal_witness :
    get_edge_cost { N := 3, starts := [1, 2, 3], goals := [5, 6, 7] } [5, 6, 7] [5, 9, 7] = 1
      ∧ get_edge_cost { N := 3, starts := [1, 2, 3], goals := [5, 6, 7] } [5, 6, 7] [5, 6, 7] = 0
      ∧ get_edge_cost { N := 3, starts := [1, 2, 3], goals := [5, 6, 7] } [5, 2, 7] [5, 6, 3] = 2 :=
  ⟨(get_edge_cost_counts_agents_off_goal { N := 3, starts := [1, 2, 3], goals := [5, 6, 7] }
      [5, 6, 7] [5, 9, 7]).2.2 1 (by decide) (by decide) (by decide),
    by decide, by decide⟩

/-! ## Which fields of a search node change, and where -/

theorem SameCore.sameCost {a b : HNode} (h : SameCore a b) : SameCost a b :=
  ⟨h.2.2.2.1, h.2.2.2.2.2.1, h.2.1, h.2.2.2.2.2.2.1⟩

theorem SameCost.cost_trans {a b c : HNode} (h1 : SameCost a b) (h2 : SameCost b c) :
    SameCost a c :=
  ⟨h1.1.trans h2.1, h1.2.1.trans h2.2.1, h1.2.2.1.trans h2.2.2.1, h1.2.2.2.trans h2.2.2.2⟩

theorem successor_cases {σ : Type} (C : Ctx σ) (s : LaCAM) (H : Nat) (Q_to : Config) (w : σ) :
    (∀ i, i < s.nodes.length →
        SameCost (nodeAt (successor C s H Q_to w).1.nodes i) (nodeAt s.nodes i))
      ∨ ∃ H_known, (successor C s H Q_to w).1.nodes = (rewrite C s H H_known).nodes := by
  unfold successor
  split
  · left
    intro i hi
    exact ⟨nodeAt_newHNode_old_proj (fun n => n.g) (fun _ _ => rfl) C s.nodes Q_to H _ _ hi,
      nodeAt_newHNode_old_proj (fun n => n.f) (fun _ _ => rfl) C s.nodes Q_to H _ _ hi,
      nodeAt_newHNode_old_proj (fun n => n.parent) (fun _ _ => rfl) C s.nodes Q_to H _ _ hi,
      nodeAt_newHNode_old_proj (fun n => n.depth) (fun _ _ => rfl) C s.nodes Q_to H _ _ hi⟩
  · rename_i H_known _
    right
    refine ⟨H_known, ?_⟩
    split <;> rfl

theorem expand_cases {σ : Type} (C : Ctx σ) (s : LaCAM) (H : Nat) (w : σ) :
    (∀ i, i < s.nodes.length →
        SameCost (nodeAt (expand C s H w).1.nodes i) (nodeAt s.nodes i))
      ∨ ∃ sPre H_known, sPre.nodes.length = s.nodes.length
          ∧ (∀ j, SameCore (nodeAt sPre.nodes j) (nodeAt s.nodes j))
          ∧ (expand C s H w).1.nodes = (rewrite C sPre H H_known).nodes := by
  unfold expand
  split
  · left
    intro i _
    exact (SameCore.rfl _).sameCost
  · rename_i L rest _
    obtain ⟨a, b, _, _, _, _, _⟩ := dequeued_frame C s H L rest w
    simp only
    split
    · left
      intro i _
      exact (b i).sameCost
    · rename_i Q_to _
      rcases successor_cases C
        { (low_level C
              { s with nodes := updNode s.nodes H fun n => { n with search_tree := rest } }
              H L w).1 with
            calls := ((nodeAt (low_level C
              { s with nodes := updNode s.nodes H fun n => { n with search_tree := rest } }
              H L w).1.nodes H).Q, Q_to) :: (low_level C
              { s with nodes := updNode s.nodes H fun n => { n with search_tree := rest } }
              H L w).1.calls } H Q_to (set_new_config C (low_level C
          { s with nodes := updNode s.nodes H fun n => { n with search_tree := rest } }
          H L w).1 H L (List.replicate C.ins.N none) (low_level C
          { s with nodes := updNode s.nodes H fun n => { n with search_tree := rest } }
          H L w).2).2 with h | ⟨H_known, h⟩
      · left
        intro i hi
        exact (h i (by simp only [a]; exact hi)).cost_trans (b i).sameCost
      · right
        refine ⟨_, H_known, ?_, ?_, h⟩
        · exact a
        · exact b

theorem iteration_cases {σ : Type} (C : Ctx σ) (s : LaCAM) (w : σ) :
    (∀ i, i < s.nodes.length →
        SameCost (nodeAt (iteration C s w).2.1.nodes i) (nodeAt s.nodes i))
      ∨ ∃ sPre H H_known, sPre.nodes.length = s.nodes.length
          ∧ (∀ j, SameCore (nodeAt sPre.nodes j) (nodeAt s.nodes j))
          ∧ (iteration C s w).2.1.nodes = (rewrite C sPre H H_known).nodes := by
  obtain ⟨hn, _⟩ := random_insert_frame C { s with loop_cnt := s.loop_cnt + 1 } w
  have hn' : (random_insert C { s with loop_cnt := s.loop_cnt + 1 } w).1.nodes = s.nodes := hn
  unfold iteration visit
  simp only
  split
  · left
    intro i _
    simp only [hn']
    exact (SameCore.rfl _).sameCost
  · split
    · left
      intro i _
      simp only [hn']
      exact (SameCore.rfl _).sameCost
    · rcases expand_cases C (random_insert C { s with loop_cnt := s.loop_cnt + 1 } w).1
        ((random_insert C { s with loop_cnt := s.loop_cnt + 1 } w).1.OPEN.headD 0)
        (random_insert C { s with loop_cnt := s.loop_cnt + 1 } w).2 with h | ⟨sPre, Hk, a, b, c⟩
      · left
        intro i hi
        have := h i (by rw [hn']; exact hi)
        rw [hn'] at this
        exact this
      · right
        refine ⟨sPre, _, Hk, by rw [a, hn'], ?_, c⟩
        intro j
        have := b j
        rw [hn'] at this
        exact this

theorem rewrite_later_any {σ : Type} (C : Ctx σ) (s : LaCAM) (H_from H_to : Nat) :
    Later s (rewrite C s H_from H_to) := by
  refine rewrite_ind C (fun t => Later s t)
    (fun t n_from n_to Q ht => ht.later_trans (relax_later C n_from n_to t Q)) s H_from H_to
    (Later.refl s) ?_
  refine Later.of_frame (by simp [length_updNode]) ?_ ?_ ?_ ?_ ?_ ?_ ?_ ?_ (fun _ h => h)
    (fun _ h => h)
  · exact fun i _ => nodeAt_updNode_proj (fun n => n.Q) s.nodes H_from i _ (fun _ => rfl)
  · exact fun i _ => nodeAt_updNode_proj (fun n => n.h) s.nodes H_from i _ (fun _ => rfl)
  · exact fun i _ => nodeAt_updNode_proj (fun n => n.priorities) s.nodes H_from i _ (fun _ => rfl)
  · exact fun i _ => nodeAt_updNode_proj (fun n => n.order) s.nodes H_from i _ (fun _ => rfl)
  · exact fun i _ => nodeAt_updNode_proj (fun n => n.g) s.nodes H_from i _ (fun _ => rfl)
  · exact fun i _ => nodeAt_updNode_proj (fun n => n.f) s.nodes H_from i _ (fun _ => rfl)
  · exact fun i _ => nodeAt_updNode_proj (fun n => n.parent) s.nodes H_from i _ (fun _ => rfl)
  · exact fun i _ => nodeAt_updNode_proj (fun n => n.depth) s.nodes H_from i _ (fun _ => rfl)

theorem Later.sameCost_or_lt {s t : LaCAM} (h : Later s t) (i : Nat) (hi : i < s.nodes.length) :
    SameCost (nodeAt t.nodes i) (nodeAt s.nodes i)
      ∨ (nodeAt t.nodes i).g < (nodeAt s.nodes i).g := by
  by_cases e : (nodeAt t.nodes i).g = (nodeAt s.nodes i).g
  · obtain ⟨a, b, c⟩ := h.keep i hi e
    exact Or.inl ⟨e, a, b, c⟩
  · have := h.g_le i hi
    exact Or.inr (by omega)

/-- C10. Across a run, `Q`, `priorities` and `order` of a search node stay as constructed;
`g`, `f`, `parent` and `depth` of a node are either all as before or its `g` is strictly
lower, and `f = g + h` holds at every point. Within one iteration the four fields change only
through a call of `rewrite` (on a state that differs from the one at the loop test in
constraint queues only), and a call of `rewrite` changes them only by lowering `g`. Without
anytime mode `rewrite` returns the state it was given: no node field, `neighbors` included, and
not `OPEN` changes. -/
theorem node_fields_change_only_in_rewrite {σ : Type} (C : Ctx σ) (hwf : WellFormed C)
    (G : Graph) (w0 : σ) (fl : Flow) (s : LaCAM) (w : σ)
    (hr : Run C (initState C G) w0 fl s w) :
    (∀ fl2 t w2, Run C s w fl2 t w2 → ∀ i, i < s.nodes.length →
        (nodeAt t.nodes i).Q = (nodeAt s.nodes i).Q
          ∧ (nodeAt t.nodes i).priorities = (nodeAt s.nodes i).priorities
          ∧ (nodeAt t.nodes i).order = (nodeAt s.nodes i).order
          ∧ (SameCost (nodeAt t.nodes i) (nodeAt s.nodes i)
              ∨ (nodeAt t.nodes i).g < (nodeAt s.nodes i).g)
          ∧ (nodeAt t.nodes i).f = (nodeAt t.nodes i).g + (nodeAt t.nodes i).h)
      ∧ ((∀ i, i < s.nodes.length →
            SameCost (nodeAt (iteration C s w).2.1.nodes i) (nodeAt s.nodes i))
          ∨ ∃ sPre H H_known, sPre.nodes.length = s.nodes.length
              ∧ (∀ j, SameCore (nodeAt sPre.nodes j) (nodeAt s.nodes j))
              ∧ (iteration C s w).2.1.nodes = (rewrite C sPre H H_known).nodes)
      ∧ (∀ (t : LaCAM) H_from H_to i, i < t.nodes.length →
          (nodeAt (rewrite C t H_from H_to).nodes i).Q = (nodeAt t.nodes i).Q
            ∧ (nodeAt (rewrite C t H_from H_to).nodes i).priorities = (nodeAt t.nodes i).priorities
            ∧ (nodeAt (rewrite C t H_from H_to).nodes i).order = (nodeAt t.nodes i).order
            ∧ (SameCost (nodeAt (rewrite C t H_from H_to).nodes i) (nodeAt t.nodes i)
                ∨ (nodeAt (rewrite C t H_from H_to).nodes i).g < (nodeAt t.nodes i).g))
      ∧ (C.ANYTIME = false → ∀ (t : LaCAM) H_from H_to, rewrite C t H_from H_to = t) := by
  obtain ⟨hinv, _⟩ := hr.good hwf (initState_inv C hwf G)
  refine ⟨?_, iteration_cases C s w, ?_, fun hA t a b => rewrite_not_anytime C t a b hA⟩
  · intro fl2 t w2 h2 i hi
    obtain ⟨hinvt, hl⟩ := h2.good hwf hinv
    exact ⟨hl.Q_eq i hi, hl.priorities_eq i hi, hl.order_eq i hi, hl.sameCost_or_lt i hi,
      hinvt.arena.f_eq i (Nat.lt_of_lt_of_le hi hl.len_le)⟩
  · intro t a b i hi
    have hl := rewrite_later_any C t a b
    exact ⟨hl.Q_eq i hi, hl.priorities_eq i hi, hl.order_eq i hi, hl.sameCost_or_lt i hi⟩

theorem node_fields_change_only_in_rewrite_witness :
    WellFormed (demoCtx true 3 100)
      ∧ (nodeAt (loopState (demoCtx true 3 100) 8
            (initState (demoCtx true 3 100) demoGraph) ()).2.1.nodes 3).g = 3
      ∧ (nodeAt (loopState (demoCtx true 3 100) 9
            (initState (demoCtx true 3 100) demoGraph) ()).2.1.nodes 3).g = 1
      ∧ (nodeAt (loopState (demoCtx true 3 100) 8
            (initState (demoCtx true 3 100) demoGraph) ()).2.1.nodes 3).parent = some 2
      ∧ (nodeAt (loopState (demoCtx true 3 100) 9
            (initState (demoCtx true 3 100) demoGraph) ()).2.1.nodes 3).parent = some 0
      ∧ ∀ fl2 t w2,
          Run (demoCtx true 3 100)
            (loopState (demoCtx true 3 100) 8 (initState (demoCtx true 3 100) demoGraph) ()).2.1
            (loopState (demoCtx true 3 100) 8 (initState (demoCtx true 3 100) demoGraph) ()).2.2
            fl2 t w2 →
          ∀ i, i < (loopState (demoCtx true 3 100) 8
                (initState (demoCtx true 3 100) demoGraph) ()).2.1.nodes.length →
            (nodeAt t.nodes i).Q
                = (nodeAt (loopState (demoCtx true 3 100) 8
                    (initState (demoCtx true 3 100) demoGraph) ()).2.1.nodes i).Q
              ∧ (nodeAt t.nodes i).priorities
                = (nodeAt (loopState (demoCtx true 3 100) 8
                    (initState (demoCtx true 3 100) demoGraph) ()).2.1.nodes i).priorities
              ∧ (nodeAt t.nodes i).order
                = (nodeAt (loopState (demoCtx true 3 100) 8
                    (initState (demoCtx true 3 100) demoGraph) ()).2.1.nodes i).order
              ∧ (SameCost (nodeAt t.nodes i)
                    (nodeAt (loopState (demoCtx true 3 100) 8
                      (initState (demoCtx true 3 100) demoGraph) ()).2.1.nodes i)
                  ∨ (nodeAt t.nodes i).g
                    < (nodeAt (loopState (demoCtx true 3 100) 8
                        (initState (demoCtx true 3 100) demoGraph) ()).2.1.nodes i).g)
              ∧ (nodeAt t.nodes i).f = (nodeAt t.nodes i).g + (nodeAt t.nodes i).h :=
  ⟨demo_wf true 3 100, by decide!, by decide!, by decide!, by decide!,
    (node_fields_change_only_in_rewrite (demoCtx true 3 100) (demo_wf true 3 100) demoGraph () _
      _ _ (loopState_run (demoCtx true 3 100) 8
        (initState (demoCtx true 3 100) demoGraph) ())).1⟩

/-! ## Termination of the search loop when no goal is found -/

theorem mem_allConfigs (nV : Nat) (Q : Config) (h : ∀ v, v ∈ Q → v < nV) :
    Q ∈ allConfigs nV Q.length := by
  induction Q with
  | nil => simp [allConfigs]
  | cons a Q ih =>
    simp only [List.length_cons, allConfigs, List.mem_flatMap, List.mem_range, List.mem_map]
    exact ⟨a, h a (List.mem_cons_self _ _), Q, ih (fun v hv => h v (List.mem_cons_of_mem _ hv)),
      rfl⟩

theorem length_le_maxActions (G : Graph) (v : Nat) : (G.getD v []).length ≤ maxActions G := by
  unfold maxActions
  induction G generalizing v with
  | nil => simp
  | cons a G ih =>
    cases v with
    | zero => simp
    | succ v =>
      have := ih v
      simp only [List.getD_cons_succ, List.map_cons, List.foldr_cons]
      omega

theorem map_length_set (G : Graph) (v : Nat) (l : List Nat)
    (h : l.length = (G.getD v []).length) :
    (G.set v l).map List.length = G.map List.length := by
  induction G generalizing v with
  | nil => simp
  | cons a G ih =>
    cases v with
    | zero =>
      simp only [List.getD_cons_zero] at h
      simp [h]
    | succ v =>
      simp only [List.getD_cons_succ] at h
      simp [ih v h]

theorem treeSum_updNode (A N : Nat) (nodes : List HNode) (H : Nat) (f : HNode → HNode)
    (hH : H < nodes.length) :
    treeSum A N (updNode nodes H f) + treeWeight A N (nodeAt nodes H).search_tree
      = treeSum A N nodes + treeWeight A N (f (nodeAt nodes H)).search_tree := by
  unfold treeSum updNode nodeAt
  induction nodes generalizing H with
  | nil => simp at hH
  | cons a nodes ih =>
    cases H with
    | zero => simp; omega
    | succ H =>
      have := ih H (by simpa using hH)
      simp only [List.modify_succ_cons, List.map_cons, List.sum_cons, List.getD_cons_succ]
      omega

theorem treeSum_updNode_same (A N : Nat) (nodes : List HNode) (H : Nat) (f : HNode → HNode)
    (hf : ∀ n, (f n).search_tree = n.search_tree) :
    treeSum A N (updNode nodes H f) = treeSum A N nodes := by
  unfold treeSum updNode
  induction nodes generalizing H with
  | nil => simp
  | cons a nodes ih =>
    cases H with
    | zero => simp [hf]
    | succ H => simp [ih H]

theorem treeSum_append (A N : Nat) (nodes : List HNode) (x : HNode) :
    treeSum A N (nodes ++ [x]) = treeSum A N nodes + treeWeight A N x.search_tree := by
  simp [treeSum]

theorem treeWeight_cons (A N : Nat) (L : LNode) (rest : List LNode) :
    treeWeight A N (L :: rest) = levelWeight A (N - L.depth) + treeWeight A N rest := by
  simp [treeWeight]

theorem treeWeight_append (A N : Nat) (t1 t2 : List LNode) :
    treeWeight A N (t1 ++ t2) = treeWeight A N t1 + treeWeight A N t2 := by
  simp [treeWeight]

theorem treeWeight_children (A N : Nat) (L : LNode) (i : Nat) (Cs : List Nat) :
    treeWeight A N (Cs.map (LNode.child L i)) = Cs.length * levelWeight A (N - (L.depth + 1)) := by
  induction Cs with
  | nil => simp [treeWeight]
  | cons a Cs ih =>
    rw [List.map_cons, treeWeight_cons, ih]
    simp only [LNode.child, List.length_cons]
    rw [Nat.add_mul]
    omega

theorem treeSum_newHNode {σ : Type} (C : Ctx σ) (A N : Nat) (nodes : List HNode) (Q : Config)
    (H g h : Nat) :
    treeSum A N (newHNode C nodes Q (some H) g h) = treeSum A N nodes + levelWeight A N := by
  unfold newHNode
  simp only
  refine (treeSum_updNode_same A N _ H _ ?_).trans ?_
  · intro n; rfl
  · rw [treeSum_append]
    simp [HNode.init, treeWeight, LNode.root]

theorem rewrite_treeSum {σ : Type} (C : Ctx σ) (A N : Nat) (s : LaCAM) (H_from H_to : Nat) :
    treeSum A N (rewrite C s H_from H_to).nodes = treeSum A N s.nodes := by
  refine rewrite_ind C (fun t => treeSum A N t.nodes = treeSum A N s.nodes) ?_ s H_from H_to rfl
    (treeSum_updNode_same _ _ _ _ _ (fun _ => rfl))
  intro t n_from n_to Q ht
  rw [← ht]
  unfold relax
  simp only
  split
  · exact treeSum_updNode_same _ _ _ _ _ (fun _ => rfl)
  · rfl

theorem levelWeight_pos (A k : Nat) : 1 ≤ levelWeight A k := by
  cases k with
  | zero => simp [levelWeight]
  | succ k => simp [levelWeight]

theorem maxActions_congr (G1 G2 : Graph) (h : G1.map List.length = G2.map List.length) :
    maxActions G1 = maxActions G2 := by
  unfold maxActions
  rw [h]

theorem treeSum_push (A N : Nat) (nodes : List HNode) (H : Nat) (extra : List LNode)
    (hH : H < nodes.length) :
    treeSum A N (updNode nodes H fun n => { n with search_tree := n.search_tree ++ extra })
      = treeSum A N nodes + treeWeight A N extra := by
  have e := treeSum_updNode A N nodes H
    (fun n => { n with search_tree := n.search_tree ++ extra }) hH
  simp only [treeWeight_append] at e
  omega

/-- The low-level expansion adds children that weigh less than the constraint they come
from, and keeps the number of actions of every vertex. -/
theorem low_level_measure {σ : Type} (C : Ctx σ) (A N : Nat) (s : LaCAM) (H : Nat) (L : LNode)
    (w : σ) (hH : H < s.nodes.length) (hshuf : ∀ w l, (C.shuffle w l).1.length = l.length)
    (hA : maxActions s.G ≤ A) (hQ : (nodeAt s.nodes H).Q.length = N) :
    treeSum A N (low_level C s H L w).1.nodes + 1
        ≤ treeSum A N s.nodes + levelWeight A (N - L.depth)
      ∧ (low_level C s H L w).1.G.map List.length = s.G.map List.length := by
  unfold low_level
  simp only
  split
  · rename_i hlt
    rw [hQ] at hlt
    constructor
    · rw [treeSum_push _ _ _ _ _ hH, treeWeight_children, hshuf]
      have hle := length_le_maxActions s.G ((nodeAt s.nodes H).Q.getD
        ((nodeAt s.nodes H).order.getD L.depth 0) 0)
      have hk : N - L.depth = (N - (L.depth + 1)) + 1 := by omega
      have hw : levelWeight A (N - L.depth) = 1 + A * levelWeight A (N - (L.depth + 1)) := by
        rw [hk]; rfl
      have hmul := Nat.mul_le_mul_right (levelWeight A (N - (L.depth + 1)))
        (Nat.le_trans hle hA)
      omega
    · exact map_length_set _ _ _ (hshuf _ _)
  · constructor
    · have := levelWeight_pos A (N - L.depth)
      simp only
      omega
    · rfl

theorem node_from_step_solver {σ : Type} {C : Ctx σ} {s : LaCAM} (hinv : Inv C s) (i : Nat)
    (hi : i < s.nodes.length) (h0 : i ≠ 0) :
    ∃ Q1, StepSolverReturned C Q1 (nodeAt s.nodes i).Q := by
  obtain ⟨p, _, hp, _, h4, _⟩ := hinv.arena.parent_ok i hi h0
  exact ⟨_, hinv.calls_ok _ (hinv.arena.nbr_ok p hp i h4).2⟩

theorem node_Q_ne_goal {σ : Type} {C : Ctx σ} {s : LaCAM} (hinv : Inv C s)
    (hnever : ∀ c, c ∈ s.calls → c.2 ≠ C.ins.goals) (hsg : C.ins.starts ≠ C.ins.goals) (i : Nat)
    (hi : i < s.nodes.length) : (nodeAt s.nodes i).Q ≠ C.ins.goals := by
  by_cases h0 : i = 0
  · subst h0
    rw [hinv.arena.root_Q]; exact hsg
  · obtain ⟨p, _, hp, _, h4, _⟩ := hinv.arena.parent_ok i hi h0
    exact hnever _ (hinv.arena.nbr_ok p hp i h4).2

theorem node_count_le {σ : Type} {C : Ctx σ} {s : LaCAM} (G : Graph) (hinv : Inv C s)
    (hstart : ∀ v, v ∈ C.ins.starts → v < G.length)
    (hin : ∀ c, c ∈ s.calls → ∀ v, v ∈ c.2 → v < G.length) :
    s.nodes.length ≤ (allConfigs G.length C.ins.N).length := by
  have hnd : ((List.range s.nodes.length).map fun i => (nodeAt s.nodes i).Q).Nodup := by
    apply List.Nodup.map_on _ (List.nodup_range _)
    intro x hx y hy e
    exact hinv.arena.Q_inj x y (List.mem_range.mp hx) (List.mem_range.mp hy) e
  have hsub : ((List.range s.nodes.length).map fun i => (nodeAt s.nodes i).Q)
      ⊆ allConfigs G.length C.ins.N := by
    intro Q hQ
    obtain ⟨i, hi, rfl⟩ := List.mem_map.mp hQ
    have hi' := List.mem_range.mp hi
    rw [← hinv.arena.Q_len i hi']
    apply mem_allConfigs
    by_cases h0 : i = 0
    · subst h0
      rw [hinv.arena.root_Q]; exact hstart
    · obtain ⟨p, _, hp, _, h4, _⟩ := hinv.arena.parent_ok i hi' h0
      exact hin _ (hinv.arena.nbr_ok p hp i h4).2
  have := (hnd.subperm hsub).length_le
  simpa using this

theorem iteration_eq_expand {σ : Type} (C : Ctx σ) (s : LaCAM) (w : σ) (hg : s.H_goal = none)
    (hne : (nodeAt s.nodes (s.OPEN.headD 0)).Q ≠ C.ins.goals) :
    iteration C s w
      = (Flow.next, expand C { s with loop_cnt := s.loop_cnt + 1 } (s.OPEN.headD 0) w) := by
  have hri : random_insert C { s with loop_cnt := s.loop_cnt + 1 } w
      = ({ s with loop_cnt := s.loop_cnt + 1 }, w) := by
    unfold random_insert
    simp [hg]
  have hs : is_same_config (nodeAt s.nodes (s.OPEN.headD 0)).Q C.ins.goals = false := by
    unfold is_same_config
    exact decide_eq_false hne
  unfold iteration
  rw [hri]
  unfold visit
  simp only [hg, Option.isSome_none, Bool.false_and, Bool.false_eq_true, if_false,
    Option.isNone_none, Bool.true_and, hs]

theorem expand_nil {σ : Type} (C : Ctx σ) (s : LaCAM) (H : Nat) (w : σ)
    (hst : (nodeAt s.nodes H).search_tree = []) :
    expand C s H w = ({ s with OPEN := s.OPEN.tail }, w) := by
  unfold expand
  rw [hst]

theorem expand_cons_none {σ : Type} (C : Ctx σ) (s : LaCAM) (H : Nat) (w : σ) (L : LNode)
    (rest : List LNode) (hst : (nodeAt s.nodes H).search_tree = L :: rest)
    (hres : (set_new_config C
      (low_level C { s with nodes := updNode s.nodes H fun n => { n with search_tree := rest } }
        H L w).1 H L (List.replicate C.ins.N none)
      (low_level C { s with nodes := updNode s.nodes H fun n => { n with search_tree := rest } }
        H L w).2).1 = none) :
    (expand C s H w).1
      = (low_level C { s with nodes := updNode s.nodes H fun n => { n with search_tree := rest } }
          H L w).1 := by
  unfold expand
  rw [hst]
  simp only [hres]

theorem expand_cons_some {σ : Type} (C : Ctx σ) (s : LaCAM) (H : Nat) (w : σ) (L : LNode)
    (rest : List LNode) (Q_to : Config) (hst : (nodeAt s.nodes H).search_tree = L :: rest)
    (hres : (set_new_config C
      (low_level C { s with nodes := updNode s.nodes H fun n => { n with search_tree := rest } }
        H L w).1 H L (List.replicate C.ins.N none)
      (low_level C { s with nodes := updNode s.nodes H fun n => { n with search_tree := rest } }
        H L w).2).1 = some Q_to) :
    ∃ u w2, expand C s H w = successor C u H Q_to w2
      ∧ u.nodes = (low_level C
          { s with nodes := updNode s.nodes H fun n => { n with search_tree := rest } }
          H L w).1.nodes
      ∧ u.OPEN = (low_level C
          { s with nodes := updNode s.nodes H fun n => { n with search_tree := rest } }
          H L w).1.OPEN
      ∧ u.H_goal = (low_level C
          { s with nodes := updNode s.nodes H fun n => { n with search_tree := rest } }
          H L w).1.H_goal
      ∧ u.G = (low_level C
          { s with nodes := updNode s.nodes H fun n => { n with search_tree := rest } }
          H L w).1.G := by
  unfold expand
  rw [hst]
  simp only [hres]
  exact ⟨_, _, rfl, rfl, rfl, rfl, rfl⟩

theorem dequeued_measure {σ : Type} (C : Ctx σ) (A N : Nat) (s : LaCAM) (H : Nat) (L : LNode)
    (rest : List LNode) (w : σ) (hH : H < s.nodes.length)
    (hst : (nodeAt s.nodes H).search_tree = L :: rest)
    (hshuf : ∀ w l, (C.shuffle w l).1.length = l.length) (hA : maxActions s.G ≤ A)
    (hQ : (nodeAt s.nodes H).Q.length = N) :
    treeSum A N (low_level C
        { s with nodes := updNode s.nodes H fun n => { n with search_tree := rest } }
        H L w).1.nodes + 1 ≤ treeSum A N s.nodes
      ∧ (low_level C
        { s with nodes := updNode s.nodes H fun n => { n with search_tree := rest } }
        H L w).1.G.map List.length = s.G.map List.length := by
  have h1 := treeSum_updNode A N s.nodes H (fun n => { n with search_tree := rest }) hH
  rw [hst, treeWeight_cons] at h1
  simp only at h1
  obtain ⟨a, b⟩ := low_level_measure C A N
    { s with nodes := updNode s.nodes H fun n => { n with search_tree := rest } } H L w
    (by simp only [length_updNode]; exact hH) hshuf hA
    (by
      have := nodeAt_updNode_proj (fun n => n.Q) s.nodes H H
        (fun n => { n with search_tree := rest }) (fun _ => rfl)
      simp only at this ⊢
      rw [this]; exact hQ)
  refine ⟨?_, b⟩
  simp only at a
  omega

theorem successor_potential {σ : Type} (C : Ctx σ) (A N M : Nat) (u : LaCAM) (H : Nat)
    (Q_to : Config) (w : σ) (hg : u.H_goal = none)
    (hM : (successor C u H Q_to w).1.nodes.length ≤ M) :
    treeSum A N (successor C u H Q_to w).1.nodes
        + (M - (successor C u H Q_to w).1.nodes.length) * levelWeight A N
        = treeSum A N u.nodes + (M - u.nodes.length) * levelWeight A N
      ∧ (successor C u H Q_to w).1.OPEN.length = u.OPEN.length + 1
      ∧ (successor C u H Q_to w).1.G = u.G := by
  unfold successor at hM ⊢
  split at hM
  · rename_i hE
    simp only [hE]
    simp only [length_newHNode] at hM ⊢
    refine ⟨?_, by simp, by simp⟩
    rw [treeSum_newHNode]
    have hk : M - u.nodes.length = (M - (u.nodes.length + 1)) + 1 := by omega
    rw [hk, Nat.add_mul]
    omega
  · rename_i H_known hE
    simp only [hE]
    obtain ⟨_, _, _, hG, _, hlen⟩ := rewrite_other C u H H_known
    have hO := rewrite_open_of_no_goal C u H H_known hg
    have hT := rewrite_treeSum C A N u H H_known
    split <;> simp [hT, hlen, hO, hG]

/-- While no goal is recorded, an expansion of the front node of `OPEN` lowers the
termination measure. -/
theorem expand_potential {σ : Type} (C : Ctx σ) (G0 : Graph)
    (hperm : ∀ w l, List.Perm (C.shuffle w l).1 l) (s : LaCAM) (H : Nat) (rest : List Nat)
    (w : σ) (hinv : Inv C s) (hg : s.H_goal = none)
    (hG : s.G.map List.length = G0.map List.length) (hO : s.OPEN = H :: rest)
    (hM : (expand C s H w).1.nodes.length ≤ (allConfigs G0.length C.ins.N).length) :
    potential (maxActions G0) C.ins.N (allConfigs G0.length C.ins.N).length (expand C s H w).1 + 1
        ≤ potential (maxActions G0) C.ins.N (allConfigs G0.length C.ins.N).length s
      ∧ (expand C s H w).1.G.map List.length = G0.map List.length := by
  have hH : H < s.nodes.length := hinv.open_ok H (by rw [hO]; exact List.mem_cons_self _ _)
  have hshuf : ∀ w l, (C.shuffle w l).1.length = l.length :=
    fun w l => (hperm w l).length_eq
  have hA : maxActions s.G ≤ maxActions G0 := Nat.le_of_eq (maxActions_congr _ _ hG)
  cases hst : (nodeAt s.nodes H).search_tree with
  | nil =>
    rw [expand_nil C s H w hst]
    refine ⟨?_, hG⟩
    simp only [potential, hO, List.tail_cons, List.length_cons]
    omega
  | cons L tl =>
    obtain ⟨m1, m2⟩ := dequeued_measure C (maxActions G0) C.ins.N s H L tl w hH hst hshuf hA
      (hinv.arena.Q_len H hH)
    obtain ⟨f1, _, _, f4, f5, _, _⟩ := dequeued_frame C s H L tl w
    cases hres : (set_new_config C
      (low_level C { s with nodes := updNode s.nodes H fun n => { n with search_tree := tl } }
        H L w).1 H L (List.replicate C.ins.N none)
      (low_level C { s with nodes := updNode s.nodes H fun n => { n with search_tree := tl } }
        H L w).2).1 with
    | none =>
      rw [expand_cons_none C s H w L tl hst hres]
      refine ⟨?_, m2.trans hG⟩
      simp only [potential, f1, f4]
      omega
    | some Q_to =>
      obtain ⟨u, w2, e, u1, u2, u3, u4⟩ := expand_cons_some C s H w L tl Q_to hst hres
      rw [e] at hM ⊢
      obtain ⟨p1, p2, p3⟩ := successor_potential C (maxActions G0) C.ins.N
        (allConfigs G0.length C.ins.N).length u H Q_to w2 (by rw [u3, f5]; exact hg) hM
      refine ⟨?_, by rw [p3, u4]; exact m2.trans hG⟩
      simp only [potential, p2, u2, f4]
      rw [u1] at p1
      rw [f1] at p1
      omega
theorem searchLoop_terminates {σ : Type} (C : Ctx σ) (hwf : WellFormed C) (G0 : Graph) (w0 : σ)
    (hstart : ∀ v, v ∈ C.ins.starts → v < G0.length)
    (hperm : ∀ w l, List.Perm (C.shuffle w l).1 l)
    (hin : RunStaysInGraph C G0 w0) (hnever : RunNeverProducesGoal C G0 w0)
    (hsg : C.ins.starts ≠ C.ins.goals) (hdl : ∀ k, C.is_expired k = false) (fuel : Nat)
    (s : LaCAM) (w : σ) (hr : Run C (initState C G0) w0 Flow.next s w) (hg : s.H_goal = none)
    (hG : s.G.map List.length = G0.map List.length)
    (hp : potential (maxActions G0) C.ins.N (allConfigs G0.length C.ins.N).length s < fuel) :
    ∃ t w1, searchLoop C fuel s w = some (t, w1) ∧ t.OPEN = [] ∧ t.H_goal = none
      ∧ t.loop_cnt ≤ s.loop_cnt
          + potential (maxActions G0) C.ins.N (allConfigs G0.length C.ins.N).length s := by
  induction fuel generalizing s w with
  | zero => omega
  | succ fuel ih =>
    obtain ⟨hinv, _⟩ := hr.good hwf (initState_inv C hwf G0)
    unfold searchLoop
    cases hO : s.OPEN with
    | nil =>
      refine ⟨s, w, by simp, hO, hg, by omega⟩
    | cons H rest =>
      have hH : H < s.nodes.length := hinv.open_ok H (by rw [hO]; exact List.mem_cons_self _ _)
      have hne : (nodeAt s.nodes (s.OPEN.headD 0)).Q ≠ C.ins.goals := by
        rw [hO]
        exact node_Q_ne_goal hinv (hnever _ _ _ hr) hsg H hH
      have hit := iteration_eq_expand C s w hg hne
      have hhead : s.OPEN.headD 0 = H := by rw [hO]; rfl
      rw [hhead] at hit
      have hr2 := Run.step hr (by rw [hO]; rfl) (hdl _)
      rw [hit] at hr2
      have hinv1 : Inv C { s with loop_cnt := s.loop_cnt + 1 } :=
        hinv.inv_of_nodes_eq rfl rfl (fun k hk => hinv.open_ok k hk)
          (fun k hk => hinv.goal_ok k hk) rfl
      obtain ⟨hinv2, _⟩ := expand_good C hwf { s with loop_cnt := s.loop_cnt + 1 } H w hinv1 hH
      obtain ⟨hg2, hcnt⟩ := expand_other C { s with loop_cnt := s.loop_cnt + 1 } H w
      obtain ⟨hp2, hG2⟩ := expand_potential C G0 hperm { s with loop_cnt := s.loop_cnt + 1 }
        H rest w hinv1 hg hG hO (node_count_le G0 hinv2 hstart (hin _ _ _ hr2))
      have hpe : potential (maxActions G0) C.ins.N (allConfigs G0.length C.ins.N).length
          { s with loop_cnt := s.loop_cnt + 1 }
          = potential (maxActions G0) C.ins.N (allConfigs G0.length C.ins.N).length s := rfl
      rw [hpe] at hp2
      obtain ⟨t, w1, h1, h2, h3, h4⟩ := ih (expand C { s with loop_cnt := s.loop_cnt + 1 } H w).1
        (expand C { s with loop_cnt := s.loop_cnt + 1 } H w).2 hr2 (hg2.trans hg) hG2
        (by omega)
      refine ⟨t, w1, ?_, h2, h3, ?_⟩
      · simp only [List.isEmpty_cons, hdl, Bool.or_false, Bool.false_eq_true, if_false, hit]
        exact h1
      · rw [hcnt] at h4
        simp only at h4
        omega

theorem potential_initState {σ : Type} (C : Ctx σ) (hwf : WellFormed C) (G : Graph)
    (hstart : ∀ v, v ∈ C.ins.starts → v < G.length) :
    potential (maxActions G) C.ins.N (allConfigs G.length C.ins.N).length (initState C G) + 1
      = iterBound C.ins.N G := by
  have hM := node_count_le G (initState_inv C hwf G) hstart
    (fun c hc => absurd hc (List.not_mem_nil c))
  have hlen : (initState C G).nodes.length = 1 := by simp [initState, newHNode]
  rw [hlen] at hM
  have hT : treeSum (maxActions G) C.ins.N (initState C G).nodes
      = levelWeight (maxActions G) C.ins.N := by
    simp [initState, newHNode, treeSum, treeWeight, HNode.init, LNode.root]
  have hO : (initState C G).OPEN.length = 1 := rfl
  unfold potential iterBound
  rw [hT, hlen, hO]
  have hk : (allConfigs G.length C.ins.N).length
      = ((allConfigs G.length C.ins.N).length - 1) + 1 := by omega
  have hmul : (allConfigs G.length C.ins.N).length * levelWeight (maxActions G) C.ins.N
      = ((allConfigs G.length C.ins.N).length - 1) * levelWeight (maxActions G) C.ins.N
        + levelWeight (maxActions G) C.ins.N := by
    conv_lhs => rw [hk]
    rw [Nat.add_mul, Nat.one_mul]
  omega

/-- A step solver that never returns the goal configuration, on whatever call, does not
return it during a run. -/
theorem runNeverProducesGoal_of_never {σ : Type} (C : Ctx σ) (hwf : WellFormed C) (G : Graph)
    (w0 : σ) (h : GoalNeverProduced C) : RunNeverProducesGoal C G w0 := by
  intro fl s w hr c hc e
  obtain ⟨hinv, _⟩ := hr.good hwf (initState_inv C hwf G)
  obtain ⟨w1, G1, Qt, ord, hcall⟩ := hinv.calls_ok c hc
  rw [e] at hcall
  exact h w1 G1 c.1 Qt ord hcall

/-- A step solver that returns only vertices of the graph, on whatever call, stays in the
graph during a run. -/
theorem runStaysInGraph_of_finite {σ : Type} (C : Ctx σ) (hwf : WellFormed C) (G : Graph)
    (w0 : σ) (h : FiniteGraph C G) : RunStaysInGraph C G w0 := by
  intro fl s w hr c hc
  obtain ⟨hinv, _⟩ := hr.good hwf (initState_inv C hwf G)
  obtain ⟨w1, G1, Qt, ord, hcall⟩ := hinv.calls_ok c hc
  exact h.pibt_in w1 G1 c.1 Qt ord _ hcall

/-- Once the loop has ended, `loopState` stays where it is. -/
theorem loopState_stable {σ : Type} (C : Ctx σ) (s0 : LaCAM) (w0 : σ) (n : Nat)
    (hend : (loopState C n s0 w0).1 = Flow.stop
      ∨ ((loopState C n s0 w0).2.1.OPEN.isEmpty
          || C.is_expired (loopState C n s0 w0).2.1.loop_cnt) = true) (m : Nat) :
    loopState C (n + m) s0 w0 = loopState C n s0 w0 := by
  induction m with
  | zero => rfl
  | succ m ih =>
    show loopState C (n + m + 1) s0 w0 = _
    rw [loopState, ih]
    rcases hst : loopState C n s0 w0 with ⟨fl, s1, w1⟩
    rw [hst] at hend
    cases fl with
    | stop => rfl
    | next =>
      rcases hend with h | h
      · cases h
      · simp only at h ⊢
        rw [if_pos h]

/-- Every state of a run is a state of `loopState`. -/
theorem run_eq_loopState {σ : Type} {C : Ctx σ} {s0 : LaCAM} {w0 : σ} {fl : Flow} {s : LaCAM}
    {w : σ} (hr : Run C s0 w0 fl s w) : ∃ k, loopState C k s0 w0 = (fl, s, w) := by
  induction hr with
  | refl => exact ⟨0, rfl⟩
  | step _ hO hE ih =>
    obtain ⟨k, hk⟩ := ih
    refine ⟨k + 1, ?_⟩
    rw [loopState, hk]
    simp only [hO, hE, Bool.or_false, Bool.false_eq_true, if_false]

/-- When the loop has ended after `n` iterations, every state of the run is one of the first
`n + 1` states of `loopState`. -/
theorem run_within {σ : Type} {C : Ctx σ} {s0 : LaCAM} {w0 : σ} (n : Nat)
    (hend : (loopState C n s0 w0).1 = Flow.stop
      ∨ ((loopState C n s0 w0).2.1.OPEN.isEmpty
          || C.is_expired (loopState C n s0 w0).2.1.loop_cnt) = true)
    {fl : Flow} {s : LaCAM} {w : σ} (hr : Run C s0 w0 fl s w) :
    ∃ k, k ≤ n ∧ (loopState C k s0 w0).2.1 = s := by
  obtain ⟨k, hk⟩ := run_eq_loopState hr
  by_cases h : k ≤ n
  · exact ⟨k, h, by rw [hk]⟩
  · refine ⟨n, Nat.le_refl n, ?_⟩
    have e := loopState_stable C s0 w0 n hend (k - n)
    rw [show n + (k - n) = k by omega] at e
    rw [← e, hk]

theorem split_wf (anytime : Bool) : WellFormed (splitCtx anytime) where
  starts_len := rfl
  pibt_len := by
    intro w G Qf Qt ord Q h
    have e : Q = _ := (Option.some.inj h).symm
    rw [e]
    rfl

theorem split_stays (anytime : Bool) : RunStaysInGraph (splitCtx anytime) splitGraph () := by
  intro fl s w hr
  obtain ⟨k, hk, e⟩ := run_within 13 (by cases anytime <;> exact Or.inr (by decide!)) hr
  have hall : ∀ k, k ≤ 13 → ∀ c,
      c ∈ (loopState (splitCtx anytime) k (initState (splitCtx anytime) splitGraph) ()).2.1.calls →
        ∀ v, v ∈ c.2 → v < splitGraph.length := by
    cases anytime <;> decide!
  rw [← e]
  exact hall k hk

theorem split_never (anytime : Bool) : RunNeverProducesGoal (splitCtx anytime) splitGraph () := by
  intro fl s w hr
  obtain ⟨k, hk, e⟩ := run_within 13 (by cases anytime <;> exact Or.inr (by decide!)) hr
  have hall : ∀ k, k ≤ 13 → ∀ c,
      c ∈ (loopState (splitCtx anytime) k (initState (splitCtx anytime) splitGraph) ()).2.1.calls →
        c.2 ≠ (splitCtx anytime).ins.goals := by
    cases anytime <;> decide!
  rw [← e]
  exact hall k hk

theorem split_solver_returns_goal (anytime : Bool) : ¬ GoalNeverProduced (splitCtx anytime) :=
  fun h => h () splitGraph [2] [none] [0] rfl

/-- C6, as amended. On a finite graph (the start vertices are vertices of the graph,
`std::shuffle` permutes, and what the step solver returns during the run lies in the graph),
if the start configuration is not the goal configuration, the step solver does not return the
goal configuration on any call of the run, and the deadline never expires, then for every
generator state and every behaviour of the random draws the search loop ends within
`iterBound N G` iterations with `OPEN` empty, and `solve` returns the empty solution with the
outcome "unsolvable". The step solver is constrained on the calls of the run only. -/
theorem solve_unsolvable_when_goal_unreachable {σ : Type} (C : Ctx σ) (hwf : WellFormed C)
    (G : Graph) (w : σ) (hstart : ∀ v, v ∈ C.ins.starts → v < G.length)
    (hperm : ∀ w1 l, List.Perm (C.shuffle w1 l).1 l) (hin : RunStaysInGraph C G w)
    (hnever : RunNeverProducesGoal C G w) (hsg : C.ins.starts ≠ C.ins.goals)
    (hdl : ∀ k, C.is_expired k = false) (fuel : Nat) (hfuel : iterBound C.ins.N G ≤ fuel) :
    ∃ s w1, searchLoop C fuel (initState C G) w = some (s, w1)
      ∧ s.OPEN = [] ∧ s.H_goal = none ∧ s.loop_cnt < iterBound C.ins.N G
      ∧ solve C G w fuel = some ([], Outcome.unsolvable) := by
  have hp := potential_initState C hwf G hstart
  obtain ⟨t, w1, h1, h2, h3, h4⟩ := searchLoop_terminates C hwf G w hstart hperm hin hnever hsg
    hdl fuel (initState C G) w (Run.refl _ _) rfl rfl (by omega)
  refine ⟨t, w1, h1, h2, h3, ?_, ?_⟩
  · have : (initState C G).loop_cnt = 0 := rfl
    omega
  · rw [solve_eq C G w fuel t w1 h1, finish_of_no_goal t h3, h2]
    rfl

theorem solve_unsolvable_when_goal_unreachable_witness :
    WellFormed (splitCtx true)
      ∧ (∀ v, v ∈ (splitCtx true).ins.starts → v < splitGraph.length)
      ∧ (∀ w1 l, List.Perm ((splitCtx true).shuffle w1 l).1 l)
      ∧ RunStaysInGraph (splitCtx true) splitGraph ()
      ∧ RunNeverProducesGoal (splitCtx true) splitGraph ()
      ∧ ¬ GoalNeverProduced (splitCtx true)
      ∧ (splitCtx true).ins.starts ≠ (splitCtx true).ins.goals
      ∧ (∀ k, (splitCtx true).is_expired k = false)
      ∧ iterBound (splitCtx true).ins.N splitGraph ≤ 26
      ∧ ∃ s w1, searchLoop (splitCtx true) 26 (initState (splitCtx true) splitGraph) ()
            = some (s, w1)
          ∧ s.OPEN = [] ∧ s.H_goal = none
          ∧ s.loop_cnt < iterBound (splitCtx true).ins.N splitGraph
          ∧ solve (splitCtx true) splitGraph () 26 = some ([], Outcome.unsolvable) :=
  ⟨split_wf true, by decide, fun _ l => List.Perm.refl l, split_stays true, split_never true,
    split_solver_returns_goal true, by decide, fun _ => rfl, by decide,
    solve_unsolvable_when_goal_unreachable (splitCtx true) (split_wf true) splitGraph ()
      (by decide) (fun _ l => List.Perm.refl l) (split_stays true) (split_never true)
      (by decide) (fun _ => rfl) 26 (by decide)⟩

/-- C6, as stated, fails when the start configuration is the goal configuration: the step
solver of `stuckCtx` never returns anything, the graph is finite and there is no deadline, yet
`solve` returns the one-step solution `[[0]]`, not the empty one. -/
theorem solve_not_unsolvable_when_start_is_goal :
    WellFormed (stuckCtx false) ∧ FiniteGraph (stuckCtx false) demoGraph
      ∧ GoalNeverProduced (stuckCtx false)
      ∧ (∀ k, (stuckCtx false).is_expired k = false)
      ∧ ∀ fuel, solve (stuckCtx false) demoGraph () (fuel + 1)
          = some ([[0]], Outcome.suboptimal) := by
  refine ⟨⟨rfl, ?_⟩, ⟨?_, ?_, fun _ l => List.Perm.refl l⟩, ?_, fun _ => rfl, ?_⟩
  · intro w G Qf Qt ord Q h
    cases h
  · intro v hv
    have : v = 0 := by simpa [stuckCtx] using hv
    subst this
    decide
  · intro w G Qf Qt ord Q h
    cases h
  · intro w G Qf Qt ord h
    cases h
  · intro fuel
    rfl

/-! ## The queue loop of `rewrite` never uses up its rounds -/

theorem sumG_updNode (nodes : List HNode) (i : Nat) (f : HNode → HNode)
    (hi : i < nodes.length) :
    sumG (updNode nodes i f) + (nodeAt nodes i).g = sumG nodes + (f (nodeAt nodes i)).g := by
  unfold sumG updNode nodeAt
  induction nodes generalizing i with
  | nil => simp at hi
  | cons a nodes ih =>
    cases i with
    | zero => simp; omega
    | succ i =>
      have := ih i (by simpa using hi)
      simp only [List.modify_succ_cons, List.map_cons, List.sum_cons, List.getD_cons_succ]
      omega

theorem relax_measure {σ : Type} (C : Ctx σ) (n_from n_to : Nat) (s : LaCAM) (Q : List Nat) :
    2 * sumG (relax C n_from n_to s Q).1.nodes + (relax C n_from n_to s Q).2.length
      ≤ 2 * sumG s.nodes + Q.length := by
  unfold relax
  simp only
  split
  · rename_i hlt
    have hto : n_to < s.nodes.length := by
      by_contra hge
      rw [nodeAt_of_le s.nodes (i := n_to) (by omega)] at hlt
      exact Nat.not_lt_zero _ hlt
    have e := sumG_updNode s.nodes n_to
      (fun n => { n with
        g := (nodeAt s.nodes n_from).g
          + get_edge_cost C.ins (nodeAt s.nodes n_from).Q (nodeAt s.nodes n_to).Q
        f := (nodeAt s.nodes n_from).g
          + get_edge_cost C.ins (nodeAt s.nodes n_from).Q (nodeAt s.nodes n_to).Q + n.h
        parent := some n_from
        depth := (nodeAt s.nodes n_from).depth + 1 }) hto
    simp only [List.length_append, List.length_singleton] at e ⊢
    omega
  · exact Nat.le_refl _

theorem relaxAll_measure {σ : Type} (C : Ctx σ) (n_from : Nat) (l : List Nat) (s : LaCAM)
    (Q : List Nat) :
    2 * sumG (relaxAll C n_from l s Q).1.nodes + (relaxAll C n_from l s Q).2.length
      ≤ 2 * sumG s.nodes + Q.length := by
  induction l generalizing s Q with
  | nil => exact Nat.le_refl _
  | cons n_to rest ih =>
    unfold relaxAll
    exact Nat.le_trans (ih _ _) (relax_measure C n_from n_to s Q)

/-- With more rounds than `2 * sumG + |Q|` the queue loop of `rewrite` ends with an empty
queue. -/
theorem rewriteLoop_queue_empty {σ : Type} (C : Ctx σ) (fuel : Nat) (Q : List Nat) (s : LaCAM)
    (h : 2 * sumG s.nodes + Q.length < fuel) : (rewriteLoop C fuel Q s).2 = [] := by
  induction fuel generalizing Q s with
  | zero => omega
  | succ fuel ih =>
    cases Q with
    | nil => rfl
    | cons n_from Q =>
      unfold rewriteLoop
      apply ih
      have := relaxAll_measure C n_from (nodeAt s.nodes n_from).neighbors s Q
      simp only [List.length_cons] at h
      omega

/-- Once the queue is empty, more rounds change nothing. -/
theorem rewriteLoop_more_fuel {σ : Type} (C : Ctx σ) (fuel k : Nat) (Q : List Nat) (s : LaCAM)
    (h : (rewriteLoop C fuel Q s).2 = []) :
    rewriteLoop C (fuel + k) Q s = rewriteLoop C fuel Q s := by
  induction fuel generalizing Q s with
  | zero =>
    have hQ : Q = [] := h
    subst hQ
    cases k <;> rfl
  | succ fuel ih =>
    cases Q with
    | nil =>
      have e : fuel + 1 + k = (fuel + k) + 1 := by omega
      rw [e]
      rfl
    | cons n_from Q =>
      have e : fuel + 1 + k = (fuel + k) + 1 := by omega
      rw [e]
      unfold rewriteLoop
      unfold rewriteLoop at h
      exact ih _ _ h

/-- The rounds that `rewrite` gives to its queue loop are enough: the loop ends with an empty
queue, as the `while (!Q.empty())` of the code does. -/
theorem rewrite_rounds_suffice {σ : Type} (C : Ctx σ) (s : LaCAM) (H_from H_to : Nat) :
    (rewriteLoop C
      (2 * sumG (updNode s.nodes H_from fun n =>
        { n with neighbors := setInsert s.nodes H_to n.neighbors }) + 2) [H_from]
      { s with nodes := updNode s.nodes H_from fun n =>
        { n with neighbors := setInsert s.nodes H_to n.neighbors } }).2 = [] := by
  apply rewriteLoop_queue_empty
  simp

/-! ## Reproducibility -/

theorem getD_set_perm (G : Graph) (v : Nat) (l : List Nat) (u : Nat)
    (h : List.Perm l (G.getD v [])) : List.Perm ((G.set v l).getD u []) (G.getD u []) := by
  induction G generalizing v u with
  | nil => simp
  | cons a G ih =>
    cases v with
    | zero =>
      cases u with
      | zero => simpa using h
      | succ u => simp
    | succ v =>
      cases u with
      | zero => simp
      | succ u =>
        simp only [List.set_cons_succ, List.getD_cons_succ]
        exact ih v u (by simpa using h)

theorem successor_G {σ : Type} (C : Ctx σ) (s : LaCAM) (H : Nat) (Q_to : Config) (w : σ) :
    (successor C s H Q_to w).1.G = s.G := by
  unfold successor
  split
  · rfl
  · rename_i H_known _
    obtain ⟨_, _, _, hG, _, _⟩ := rewrite_other C s H H_known
    split <;> exact hG

theorem low_level_G {σ : Type} (C : Ctx σ) (s : LaCAM) (H : Nat) (L : LNode) (w : σ) :
    (low_level C s H L w).1.G = s.G
      ∨ ∃ v w1, (low_level C s H L w).1.G = s.G.set v (C.shuffle w1 (s.G.getD v [])).1 := by
  unfold low_level
  simp only
  split
  · right; exact ⟨_, _, rfl⟩
  · left; rfl

theorem expand_G {σ : Type} (C : Ctx σ) (s : LaCAM) (H : Nat) (w : σ) :
    (expand C s H w).1.G = s.G
      ∨ ∃ v w1, (expand C s H w).1.G = s.G.set v (C.shuffle w1 (s.G.getD v [])).1 := by
  cases hst : (nodeAt s.nodes H).search_tree with
  | nil =>
    rw [expand_nil C s H w hst]
    left; rfl
  | cons L tl =>
    have hl := low_level_G C
      { s with nodes := updNode s.nodes H fun n => { n with search_tree := tl } } H L w
    cases hres : (set_new_config C
      (low_level C { s with nodes := updNode s.nodes H fun n => { n with search_tree := tl } }
        H L w).1 H L (List.replicate C.ins.N none)
      (low_level C { s with nodes := updNode s.nodes H fun n => { n with search_tree := tl } }
        H L w).2).1 with
    | none =>
      rw [expand_cons_none C s H w L tl hst hres]
      exact hl
    | some Q_to =>
      obtain ⟨u, w2, e, _, _, _, u4⟩ := expand_cons_some C s H w L tl Q_to hst hres
      rw [e, successor_G, u4]
      exact hl

theorem iteration_G {σ : Type} (C : Ctx σ) (s : LaCAM) (w : σ) :
    (iteration C s w).2.1.G = s.G
      ∨ ∃ v w1, (iteration C s w).2.1.G = s.G.set v (C.shuffle w1 (s.G.getD v [])).1 := by
  obtain ⟨_, _, _, _, hG, _⟩ := random_insert_frame C { s with loop_cnt := s.loop_cnt + 1 } w
  have hG' : (random_insert C { s with loop_cnt := s.loop_cnt + 1 } w).1.G = s.G := hG
  unfold iteration visit
  simp only
  split
  · left; exact hG'
  · split
    · left; exact hG'
    · rcases expand_G C (random_insert C { s with loop_cnt := s.loop_cnt + 1 } w).1
        ((random_insert C { s with loop_cnt := s.loop_cnt + 1 } w).1.OPEN.headD 0)
        (random_insert C { s with loop_cnt := s.loop_cnt + 1 } w).2 with h | ⟨v, w1, h⟩
      · left; exact h.trans hG'
      · right
        rw [hG'] at h
        exact ⟨v, w1, h⟩

/-- A run only permutes the actions of each vertex. -/
theorem Run.graph_perm {σ : Type} {C : Ctx σ} (hperm : ∀ w l, List.Perm (C.shuffle w l).1 l)
    {s0 : LaCAM} {w0 : σ} {fl : Flow} {s : LaCAM} {w : σ} (hr : Run C s0 w0 fl s w) :
    s.G.length = s0.G.length ∧ ∀ v, List.Perm (s.G.getD v []) (s0.G.getD v []) := by
  induction hr with
  | refl => exact ⟨rfl, fun _ => List.Perm.refl _⟩
  | @step s1 w1 _ _ _ ih =>
    obtain ⟨hl, hp⟩ := ih
    rcases iteration_G C s1 w1 with h | ⟨v, w2, h⟩
    · rw [h]; exact ⟨hl, hp⟩
    · rw [h]
      refine ⟨by rw [List.length_set]; exact hl, fun u => ?_⟩
      exact (getD_set_perm s1.G v _ u (hperm w2 _)).trans (hp u)

/-- A run leaves the graph of the instance with the same vertices and, for every vertex, a
permutation of its actions: the in-place shuffles are all that a run changes in the graph. -/
theorem graphAfter_perm {σ : Type} (C : Ctx σ) (G : Graph) (w : σ) (fuel : Nat)
    (hperm : ∀ w l, List.Perm (C.shuffle w l).1 l) (G1 : Graph)
    (hG1 : graphAfter C G w fuel = some G1) :
    G1.length = G.length ∧ ∀ v, List.Perm (G1.getD v []) (G.getD v []) := by
  unfold graphAfter at hG1
  cases hs : searchLoop C fuel (initState C G) w with
  | none => rw [hs] at hG1; cases hG1
  | some r =>
    rw [hs] at hG1
    have e : r.1.G = G1 := Option.some.inj hG1
    obtain ⟨fl, hr, _⟩ := searchLoop_run C fuel _ w r.1 r.2 hs
    rw [← e]
    exact hr.graph_perm hperm

theorem log2Fuel_spec (fuel n : Nat) (hn : 0 < n) (hf : n ≤ fuel) :
    2 ^ log2Fuel fuel n ≤ n ∧ n < 2 ^ (log2Fuel fuel n + 1) := by
  induction fuel generalizing n with
  | zero => omega
  | succ fuel ih =>
    unfold log2Fuel
    by_cases h2 : n < 2
    · rw [if_pos h2]
      simp only [pow_zero, zero_add, pow_one]
      omega
    · rw [if_neg h2]
      obtain ⟨a, b⟩ := ih (n / 2) (by omega) (by omega)
      rw [pow_succ] at b ⊢
      rw [pow_succ (n := log2Fuel fuel (n / 2) + 1), pow_succ]
      generalize 2 ^ log2Fuel fuel (n / 2) = P at a b ⊢
      constructor <;> omega

theorem log2_spec (n : Nat) (hn : 0 < n) : 2 ^ log2 n ≤ n ∧ n < 2 ^ (log2 n + 1) :=
  log2Fuel_spec n n hn (Nat.le_refl n)

theorem two_zpow_pos (k : Int) : (0 : Rat) < (2 : Rat) ^ k := zpow_pos (by norm_num) k

theorem two_zpow_natCast (a : Nat) : (2 : Rat) ^ (a : Int) = ((2 ^ a : Nat) : Rat) := by
  rw [zpow_natCast]
  push_cast
  rfl

theorem abs_eq_natAbs_div (x : Rat) : |x| = (x.num.natAbs : Rat) / (x.den : Rat) := by
  conv_lhs => rw [← Rat.num_div_den x]
  rw [abs_div, Nat.abs_cast, Nat.cast_natAbs]
  push_cast
  rfl

/-- The exponent found by `binExp` brackets `|x|`. -/
theorem binExp_spec (x : Rat) (hx : x ≠ 0) :
    (2 : Rat) ^ binExp x ≤ |x| ∧ |x| < (2 : Rat) ^ (binExp x + 1) := by
  have hn : 0 < x.num.natAbs := Int.natAbs_pos.mpr (Rat.num_ne_zero.mpr hx)
  have hd : 0 < x.den := x.den_pos
  obtain ⟨a1, a2⟩ := log2_spec x.num.natAbs hn
  obtain ⟨b1, b2⟩ := log2_spec x.den hd
  have hdq : (0 : Rat) < (x.den : Rat) := by exact_mod_cast hd
  have ha1 : (2 : Rat) ^ (log2 x.num.natAbs : Int) ≤ (x.num.natAbs : Rat) := by
    rw [two_zpow_natCast]; exact_mod_cast a1
  have ha2 : (x.num.natAbs : Rat) < (2 : Rat) ^ ((log2 x.num.natAbs : Int) + 1) := by
    have : ((log2 x.num.natAbs : Int) + 1) = ((log2 x.num.natAbs + 1 : Nat) : Int) := by
      push_cast; rfl
    rw [this, two_zpow_natCast]; exact_mod_cast a2
  have hb1 : (2 : Rat) ^ (log2 x.den : Int) ≤ (x.den : Rat) := by
    rw [two_zpow_natCast]; exact_mod_cast b1
  have hb2 : (x.den : Rat) < (2 : Rat) ^ ((log2 x.den : Int) + 1) := by
    have : ((log2 x.den : Int) + 1) = ((log2 x.den + 1 : Nat) : Int) := by
      push_cast; rfl
    rw [this, two_zpow_natCast]; exact_mod_cast b2
  have h2 : (2 : Rat) ≠ 0 := by norm_num
  have habs := abs_eq_natAbs_div x
  -- upper bound: |x| < 2^(a - b + 1)
  have hup : |x| < (2 : Rat) ^ ((log2 x.num.natAbs : Int) - (log2 x.den : Int) + 1) := by
    rw [habs, div_lt_iff₀ hdq]
    calc (x.num.natAbs : Rat) < (2 : Rat) ^ ((log2 x.num.natAbs : Int) + 1) := ha2
      _ = (2 : Rat) ^ ((log2 x.num.natAbs : Int) - (log2 x.den : Int) + 1)
            * (2 : Rat) ^ (log2 x.den : Int) := by
          rw [← zpow_add₀ h2]; congr 1; ring
      _ ≤ (2 : Rat) ^ ((log2 x.num.natAbs : Int) - (log2 x.den : Int) + 1) * (x.den : Rat) :=
          mul_le_mul_of_nonneg_left hb1 (two_zpow_pos _).le
  -- lower bound: 2^(a - b - 1) ≤ |x|
  have hlo : (2 : Rat) ^ ((log2 x.num.natAbs : Int) - (log2 x.den : Int) - 1) ≤ |x| := by
    rw [habs, le_div_iff₀ hdq]
    calc (2 : Rat) ^ ((log2 x.num.natAbs : Int) - (log2 x.den : Int) - 1) * (x.den : Rat)
        ≤ (2 : Rat) ^ ((log2 x.num.natAbs : Int) - (log2 x.den : Int) - 1)
            * (2 : Rat) ^ ((log2 x.den : Int) + 1) :=
          mul_le_mul_of_nonneg_left hb2.le (two_zpow_pos _).le
      _ = (2 : Rat) ^ (log2 x.num.natAbs : Int) := by
          rw [← zpow_add₀ h2]; congr 1; ring
      _ ≤ (x.num.natAbs : Rat) := ha1
  unfold binExp
  split
  · rename_i h
    exact ⟨h, hup⟩
  · rename_i h
    refine ⟨hlo, ?_⟩
    rw [sub_add_cancel]
    exact not_le.mp h

theorem roundHalfEven_cases (y : Rat) :
    roundHalfEven y = ⌊y⌋ ∨ (roundHalfEven y = ⌊y⌋ + 1 ∧ 1 / 2 ≤ y - (⌊y⌋ : Rat)) := by
  have hf : y.floor = ⌊y⌋ := rfl
  unfold roundHalfEven
  rw [hf]
  split
  · exact Or.inl rfl
  · rename_i h1
    split
    · exact Or.inr ⟨rfl, not_lt.mp h1⟩
    · split
      · exact Or.inl rfl
      · exact Or.inr ⟨rfl, not_lt.mp h1⟩

theorem le_roundHalfEven (n : Int) (y : Rat) (h : (n : Rat) ≤ y) : n ≤ roundHalfEven y := by
  have h1 : n ≤ ⌊y⌋ := Int.le_floor.mpr h
  rcases roundHalfEven_cases y with e | ⟨e, _⟩ <;> rw [e] <;> omega

theorem roundHalfEven_le (n : Int) (y : Rat) (h : y ≤ (n : Rat)) : roundHalfEven y ≤ n := by
  rcases roundHalfEven_cases y with e | ⟨e, h2⟩
  · rw [e]
    exact_mod_cast (Int.floor_le y).trans h
  · rw [e]
    have h3 : (⌊y⌋ : Rat) < (n : Rat) := by linarith
    have : ⌊y⌋ < n := by exact_mod_cast h3
    omega

theorem abs_roundHalfEven_sub (y : Rat) : |(roundHalfEven y : Rat) - y| ≤ 1 / 2 := by
  have hf : y.floor = ⌊y⌋ := rfl
  have h0 := Int.floor_le y
  have h1 := Int.lt_floor_add_one y
  rw [abs_le]
  unfold roundHalfEven
  rw [hf]
  split
  · rename_i h
    constructor <;> linarith
  · rename_i h
    split
    · push_cast
      constructor <;> linarith
    · rename_i h2
      have e : y - (⌊y⌋ : Rat) = 1 / 2 := le_antisymm (not_lt.mp h2) (not_lt.mp h)
      split
      · constructor <;> linarith
      · push_cast
        constructor <;> linarith

theorem ulp32_pos (x : Rat) : 0 < ulp32 x := two_zpow_pos _

theorem roundF32_zero : roundF32 0 = 0 := by
  unfold roundF32
  rw [if_pos rfl]

theorem roundF32_eq (x : Rat) (hx : x ≠ 0) :
    roundF32 x = (roundHalfEven (x / ulp32 x) : Rat) * ulp32 x := by
  unfold roundF32
  rw [if_neg hx]

/-- The scaled value `x / ulp32 x` of a positive `x` is below `2^24`, and at least `2^23` when
`x` is in the normal range. -/
theorem scaled_bounds (x : Rat) (hx : 0 < x) :
    x / ulp32 x < 2 ^ 24 ∧ (-126 ≤ binExp x → (2 : Rat) ^ 23 ≤ x / ulp32 x) := by
  obtain ⟨h1, h2⟩ := binExp_spec x hx.ne'
  rw [abs_of_pos hx] at h1 h2
  have h20 : (2 : Rat) ≠ 0 := by norm_num
  have h21 : (1 : Rat) ≤ 2 := by norm_num
  constructor
  · rw [div_lt_iff₀ (ulp32_pos x)]
    have e : (2 : Rat) ^ 24 * ulp32 x = (2 : Rat) ^ (max (binExp x) (-126) + 1) := by
      unfold ulp32
      rw [show ((2 : Rat) ^ 24) = (2 : Rat) ^ (24 : Int) by norm_num, ← zpow_add₀ h20]
      congr 1
      ring
    rw [e]
    exact lt_of_lt_of_le h2 (zpow_le_zpow_right₀ h21 (by omega))
  · intro hn
    rw [le_div_iff₀ (ulp32_pos x)]
    have e : (2 : Rat) ^ 23 * ulp32 x = (2 : Rat) ^ binExp x := by
      unfold ulp32
      rw [show ((2 : Rat) ^ 23) = (2 : Rat) ^ (23 : Int) by norm_num, ← zpow_add₀ h20,
        max_eq_left hn]
      congr 1
      ring
    rw [e]
    exact h1

/-- A `float` value `m * 2^k` is a whole multiple of the spacing `2^j` when `j ≤ k`. -/
theorem grid_multiple (m k j : Int) (hjk : j ≤ k) :
    (m : Rat) * (2 : Rat) ^ k / (2 : Rat) ^ j = ((m * 2 ^ (k - j).toNat : Int) : Rat) := by
  have h20 : (2 : Rat) ≠ 0 := by norm_num
  have e : k = (k - j) + j := by ring
  have e2 : (((k - j).toNat : Nat) : Int) = k - j := Int.toNat_of_nonneg (by omega)
  conv_lhs => rw [e, zpow_add₀ h20]
  rw [mul_div_assoc, mul_div_assoc, div_self (two_zpow_pos j).ne', mul_one]
  push_cast
  rw [← zpow_natCast, e2]

/-- A positive `float` value that is not a multiple of the spacing at `x` is below the least
`float` of the binade of `x`, and `x` is in the normal range. -/
theorem below_binade (x : Rat) (m k : Int) (hk : -149 ≤ k) (hm : |m| < 2 ^ 24)
    (hlt : k < max (binExp x) (-126) - 23) :
    -126 ≤ binExp x ∧ (m : Rat) * (2 : Rat) ^ k < (2 : Rat) ^ binExp x := by
  have h20 : (2 : Rat) ≠ 0 := by norm_num
  have h21 : (1 : Rat) ≤ 2 := by norm_num
  have hn : -126 ≤ binExp x := by
    by_contra h
    rw [max_eq_right (by omega)] at hlt
    omega
  refine ⟨hn, ?_⟩
  rw [max_eq_left hn] at hlt
  have hm2 : (m : Rat) < (2 : Rat) ^ (24 : Int) := by
    have h1 : m < 16777216 := lt_of_le_of_lt (le_abs_self m) hm
    have h2 : (m : Rat) < 16777216 := by exact_mod_cast h1
    have h3 : (2 : Rat) ^ (24 : Int) = 16777216 := by norm_num
    rw [h3]
    exact h2
  calc (m : Rat) * (2 : Rat) ^ k < (2 : Rat) ^ (24 : Int) * (2 : Rat) ^ k :=
        mul_lt_mul_of_pos_right hm2 (two_zpow_pos k)
    _ = (2 : Rat) ^ (24 + k) := by rw [← zpow_add₀ h20]
    _ ≤ (2 : Rat) ^ binExp x := zpow_le_zpow_right₀ h21 (by omega)

/-- Rounding does not cross a `float` value from below. -/
theorem roundF32_le (x f : Rat) (hx : 0 < x) (hf : IsF32 f) (h : x ≤ f) : roundF32 x ≤ f := by
  obtain ⟨m, k, hk, hm, rfl⟩ := hf
  rw [roundF32_eq x hx.ne']
  by_cases hjk : max (binExp x) (-126) - 23 ≤ k
  · have e := grid_multiple m k _ hjk
    have hle : x / ulp32 x ≤ ((m * 2 ^ (k - (max (binExp x) (-126) - 23)).toNat : Int) : Rat) := by
      rw [← e]
      exact div_le_div_of_nonneg_right h (ulp32_pos x).le
    have h3 := roundHalfEven_le _ _ hle
    have h4 : (roundHalfEven (x / ulp32 x) : Rat)
        ≤ ((m * 2 ^ (k - (max (binExp x) (-126) - 23)).toNat : Int) : Rat) := by
      exact_mod_cast h3
    calc (roundHalfEven (x / ulp32 x) : Rat) * ulp32 x
        ≤ ((m * 2 ^ (k - (max (binExp x) (-126) - 23)).toNat : Int) : Rat) * ulp32 x :=
          mul_le_mul_of_nonneg_right h4 (ulp32_pos x).le
      _ = (m : Rat) * (2 : Rat) ^ k := by
          rw [← e]
          exact div_mul_cancel₀ _ (ulp32_pos x).ne'
  · obtain ⟨_, hlt⟩ := below_binade x m k hk hm (not_le.mp hjk)
    obtain ⟨h1, _⟩ := binExp_spec x hx.ne'
    rw [abs_of_pos hx] at h1
    linarith

/-- Rounding does not cross a `float` value from above. -/
theorem le_roundF32 (x f : Rat) (hx : 0 < x) (hf : IsF32 f) (h : f ≤ x) : f ≤ roundF32 x := by
  obtain ⟨m, k, hk, hm, rfl⟩ := hf
  rw [roundF32_eq x hx.ne']
  by_cases hjk : max (binExp x) (-126) - 23 ≤ k
  · have e := grid_multiple m k _ hjk
    have hle : ((m * 2 ^ (k - (max (binExp x) (-126) - 23)).toNat : Int) : Rat) ≤ x / ulp32 x := by
      rw [← e]
      exact div_le_div_of_nonneg_right h (ulp32_pos x).le
    have h3 := le_roundHalfEven _ _ hle
    have h4 : ((m * 2 ^ (k - (max (binExp x) (-126) - 23)).toNat : Int) : Rat)
        ≤ (roundHalfEven (x / ulp32 x) : Rat) := by
      exact_mod_cast h3
    calc (m : Rat) * (2 : Rat) ^ k
        = ((m * 2 ^ (k - (max (binExp x) (-126) - 23)).toNat : Int) : Rat) * ulp32 x := by
          rw [← e]
          exact (div_mul_cancel₀ _ (ulp32_pos x).ne').symm
      _ ≤ (roundHalfEven (x / ulp32 x) : Rat) * ulp32 x :=
          mul_le_mul_of_nonneg_right h4 (ulp32_pos x).le
  · obtain ⟨hn, hlt⟩ := below_binade x m k hk hm (not_le.mp hjk)
    have hs := (scaled_bounds x hx).2 hn
    have h3 : ((2 ^ 23 : Int) : Rat) ≤ x / ulp32 x := by
      push_cast
      exact hs
    have h4 : ((2 ^ 23 : Int) : Rat) ≤ (roundHalfEven (x / ulp32 x) : Rat) := by
      exact_mod_cast le_roundHalfEven _ _ h3
    have e : ((2 ^ 23 : Int) : Rat) * ulp32 x = (2 : Rat) ^ binExp x := by
      unfold ulp32
      rw [max_eq_left hn]
      have e1 : ((2 ^ 23 : Int) : Rat) = (2 : Rat) ^ (23 : Int) := by norm_num
      rw [e1, ← zpow_add₀ (by norm_num : (2 : Rat) ≠ 0)]
      congr 1
      ring
    have h5 := mul_le_mul_of_nonneg_right h4 (ulp32_pos x).le
    rw [e] at h5
    linarith

theorem isF32_intCast (n : Int) (hn : |n| < 2 ^ 24) : IsF32 (n : Rat) :=
  ⟨n, 0, by omega, hn, by simp⟩

theorem isF32_natCast (n : Nat) (hn : n < 2 ^ 24) : IsF32 (n : Rat) := by
  have h := isF32_intCast (n : Int) (by rw [abs_of_nonneg (by omega)]; exact_mod_cast hn)
  exact_mod_cast h

theorem isF32_zero : IsF32 0 := by
  have := isF32_natCast 0 (by norm_num)
  exact_mod_cast this

theorem isF32_one : IsF32 1 := by
  have := isF32_natCast 1 (by norm_num)
  exact_mod_cast this

theorem roundF32_nonneg (x : Rat) (hx : 0 ≤ x) : 0 ≤ roundF32 x := by
  rcases hx.eq_or_lt with e | h
  · rw [← e, roundF32_zero]
  · exact le_roundF32 x 0 h isF32_zero h.le

/-- A `float` value is left as it is by rounding. -/
theorem roundF32_of_isF32 (f : Rat) (hf : IsF32 f) (h0 : 0 ≤ f) : roundF32 f = f := by
  rcases h0.eq_or_lt with e | h
  · rw [← e, roundF32_zero]
  · exact le_antisymm (roundF32_le f f h hf le_rfl) (le_roundF32 f f h hf le_rfl)

/-- The result of rounding is a `float` value. -/
theorem roundF32_isF32 (x : Rat) (hx : 0 ≤ x) : IsF32 (roundF32 x) := by
  rcases hx.eq_or_lt with e | h
  · rw [← e, roundF32_zero]
    exact isF32_zero
  · rw [roundF32_eq x h.ne']
    have hs := (scaled_bounds x h).1
    have hpos : 0 < x / ulp32 x := div_pos h (ulp32_pos x)
    have h1 : (0 : Int) ≤ roundHalfEven (x / ulp32 x) :=
      le_roundHalfEven 0 _ (by exact_mod_cast hpos.le)
    have h2 : roundHalfEven (x / ulp32 x) ≤ 2 ^ 24 :=
      roundHalfEven_le _ _ (by push_cast; exact hs.le)
    rcases h2.eq_or_lt with e | hlt
    · refine ⟨2 ^ 23, max (binExp x) (-126) - 23 + 1, by omega, by norm_num, ?_⟩
      rw [e]
      unfold ulp32
      rw [zpow_add₀ (by norm_num : (2 : Rat) ≠ 0)]
      push_cast
      ring
    · exact ⟨roundHalfEven (x / ulp32 x), max (binExp x) (-126) - 23, by omega,
        by rw [abs_of_nonneg h1]; exact hlt, rfl⟩

/-- In the normal range the rounding error is at most `2^(-24)` times the value. -/
theorem roundF32_error (x : Rat) (hx : 0 < x) (hn : -126 ≤ binExp x) :
    |roundF32 x - x| ≤ x / 2 ^ 24 := by
  rw [roundF32_eq x hx.ne']
  have hu := ulp32_pos x
  have h1 := abs_roundHalfEven_sub (x / ulp32 x)
  have h2 := (scaled_bounds x hx).2 hn
  have e : (roundHalfEven (x / ulp32 x) : Rat) * ulp32 x - x
      = ((roundHalfEven (x / ulp32 x) : Rat) - x / ulp32 x) * ulp32 x := by
    rw [sub_mul, div_mul_cancel₀ _ hu.ne']
  rw [e, abs_mul, abs_of_pos hu]
  have h3 : ulp32 x ≤ x / 2 ^ 23 := by
    rw [le_div_iff₀ (by norm_num : (0 : Rat) < 2 ^ 23), mul_comm]
    exact (le_div_iff₀ hu).mp h2
  calc |(roundHalfEven (x / ulp32 x) : Rat) - x / ulp32 x| * ulp32 x
      ≤ 1 / 2 * ulp32 x := mul_le_mul_of_nonneg_right h1 hu.le
    _ ≤ 1 / 2 * (x / 2 ^ 23) := mul_le_mul_of_nonneg_left h3 (by norm_num)
    _ = x / 2 ^ 24 := by ring

/-- The integer part and the fractional part of a non-negative `float` value are `float`
values: the subtraction `p - (int)p` is exact. -/
theorem isF32_floor_fract (f : Rat) (hf : IsF32 f) (h0 : 0 ≤ f) :
    IsF32 (⌊f⌋ : Rat) ∧ IsF32 (Int.fract f) := by
  obtain ⟨m, k, hk, hm, rfl⟩ := hf
  have hm0 : 0 ≤ m := by
    have h1 : (0 : Rat) ≤ (m : Rat) := nonneg_of_mul_nonneg_left h0 (two_zpow_pos k)
    exact_mod_cast h1
  rw [abs_of_nonneg hm0] at hm
  by_cases hk0 : 0 ≤ k
  · have e : (m : Rat) * (2 : Rat) ^ k = ((m * 2 ^ k.toNat : Int) : Rat) := by
      push_cast
      rw [← zpow_natCast, Int.toNat_of_nonneg hk0]
    rw [e, Int.floor_intCast, Int.fract_intCast]
    exact ⟨⟨m, k, hk, by rw [abs_of_nonneg hm0]; exact hm, e.symm⟩, isF32_zero⟩
  · have hj : (((-k).toNat : Nat) : Int) = -k := Int.toNat_of_nonneg (by omega)
    have hpow : (2 : Rat) ^ k = 1 / (((2 ^ (-k).toNat : Nat) : Nat) : Rat) := by
      push_cast
      rw [← zpow_natCast, hj, zpow_neg, one_div, inv_inv]
    have e : (m : Rat) * (2 : Rat) ^ k = (m : Rat) / (((2 ^ (-k).toNat : Nat) : Nat) : Rat) := by
      rw [hpow, mul_one_div]
    have hfl : ⌊(m : Rat) * (2 : Rat) ^ k⌋ = m / ((2 ^ (-k).toNat : Nat) : Int) := by
      rw [e]
      exact Rat.floor_intCast_div_natCast m _
    have hP : (0 : Int) < ((2 ^ (-k).toNat : Nat) : Int) := by positivity
    have hq0 : 0 ≤ m / ((2 ^ (-k).toNat : Nat) : Int) := Int.ediv_nonneg hm0 hP.le
    have hqm : m / ((2 ^ (-k).toNat : Nat) : Int) ≤ m := Int.ediv_le_self _ hm0
    have hr0 : 0 ≤ m % ((2 ^ (-k).toNat : Nat) : Int) := Int.emod_nonneg _ hP.ne'
    have hrm : m % ((2 ^ (-k).toNat : Nat) : Int) ≤ m := by
      have := Int.ediv_add_emod m ((2 ^ (-k).toNat : Nat) : Int)
      have := mul_nonneg hP.le hq0
      omega
    constructor
    · rw [hfl]
      exact isF32_intCast _ (by rw [abs_of_nonneg hq0]; omega)
    · refine ⟨m % ((2 ^ (-k).toNat : Nat) : Int), k, hk, by rw [abs_of_nonneg hr0]; omega, ?_⟩
      unfold Int.fract
      rw [hfl, hpow]
      have hP2 : ((((2 ^ (-k).toNat : Nat) : Nat) : Rat)) ≠ 0 := by positivity
      have hdm := Int.ediv_add_emod m ((2 ^ (-k).toNat : Nat) : Int)
      have hdm2 : (m : Rat) = (((2 ^ (-k).toNat : Nat) : Int) : Rat)
          * ((m / ((2 ^ (-k).toNat : Nat) : Int) : Int) : Rat)
          + ((m % ((2 ^ (-k).toNat : Nat) : Int) : Int) : Rat) := by
        exact_mod_cast hdm.symm
      field_simp
      push_cast at hdm2 ⊢
      linarith

theorem one_le_roundF32 (x : Rat) (h : 1 ≤ x) : 1 ≤ roundF32 x :=
  le_roundF32 x 1 (by linarith) isF32_one h

/-- The largest `float` below `1`. -/
theorem isF32_pred_one : IsF32 (16777215 / 16777216) :=
  ⟨16777215, -24, by norm_num, by norm_num, by norm_num⟩

theorem roundF32_lt_one (x : Rat) (h0 : 0 ≤ x) (h : x ≤ 16777215 / 16777216) :
    roundF32 x < 1 := by
  rcases h0.eq_or_lt with e | hpos
  · rw [← e, roundF32_zero]
    norm_num
  · have := roundF32_le x _ hpos isF32_pred_one h
    linarith

theorem roundF32_natCast (n : Nat) (hn : n < 2 ^ 24) : roundF32 (n : Rat) = n :=
  roundF32_of_isF32 _ (isF32_natCast n hn) (Nat.cast_nonneg n)

theorem le_binExp (x : Rat) (hx : x ≠ 0) (k : Int) (h : (2 : Rat) ^ k ≤ |x|) : k ≤ binExp x := by
  have h2 := (binExp_spec x hx).2
  have h3 : (2 : Rat) ^ k < (2 : Rat) ^ (binExp x + 1) := lt_of_le_of_lt h h2
  have := (zpow_lt_zpow_iff_right₀ (by norm_num : (1 : Rat) < 2)).mp h3
  omega

/-! ## Priorities and orders set by the constructor -/

theorem getD_map_range (f : Nat → Rat) (n i : Nat) (hi : i < n) :
    ((List.range n).map f).getD i 0 = f i := by
  rw [List.getD_eq_getElem?_getD, List.getElem?_map, List.getElem?_range hi]
  rfl

theorem getD_map_range_of_le (f : Nat → Rat) (n i : Nat) (hi : n ≤ i) :
    ((List.range n).map f).getD i 0 = 0 := by
  rw [List.getD_eq_getElem?_getD, List.getElem?_eq_none (by simpa using hi)]
  rfl

theorem initPriorities_root {σ : Type} (C : Ctx σ) (nodes : List HNode) (Q : Config) (i : Nat)
    (hi : i < Q.length) :
    (initPriorities C nodes Q none).getD i 0
      = roundF32 (roundF32 (C.D i (Q.getD i 0) : Rat) / 10000) := by
  unfold initPriorities
  rw [getD_map_range _ _ _ hi]

theorem initPriorities_child {σ : Type} (C : Ctx σ) (nodes : List HNode) (Q : Config)
    (p i : Nat) (hi : i < Q.length) :
    (initPriorities C nodes Q (some p)).getD i 0
      = if C.D i (Q.getD i 0) ≠ 0 then roundF32 ((nodeAt nodes p).priorities.getD i 0 + 1)
        else roundF32 ((nodeAt nodes p).priorities.getD i 0
              - roundF32 (truncInt ((nodeAt nodes p).priorities.getD i 0) : Rat)) := by
  unfold initPriorities
  rw [getD_map_range _ _ _ hi]

theorem length_initPriorities {σ : Type} (C : Ctx σ) (nodes : List HNode) (Q : Config)
    (parent : Option Nat) : (initPriorities C nodes Q parent).length = Q.length := by
  unfold initPriorities
  simp

theorem truncInt_of_nonneg (p : Rat) (hp : 0 ≤ p) : truncInt p = ⌊p⌋ := by
  unfold truncInt
  rw [if_neg (not_lt.mpr hp)]
  rfl

/-- For a non-negative `float` value `p`, the `float` expression `p - (int)p` is exact: it is
the fractional part of `p`. -/
theorem goal_priority_exact (p : Rat) (hp : 0 ≤ p) (hf : IsF32 p) :
    roundF32 (p - roundF32 (truncInt p : Rat)) = Int.fract p := by
  obtain ⟨h1, h2⟩ := isF32_floor_fract p hf hp
  have h3 : (0 : Rat) ≤ (⌊p⌋ : Rat) := by exact_mod_cast Int.floor_nonneg.mpr hp
  rw [truncInt_of_nonneg p hp, roundF32_of_isF32 _ h1 h3]
  exact roundF32_of_isF32 _ h2 (Int.fract_nonneg p)

/-- The priority of an agent not at its goal: the sum `p + 1` rounded to `float`. It is within
`2^(-24)` of the sum, relative to the sum, at least `1`, and not below `p`. -/
theorem aged_priority (p : Rat) (hp : 0 ≤ p) (hf : IsF32 p) :
    |roundF32 (p + 1) - (p + 1)| ≤ (p + 1) / 2 ^ 24 ∧ 1 ≤ roundF32 (p + 1)
      ∧ p ≤ roundF32 (p + 1) := by
  have h1 : (0 : Rat) < p + 1 := by linarith
  refine ⟨roundF32_error _ h1 ?_, one_le_roundF32 _ (by linarith),
    le_roundF32 _ p h1 hf (by linarith)⟩
  have := le_binExp (p + 1) h1.ne' 0 (by rw [abs_of_pos h1, zpow_zero]; linarith)
  omega

theorem root_priority_lt_one_iff (d : Nat) :
    roundF32 (roundF32 (d : Rat) / 10000) < 1 ↔ d < 10000 := by
  constructor
  · intro h
    by_contra hd
    have hd1 : 10000 ≤ d := not_lt.mp hd
    have hq : (10000 : Rat) ≤ (d : Rat) := by exact_mod_cast hd1
    have h1 : (10000 : Rat) ≤ roundF32 (d : Rat) := by
      have hf : IsF32 ((10000 : Nat) : Rat) := isF32_natCast 10000 (by norm_num)
      have := le_roundF32 (d : Rat) ((10000 : Nat) : Rat) (by linarith) hf
        (by exact_mod_cast hd1)
      exact_mod_cast this
    have h2 : (1 : Rat) ≤ roundF32 (d : Rat) / 10000 := by
      rw [le_div_iff₀ (by norm_num : (0 : Rat) < 10000)]
      linarith
    have := one_le_roundF32 _ h2
    linarith
  · intro hd
    rw [roundF32_natCast d (by omega)]
    apply roundF32_lt_one
    · positivity
    · have hq : (d : Rat) ≤ 9999 := by exact_mod_cast (by omega : d ≤ 9999)
      rw [div_le_iff₀ (by norm_num : (0 : Rat) < 10000)]
      linarith

theorem root_priority_error (d : Nat) (hd : d < 2 ^ 24) :
    roundF32 (roundF32 (d : Rat) / 10000) = roundF32 ((d : Rat) / 10000)
      ∧ |roundF32 ((d : Rat) / 10000) - (d : Rat) / 10000| ≤ (d : Rat) / 10000 / 2 ^ 24 := by
  refine ⟨by rw [roundF32_natCast d hd], ?_⟩
  rcases Nat.eq_zero_or_pos d with e | hpos
  · subst e
    simp [roundF32_zero]
  · have hq : (1 : Rat) ≤ (d : Rat) := by exact_mod_cast hpos
    have hx : (0 : Rat) < (d : Rat) / 10000 := by positivity
    apply roundF32_error _ hx
    have h14 : (2 : Rat) ^ (-14 : Int) ≤ |(d : Rat) / 10000| := by
      rw [abs_of_pos hx, le_div_iff₀ (by norm_num : (0 : Rat) < 10000)]
      have : (2 : Rat) ^ (-14 : Int) * 10000 ≤ 1 := by norm_num
      linarith
    have := le_binExp _ hx.ne' (-14) h14
    omega

/-- C11, as amended. The root node built by `HNode::HNode` (no parent) gives every agent `i`
the `float` quotient `(float)D(i, Q[i]) / 10000`: the distance over `K = 10000`, rounded to the
nearest `float`. For a distance below `2^24` the priority differs from `D(i, Q[i]) / 10000` by
at most `2^(-24)` times that quotient. The priority is strictly below `1` exactly when the
distance `D(i, Q[i])` is below `10000`; so it is for the root of the search, whose `Q` is the
start configuration. -/
theorem root_priority_is_distance_over_K {σ : Type} (C : Ctx σ) (nodes : List HNode)
    (Q : Config) (g h : Nat) (G : Graph) (i : Nat) (hi : i < Q.length) :
    (HNode.init C nodes Q none g h).priorities.getD i 0
        = roundF32 (roundF32 (C.D i (Q.getD i 0) : Rat) / 10000)
      ∧ (C.D i (Q.getD i 0) < 2 ^ 24 →
          (HNode.init C nodes Q none g h).priorities.getD i 0
              = roundF32 ((C.D i (Q.getD i 0) : Rat) / 10000)
            ∧ |(HNode.init C nodes Q none g h).priorities.getD i 0
                  - (C.D i (Q.getD i 0) : Rat) / 10000|
                ≤ (C.D i (Q.getD i 0) : Rat) / 10000 / 2 ^ 24)
      ∧ ((HNode.init C nodes Q none g h).priorities.getD i 0 < 1 ↔ C.D i (Q.getD i 0) < 10000)
      ∧ (Q = C.ins.starts →
          (nodeAt (initState C G).nodes 0).priorities.getD i 0
            = roundF32 (roundF32 (C.D i (C.ins.starts.getD i 0) : Rat) / 10000)) := by
  have h1 : (HNode.init C nodes Q none g h).priorities.getD i 0
      = roundF32 (roundF32 (C.D i (Q.getD i 0) : Rat) / 10000) :=
    initPriorities_root C nodes Q i hi
  refine ⟨h1, ?_, ?_, ?_⟩
  · intro hd
    obtain ⟨e1, e2⟩ := root_priority_error _ hd
    rw [h1, e1]
    exact ⟨rfl, e2⟩
  · rw [h1]
    exact root_priority_lt_one_iff _
  · intro e
    subst e
    show (nodeAt (newHNode C [] C.ins.starts none 0 0) 0).priorities.getD i 0 = _
    rw [nodeAt_init_zero]
    exact initPriorities_root C [] C.ins.starts i hi

theorem root_priority_is_distance_over_K_witness :
    0 < [0].length
      ∧ (demoCtx false 3 0).D 0 ([0].getD 0 0) = 1
      ∧ (HNode.init (demoCtx false 3 0) [] [0] none 0 0).priorities.getD 0 0
          = 13743895 / 137438953472
      ∧ ((HNode.init (demoCtx false 3 0) [] [0] none 0 0).priorities.getD 0 0
            = roundF32 (roundF32 (((demoCtx false 3 0).D 0 ([0].getD 0 0) : Nat) : Rat) / 10000)
        ∧ ((demoCtx false 3 0).D 0 ([0].getD 0 0) < 2 ^ 24 →
            (HNode.init (demoCtx false 3 0) [] [0] none 0 0).priorities.getD 0 0
                = roundF32 ((((demoCtx false 3 0).D 0 ([0].getD 0 0) : Nat) : Rat) / 10000)
              ∧ |(HNode.init (demoCtx false 3 0) [] [0] none 0 0).priorities.getD 0 0
                    - (((demoCtx false 3 0).D 0 ([0].getD 0 0) : Nat) : Rat) / 10000|
                  ≤ (((demoCtx false 3 0).D 0 ([0].getD 0 0) : Nat) : Rat) / 10000 / 2 ^ 24)
        ∧ ((HNode.init (demoCtx false 3 0) [] [0] none 0 0).priorities.getD 0 0 < 1
            ↔ (demoCtx false 3 0).D 0 ([0].getD 0 0) < 10000)
        ∧ ([0] = (demoCtx false 3 0).ins.starts →
            (nodeAt (initState (demoCtx false 3 0) demoGraph).nodes 0).priorities.getD 0 0
              = roundF32 (roundF32
                  (((demoCtx false 3 0).D 0 ((demoCtx false 3 0).ins.starts.getD 0 0) : Nat) : Rat)
                  / 10000))) :=
  ⟨by decide, by decide, by decide!,
    root_priority_is_distance_over_K (demoCtx false 3 0) [] [0] 0 0 demoGraph 0 (by decide)⟩

/-- C11, as stated, fails. An agent whose start is 10000 steps away from its goal gets the
root priority `10000 / 10000 = 1`, which is not strictly below `1`. And the priority is a
`float`: an agent one step away from its goal gets the `float` nearest to `1 / 10000`, which is
`13743895 / 2^37`, not `1 / 10000`. -/
theorem root_priority_not_below_one :
    farCtx.D 0 (farCtx.ins.starts.getD 0 0) = 10000
      ∧ (nodeAt (initState farCtx demoGraph).nodes 0).priorities = [1]
      ∧ ¬ ((nodeAt (initState farCtx demoGraph).nodes 0).priorities.getD 0 0 < 1)
      ∧ (demoCtx false 3 0).D 0 ((demoCtx false 3 0).ins.starts.getD 0 0) = 1
      ∧ (nodeAt (initState (demoCtx false 3 0) demoGraph).nodes 0).priorities
          = [13743895 / 137438953472]
      ∧ (nodeAt (initState (demoCtx false 3 0) demoGraph).nodes 0).priorities.getD 0 0
          ≠ (((demoCtx false 3 0).D 0 ((demoCtx false 3 0).ins.starts.getD 0 0) : Nat) : Rat)
              / 10000 := by
  decide!

/-! ## The constructor fields and the constraint queue of a node -/

theorem ConstraintOk.constraint_of_same {a b : HNode} {L : LNode} (h : ConstraintOk a L) (hQ : b.Q = a.Q)
    (ho : b.order = a.order) : ConstraintOk b L := by
  unfold ConstraintOk at h ⊢
  rw [hQ, ho]
  exact h

theorem NodeOk.node_of_same {σ : Type} {C : Ctx σ} {a b : HNode} (h : NodeOk C a) (hQ : b.Q = a.Q)
    (hp : b.priorities = a.priorities) (ho : b.order = a.order)
    (ht : ∀ L, L ∈ b.search_tree → L ∈ a.search_tree) : NodeOk C b where
  prio_len := by rw [hp, hQ]; exact h.prio_len
  prio_nonneg := by rw [hp]; exact h.prio_nonneg
  prio_f32 := by rw [hp]; exact h.prio_f32
  prio_goal := by rw [hp, hQ]; exact h.prio_goal
  order_eq := by rw [hp, hQ, ho]; exact h.order_eq
  tree_ok := fun L hL => (h.tree_ok L (ht L hL)).constraint_of_same hQ ho

theorem constraintOk_root (n : HNode) : ConstraintOk n LNode.root :=
  ⟨rfl, rfl, Nat.zero_le _, fun d hd => absurd hd (Nat.not_lt_zero d)⟩

theorem getD_append_singleton (l : List Nat) (x d : Nat) :
    (l ++ [x]).getD d 0 = if d = l.length then x else l.getD d 0 := by
  rw [List.getD_eq_getElem?_getD, List.getD_eq_getElem?_getD]
  by_cases e : d = l.length
  · subst e
    simp
  · rw [if_neg e]
    by_cases e2 : d < l.length
    · rw [List.getElem?_append_left e2]
    · have e3 : l.length < d := by omega
      rw [List.getElem?_eq_none (by simp; omega), List.getElem?_eq_none (by omega)]

theorem constraintOk_child {n : HNode} {L : LNode} (h : ConstraintOk n L)
    (hd : L.depth < n.Q.length) (u : Nat) :
    ConstraintOk n (LNode.child L (n.order.getD L.depth 0) u) := by
  obtain ⟨h1, h2, _, h4⟩ := h
  refine ⟨?_, ?_, hd, ?_⟩
  · show (L.who ++ [_]).length = L.depth + 1
    rw [List.length_append, h1]; rfl
  · show (L.where_ ++ [_]).length = L.depth + 1
    rw [List.length_append, h2]; rfl
  · intro d hlt
    show (L.who ++ [_]).getD d 0 = _
    rw [getD_append_singleton, h1]
    by_cases e : d = L.depth
    · rw [if_pos e, e]
    · rw [if_neg e]
      exact h4 d (by
        have : d < L.depth + 1 := hlt
        omega)

theorem nodeOk_init {σ : Type} (C : Ctx σ) (nodes : List HNode) (Q : Config)
    (parent : Option Nat) (g h : Nat)
    (hpar : ∀ p, parent = some p → ∀ a,
      0 ≤ (nodeAt nodes p).priorities.getD a 0 ∧ IsF32 ((nodeAt nodes p).priorities.getD a 0)) :
    NodeOk C (HNode.init C nodes Q parent g h) where
  prio_len := length_initPriorities C nodes Q parent
  prio_nonneg := by
    intro a
    show 0 ≤ (initPriorities C nodes Q parent).getD a 0
    by_cases ha : a < Q.length
    · cases parent with
      | none =>
        rw [initPriorities_root C nodes Q a ha]
        exact roundF32_nonneg _ (div_nonneg (roundF32_nonneg _ (Nat.cast_nonneg _)) (by norm_num))
      | some p =>
        rw [initPriorities_child C nodes Q p a ha]
        obtain ⟨h0, hf⟩ := hpar p rfl a
        split
        · exact roundF32_nonneg _ (add_nonneg h0 (by norm_num))
        · rw [goal_priority_exact _ h0 hf]
          exact Int.fract_nonneg _
    · unfold initPriorities
      rw [getD_map_range_of_le _ _ _ (by omega)]
  prio_f32 := by
    intro a
    show IsF32 ((initPriorities C nodes Q parent).getD a 0)
    by_cases ha : a < Q.length
    · cases parent with
      | none =>
        rw [initPriorities_root C nodes Q a ha]
        exact roundF32_isF32 _ (div_nonneg (roundF32_nonneg _ (Nat.cast_nonneg _)) (by norm_num))
      | some p =>
        rw [initPriorities_child C nodes Q p a ha]
        obtain ⟨h0, hf⟩ := hpar p rfl a
        split
        · exact roundF32_isF32 _ (add_nonneg h0 (by norm_num))
        · rw [goal_priority_exact _ h0 hf]
          exact (isF32_floor_fract _ hf h0).2
    · unfold initPriorities
      rw [getD_map_range_of_le _ _ _ (by omega)]
      exact isF32_zero
  prio_goal := by
    intro a ha hD
    show (initPriorities C nodes Q parent).getD a 0 < 1
    cases parent with
    | none =>
      rw [initPriorities_root C nodes Q a ha]
      have e : C.D a (List.getD Q a 0) = 0 := hD
      rw [e]
      exact (root_priority_lt_one_iff 0).mpr (by norm_num)
    | some p =>
      rw [initPriorities_child C nodes Q p a ha]
      have e : C.D a (List.getD Q a 0) = 0 := hD
      obtain ⟨h0, hf⟩ := hpar p rfl a
      rw [if_neg (by rw [e]; exact fun hne => hne rfl), goal_priority_exact _ h0 hf]
      exact Int.fract_lt_one _
  order_eq := rfl
  tree_ok := by
    intro L hL
    have : L = LNode.root := List.mem_singleton.mp hL
    rw [this]
    exact constraintOk_root _

/-! ## The link between depth and cost -/

theorem DepthInv.depth_frame {ins : Instance} {nodes nodes1 : List HNode}
    (h : DepthInv ins nodes)
    (hQ : ∀ i, (nodeAt nodes1 i).Q = (nodeAt nodes i).Q)
    (hp : ∀ i, (nodeAt nodes1 i).parent = (nodeAt nodes i).parent)
    (hg : ∀ i, (nodeAt nodes1 i).g = (nodeAt nodes i).g)
    (hd : ∀ i, (nodeAt nodes1 i).depth = (nodeAt nodes i).depth) : DepthInv ins nodes1 where
  root_depth := by rw [hd]; exact h.root_depth
  depth_ok := by
    intro i p h1 h2
    rw [hp] at h1
    rw [hg, hg, hQ, hQ] at h2
    rw [hd, hd]
    exact h.depth_ok i p h1 h2

theorem DepthInv.depth_of_sameCore {ins : Instance} {nodes nodes1 : List HNode}
    (h : DepthInv ins nodes) (hc : ∀ i, SameCore (nodeAt nodes1 i) (nodeAt nodes i)) :
    DepthInv ins nodes1 :=
  h.depth_frame (fun i => (hc i).1) (fun i => (hc i).2.1) (fun i => (hc i).2.2.2.1)
    (fun i => (hc i).2.2.2.2.2.2.1)

/-! ## One relaxation step, field by field -/

theorem relax_step_cases {σ : Type} (C : Ctx σ) (n_from n_to : Nat) (s : LaCAM) (Q : List Nat) :
    (¬ (nodeAt s.nodes n_from).g
          + get_edge_cost C.ins (nodeAt s.nodes n_from).Q (nodeAt s.nodes n_to).Q
          < (nodeAt s.nodes n_to).g
        ∧ relax C n_from n_to s Q = (s, Q))
      ∨ ((nodeAt s.nodes n_from).g
            + get_edge_cost C.ins (nodeAt s.nodes n_from).Q (nodeAt s.nodes n_to).Q
            < (nodeAt s.nodes n_to).g
          ∧ n_to < s.nodes.length ∧ n_from ≠ n_to
          ∧ (relax C n_from n_to s Q).2 = Q ++ [n_to]
          ∧ (∀ i, i ≠ n_to → nodeAt (relax C n_from n_to s Q).1.nodes i = nodeAt s.nodes i)
          ∧ (nodeAt (relax C n_from n_to s Q).1.nodes n_to).g
              = (nodeAt s.nodes n_from).g
                + get_edge_cost C.ins (nodeAt s.nodes n_from).Q (nodeAt s.nodes n_to).Q
          ∧ (nodeAt (relax C n_from n_to s Q).1.nodes n_to).parent = some n_from
          ∧ (nodeAt (relax C n_from n_to s Q).1.nodes n_to).depth
              = (nodeAt s.nodes n_from).depth + 1) := by
  by_cases hlt : (nodeAt s.nodes n_from).g
      + get_edge_cost C.ins (nodeAt s.nodes n_from).Q (nodeAt s.nodes n_to).Q
      < (nodeAt s.nodes n_to).g
  · right
    have hto : n_to < s.nodes.length := by
      by_contra hge
      rw [nodeAt_of_le s.nodes (Nat.le_of_not_lt hge)] at hlt
      exact Nat.not_lt_zero _ hlt
    have hne : n_from ≠ n_to := by
      intro e
      rw [e] at hlt
      omega
    unfold relax
    simp only [if_pos hlt]
    refine ⟨hlt, hto, hne, trivial, ?_, ?_, ?_, ?_⟩
    · intro i hi
      exact nodeAt_updNode_ne s.nodes _ (Ne.symm hi)
    · rw [nodeAt_updNode_self s.nodes _ hto]
    · rw [nodeAt_updNode_self s.nodes _ hto]
    · rw [nodeAt_updNode_self s.nodes _ hto]
  · left
    refine ⟨hlt, ?_⟩
    unfold relax
    simp only [if_neg hlt]

theorem relax_nodeOk {σ : Type} (C : Ctx σ) (n_from n_to : Nat) (s : LaCAM) (Q : List Nat)
    (h : ∀ i, i < s.nodes.length → NodeOk C (nodeAt s.nodes i)) :
    ∀ i, i < (relax C n_from n_to s Q).1.nodes.length →
      NodeOk C (nodeAt (relax C n_from n_to s Q).1.nodes i) := by
  intro i hi
  rw [relax_length] at hi
  refine (h i hi).node_of_same (relax_Q C n_from n_to s Q i)
    (relax_proj (fun n => n.priorities) (fun _ _ _ _ _ => rfl) C n_from n_to s Q i)
    (relax_proj (fun n => n.order) (fun _ _ _ _ _ => rfl) C n_from n_to s Q i) ?_
  intro L hL
  rw [relax_proj (fun n => n.search_tree) (fun _ _ _ _ _ => rfl) C n_from n_to s Q i] at hL
  exact hL

theorem relax_depthInv {σ : Type} (C : Ctx σ) (n_from n_to : Nat) (s : LaCAM) (Q : List Nat)
    (hinv : Inv C s) (h : DepthInv C.ins s.nodes) :
    DepthInv C.ins (relax C n_from n_to s Q).1.nodes := by
  rcases relax_step_cases C n_from n_to s Q with ⟨_, e⟩ | ⟨hlt, hto, hne, _, hoth, hg, hp, hd⟩
  · rw [e]; exact h
  · have hQ := relax_Q C n_from n_to s Q
    have h0 : n_to ≠ 0 := by
      intro e
      rw [e, hinv.arena.root_g] at hlt
      exact Nat.not_lt_zero _ hlt
    refine { root_depth := ?_, depth_ok := ?_ }
    · rw [hoth 0 (Ne.symm h0)]; exact h.root_depth
    · intro i p h1 h2
      by_cases ei : i = n_to
      · subst ei
        rw [hp] at h1
        have : n_from = p := Option.some.inj h1
        subst this
        rw [hd, hoth n_from hne]
      · rw [hoth i ei] at h1 h2 ⊢
        by_cases ep : p = n_to
        · exfalso
          subst ep
          rw [hg, hQ] at h2
          have hi : i < s.nodes.length := by
            by_contra hge
            rw [nodeAt_of_le s.nodes (Nat.le_of_not_lt hge)] at h1
            cases h1
          have hi0 : i ≠ 0 := by
            intro e
            rw [e, hinv.arena.root_parent] at h1
            cases h1
          obtain ⟨p1, a, _, _, _, b⟩ := hinv.arena.parent_ok i hi hi0
          rw [h1] at a
          have : p = p1 := Option.some.inj a
          subst this
          omega
        · rw [hoth p ep] at h2 ⊢
          exact h.depth_ok i p h1 h2

/-! ## The relaxation loop ends with every recorded edge relaxed -/

theorem relax_pending {σ : Type} (C : Ctx σ) (n_from n_to : Nat) (rest : List Nat) (s : LaCAM)
    (Q : List Nat) (h : Pending C.ins s.nodes Q n_from (n_to :: rest)) :
    Pending C.ins (relax C n_from n_to s Q).1.nodes (relax C n_from n_to s Q).2 n_from rest := by
  rcases relax_step_cases C n_from n_to s Q with ⟨hnl, e⟩ | ⟨hlt, hto, hne, hq, hoth, hg, _, _⟩
  · rw [e]
    intro a b hb
    rcases h a b hb with r | r | ⟨r1, r2⟩
    · exact Or.inl r
    · exact Or.inr (Or.inl r)
    · rcases List.mem_cons.mp r2 with e1 | e1
      · left
        subst e1; subst r1
        exact Nat.le_of_not_lt hnl
      · exact Or.inr (Or.inr ⟨r1, e1⟩)
  · have hQ := relax_Q C n_from n_to s Q
    have hN := relax_neighbors C n_from n_to s Q
    intro a b hb
    rw [hN] at hb
    rw [hq]
    by_cases ea : a = n_to
    · exact Or.inr (Or.inl (by rw [ea]; exact List.mem_append_right _ (List.mem_singleton_self _)))
    · by_cases eb : b = n_to
      · subst eb
        rcases h a b hb with r | r | ⟨r1, _⟩
        · left
          unfold Relaxed at r ⊢
          rw [hg, hoth a ea, hQ]
          omega
        · exact Or.inr (Or.inl (List.mem_append_left _ r))
        · left
          subst r1
          unfold Relaxed
          rw [hg, hoth a ea, hQ]
      · rcases h a b hb with r | r | ⟨r1, r2⟩
        · left
          unfold Relaxed at r ⊢
          rw [hoth a ea, hoth b eb]
          exact r
        · exact Or.inr (Or.inl (List.mem_append_left _ r))
        · rcases List.mem_cons.mp r2 with e1 | e1
          · exact absurd e1 eb
          · exact Or.inr (Or.inr ⟨r1, e1⟩)

theorem relaxAll_pending {σ : Type} (C : Ctx σ) (n_from : Nat) (l : List Nat) (s : LaCAM)
    (Q : List Nat) (h : Pending C.ins s.nodes Q n_from l) :
    Pending C.ins (relaxAll C n_from l s Q).1.nodes (relaxAll C n_from l s Q).2 n_from [] := by
  induction l generalizing s Q with
  | nil => exact h
  | cons n_to rest ih =>
    unfold relaxAll
    exact ih _ _ (relax_pending C n_from n_to rest s Q h)

theorem rewriteLoop_pending {σ : Type} (C : Ctx σ) (fuel : Nat) (Q : List Nat) (s : LaCAM)
    (h : Pending C.ins s.nodes Q 0 []) :
    Pending C.ins (rewriteLoop C fuel Q s).1.nodes (rewriteLoop C fuel Q s).2 0 [] := by
  induction fuel generalizing Q s with
  | zero => exact h
  | succ fuel ih =>
    cases Q with
    | nil => exact h
    | cons n_from Q =>
      unfold rewriteLoop
      apply ih
      have h1 : Pending C.ins s.nodes Q n_from (nodeAt s.nodes n_from).neighbors := by
        intro a b hb
        rcases h a b hb with r | r | ⟨_, r2⟩
        · exact Or.inl r
        · rcases List.mem_cons.mp r with e | e
          · right; right
            subst e
            exact ⟨rfl, hb⟩
          · exact Or.inr (Or.inl e)
        · cases r2
      have h2 := relaxAll_pending C n_from _ s Q h1
      intro a b hb
      rcases h2 a b hb with r | r | ⟨_, r2⟩
      · exact Or.inl r
      · exact Or.inr (Or.inl r)
      · cases r2

theorem rewrite_fixpoint {σ : Type} (C : Ctx σ) (s : LaCAM) (H_from H_to : Nat)
    (hA : C.ANYTIME = true)
    (h : ∀ a b, b ∈ (nodeAt s.nodes a).neighbors → Relaxed C.ins s.nodes a b) :
    ∀ a b, b ∈ (nodeAt (rewrite C s H_from H_to).nodes a).neighbors →
      Relaxed C.ins (rewrite C s H_from H_to).nodes a b := by
  have hempty := rewrite_rounds_suffice C s H_from H_to
  have hp : Pending C.ins
      (updNode s.nodes H_from fun n => { n with neighbors := setInsert s.nodes H_to n.neighbors })
      [H_from] 0 [] := by
    intro a b hb
    by_cases ea : H_from = a
    · exact Or.inr (Or.inl (by rw [ea]; exact List.mem_singleton_self _))
    · left
      rw [nodeAt_updNode_ne s.nodes _ ea] at hb
      have r := h a b hb
      have hg : ∀ i, (nodeAt (updNode s.nodes H_from fun n =>
          { n with neighbors := setInsert s.nodes H_to n.neighbors }) i).g
            = (nodeAt s.nodes i).g :=
        fun i => nodeAt_updNode_proj (fun n => n.g) s.nodes H_from i _ (fun _ => rfl)
      have hQ : ∀ i, (nodeAt (updNode s.nodes H_from fun n =>
          { n with neighbors := setInsert s.nodes H_to n.neighbors }) i).Q
            = (nodeAt s.nodes i).Q :=
        fun i => nodeAt_updNode_proj (fun n => n.Q) s.nodes H_from i _ (fun _ => rfl)
      unfold Relaxed at r ⊢
      rw [hg, hg, hQ, hQ]
      exact r
  have hfin := rewriteLoop_pending C
    (2 * sumG (updNode s.nodes H_from fun n =>
      { n with neighbors := setInsert s.nodes H_to n.neighbors }) + 2) [H_from]
    { s with nodes := updNode s.nodes H_from fun n =>
      { n with neighbors := setInsert s.nodes H_to n.neighbors } } hp
  rw [hempty] at hfin
  have e : rewrite C s H_from H_to
      = (rewriteLoop C
          (2 * sumG (updNode s.nodes H_from fun n =>
            { n with neighbors := setInsert s.nodes H_to n.neighbors }) + 2) [H_from]
          { s with nodes := updNode s.nodes H_from fun n =>
            { n with neighbors := setInsert s.nodes H_to n.neighbors } }).1 := by
    unfold rewrite
    simp [hA]
  rw [e]
  intro a b hb
  rcases hfin a b hb with r | r | ⟨_, r2⟩
  · exact r
  · cases r
  · cases r2

/-! ## The constraint queue of the front node across one iteration -/

theorem NodeOk.of_tree {σ : Type} {C : Ctx σ} {a b : HNode} (h : NodeOk C a) (hQ : b.Q = a.Q)
    (hp : b.priorities = a.priorities) (ho : b.order = a.order)
    (ht : ∀ L, L ∈ b.search_tree → ConstraintOk a L) : NodeOk C b where
  prio_len := by rw [hp, hQ]; exact h.prio_len
  prio_nonneg := by rw [hp]; exact h.prio_nonneg
  prio_f32 := by rw [hp]; exact h.prio_f32
  prio_goal := by rw [hp, hQ]; exact h.prio_goal
  order_eq := by rw [hp, hQ, ho]; exact h.order_eq
  tree_ok := fun L hL => (ht L hL).constraint_of_same hQ ho

theorem dequeued_tree {σ : Type} (C : Ctx σ) (s : LaCAM) (H : Nat) (L : LNode)
    (rest : List LNode) (w : σ) (hH : H < s.nodes.length) :
    (∀ j, j ≠ H →
      nodeAt (low_level C
        { s with nodes := updNode s.nodes H fun n => { n with search_tree := rest } }
        H L w).1.nodes j = nodeAt s.nodes j)
    ∧ (nodeAt (low_level C
        { s with nodes := updNode s.nodes H fun n => { n with search_tree := rest } }
        H L w).1.nodes H).search_tree
      = if L.depth < (nodeAt s.nodes H).Q.length then
          rest ++ ((C.shuffle w (s.G.getD ((nodeAt s.nodes H).Q.getD
              ((nodeAt s.nodes H).order.getD L.depth 0) 0) [])).1).map
            (LNode.child L ((nodeAt s.nodes H).order.getD L.depth 0))
        else rest := by
  have e1 : nodeAt (updNode s.nodes H fun n => { n with search_tree := rest }) H
      = { nodeAt s.nodes H with search_tree := rest } := nodeAt_updNode_self s.nodes _ hH
  have hH1 : H < (updNode s.nodes H fun n => { n with search_tree := rest }).length := by
    rw [length_updNode]; exact hH
  unfold low_level
  simp only [e1]
  by_cases hlt : L.depth < (nodeAt s.nodes H).Q.length
  · rw [if_pos hlt, if_pos hlt]
    constructor
    · intro j hj
      rw [nodeAt_updNode_ne _ _ (Ne.symm hj), nodeAt_updNode_ne _ _ (Ne.symm hj)]
    · rw [nodeAt_updNode_self _ _ hH1, e1]
  · rw [if_neg hlt, if_neg hlt]
    constructor
    · intro j hj
      exact nodeAt_updNode_ne _ _ (Ne.symm hj)
    · rw [e1]

theorem dequeued_nodeOk {σ : Type} (C : Ctx σ) (s : LaCAM) (H : Nat) (L : LNode)
    (rest : List LNode) (w : σ) (hH : H < s.nodes.length)
    (hst : (nodeAt s.nodes H).search_tree = L :: rest)
    (h : ∀ i, i < s.nodes.length → NodeOk C (nodeAt s.nodes i)) :
    ∀ i, i < s.nodes.length →
      NodeOk C (nodeAt (low_level C
        { s with nodes := updNode s.nodes H fun n => { n with search_tree := rest } }
        H L w).1.nodes i) := by
  intro i hi
  obtain ⟨h1, h2⟩ := dequeued_tree C s H L rest w hH
  obtain ⟨_, hcore, _⟩ := dequeued_frame C s H L rest w
  by_cases e : i = H
  · subst e
    have hL : ConstraintOk (nodeAt s.nodes i) L :=
      (h i hi).tree_ok L (by rw [hst]; exact List.mem_cons_self _ _)
    have hrest : ∀ M, M ∈ rest → ConstraintOk (nodeAt s.nodes i) M :=
      fun M hM => (h i hi).tree_ok M (by rw [hst]; exact List.mem_cons_of_mem _ hM)
    refine (h i hi).of_tree (hcore i).1 (hcore i).2.2.2.2.2.2.2.1 (hcore i).2.2.2.2.2.2.2.2 ?_
    intro M hM
    rw [h2] at hM
    split at hM
    · rename_i hlt
      rcases List.mem_append.mp hM with e1 | e1
      · exact hrest M e1
      · obtain ⟨u, _, e2⟩ := List.mem_map.mp e1
        rw [← e2]
        exact constraintOk_child hL hlt u
    · exact hrest M hM
  · rw [h1 i e]
    exact h i hi

/-! ## The state at the loop test is settled -/

theorem g_eq_of_fixpoint {ins : Instance} {nodes : List HNode} {calls : List (Config × Config)}
    (hA : ArenaInv ins nodes calls)
    (hfix : ∀ a b, b ∈ (nodeAt nodes a).neighbors → Relaxed ins nodes a b) :
    ∀ i p, (nodeAt nodes i).parent = some p →
      (nodeAt nodes i).g = (nodeAt nodes p).g + get_edge_cost ins (nodeAt nodes p).Q (nodeAt nodes i).Q := by
  intro i p h1
  have hi : i < nodes.length := by
    by_contra hge
    rw [nodeAt_of_le nodes (Nat.le_of_not_lt hge)] at h1
    cases h1
  have hi0 : i ≠ 0 := by
    intro e
    rw [e, hA.root_parent] at h1
    cases h1
  obtain ⟨p1, a, _, _, b, c⟩ := hA.parent_ok i hi hi0
  rw [h1] at a
  have : p = p1 := Option.some.inj a
  subst this
  have := hfix p i b
  unfold Relaxed at this
  omega

theorem Settled.of_core {σ : Type} {C : Ctx σ} {s t : LaCAM} (h : Settled C s)
    (hcore : ∀ i, SameCore (nodeAt t.nodes i) (nodeAt s.nodes i))
    (hok : ∀ i, i < t.nodes.length → NodeOk C (nodeAt t.nodes i)) : Settled C t where
  node_ok := hok
  depth_inv := h.depth_inv.depth_of_sameCore hcore
  g_eq := by
    intro i p h1
    rw [(hcore i).2.1] at h1
    rw [(hcore i).2.2.2.1, (hcore p).2.2.2.1, (hcore i).1, (hcore p).1]
    exact h.g_eq i p h1
  edge_fix := by
    intro hA a b hb
    rw [(hcore a).2.2.1] at hb
    have := h.edge_fix hA a b hb
    unfold Relaxed at this ⊢
    rw [(hcore a).2.2.2.1, (hcore b).2.2.2.1, (hcore a).1, (hcore b).1]
    exact this

theorem Settled.of_nodes_eq {σ : Type} {C : Ctx σ} {s t : LaCAM} (h : Settled C s)
    (hn : t.nodes = s.nodes) : Settled C t :=
  h.of_core (fun i => by rw [hn]; exact SameCore.rfl _) (fun i hi => by
    rw [hn] at hi ⊢
    exact h.node_ok i hi)

/-! ## A new node keeps the state settled -/

theorem newHNode_old {σ : Type} (C : Ctx σ) (nodes : List HNode) (Q : Config) (H g h : Nat)
    {i : Nat} (hi : i < nodes.length) :
    (nodeAt (newHNode C nodes Q (some H) g h) i).Q = (nodeAt nodes i).Q
      ∧ (nodeAt (newHNode C nodes Q (some H) g h) i).parent = (nodeAt nodes i).parent
      ∧ (nodeAt (newHNode C nodes Q (some H) g h) i).g = (nodeAt nodes i).g
      ∧ (nodeAt (newHNode C nodes Q (some H) g h) i).depth = (nodeAt nodes i).depth
      ∧ (nodeAt (newHNode C nodes Q (some H) g h) i).priorities = (nodeAt nodes i).priorities
      ∧ (nodeAt (newHNode C nodes Q (some H) g h) i).order = (nodeAt nodes i).order
      ∧ (nodeAt (newHNode C nodes Q (some H) g h) i).search_tree
          = (nodeAt nodes i).search_tree :=
  ⟨nodeAt_newHNode_old_proj (fun n => n.Q) (fun _ _ => rfl) C nodes Q H g h hi,
   nodeAt_newHNode_old_proj (fun n => n.parent) (fun _ _ => rfl) C nodes Q H g h hi,
   nodeAt_newHNode_old_proj (fun n => n.g) (fun _ _ => rfl) C nodes Q H g h hi,
   nodeAt_newHNode_old_proj (fun n => n.depth) (fun _ _ => rfl) C nodes Q H g h hi,
   nodeAt_newHNode_old_proj (fun n => n.priorities) (fun _ _ => rfl) C nodes Q H g h hi,
   nodeAt_newHNode_old_proj (fun n => n.order) (fun _ _ => rfl) C nodes Q H g h hi,
   nodeAt_newHNode_old_proj (fun n => n.search_tree) (fun _ _ => rfl) C nodes Q H g h hi⟩

theorem parent_index_lt {σ : Type} {C : Ctx σ} {s : LaCAM} (h : Inv C s) {i p : Nat}
    (hp : (nodeAt s.nodes i).parent = some p) : i < s.nodes.length ∧ p < s.nodes.length := by
  have hi : i < s.nodes.length := by
    by_contra hge
    rw [nodeAt_of_le s.nodes (Nat.le_of_not_lt hge)] at hp
    cases hp
  exact ⟨hi, (h.arena.g_parent_lt hi hp).1⟩

theorem settled_new_node {σ : Type} (C : Ctx σ) {s t : LaCAM} (h : Inv C s) (hs : Settled C s)
    {H : Nat} (Q : Config) (hval : Nat) (hH : H < s.nodes.length)
    (ht : t.nodes = newHNode C s.nodes Q (some H) (get_g_val C.ins s.nodes H Q) hval) :
    Settled C t := by
  have hL := length_newHNode C s.nodes Q (some H) (get_g_val C.ins s.nodes H Q) hval
  have hnw := nodeAt_newHNode_new C s.nodes Q H (get_g_val C.ins s.nodes H Q) hval hH
  have hold := fun i (hi : i < s.nodes.length) =>
    newHNode_old C s.nodes Q H (get_g_val C.ins s.nodes H Q) hval hi
  have hdef : ∀ i, s.nodes.length < i →
      nodeAt (newHNode C s.nodes Q (some H) (get_g_val C.ins s.nodes H Q) hval) i = default :=
    fun i hi => nodeAt_of_le _ (by rw [hL]; omega)
  have hcase : ∀ i, i < s.nodes.length ∨ i = s.nodes.length ∨ s.nodes.length < i := by
    intro i; omega
  refine { node_ok := ?_, depth_inv := ⟨?_, ?_⟩, g_eq := ?_, edge_fix := ?_ }
  · intro i hi
    rw [ht] at hi ⊢
    rw [hL] at hi
    rcases hcase i with e | e | e
    · obtain ⟨a, _, _, _, b, c, d⟩ := hold i e
      exact (hs.node_ok i e).node_of_same a b c (fun L hL => by rw [d] at hL; exact hL)
    · rw [e, hnw]
      refine nodeOk_init C s.nodes Q (some H) _ _ ?_
      intro p hp
      have : H = p := Option.some.inj hp
      subst this
      exact fun a => ⟨(hs.node_ok H hH).prio_nonneg a, (hs.node_ok H hH).prio_f32 a⟩
    · omega
  · rw [ht, (hold 0 h.arena.pos).2.2.2.1]
    exact hs.depth_inv.root_depth
  · intro i p h1 h2
    rw [ht] at h1 h2 ⊢
    rcases hcase i with e | e | e
    · rw [(hold i e).2.1] at h1
      have hp := (parent_index_lt h h1).2
      rw [(hold i e).2.2.1, (hold p hp).2.2.1, (hold i e).1, (hold p hp).1] at h2
      rw [(hold i e).2.2.2.1, (hold p hp).2.2.2.1]
      exact hs.depth_inv.depth_ok i p h1 h2
    · subst e
      rw [hnw] at h1 ⊢
      have : H = p := Option.some.inj h1
      subst this
      rw [(hold H hH).2.2.2.1]
      rfl
    · rw [hdef i e] at h1
      cases h1
  · intro i p h1
    rw [ht] at h1 ⊢
    rcases hcase i with e | e | e
    · rw [(hold i e).2.1] at h1
      have hp := (parent_index_lt h h1).2
      rw [(hold i e).2.2.1, (hold p hp).2.2.1, (hold i e).1, (hold p hp).1]
      exact hs.g_eq i p h1
    · subst e
      rw [hnw] at h1 ⊢
      have : H = p := Option.some.inj h1
      subst this
      rw [(hold H hH).2.2.1, (hold H hH).1]
      rfl
    · rw [hdef i e] at h1
      cases h1
  · intro hA a b hb
    rw [ht] at hb ⊢
    rcases hcase a with e | e | e
    · rw [nodeAt_newHNode_old_neighbors C s.nodes Q H _ _ e] at hb
      have hb2 : (b = s.nodes.length ∧ H = a) ∨ b ∈ (nodeAt s.nodes a).neighbors := by
        split at hb
        · rename_i e1
          rcases mem_setInsert _ _ _ _ hb with e2 | e2
          · exact Or.inl ⟨e2, e1⟩
          · exact Or.inr e2
        · exact Or.inr hb
      rcases hb2 with ⟨e2, e3⟩ | e2
      · subst e2; subst e3
        unfold Relaxed
        rw [hnw, (hold H hH).2.2.1, (hold H hH).1]
        exact Nat.le_refl _
      · have hbl := (h.arena.nbr_ok a e b e2).1
        have := hs.edge_fix hA a b e2
        unfold Relaxed at this ⊢
        rw [(hold a e).2.2.1, (hold b hbl).2.2.1, (hold a e).1, (hold b hbl).1]
        exact this
    · subst e
      rw [hnw] at hb
      cases hb
    · rw [hdef a e] at hb
      cases hb

/-! ## `rewrite` keeps the state settled -/

theorem settled_rewrite {σ : Type} (C : Ctx σ) (s : LaCAM) (H_from H_to : Nat) (hinv : Inv C s)
    (hs : Settled C s) (hfrom : H_from < s.nodes.length) (hto : H_to < s.nodes.length)
    (hc : ((nodeAt s.nodes H_from).Q, (nodeAt s.nodes H_to).Q) ∈ s.calls) :
    Settled C (rewrite C s H_from H_to) := by
  cases hA : C.ANYTIME with
  | false =>
    rw [rewrite_not_anytime C s H_from H_to hA]
    exact hs
  | true =>
    have hproj : ∀ i, SameCore
        (nodeAt (updNode s.nodes H_from fun n =>
          { n with neighbors := setInsert s.nodes H_to n.neighbors }) i)
        { nodeAt s.nodes i with neighbors :=
            (nodeAt (updNode s.nodes H_from fun n =>
              { n with neighbors := setInsert s.nodes H_to n.neighbors }) i).neighbors }
        ∧ (nodeAt (updNode s.nodes H_from fun n =>
          { n with neighbors := setInsert s.nodes H_to n.neighbors }) i).search_tree
            = (nodeAt s.nodes i).search_tree := by
      intro i
      rw [nodeAt_updNode]
      split
      · exact ⟨⟨rfl, rfl, rfl, rfl, rfl, rfl, rfl, rfl, rfl⟩, rfl⟩
      · exact ⟨⟨rfl, rfl, rfl, rfl, rfl, rfl, rfl, rfl, rfl⟩, rfl⟩
    obtain ⟨hI, hok, hdep⟩ := rewrite_preserves C
      (fun u => (∀ i, i < u.nodes.length → NodeOk C (nodeAt u.nodes i))
        ∧ DepthInv C.ins u.nodes)
      (fun u n_from n_to Q hu _ _ hp =>
        ⟨relax_nodeOk C n_from n_to u Q hp.1, relax_depthInv C n_from n_to u Q hu hp.2⟩)
      s H_from H_to hinv hfrom hto hc ⟨hs.node_ok, hs.depth_inv⟩
      ⟨by
        intro i hi
        simp only [length_updNode] at hi
        obtain ⟨a, b⟩ := hproj i
        exact (hs.node_ok i hi).node_of_same a.1 a.2.2.2.2.2.2.2.1 a.2.2.2.2.2.2.2.2
          (fun L hL => by rw [b] at hL; exact hL),
       hs.depth_inv.depth_frame (fun i => (hproj i).1.1) (fun i => (hproj i).1.2.1)
        (fun i => (hproj i).1.2.2.2.1) (fun i => (hproj i).1.2.2.2.2.2.2.1)⟩
    have hfix := rewrite_fixpoint C s H_from H_to hA (hs.edge_fix hA)
    exact { node_ok := hok, depth_inv := hdep, g_eq := g_eq_of_fixpoint hI.arena hfix,
            edge_fix := fun _ => hfix }

theorem successor_settled {σ : Type} (C : Ctx σ) (s : LaCAM) (H : Nat) (Q_to : Config) (w : σ)
    (h : Inv C s) (hs : Settled C s) (hH : H < s.nodes.length)
    (hc : ((nodeAt s.nodes H).Q, Q_to) ∈ s.calls) :
    Settled C (successor C s H Q_to w).1 := by
  unfold successor
  split
  · exact settled_new_node C h hs Q_to (get_h_val C Q_to) hH rfl
  · rename_i H_known hE
    obtain ⟨hk, hq⟩ := (h.explored Q_to H_known).mp hE
    have hc1 : ((nodeAt s.nodes H).Q, (nodeAt s.nodes H_known).Q) ∈ s.calls := by
      rw [hq]; exact hc
    have hR := settled_rewrite C s H H_known h hs hH hk hc1
    split
    · exact hR.of_nodes_eq rfl
    · exact hR.of_nodes_eq rfl

/-! ## Every state of a run at the loop test is settled -/

theorem expand_settled {σ : Type} (C : Ctx σ) (s : LaCAM) (H : Nat) (w : σ) (h : Inv C s)
    (hs : Settled C s) (hH : H < s.nodes.length) : Settled C (expand C s H w).1 := by
  unfold expand
  split
  · exact hs.of_nodes_eq rfl
  · rename_i L rest hst
    obtain ⟨a, b, c, d, e, f, _⟩ := dequeued_frame C s H L rest w
    have hS2 : Settled C (low_level C
        { s with nodes := updNode s.nodes H fun n => { n with search_tree := rest } }
        H L w).1 :=
      hs.of_core b (fun i hi => dequeued_nodeOk C s H L rest w hH hst hs.node_ok i
        (by rw [← a]; exact hi))
    simp only
    split
    · exact hS2
    · rename_i Q_to hres
      have hI : Inv C
          { (low_level C
              { s with nodes := updNode s.nodes H fun n => { n with search_tree := rest } }
              H L w).1 with
            calls := ((nodeAt (low_level C
              { s with nodes := updNode s.nodes H fun n => { n with search_tree := rest } }
              H L w).1.nodes H).Q, Q_to) :: (low_level C
              { s with nodes := updNode s.nodes H fun n => { n with search_tree := rest } }
              H L w).1.calls } :=
        h.inv_frame a b c (fun k hk => h.open_ok k (by rw [← d]; exact hk))
          (fun k hk => h.goal_ok k (by rw [← e]; exact hk))
          (fun x hx => List.mem_cons_of_mem _ (by rw [f]; exact hx))
          (by
            intro x hx
            rcases List.mem_cons.mp hx with e1 | e1
            · right
              subst e1
              exact ⟨_, _, _, _, hres⟩
            · left
              rw [← f]; exact e1)
      exact successor_settled C _ H Q_to _ hI (hS2.of_nodes_eq rfl)
        (by simp only [a]; exact hH) (List.mem_cons_self _ _)

theorem visit_settled {σ : Type} (C : Ctx σ) (s : LaCAM) (w : σ) (h : Inv C s)
    (hs : Settled C s) : Settled C (visit C s w).2.1 := by
  have hH : s.OPEN.headD 0 < s.nodes.length := by
    cases hO : s.OPEN with
    | nil => exact h.arena.pos
    | cons a l => exact h.open_ok a (by rw [hO]; exact List.mem_cons_self _ _)
  unfold visit
  simp only
  split
  · exact hs.of_nodes_eq rfl
  · split
    · exact hs.of_nodes_eq rfl
    · exact expand_settled C s _ w h hs hH

theorem iteration_settled {σ : Type} (C : Ctx σ) (s : LaCAM) (w : σ) (h : Inv C s)
    (hs : Settled C s) : Settled C (iteration C s w).2.1 := by
  unfold iteration
  have h0 : Inv C { s with loop_cnt := s.loop_cnt + 1 } :=
    h.inv_of_nodes_eq rfl rfl (fun k hk => h.open_ok k hk) (fun k hk => h.goal_ok k hk) rfl
  have s0 : Settled C { s with loop_cnt := s.loop_cnt + 1 } := hs.of_nodes_eq rfl
  obtain ⟨h1, _⟩ := random_insert_good C { s with loop_cnt := s.loop_cnt + 1 } w h0
  have s1 : Settled C (random_insert C { s with loop_cnt := s.loop_cnt + 1 } w).1 :=
    s0.of_nodes_eq (random_insert_frame C _ w).1
  exact visit_settled C _ _ h1 s1

theorem initState_settled {σ : Type} (C : Ctx σ) (G : Graph) : Settled C (initState C G) := by
  have h0 : nodeAt (initState C G).nodes 0 = HNode.init C [] C.ins.starts none 0 0 :=
    nodeAt_init_zero C C.ins.starts
  have hlen : (initState C G).nodes.length = 1 := rfl
  have hdef : ∀ i, i ≠ 0 → nodeAt (initState C G).nodes i = default := by
    intro i hi
    exact nodeAt_of_le _ (by rw [hlen]; omega)
  have hpar : ∀ i, (nodeAt (initState C G).nodes i).parent = none := by
    intro i
    by_cases e : i = 0
    · rw [e, h0]; rfl
    · rw [hdef i e]; rfl
  have hnb : ∀ i, (nodeAt (initState C G).nodes i).neighbors = [] := by
    intro i
    by_cases e : i = 0
    · rw [e, h0]; rfl
    · rw [hdef i e]; rfl
  refine { node_ok := ?_, depth_inv := ⟨?_, ?_⟩, g_eq := ?_, edge_fix := ?_ }
  · intro i hi
    rw [hlen] at hi
    have : i = 0 := by omega
    rw [this, h0]
    exact nodeOk_init C [] C.ins.starts none 0 0 (fun p hp => by cases hp)
  · rw [h0]; rfl
  · intro i p h1
    rw [hpar i] at h1
    cases h1
  · intro i p h1
    rw [hpar i] at h1
    cases h1
  · intro _ a b hb
    rw [hnb a] at hb
    cases hb

theorem Run.settled {σ : Type} {C : Ctx σ} (hwf : WellFormed C) {s0 : LaCAM} {w0 : σ}
    {fl : Flow} {s : LaCAM} {w : σ} (hr : Run C s0 w0 fl s w) (h : Inv C s0)
    (hs : Settled C s0) : Settled C s := by
  induction hr with
  | refl => exact hs
  | @step s1 w1 hr1 _ _ ih =>
    exact iteration_settled C s1 w1 (hr1.good hwf h).1 ih

/-! ## Sorting procedures -/

theorem sortKeepingTies_permutes (sort : (Nat → Nat → Bool) → List Nat → List Nat)
    (h : sort = sortKeepingTies) : SortPermutes (duoCtx sort) := by
  subst h
  intro cmp l
  exact List.perm_insertionSort _ l

theorem duo_wf (sort : (Nat → Nat → Bool) → List Nat → List Nat) : WellFormed (duoCtx sort) where
  starts_len := rfl
  pibt_len := by
    intro w G Qf Qt ord Q h
    have : Q = (List.range 2).map fun i => (Qt.getD i none).getD (Qf.getD i 0) :=
      (Option.some.inj h).symm
    rw [this]
    rfl

/-! ## `std::sort` rearranges the vector -/

theorem getD_set_nat (v : List Nat) (i j x : Nat) :
    (v.set i x).getD j 0 = if i = j ∧ i < v.length then x else v.getD j 0 := by
  rw [List.getD_eq_getElem?_getD, List.getD_eq_getElem?_getD, List.getElem?_set]
  by_cases e : i = j
  · by_cases e2 : i < v.length
    · rw [if_pos e, if_pos e2, if_pos ⟨e, e2⟩]
      rfl
    · rw [if_pos e, if_neg e2, if_neg (fun h => e2 h.2)]
      rw [List.getElem?_eq_none (by omega)]
  · rw [if_neg e, if_neg (fun h => e h.1)]

theorem set_getD_self (v : List Nat) (i : Nat) : v.set i (v.getD i 0) = v := by
  apply List.ext_getElem?
  intro j
  rw [List.getElem?_set]
  by_cases e : i = j
  · subst e
    rw [if_pos rfl]
    by_cases h : i < v.length
    · rw [if_pos h, List.getD_eq_getElem?_getD, List.getElem?_eq_getElem h]
      rfl
    · rw [if_neg h, List.getElem?_eq_none (by omega)]
  · rw [if_neg e]

theorem set_set_same (v : List Nat) (i x y : Nat) : (v.set i x).set i y = v.set i y := by
  apply List.ext_getElem?
  intro j
  simp only [List.getElem?_set, List.length_set]
  by_cases e : i = j
  · simp [e]
  · simp [e]

theorem count_set_nat (v : List Nat) (i x b : Nat) (h : i < v.length) :
    (v.set i x).count b + (if v.getD i 0 = b then 1 else 0)
      = v.count b + (if x = b then 1 else 0) := by
  have h1 := List.count_set x b v i h
  have e3 : v.getD i 0 = v[i] := by
    rw [List.getD_eq_getElem?_getD, List.getElem?_eq_getElem h]
    rfl
  rw [e3]
  by_cases e : v[i] = b
  · have hpos : 0 < v.count b := List.count_pos_iff.mpr (by rw [← e]; exact List.getElem_mem _)
    by_cases e2 : x = b
    · simp only [e, e2, beq_self_eq_true, if_true] at h1 ⊢
      omega
    · have e2b : (x == b) = false := by simpa using e2
      simp only [e, e2, e2b, beq_self_eq_true, if_true, if_false, Bool.false_eq_true] at h1 ⊢
      omega
  · have eb : (v[i] == b) = false := by simpa using e
    by_cases e2 : x = b
    · simp only [e, eb, e2, beq_self_eq_true, if_true, if_false, Bool.false_eq_true] at h1 ⊢
      omega
    · have e2b : (x == b) = false := by simpa using e2
      simp only [e, eb, e2, e2b, if_false, Bool.false_eq_true] at h1 ⊢
      omega

/-- Moving the element at `src` into the hole at `hole` and leaving the hole at `src` keeps
the elements of the vector completed by `val`. -/
theorem hole_move_perm (v : List Nat) (hole src val : Nat) (h1 : hole < v.length)
    (h2 : src < v.length) :
    List.Perm ((v.set hole (v.getD src 0)).set src val) (v.set hole val) := by
  by_cases e : hole = src
  · subst e
    rw [set_set_same]
  · rw [List.perm_iff_count]
    intro b
    have c1 := count_set_nat (v.set hole (v.getD src 0)) src val b
      (by rw [List.length_set]; exact h2)
    have c2 := count_set_nat v hole (v.getD src 0) b h1
    have c3 := count_set_nat v hole val b h1
    have e4 : (v.set hole (v.getD src 0)).getD src 0 = v.getD src 0 := by
      rw [getD_set_nat, if_neg (fun h => e h.1)]
    rw [e4] at c1
    omega

theorem iter_swap_perm (v : List Nat) (i j : Nat) (hi : i < v.length) (hj : j < v.length) :
    List.Perm (iter_swap v i j) v := by
  unfold iter_swap
  have h := hole_move_perm v i j (v.getD i 0) hi hj
  rw [set_getD_self] at h
  exact h

theorem length_iter_swap (v : List Nat) (i j : Nat) : (iter_swap v i j).length = v.length := by
  simp [iter_swap]

theorem move_median_to_first_perm (cmp : Nat → Nat → Bool) (v : List Nat) (result a b c : Nat)
    (hr : result < v.length) (ha : a < v.length) (hb : b < v.length) (hc : c < v.length) :
    List.Perm (move_median_to_first cmp v result a b c) v := by
  unfold move_median_to_first
  split_ifs <;> exact iter_swap_perm v _ _ hr (by assumption)

theorem scan_up_bounds (cmp : Nat → Nat → Bool) (v : List Nat) (pivot fuel first : Nat)
    (h : first ≤ v.length) :
    first ≤ scan_up cmp v pivot fuel first ∧ scan_up cmp v pivot fuel first ≤ v.length := by
  induction fuel generalizing first with
  | zero => exact ⟨Nat.le_refl _, h⟩
  | succ fuel ih =>
    unfold scan_up
    split
    · rename_i hc
      obtain ⟨a, b⟩ := ih (first + 1) hc.1
      exact ⟨by omega, b⟩
    · exact ⟨Nat.le_refl _, h⟩

theorem scan_down_le (cmp : Nat → Nat → Bool) (v : List Nat) (pivot last : Nat) :
    scan_down cmp v pivot last ≤ last := by
  induction last with
  | zero => exact Nat.le_refl _
  | succ last ih =>
    unfold scan_down
    split
    · omega
    · exact Nat.le_refl _

theorem unguarded_partition_perm (cmp : Nat → Nat → Bool) (pivot fuel : Nat) (v : List Nat)
    (first last : Nat) (hf : first ≤ v.length) (hl : last ≤ v.length) :
    List.Perm (unguarded_partition cmp pivot fuel v first last).1 v
      ∧ (unguarded_partition cmp pivot fuel v first last).2 ≤ v.length := by
  induction fuel generalizing v first last with
  | zero => exact ⟨List.Perm.refl _, hf⟩
  | succ fuel ih =>
    unfold unguarded_partition
    obtain ⟨u1, u2⟩ := scan_up_bounds cmp v pivot v.length first hf
    have d1 := scan_down_le cmp v pivot (last - 1)
    split
    · rename_i hlt
      have hj : scan_down cmp v pivot (last - 1) < v.length := by omega
      have hi : scan_up cmp v pivot v.length first < v.length := by omega
      have hp := iter_swap_perm v _ _ hi hj
      obtain ⟨a, b⟩ := ih (iter_swap v (scan_up cmp v pivot v.length first)
        (scan_down cmp v pivot (last - 1))) (scan_up cmp v pivot v.length first + 1)
        (scan_down cmp v pivot (last - 1)) (by rw [length_iter_swap]; omega)
        (by rw [length_iter_swap]; omega)
      rw [length_iter_swap] at b
      exact ⟨a.trans hp, b⟩
    · exact ⟨List.Perm.refl _, u2⟩

theorem unguarded_partition_pivot_perm (cmp : Nat → Nat → Bool) (v : List Nat)
    (first last : Nat) (hl : last ≤ v.length) (hgt : last - first > 16) :
    List.Perm (unguarded_partition_pivot cmp v first last).1 v
      ∧ (unguarded_partition_pivot cmp v first last).2 ≤ v.length := by
  unfold unguarded_partition_pivot
  have hm := move_median_to_first_perm cmp v first (first + 1) (first + (last - first) / 2)
    (last - 1) (by omega) (by omega) (by omega) (by omega)
  obtain ⟨a, b⟩ := unguarded_partition_perm cmp first v.length
    (move_median_to_first cmp v first (first + 1) (first + (last - first) / 2) (last - 1))
    (first + 1) last (by rw [hm.length_eq]; omega) (by rw [hm.length_eq]; exact hl)
  rw [hm.length_eq] at b
  exact ⟨a.trans hm, b⟩

theorem push_heap_perm (cmp : Nat → Nat → Bool) (first topIndex value fuel : Nat)
    (v : List Nat) (holeIndex : Nat) (h : first + holeIndex < v.length) :
    List.Perm (push_heap cmp first topIndex value fuel v holeIndex)
      (v.set (first + holeIndex) value) := by
  induction fuel generalizing v holeIndex with
  | zero => exact List.Perm.refl _
  | succ fuel ih =>
    unfold push_heap
    split
    · have hp : first + (holeIndex - 1) / 2 < v.length := by omega
      have := ih (v.set (first + holeIndex) (v.getD (first + (holeIndex - 1) / 2) 0))
        ((holeIndex - 1) / 2) (by rw [List.length_set]; exact hp)
      exact this.trans (hole_move_perm v _ _ value h hp)
    · exact List.Perm.refl _

theorem sift_down_perm (cmp : Nat → Nat → Bool) (first len value fuel : Nat) (v : List Nat)
    (secondChild : Nat) (hlen : first + len ≤ v.length) (h : secondChild < len) :
    (sift_down cmp first len fuel v secondChild).2 < len
      ∧ (sift_down cmp first len fuel v secondChild).1.length = v.length
      ∧ List.Perm ((sift_down cmp first len fuel v secondChild).1.set
            (first + (sift_down cmp first len fuel v secondChild).2) value)
          (v.set (first + secondChild) value) := by
  induction fuel generalizing v secondChild with
  | zero => exact ⟨h, rfl, List.Perm.refl _⟩
  | succ fuel ih =>
    unfold sift_down
    split
    · rename_i hlt
      split
      · have hc : 2 * (secondChild + 1) - 1 < len := by omega
        obtain ⟨a, b, c⟩ := ih
          (v.set (first + secondChild) (v.getD (first + (2 * (secondChild + 1) - 1)) 0))
          (2 * (secondChild + 1) - 1) (by rw [List.length_set]; exact hlen) hc
        rw [List.length_set] at b
        exact ⟨a, b, c.trans (hole_move_perm v _ _ value (by omega) (by omega))⟩
      · have hc : 2 * (secondChild + 1) < len := by omega
        obtain ⟨a, b, c⟩ := ih
          (v.set (first + secondChild) (v.getD (first + 2 * (secondChild + 1)) 0))
          (2 * (secondChild + 1)) (by rw [List.length_set]; exact hlen) hc
        rw [List.length_set] at b
        exact ⟨a, b, c.trans (hole_move_perm v _ _ value (by omega) (by omega))⟩
    · exact ⟨h, rfl, List.Perm.refl _⟩

theorem adjust_heap_perm (cmp : Nat → Nat → Bool) (v : List Nat) (first holeIndex len value : Nat)
    (hlen : first + len ≤ v.length) (h : holeIndex < len) :
    List.Perm (adjust_heap cmp v first holeIndex len value) (v.set (first + holeIndex) value) := by
  obtain ⟨a, b, c⟩ := sift_down_perm cmp first len value len v holeIndex hlen h
  unfold adjust_heap
  split
  · rename_i hc
    have hidx : 2 * ((sift_down cmp first len len v holeIndex).2 + 1) - 1 < len := by omega
    have h1 := push_heap_perm cmp first holeIndex value len
      ((sift_down cmp first len len v holeIndex).1.set
        (first + (sift_down cmp first len len v holeIndex).2)
        ((sift_down cmp first len len v holeIndex).1.getD
          (first + (2 * ((sift_down cmp first len len v holeIndex).2 + 1) - 1)) 0))
      (2 * ((sift_down cmp first len len v holeIndex).2 + 1) - 1)
      (by rw [List.length_set, b]; omega)
    have h2 := hole_move_perm (sift_down cmp first len len v holeIndex).1
      (first + (sift_down cmp first len len v holeIndex).2)
      (first + (2 * ((sift_down cmp first len len v holeIndex).2 + 1) - 1)) value
      (by rw [b]; omega) (by rw [b]; omega)
    exact (h1.trans h2).trans c
  · have h1 := push_heap_perm cmp first holeIndex value len
      (sift_down cmp first len len v holeIndex).1 (sift_down cmp first len len v holeIndex).2
      (by rw [b]; omega)
    exact h1.trans c

theorem pop_heap_perm (cmp : Nat → Nat → Bool) (v : List Nat) (first last result : Nat)
    (h1 : first < last) (h2 : last ≤ v.length) (h3 : result < v.length) :
    List.Perm (pop_heap cmp v first last result) v := by
  unfold pop_heap
  have h := adjust_heap_perm cmp (v.set result (v.getD first 0)) first 0 (last - first)
    (v.getD result 0) (by rw [List.length_set]; omega) (by omega)
  exact h.trans (iter_swap_perm v result first h3 (by omega))

theorem make_heap_loop_perm (cmp : Nat → Nat → Bool) (first len parent : Nat) (v : List Nat)
    (hlen : first + len ≤ v.length) (h : parent < len) :
    List.Perm (make_heap_loop cmp first len parent v) v := by
  induction parent generalizing v with
  | zero =>
    unfold make_heap_loop
    have := adjust_heap_perm cmp v first 0 len (v.getD first 0) hlen h
    rw [Nat.add_zero, set_getD_self] at this
    exact this
  | succ parent ih =>
    unfold make_heap_loop
    have h1 := adjust_heap_perm cmp v first (parent + 1) len (v.getD (first + (parent + 1)) 0)
      hlen h
    rw [set_getD_self] at h1
    exact (ih _ (by rw [h1.length_eq]; exact hlen) (by omega)).trans h1

theorem make_heap_perm (cmp : Nat → Nat → Bool) (v : List Nat) (first last : Nat)
    (h : last ≤ v.length) : List.Perm (make_heap cmp v first last) v := by
  unfold make_heap
  split
  · exact List.Perm.refl _
  · exact make_heap_loop_perm cmp first (last - first) _ v (by omega) (by omega)

theorem heap_select_perm (cmp : Nat → Nat → Bool) (v : List Nat) (first middle last : Nat)
    (h1 : first < middle) (h2 : middle ≤ last) (h3 : last ≤ v.length) :
    List.Perm (heap_select cmp v first middle last) v := by
  unfold heap_select
  have hm := make_heap_perm cmp v first middle (by omega)
  have key : ∀ (l : List Nat) (w : List Nat), (∀ i, i ∈ l → i < last) → List.Perm w v →
      List.Perm (l.foldl (fun v i => if cmp (v.getD i 0) (v.getD first 0) = true
        then pop_heap cmp v first middle i else v) w) v := by
    intro l
    induction l with
    | nil => intro w _ hw; exact hw
    | cons i l ih =>
      intro w hl hw
      rw [List.foldl_cons]
      apply ih _ (fun j hj => hl j (List.mem_cons_of_mem _ hj))
      split
      · exact (pop_heap_perm cmp w first middle i h1 (by rw [hw.length_eq]; omega)
          (by rw [hw.length_eq]; have := hl i (List.mem_cons_self _ _); omega)).trans hw
      · exact hw
  apply key _ _ _ hm
  intro i hi
  rw [List.mem_range'_1] at hi
  omega

theorem sort_heap_perm (cmp : Nat → Nat → Bool) (first count : Nat) (v : List Nat)
    (h : first + count ≤ v.length) : List.Perm (sort_heap cmp first count v) v := by
  induction count generalizing v with
  | zero => exact List.Perm.refl _
  | succ count ih =>
    unfold sort_heap
    split
    · have hp := pop_heap_perm cmp v first (first + count) (first + count) (by omega) (by omega)
        (by omega)
      exact (ih _ (by rw [hp.length_eq]; omega)).trans hp
    · exact List.Perm.refl _

theorem partial_sort_perm (cmp : Nat → Nat → Bool) (v : List Nat) (first middle last : Nat)
    (h1 : first < middle) (h2 : middle ≤ last) (h3 : last ≤ v.length) :
    List.Perm (partial_sort cmp v first middle last) v := by
  unfold partial_sort
  have hs := heap_select_perm cmp v first middle last h1 h2 h3
  exact (sort_heap_perm cmp first (middle - first) _ (by rw [hs.length_eq]; omega)).trans hs

theorem introsort_loop_perm (cmp : Nat → Nat → Bool) (depth_limit : Nat) (v : List Nat)
    (first last : Nat) (hl : last ≤ v.length) :
    List.Perm (introsort_loop cmp depth_limit v first last) v := by
  induction depth_limit generalizing v first last with
  | zero =>
    unfold introsort_loop
    split
    · exact partial_sort_perm cmp v first last last (by omega) (Nat.le_refl _) hl
    · exact List.Perm.refl _
  | succ d ih =>
    unfold introsort_loop
    split
    · rename_i hgt
      obtain ⟨a, b⟩ := unguarded_partition_pivot_perm cmp v first last hl hgt
      have h1 := ih (unguarded_partition_pivot cmp v first last).1
        (unguarded_partition_pivot cmp v first last).2 last (by rw [a.length_eq]; exact hl)
      have h2 := ih (introsort_loop cmp d (unguarded_partition_pivot cmp v first last).1
        (unguarded_partition_pivot cmp v first last).2 last) first
        (unguarded_partition_pivot cmp v first last).2
        (by rw [h1.length_eq, a.length_eq]; exact b)
      exact (h2.trans h1).trans a
    · exact List.Perm.refl _

theorem introsort_loop_small (cmp : Nat → Nat → Bool) (depth_limit : Nat) (v : List Nat)
    (first last : Nat) (h : last - first ≤ 16) :
    introsort_loop cmp depth_limit v first last = v := by
  cases depth_limit <;> unfold introsort_loop <;> rw [if_neg (by omega)]

/-! ## The final insertion sort orders the vector -/

theorem getD_append_cons (p : List Nat) (c : Nat) (r : List Nat) :
    (p ++ c :: r).getD p.length 0 = c := by
  rw [List.getD_eq_getElem?_getD, List.getElem?_append_right (Nat.le_refl _)]
  simp

/-- What `__unguarded_linear_insert` does to the vector `p ++ c :: r` at the position of `c`:
`val` goes before the elements at the end of `p` that it precedes. -/
theorem unguarded_linear_insert_spec (cmp : Nat → Nat → Bool) (val : Nat) (p : List Nat) :
    ∀ (c : Nat) (r : List Nat), ∃ l1 l2, p = l1 ++ l2
      ∧ unguarded_linear_insert cmp val p.length (p ++ c :: r) = l1 ++ val :: (l2 ++ r)
      ∧ (∀ x, x ∈ l2 → cmp val x = true)
      ∧ (∀ y, l1.getLast? = some y → cmp val y = false) := by
  induction p using List.reverseRecOn with
  | nil =>
    intro c r
    exact ⟨[], [], rfl, rfl, fun x hx => absurd hx (List.not_mem_nil x),
      fun y hy => by cases hy⟩
  | append_singleton q y ih =>
    intro c r
    have hlen : (q ++ [y]).length = q.length + 1 := by simp
    have hv : q ++ [y] ++ c :: r = q ++ y :: (c :: r) := by simp
    rw [hlen, hv]
    unfold unguarded_linear_insert
    rw [getD_append_cons]
    have hset : ∀ x, (q ++ y :: (c :: r)).set (q.length + 1) x = q ++ y :: x :: r := by
      intro x
      rw [List.set_append_right _ _ (by omega)]
      simp
    by_cases hc : cmp val y = true
    · rw [if_pos hc, hset]
      obtain ⟨l1, l2, e, h1, h2, h3⟩ := ih y (y :: r)
      refine ⟨l1, l2 ++ [y], by rw [e]; simp, ?_, ?_, h3⟩
      · rw [h1]; simp
      · intro x hx
        rcases List.mem_append.mp hx with h | h
        · exact h2 x h
        · rw [List.mem_singleton.mp h]; exact hc
    · rw [if_neg hc, hset]
      refine ⟨q ++ [y], [], by simp, by simp, fun x hx => absurd hx (List.not_mem_nil x), ?_⟩
      intro z hz
      rw [List.getLast?_append, List.getLast?_singleton] at hz
      have : z = y := by simpa using hz.symm
      rw [this]
      simpa using hc

/-- What `std::move_backward(first, i, i + 1)` does to the vector `p ++ c :: r` with `first`
the start of the vector and `i` the position of `c`. -/
theorem move_backward_spec (p : List Nat) :
    ∀ (c : Nat) (r : List Nat), ∃ h, move_backward 0 p.length (p ++ c :: r) = h :: (p ++ r) := by
  induction p using List.reverseRecOn with
  | nil =>
    intro c r
    exact ⟨c, rfl⟩
  | append_singleton q y ih =>
    intro c r
    have hlen : (q ++ [y]).length = q.length + 1 := by simp
    have hv : q ++ [y] ++ c :: r = q ++ y :: (c :: r) := by simp
    rw [hlen, hv]
    unfold move_backward
    simp only [Nat.zero_add]
    rw [getD_append_cons]
    have hset : (q ++ y :: (c :: r)).set (q.length + 1) y = q ++ y :: (y :: r) := by
      rw [List.set_append_right _ _ (by omega)]
      simp
    rw [hset]
    obtain ⟨h, e⟩ := ih y (y :: r)
    exact ⟨h, by rw [e]; simp⟩

theorem pairwise_insert_front (R : Nat → Nat → Prop)
    (htrans : ∀ a b c, R a b → R b c → R a c) (c h : Nat) (t : List Nat)
    (hs : List.Pairwise R (h :: t)) (hc : R c h) : List.Pairwise R (c :: h :: t) := by
  rw [List.pairwise_cons]
  refine ⟨?_, hs⟩
  intro x hx
  rcases List.mem_cons.mp hx with e | e
  · rw [e]; exact hc
  · exact htrans _ _ _ hc ((List.pairwise_cons.mp hs).1 x e)

theorem pairwise_insert_mid (cmp : Nat → Nat → Bool) (R : Nat → Nat → Prop)
    (htrans : ∀ a b c, R a b → R b c → R a c) (c : Nat) (l1 l2 : List Nat)
    (hs : List.Pairwise R (l1 ++ l2)) (hq : ∀ x, x ∈ l1 ++ l2 → Linked cmp R x c)
    (h2 : ∀ x, x ∈ l2 → cmp c x = true)
    (h3 : ∀ y, l1.getLast? = some y → cmp c y = false) :
    List.Pairwise R (l1 ++ c :: l2) := by
  obtain ⟨p1, p2, p3⟩ := List.pairwise_append.mp hs
  rw [List.pairwise_append]
  refine ⟨p1, ?_, ?_⟩
  · rw [List.pairwise_cons]
    exact ⟨fun x hx => (hq x (List.mem_append_right _ hx)).1 (h2 x hx), p2⟩
  · intro a ha b hb
    rcases List.mem_cons.mp hb with e | e
    · rw [e]
      rcases List.eq_nil_or_concat l1 with hn | ⟨q, y, hq1⟩
      · rw [hn] at ha; cases ha
      · rw [List.concat_eq_append] at hq1
        subst hq1
        have hy : R y c :=
          (hq y (List.mem_append_left _ (List.mem_append_right _ (List.mem_singleton_self y)))).2
            (h3 y (by simp))
        rcases List.mem_append.mp ha with h | h
        · exact htrans _ _ _ ((List.pairwise_append.mp p1).2.2 a h y (List.mem_singleton_self y)) hy
        · rw [List.mem_singleton.mp h]; exact hy
    · exact p3 a ha b e

/-- One round of the loop of `__insertion_sort` with `first` the start of the vector, at the
position of `c` in `p ++ c :: r`: `c` is put into the part `p`, which stays ordered. -/
theorem insertion_round_spec (cmp : Nat → Nat → Bool) (R : Nat → Nat → Prop)
    (htrans : ∀ a b c, R a b → R b c → R a c) (p : List Nat) (c : Nat) (r : List Nat)
    (hp : p ≠ []) :
    ∃ p1, (if cmp ((p ++ c :: r).getD p.length 0) ((p ++ c :: r).getD 0 0) = true then
          (move_backward 0 (p.length - 0) (p ++ c :: r)).set 0 ((p ++ c :: r).getD p.length 0)
        else unguarded_linear_insert cmp ((p ++ c :: r).getD p.length 0) p.length (p ++ c :: r))
        = p1 ++ r
      ∧ List.Perm p1 (p ++ [c])
      ∧ (List.Pairwise R p → (∀ x, x ∈ p → Linked cmp R x c) → List.Pairwise R p1) := by
  rw [getD_append_cons]
  obtain ⟨h, t, rfl⟩ := List.exists_cons_of_ne_nil hp
  have h0 : (h :: t ++ c :: r).getD 0 0 = h := rfl
  rw [h0]
  split
  · rename_i hc
    obtain ⟨x, e⟩ := move_backward_spec (h :: t) c r
    rw [Nat.sub_zero, e]
    refine ⟨c :: h :: t, rfl, ?_, ?_⟩
    · exact (List.perm_append_singleton c (h :: t)).symm
    · intro hs hq
      exact pairwise_insert_front R htrans c h t hs ((hq h (List.mem_cons_self _ _)).1 hc)
  · obtain ⟨l1, l2, e, h1, h2, h3⟩ := unguarded_linear_insert_spec cmp c (h :: t) c r
    rw [h1]
    refine ⟨l1 ++ c :: l2, by simp, ?_, ?_⟩
    · rw [e]
      exact (List.perm_middle).trans (List.perm_append_singleton c (l1 ++ l2)).symm
    · intro hs hq
      rw [e] at hs hq
      exact pairwise_insert_mid cmp R htrans c l1 l2 hs hq h2 h3

/-- One round of the loop of `__unguarded_insertion_sort`. -/
theorem unguarded_round_spec (cmp : Nat → Nat → Bool) (R : Nat → Nat → Prop)
    (htrans : ∀ a b c, R a b → R b c → R a c) (p : List Nat) (c : Nat) (r : List Nat) :
    ∃ p1, unguarded_linear_insert cmp ((p ++ c :: r).getD p.length 0) p.length (p ++ c :: r)
        = p1 ++ r
      ∧ List.Perm p1 (p ++ [c])
      ∧ (List.Pairwise R p → (∀ x, x ∈ p → Linked cmp R x c) → List.Pairwise R p1) := by
  rw [getD_append_cons]
  obtain ⟨l1, l2, e, h1, h2, h3⟩ := unguarded_linear_insert_spec cmp c p c r
  rw [h1]
  refine ⟨l1 ++ c :: l2, by simp, ?_, ?_⟩
  · rw [e]
    exact (List.perm_middle).trans (List.perm_append_singleton c (l1 ++ l2)).symm
  · intro hs hq
    rw [e] at hs hq
    exact pairwise_insert_mid cmp R htrans c l1 l2 hs hq h2 h3

/-- A loop whose rounds put the next element into the ordered part orders the elements it
passes over. -/
theorem insertion_loop_spec (cmp : Nat → Nat → Bool) (R : Nat → Nat → Prop)
    (round : List Nat → Nat → List Nat)
    (hround : ∀ (p : List Nat) (c : Nat) (r : List Nat), p ≠ [] →
      ∃ p1, round (p ++ c :: r) p.length = p1 ++ r ∧ List.Perm p1 (p ++ [c])
        ∧ (List.Pairwise R p → (∀ x, x ∈ p → Linked cmp R x c) → List.Pairwise R p1))
    (rest : List Nat) :
    ∀ (p tail : List Nat), p ≠ [] →
      ∃ p1, (List.range' p.length rest.length).foldl round (p ++ rest ++ tail) = p1 ++ tail
        ∧ List.Perm p1 (p ++ rest)
        ∧ (List.Pairwise R p → (∀ x, x ∈ p → ∀ y, y ∈ rest → Linked cmp R x y) →
            List.Pairwise (Linked cmp R) rest → List.Pairwise R p1) := by
  induction rest with
  | nil =>
    intro p tail _
    exact ⟨p, by simp, by simp, fun h _ _ => h⟩
  | cons c r ih =>
    intro p tail hp
    obtain ⟨p1, e1, e2, e3⟩ := hround p c (r ++ tail) hp
    have hp1 : p1 ≠ [] := by
      intro h
      rw [h] at e2
      have := e2.length_eq
      simp at this
    have hl : p1.length = p.length + 1 := by
      rw [e2.length_eq]; simp
    obtain ⟨p2, f1, f2, f3⟩ := ih p1 tail hp1
    refine ⟨p2, ?_, ?_, ?_⟩
    · rw [List.length_cons, List.range'_succ, List.foldl_cons]
      have hv : p ++ c :: r ++ tail = p ++ c :: (r ++ tail) := by simp
      rw [hv, e1, ← hl, ← List.append_assoc]
      exact f1
    · refine f2.trans ?_
      have : p ++ c :: r = (p ++ [c]) ++ r := by simp
      rw [this]
      exact e2.append_right r
    · intro hs hx hr
      obtain ⟨r1, r2⟩ := List.pairwise_cons.mp hr
      apply f3
      · exact e3 hs (fun x hx1 => hx x hx1 c (List.mem_cons_self _ _))
      · intro x hx1 y hy
        rcases List.mem_append.mp (e2.subset hx1) with h | h
        · exact hx x h y (List.mem_cons_of_mem _ hy)
        · rw [List.mem_singleton.mp h]
          exact r1 y hy
      · exact r2

theorem insertion_sort_spec (cmp : Nat → Nat → Bool) (R : Nat → Nat → Prop)
    (htrans : ∀ a b c, R a b → R b c → R a c) (h : Nat) (rest tail : List Nat) :
    ∃ p1, insertion_sort cmp (h :: rest ++ tail) 0 (rest.length + 1) = p1 ++ tail
      ∧ List.Perm p1 (h :: rest)
      ∧ (List.Pairwise (Linked cmp R) (h :: rest) → List.Pairwise R p1) := by
  unfold insertion_sort
  rw [if_neg (by omega)]
  obtain ⟨p1, e1, e2, e3⟩ := insertion_loop_spec cmp R
    (fun v i => if cmp (v.getD i 0) (v.getD 0 0) = true then
        (move_backward 0 (i - 0) v).set 0 (v.getD i 0)
      else unguarded_linear_insert cmp (v.getD i 0) i v)
    (fun p c r hp => insertion_round_spec cmp R htrans p c r hp) rest [h] tail (by simp)
  refine ⟨p1, ?_, e2, ?_⟩
  · have hr : rest.length + 1 - (0 + 1) = rest.length := by omega
    rw [hr]
    exact e1
  · intro hq
    obtain ⟨q1, q2⟩ := List.pairwise_cons.mp hq
    apply e3 (List.pairwise_singleton _ _)
    · intro x hx y hy
      rw [List.mem_singleton.mp hx]
      exact q1 y hy
    · exact q2

theorem unguarded_insertion_sort_spec (cmp : Nat → Nat → Bool) (R : Nat → Nat → Prop)
    (htrans : ∀ a b c, R a b → R b c → R a c) (p rest : List Nat) (hp : p ≠ []) :
    List.Perm (unguarded_insertion_sort cmp (p ++ rest) p.length (p.length + rest.length))
        (p ++ rest)
      ∧ (List.Pairwise R p → (∀ x, x ∈ p → ∀ y, y ∈ rest → Linked cmp R x y) →
          List.Pairwise (Linked cmp R) rest →
          List.Pairwise R
            (unguarded_insertion_sort cmp (p ++ rest) p.length (p.length + rest.length))) := by
  unfold unguarded_insertion_sort
  obtain ⟨p1, e1, e2, e3⟩ := insertion_loop_spec cmp R
    (fun v i => unguarded_linear_insert cmp (v.getD i 0) i v)
    (fun p c r _ => unguarded_round_spec cmp R htrans p c r) rest p [] hp
  have hr : p.length + rest.length - p.length = rest.length := by omega
  rw [hr]
  rw [List.append_nil, List.append_nil] at e1
  rw [e1]
  exact ⟨e2, e3⟩

/-- The function `__final_insertion_sort` on the whole vector: the result is a rearrangement,
and it is ordered by every transitive `R` that is linked to the comparator along the vector. -/
theorem final_insertion_sort_spec (cmp : Nat → Nat → Bool) (R : Nat → Nat → Prop)
    (htrans : ∀ a b c, R a b → R b c → R a c) (v : List Nat) (hv : v ≠ []) :
    List.Perm (final_insertion_sort cmp v 0 v.length) v
      ∧ (List.Pairwise (Linked cmp R) v →
          List.Pairwise R (final_insertion_sort cmp v 0 v.length)) := by
  obtain ⟨h, t, rfl⟩ := List.exists_cons_of_ne_nil hv
  unfold final_insertion_sort
  split
  · rename_i hgt
    simp only [List.length_cons, Nat.sub_zero, Nat.zero_add] at hgt ⊢
    have hsplit : h :: t = h :: t.take 15 ++ t.drop 15 := by simp
    have hl15 : (t.take 15).length = 15 := by
      rw [List.length_take]; omega
    obtain ⟨p1, e1, e2, e3⟩ := insertion_sort_spec cmp R htrans h (t.take 15) (t.drop 15)
    rw [hl15] at e1
    have e1b : insertion_sort cmp (h :: t) 0 16 = p1 ++ t.drop 15 := by
      rw [← e1, List.cons_append, List.take_append_drop]
    rw [e1b]
    have hp1l : p1.length = 16 := by
      rw [e2.length_eq]; simp [hl15]
    have hp1 : p1 ≠ [] := by
      intro hn; rw [hn] at hp1l; cases hp1l
    have hdl : (t.drop 15).length = t.length - 15 := List.length_drop _ _
    obtain ⟨f1, f2⟩ := unguarded_insertion_sort_spec cmp R htrans p1 (t.drop 15) hp1
    have hidx : t.length + 1 = p1.length + (t.drop 15).length := by
      rw [hp1l, hdl]; omega
    rw [hidx, ← hp1l]
    refine ⟨?_, ?_⟩
    · refine f1.trans ?_
      conv_rhs => rw [hsplit]
      exact e2.append_right _
    · intro hq
      rw [hsplit] at hq
      obtain ⟨q1, q2, q3⟩ := List.pairwise_append.mp hq
      exact f2 (e3 q1) (fun x hx y hy => q3 x (e2.subset hx) y hy) q2
  · simp only [List.length_cons, Nat.sub_zero]
    obtain ⟨p1, e1, e2, e3⟩ := insertion_sort_spec cmp R htrans h t []
    rw [List.append_nil, List.append_nil] at e1
    rw [e1]
    exact ⟨e2, e3⟩

/-- C++ `std::sort` on a non-empty vector rearranges it. -/
theorem stdSort_perm (cmp : Nat → Nat → Bool) (v : List Nat) : List.Perm (stdSort cmp v) v := by
  unfold stdSort
  split
  · exact List.Perm.refl _
  · rename_i hne
    have hi := introsort_loop_perm cmp (log2 v.length * 2) v 0 v.length (Nat.le_refl _)
    have hv1 : introsort_loop cmp (log2 v.length * 2) v 0 v.length ≠ [] := by
      intro h
      have := hi.length_eq
      rw [h] at this
      exact hne this.symm
    have := (final_insertion_sort_spec cmp (fun _ _ => True) (fun _ _ _ _ _ => trivial) _ hv1).1
    rw [hi.length_eq] at this
    exact this.trans hi

/-- With the comparator `key i > key j`, `std::sort` leaves the keys in non-increasing order. -/
theorem stdSort_sorted (key : Nat → Rat) (v : List Nat) :
    List.Pairwise (fun a b => key b ≤ key a)
      (stdSort (fun i j => decide (key i > key j)) v) := by
  unfold stdSort
  split
  · rename_i h
    rw [List.length_eq_zero.mp h]
    exact List.Pairwise.nil
  · rename_i hne
    have hi := introsort_loop_perm (fun i j => decide (key i > key j)) (log2 v.length * 2) v 0
      v.length (Nat.le_refl _)
    have hv1 : introsort_loop (fun i j => decide (key i > key j)) (log2 v.length * 2) v 0
        v.length ≠ [] := by
      intro h
      have := hi.length_eq
      rw [h] at this
      exact hne this.symm
    have := (final_insertion_sort_spec (fun i j => decide (key i > key j))
      (fun a b => key b ≤ key a) (fun a b c h1 h2 => le_trans h2 h1) _ hv1).2
    rw [hi.length_eq] at this
    apply this
    apply List.pairwise_of_forall
    intro x y
    constructor
    · intro h
      have : key y > key x := of_decide_eq_true h
      exact le_of_lt this
    · intro h
      have : ¬ key y > key x := of_decide_eq_false h
      exact not_lt.mp this

/-- With the comparator `key i > key j` and at most 16 elements, given in increasing order,
`std::sort` is an insertion sort: elements with equal keys stay in increasing order. -/
theorem stdSort_stable_small (key : Nat → Rat) (v : List Nat) (hlen : v.length ≤ 16)
    (hinc : List.Pairwise (fun a b => a < b) v) :
    List.Pairwise (fun a b => key b < key a ∨ (key a = key b ∧ a < b))
      (stdSort (fun i j => decide (key i > key j)) v) := by
  unfold stdSort
  split
  · rename_i h
    rw [List.length_eq_zero.mp h]
    exact List.Pairwise.nil
  · rename_i hne
    rw [introsort_loop_small _ _ _ _ _ (by omega)]
    have hv1 : v ≠ [] := fun h => hne (by rw [h]; rfl)
    apply (final_insertion_sort_spec (fun i j => decide (key i > key j))
      (fun a b => key b < key a ∨ (key a = key b ∧ a < b)) ?_ v hv1).2
    · apply hinc.imp
      intro x y hxy
      constructor
      · intro h
        exact Or.inl (of_decide_eq_true h)
      · intro h
        have h1 : key y ≤ key x := not_lt.mp (of_decide_eq_false h)
        rcases h1.lt_or_eq with h2 | h2
        · exact Or.inl h2
        · exact Or.inr ⟨h2.symm, hxy⟩
    · intro a b c h1 h2
      rcases h1 with h1 | ⟨h1, h1b⟩ <;> rcases h2 with h2 | ⟨h2, h2b⟩
      · exact Or.inl (lt_trans h2 h1)
      · exact Or.inl (lt_of_eq_of_lt h2.symm h1)
      · exact Or.inl (lt_of_lt_of_eq h2 h1.symm)
      · exact Or.inr ⟨h1.trans h2, lt_trans h1b h2b⟩

/-! ## The loops of the sorting model run to their end

The loops of `scan_up`, `unguarded_partition`, `push_heap` and `sift_down` are given a number
of steps. With the numbers that the callers pass, no loop is cut short: more steps change
nothing. -/

theorem scan_up_succ_fuel (cmp : Nat → Nat → Bool) (v : List Nat) (pivot fuel first : Nat)
    (h : v.length ≤ first + fuel) :
    scan_up cmp v pivot (fuel + 1) first = scan_up cmp v pivot fuel first := by
  induction fuel generalizing first with
  | zero =>
    conv_lhs => rw [scan_up]
    rw [if_neg (fun hc => by omega)]
    rfl
  | succ fuel ih =>
    conv_lhs => rw [scan_up]
    conv_rhs => rw [scan_up]
    split
    · exact ih (first + 1) (by omega)
    · rfl

/-- The scan of `scan_up` has ended after `v.length - first` steps. -/
theorem scan_up_more_fuel (cmp : Nat → Nat → Bool) (v : List Nat) (pivot fuel first : Nat)
    (h : v.length ≤ first + fuel) (k : Nat) :
    scan_up cmp v pivot (fuel + k) first = scan_up cmp v pivot fuel first := by
  induction k with
  | zero => rfl
  | succ k ih =>
    rw [← Nat.add_assoc, scan_up_succ_fuel cmp v pivot (fuel + k) first (by omega)]
    exact ih

theorem le_scan_up (cmp : Nat → Nat → Bool) (v : List Nat) (pivot fuel first : Nat) :
    first ≤ scan_up cmp v pivot fuel first := by
  induction fuel generalizing first with
  | zero => exact Nat.le_refl _
  | succ fuel ih =>
    unfold scan_up
    split
    · have := ih (first + 1)
      omega
    · exact Nat.le_refl _

theorem unguarded_partition_succ_fuel (cmp : Nat → Nat → Bool) (pivot fuel : Nat) (v : List Nat)
    (first last : Nat) (h : last ≤ first + fuel) :
    unguarded_partition cmp pivot (fuel + 2) v first last
      = unguarded_partition cmp pivot (fuel + 1) v first last := by
  induction fuel generalizing v first last with
  | zero =>
    have h1 := le_scan_up cmp v pivot v.length first
    have h2 := scan_down_le cmp v pivot (last - 1)
    conv_lhs => rw [unguarded_partition]
    conv_rhs => rw [unguarded_partition]
    rw [if_neg (by omega), if_neg (by omega)]
  | succ fuel ih =>
    have h1 := le_scan_up cmp v pivot v.length first
    have h2 := scan_down_le cmp v pivot (last - 1)
    conv_lhs => rw [unguarded_partition]
    conv_rhs => rw [unguarded_partition]
    split
    · exact ih _ _ _ (by omega)
    · rfl

/-- The outer loop of `unguarded_partition` has ended after `last - first + 1` rounds:
`unguarded_partition_pivot` passes `v.length` rounds for `first + 1` and `last ≤ v.length`. -/
theorem unguarded_partition_more_fuel (cmp : Nat → Nat → Bool) (pivot fuel : Nat) (v : List Nat)
    (first last : Nat) (h : last ≤ first + fuel) (k : Nat) :
    unguarded_partition cmp pivot (fuel + 1 + k) v first last
      = unguarded_partition cmp pivot (fuel + 1) v first last := by
  induction k with
  | zero => rfl
  | succ k ih =>
    have e : fuel + 1 + (k + 1) = (fuel + k) + 2 := by omega
    have e2 : fuel + 1 + k = (fuel + k) + 1 := by omega
    rw [e, unguarded_partition_succ_fuel cmp pivot (fuel + k) v first last (by omega), ← e2]
    exact ih

theorem push_heap_succ_fuel (cmp : Nat → Nat → Bool) (first topIndex value fuel : Nat)
    (v : List Nat) (holeIndex : Nat) (h : holeIndex ≤ fuel) :
    push_heap cmp first topIndex value (fuel + 1) v holeIndex
      = push_heap cmp first topIndex value fuel v holeIndex := by
  induction fuel generalizing v holeIndex with
  | zero =>
    conv_lhs => rw [push_heap]
    rw [if_neg (fun hc => by omega)]
    rfl
  | succ fuel ih =>
    conv_lhs => rw [push_heap]
    conv_rhs => rw [push_heap]
    split
    · exact ih _ _ (by omega)
    · rfl

/-- The loop of `push_heap` has ended after `holeIndex` steps: `adjust_heap` passes `len`
steps for a hole below `len`. -/
theorem push_heap_more_fuel (cmp : Nat → Nat → Bool) (first topIndex value fuel : Nat)
    (v : List Nat) (holeIndex : Nat) (h : holeIndex ≤ fuel) (k : Nat) :
    push_heap cmp first topIndex value (fuel + k) v holeIndex
      = push_heap cmp first topIndex value fuel v holeIndex := by
  induction k with
  | zero => rfl
  | succ k ih =>
    rw [← Nat.add_assoc, push_heap_succ_fuel cmp first topIndex value (fuel + k) v holeIndex
      (by omega)]
    exact ih

theorem sift_down_succ_fuel (cmp : Nat → Nat → Bool) (first len fuel : Nat) (v : List Nat)
    (secondChild : Nat) (h : len ≤ secondChild + fuel) :
    sift_down cmp first len (fuel + 1) v secondChild
      = sift_down cmp first len fuel v secondChild := by
  induction fuel generalizing v secondChild with
  | zero =>
    conv_lhs => rw [sift_down]
    rw [if_neg (by omega)]
    rfl
  | succ fuel ih =>
    conv_lhs => rw [sift_down]
    conv_rhs => rw [sift_down]
    split
    · split
      · exact ih _ _ (by omega)
      · exact ih _ _ (by omega)
    · rfl

/-- The loop of `sift_down` has ended after `len - secondChild` steps: `adjust_heap` passes
`len` steps. -/
theorem sift_down_more_fuel (cmp : Nat → Nat → Bool) (first len fuel : Nat) (v : List Nat)
    (secondChild : Nat) (h : len ≤ secondChild + fuel) (k : Nat) :
    sift_down cmp first len (fuel + k) v secondChild
      = sift_down cmp first len fuel v secondChild := by
  induction k with
  | zero => rfl
  | succ k ih =>
    rw [← Nat.add_assoc, sift_down_succ_fuel cmp first len (fuel + k) v secondChild (by omega)]
    exact ih

/-! ## No scan of `std::sort` leaves the vector -/

theorem getD_eq_getElem_nat (l : List Nat) (d : Nat) (h : d < l.length) : l.getD d 0 = l[d] := by
  rw [List.getD_eq_getElem?_getD, List.getElem?_eq_getElem h]
  rfl

theorem getD_set_eq (v : List Nat) (i x : Nat) (h : i < v.length) :
    (v.set i x).getD i 0 = x := by
  rw [getD_set_nat, if_pos ⟨rfl, h⟩]

theorem getD_set_ne (v : List Nat) (i j x : Nat) (h : i ≠ j) :
    (v.set i x).getD j 0 = v.getD j 0 := by
  rw [getD_set_nat, if_neg (fun hc => h hc.1)]

theorem keyCmp_true (key : Nat → Rat) (a b : Nat) : keyCmp key a b = true ↔ key b < key a := by
  unfold keyCmp
  exact decide_eq_true_iff

/-- One step of the first loop of `__adjust_heap`: the child `c` of the hole `h` whose key is
not above the key of the other child moves into the hole. -/
theorem heap_move_child (key : Nat → Rat) (v : List Nat) (first len top h c : Nat)
    (hlen : first + len ≤ v.length) (hc : c < len) (hpar : (c - 1) / 2 = h) (hc1 : 1 ≤ c)
    (htop : top ≤ h)
    (hmin : ∀ c2, 1 ≤ c2 → c2 < len → (c2 - 1) / 2 = h →
      key (v.getD (first + c) 0) ≤ key (v.getD (first + c2) 0))
    (hA : HeapAvoid key v first len top h) (hB : Bridge key v first len top h) :
    HeapAvoid key (v.set (first + h) (v.getD (first + c) 0)) first len top c
      ∧ Bridge key (v.set (first + h) (v.getD (first + c) 0)) first len top c := by
  have hhc : h < c := by omega
  constructor
  · intro d hd1 hd hdt hdc hdp
    by_cases e1 : d = h
    · -- the pair (parent h, h): the hole is filled with the child
      subst e1
      rw [getD_set_eq _ _ _ (by omega), getD_set_ne _ _ _ _ (by omega)]
      exact hB (by omega) c hc1 hc hpar
    · by_cases e2 : (d - 1) / 2 = h
      · -- the pair (h, other child)
        rw [e2, getD_set_eq _ _ _ (by omega), getD_set_ne _ _ _ _ (by omega)]
        exact hmin d hd1 hd e2
      · rw [getD_set_ne _ _ _ _ (by omega), getD_set_ne _ _ _ _ (by omega)]
        exact hA d hd1 hd hdt e1 e2
  · intro _ d hd1 hd hdp
    rw [hpar, getD_set_eq _ _ _ (by omega), getD_set_ne _ _ _ _ (by omega)]
    have := hA d hd1 hd (by omega) (by omega) (by omega)
    rw [hdp] at this
    exact this

theorem IsDesc.top_le {top h : Nat} (hd : IsDesc top h) : top ≤ h := by
  induction hd with
  | self => exact Nat.le_refl _
  | child q c _ h1 h2 ih => omega

theorem IsDesc.parent {top h : Nat} (hd : IsDesc top h) (hlt : top < h) :
    IsDesc top ((h - 1) / 2) := by
  cases hd with
  | self => omega
  | child q c hq h1 h2 => rw [h2]; exact hq

theorem isDesc_zero (h : Nat) : IsDesc 0 h := by
  induction h using Nat.strong_induction_on with
  | _ h ih =>
    rcases Nat.eq_zero_or_pos h with e | hpos
    · rw [e]; exact IsDesc.self
    · exact IsDesc.child ((h - 1) / 2) h (ih _ (by omega)) hpos rfl

theorem sift_down_heap (key : Nat → Rat) (first len top fuel : Nat) (v : List Nat) (sc : Nat)
    (hlen : first + len ≤ v.length) (hsc : sc < len) (hd : IsDesc top sc)
    (hfuel : len ≤ sc + fuel)
    (hA : HeapAvoid key v first len top sc) (hB : Bridge key v first len top sc) :
    HeapAvoid key (sift_down (keyCmp key) first len fuel v sc).1 first len top
        (sift_down (keyCmp key) first len fuel v sc).2
      ∧ Bridge key (sift_down (keyCmp key) first len fuel v sc).1 first len top
        (sift_down (keyCmp key) first len fuel v sc).2
      ∧ IsDesc top (sift_down (keyCmp key) first len fuel v sc).2
      ∧ (sift_down (keyCmp key) first len fuel v sc).2 < len
      ∧ ¬ (sift_down (keyCmp key) first len fuel v sc).2 < (len - 1) / 2
      ∧ (sift_down (keyCmp key) first len fuel v sc).1.length = v.length := by
  induction fuel generalizing v sc with
  | zero =>
    unfold sift_down
    exact ⟨hA, hB, hd, hsc, by omega, rfl⟩
  | succ fuel ih =>
    unfold sift_down
    split
    · rename_i hlt
      split
      · rename_i hc
        have hk := (keyCmp_true key _ _).mp hc
        have hmove := heap_move_child key v first len top sc (2 * (sc + 1) - 1) hlen (by omega)
          (by omega) (by omega) hd.top_le ?_ hA hB
        · obtain ⟨a, b, c, d, e, f⟩ := ih
            (v.set (first + sc) (v.getD (first + (2 * (sc + 1) - 1)) 0)) (2 * (sc + 1) - 1)
            (by rw [List.length_set]; exact hlen) (by omega)
            (IsDesc.child sc _ hd (by omega) (by omega)) (by omega) hmove.1 hmove.2
          rw [List.length_set] at f
          exact ⟨a, b, c, d, e, f⟩
        · intro c2 h1 h2 h3
          have hcase : c2 = 2 * (sc + 1) - 1 ∨ c2 = 2 * (sc + 1) := by omega
          rcases hcase with e | e
          · rw [e]
          · rw [e]; exact hk.le
      · rename_i hc
        have hk : ¬ key (v.getD (first + (2 * (sc + 1) - 1)) 0)
            < key (v.getD (first + 2 * (sc + 1)) 0) := fun h => hc ((keyCmp_true key _ _).mpr h)
        have hmove := heap_move_child key v first len top sc (2 * (sc + 1)) hlen (by omega)
          (by omega) (by omega) hd.top_le ?_ hA hB
        · obtain ⟨a, b, c, d, e, f⟩ := ih
            (v.set (first + sc) (v.getD (first + 2 * (sc + 1)) 0)) (2 * (sc + 1))
            (by rw [List.length_set]; exact hlen) (by omega)
            (IsDesc.child sc _ hd (by omega) (by omega)) (by omega) hmove.1 hmove.2
          rw [List.length_set] at f
          exact ⟨a, b, c, d, e, f⟩
        · intro c2 h1 h2 h3
          have hcase : c2 = 2 * (sc + 1) - 1 ∨ c2 = 2 * (sc + 1) := by omega
          rcases hcase with e | e
          · rw [e]; exact not_lt.mp hk
          · rw [e]
    · rename_i hlt
      exact ⟨hA, hB, hd, hsc, hlt, rfl⟩

/-- Putting `value` into the hole `h` completes the heap when the parent of the hole is not
above `value` and `value` is not above the children of the hole. -/
theorem heap_place (key : Nat → Rat) (v : List Nat) (first len top h value : Nat)
    (hlen : first + len ≤ v.length) (hh : h < len)
    (hA : HeapAvoid key v first len top h)
    (hC : ∀ c, 1 ≤ c → c < len → (c - 1) / 2 = h → key value ≤ key (v.getD (first + c) 0))
    (hP : top < h → key (v.getD (first + (h - 1) / 2) 0) ≤ key value) :
    HeapFrom key (v.set (first + h) value) first len top := by
  intro d hd1 hd hdt
  by_cases e1 : d = h
  · subst e1
    rw [getD_set_eq _ _ _ (by omega), getD_set_ne _ _ _ _ (by omega)]
    exact hP (by omega)
  · by_cases e2 : (d - 1) / 2 = h
    · rw [e2, getD_set_eq _ _ _ (by omega), getD_set_ne _ _ _ _ (by omega)]
      exact hC d hd1 hd e2
    · rw [getD_set_ne _ _ _ _ (by omega), getD_set_ne _ _ _ _ (by omega)]
      exact hA d hd1 hd hdt e1 e2

theorem push_heap_heap (key : Nat → Rat) (first len top value fuel : Nat) (v : List Nat)
    (h : Nat) (hlen : first + len ≤ v.length) (hh : h < len) (hd : IsDesc top h)
    (hfuel : h ≤ fuel)
    (hA : HeapAvoid key v first len top h) (hB : Bridge key v first len top h)
    (hC : ∀ c, 1 ≤ c → c < len → (c - 1) / 2 = h → key value ≤ key (v.getD (first + c) 0)) :
    HeapFrom key (push_heap (keyCmp key) first top value fuel v h) first len top := by
  induction fuel generalizing v h with
  | zero =>
    unfold push_heap
    have := hd.top_le
    exact heap_place key v first len top h value hlen hh hA hC (fun hlt => by omega)
  | succ fuel ih =>
    unfold push_heap
    split
    · rename_i hc
      have hk := (keyCmp_true key _ _).mp hc.2
      have hq := hd.parent hc.1
      have hqt := hq.top_le
      apply ih _ ((h - 1) / 2) (by rw [List.length_set]; exact hlen) (by omega) hq (by omega)
      · -- HeapAvoid for the new hole
        intro d hd1 hdl hdt hdc hdp
        by_cases e1 : d = h
        · omega
        · by_cases e2 : (d - 1) / 2 = h
          · rw [e2, getD_set_eq _ _ _ (by omega), getD_set_ne _ _ _ _ (by omega)]
            exact hB hc.1 d hd1 hdl e2
          · rw [getD_set_ne _ _ _ _ (by omega), getD_set_ne _ _ _ _ (by omega)]
            exact hA d hd1 hdl hdt e1 e2
      · -- Bridge for the new hole
        intro hlt d hd1 hdl hdp
        have hpp := (hq.parent hlt).top_le
        have hpq : key (v.getD (first + ((h - 1) / 2 - 1) / 2) 0)
            ≤ key (v.getD (first + (h - 1) / 2) 0) :=
          hA ((h - 1) / 2) (by omega) (by omega) hpp (by omega) (by omega)
        rw [getD_set_ne _ _ _ _ (by omega)]
        by_cases e1 : d = h
        · rw [e1, getD_set_eq _ _ _ (by omega)]
          exact hpq
        · rw [getD_set_ne _ _ _ _ (by omega)]
          have := hA d hd1 hdl (by omega) e1 (by omega)
          rw [hdp] at this
          exact le_trans hpq this
      · -- the children of the new hole are not below `value`
        intro d hd1 hdl hdp
        by_cases e1 : d = h
        · rw [e1, getD_set_eq _ _ _ (by omega)]
          exact hk.le
        · rw [getD_set_ne _ _ _ _ (by omega)]
          have := hA d hd1 hdl (by omega) e1 (by omega)
          rw [hdp] at this
          exact le_trans hk.le this
    · rename_i hc
      apply heap_place key v first len top h value hlen hh hA hC
      intro hlt
      have : ¬ keyCmp key (v.getD (first + (h - 1) / 2) 0) value = true := fun h2 => hc ⟨hlt, h2⟩
      exact not_lt.mp (fun h3 => this ((keyCmp_true key _ _).mpr h3))

/-- The function `__adjust_heap` at the hole `top`, with the subtrees below it heaps, leaves a
heap from `top` on. -/
theorem adjust_heap_heap (key : Nat → Rat) (v : List Nat) (first top len value : Nat)
    (hlen : first + len ≤ v.length) (htop : top < len)
    (hH : HeapFrom key v first len (top + 1)) :
    HeapFrom key (adjust_heap (keyCmp key) v first top len value) first len top := by
  have hA0 : HeapAvoid key v first len top top := by
    intro d hd1 hd hdt _ hdp
    exact hH d hd1 hd (by omega)
  have hB0 : Bridge key v first len top top := fun h => absurd h (Nat.lt_irrefl _)
  obtain ⟨a, b, c, d, e, f⟩ := sift_down_heap key first len top len v top hlen htop
    IsDesc.self (by omega) hA0 hB0
  unfold adjust_heap
  split
  · rename_i hc
    -- the hole has one child, the last position
    have hmove := heap_move_child key (sift_down (keyCmp key) first len len v top).1 first len
      top (sift_down (keyCmp key) first len len v top).2
      (2 * ((sift_down (keyCmp key) first len len v top).2 + 1) - 1) (by rw [f]; exact hlen)
      (by omega) (by omega) (by omega) c.top_le ?_ a b
    · apply push_heap_heap key first len top value len _ _ (by rw [List.length_set, f]; exact hlen)
        (by omega) (IsDesc.child _ _ c (by omega) (by omega)) (by omega) hmove.1 hmove.2
      intro c2 h1 h2 h3
      omega
    · intro c2 h1 h2 h3
      have : c2 = 2 * ((sift_down (keyCmp key) first len len v top).2 + 1) - 1 := by omega
      rw [this]
  · rename_i hc
    apply push_heap_heap key first len top value len _ _ (by rw [f]; exact hlen) d c (by omega)
      a b
    intro c2 h1 h2 h3
    omega

theorem Within.within_refl (first last : Nat) (v : List Nat) : Within first last v v :=
  ⟨rfl, fun _ _ => rfl, fun _ h => h⟩

theorem Within.within_trans {first last : Nat} {v v1 v2 : List Nat} (h1 : Within first last v v1)
    (h2 : Within first last v1 v2) : Within first last v v2 :=
  ⟨h2.1.trans h1.1, fun i hi => (h2.2.1 i hi).trans (h1.2.1 i hi),
    fun P hP => h2.2.2 P (h1.2.2 P hP)⟩

theorem Within.mono {first last : Nat} {v v1 : List Nat} (h : Within first last v v1)
    (a b : Nat) (ha : a ≤ first) (hb : last ≤ b) : Within a b v v1 := by
  refine ⟨h.1, fun i hi => h.2.1 i (by omega), ?_⟩
  intro P hP i h1 h2
  by_cases hin : first ≤ i ∧ i < last
  · exact h.2.2 P (fun j hj1 hj2 => hP j (by omega) (by omega)) i hin.1 hin.2
  · rw [h.2.1 i (by omega)]
    exact hP i h1 h2

theorem WithinWith.with_refl (value first last : Nat) (v : List Nat) :
    WithinWith value first last v v :=
  ⟨rfl, fun _ _ => rfl, fun _ _ h => h⟩

theorem WithinWith.with_trans {value first last : Nat} {v v1 v2 : List Nat}
    (h1 : WithinWith value first last v v1) (h2 : WithinWith value first last v1 v2) :
    WithinWith value first last v v2 :=
  ⟨h2.1.trans h1.1, fun i hi => (h2.2.1 i hi).trans (h1.2.1 i hi),
    fun P hv hP => h2.2.2 P hv (h1.2.2 P hv hP)⟩

theorem Within.toWith {first last : Nat} {v v1 : List Nat} (h : Within first last v v1)
    (value : Nat) : WithinWith value first last v v1 :=
  ⟨h.1, h.2.1, fun P _ hP => h.2.2 P hP⟩

theorem WithinWith.toWithin {value first last : Nat} {v v1 : List Nat}
    (h : WithinWith value first last v v1) (j : Nat) (h1 : first ≤ j) (h2 : j < last)
    (e : v.getD j 0 = value) : Within first last v v1 :=
  ⟨h.1, h.2.1, fun P hP => h.2.2 P (by rw [← e]; exact hP j h1 h2) hP⟩

theorem within_set_move (v : List Nat) (first last i j : Nat) (hi1 : first ≤ i)
    (hi2 : i < last) (hj1 : first ≤ j) (hj2 : j < last) :
    Within first last v (v.set i (v.getD j 0)) := by
  refine ⟨List.length_set _ _ _, fun k hk => getD_set_ne _ _ _ _ (by omega), ?_⟩
  intro P hP k hk1 hk2
  rw [getD_set_nat]
  split
  · exact hP j hj1 hj2
  · exact hP k hk1 hk2

theorem withinWith_set (v : List Nat) (value first last i : Nat) (hi1 : first ≤ i)
    (hi2 : i < last) : WithinWith value first last v (v.set i value) := by
  refine ⟨List.length_set _ _ _, fun k hk => getD_set_ne _ _ _ _ (by omega), ?_⟩
  intro P hv hP k hk1 hk2
  rw [getD_set_nat]
  split
  · exact hv
  · exact hP k hk1 hk2

theorem iter_swap_within (v : List Nat) (first last i j : Nat) (hi1 : first ≤ i)
    (hi2 : i < last) (hj1 : first ≤ j) (hj2 : j < last) :
    Within first last v (iter_swap v i j) := by
  unfold iter_swap
  refine ⟨by rw [List.length_set, List.length_set], ?_, ?_⟩
  · intro k hk
    rw [getD_set_ne _ _ _ _ (by omega), getD_set_ne _ _ _ _ (by omega)]
  · intro P hP k hk1 hk2
    rw [getD_set_nat]
    split
    · exact hP i hi1 hi2
    · rw [getD_set_nat]
      split
      · exact hP j hj1 hj2
      · exact hP k hk1 hk2

theorem sift_down_within (cmp : Nat → Nat → Bool) (first len fuel : Nat) (v : List Nat)
    (sc : Nat) (hsc : sc < len) :
    Within first (first + len) v (sift_down cmp first len fuel v sc).1
      ∧ (sift_down cmp first len fuel v sc).2 < len := by
  induction fuel generalizing v sc with
  | zero =>
    unfold sift_down
    exact ⟨Within.within_refl _ _ _, hsc⟩
  | succ fuel ih =>
    unfold sift_down
    split
    · rename_i hlt
      split
      · exact ⟨(within_set_move v first (first + len) (first + sc)
          (first + (2 * (sc + 1) - 1)) (by omega) (by omega) (by omega) (by omega)).within_trans
          (ih _ _ (by omega)).1, (ih _ _ (by omega)).2⟩
      · exact ⟨(within_set_move v first (first + len) (first + sc)
          (first + 2 * (sc + 1)) (by omega) (by omega) (by omega) (by omega)).within_trans
          (ih _ _ (by omega)).1, (ih _ _ (by omega)).2⟩
    · exact ⟨Within.within_refl _ _ _, hsc⟩

theorem push_heap_within (cmp : Nat → Nat → Bool) (first len top value fuel : Nat)
    (v : List Nat) (h : Nat) (hh : h < len) :
    WithinWith value first (first + len) v (push_heap cmp first top value fuel v h) := by
  induction fuel generalizing v h with
  | zero =>
    unfold push_heap
    exact withinWith_set v value first (first + len) (first + h) (by omega) (by omega)
  | succ fuel ih =>
    unfold push_heap
    split
    · exact ((within_set_move v first (first + len) (first + h) (first + (h - 1) / 2)
        (by omega) (by omega) (by omega) (by omega)).toWith value).with_trans (ih _ _ (by omega))
    · exact withinWith_set v value first (first + len) (first + h) (by omega) (by omega)

theorem adjust_heap_within (cmp : Nat → Nat → Bool) (v : List Nat)
    (first holeIndex len value : Nat) (h : holeIndex < len) :
    WithinWith value first (first + len) v (adjust_heap cmp v first holeIndex len value) := by
  obtain ⟨h1, h2⟩ := sift_down_within cmp first len len v holeIndex h
  unfold adjust_heap
  split
  · rename_i hc
    exact ((h1.within_trans (within_set_move _ first (first + len) _ _ (by omega) (by omega)
      (by omega) (by omega))).toWith value).with_trans (push_heap_within cmp first len _ value len _ _
        (by omega))
  · exact (h1.toWith value).with_trans (push_heap_within cmp first len _ value len _ _ h2)

theorem heap_top_min (key : Nat → Rat) (v : List Nat) (first len : Nat)
    (hH : HeapFrom key v first len 0) (c : Nat) (hc : c < len) :
    key (v.getD first 0) ≤ key (v.getD (first + c) 0) := by
  induction c using Nat.strong_induction_on with
  | _ c ih =>
    rcases Nat.eq_zero_or_pos c with e | hpos
    · rw [e]; exact le_refl _
    · exact le_trans (ih ((c - 1) / 2) (by omega) (by omega)) (hH c hpos hc (Nat.zero_le _))

theorem make_heap_loop_heap (key : Nat → Rat) (first len parent : Nat) (v : List Nat)
    (hlen : first + len ≤ v.length) (hp : parent < len)
    (hH : HeapFrom key v first len (parent + 1)) :
    HeapFrom key (make_heap_loop (keyCmp key) first len parent v) first len 0
      ∧ Within first (first + len) v (make_heap_loop (keyCmp key) first len parent v) := by
  induction parent generalizing v with
  | zero =>
    unfold make_heap_loop
    exact ⟨adjust_heap_heap key v first 0 len _ hlen hp hH,
      (adjust_heap_within (keyCmp key) v first 0 len _ hp).toWithin first (by omega) (by omega)
        rfl⟩
  | succ parent ih =>
    unfold make_heap_loop
    have hw := (adjust_heap_within (keyCmp key) v first (parent + 1) len
      (v.getD (first + (parent + 1)) 0) hp).toWithin (first + (parent + 1)) (by omega) (by omega)
        rfl
    obtain ⟨a, b⟩ := ih (adjust_heap (keyCmp key) v first (parent + 1) len
      (v.getD (first + (parent + 1)) 0)) (by rw [hw.1]; exact hlen) (by omega)
      (adjust_heap_heap key v first (parent + 1) len _ hlen hp hH)
    exact ⟨a, hw.within_trans b⟩

theorem make_heap_heap (key : Nat → Rat) (v : List Nat) (first last : Nat)
    (hl : last ≤ v.length) :
    HeapFrom key (make_heap (keyCmp key) v first last) first (last - first) 0
      ∧ Within first last v (make_heap (keyCmp key) v first last) := by
  unfold make_heap
  split
  · rename_i hlt
    refine ⟨?_, Within.within_refl _ _ _⟩
    intro c h1 h2 _
    omega
  · rename_i hge
    have := make_heap_loop_heap key first (last - first) ((last - first - 2) / 2) v (by omega)
      (by omega) (fun c h1 h2 h3 => by omega)
    have e : first + (last - first) = last := by omega
    rw [e] at this
    exact this

theorem pop_heap_heap (key : Nat → Rat) (v : List Nat) (first count : Nat) (hc : 1 ≤ count)
    (hlen : first + count < v.length) (hH : HeapFrom key v first (count + 1) 0) :
    HeapFrom key (pop_heap (keyCmp key) v first (first + count) (first + count)) first count 0
      ∧ Within first (first + count + 1) v
          (pop_heap (keyCmp key) v first (first + count) (first + count))
      ∧ (pop_heap (keyCmp key) v first (first + count) (first + count)).getD (first + count) 0
          = v.getD first 0
      ∧ ∀ P : Nat → Prop, (∀ i, first ≤ i → i < first + count + 1 → P (v.getD i 0)) →
          ∀ i, first ≤ i → i < first + count →
            P ((pop_heap (keyCmp key) v first (first + count) (first + count)).getD i 0) := by
  unfold pop_heap
  have e : first + count - first = count := by omega
  rw [e]
  have hw := adjust_heap_within (keyCmp key) (v.set (first + count) (v.getD first 0)) first 0
    count (v.getD (first + count) 0) hc
  have hpres : ∀ P : Nat → Prop, (∀ i, first ≤ i → i < first + count + 1 → P (v.getD i 0)) →
      ∀ i, first ≤ i → i < first + count →
        P ((adjust_heap (keyCmp key) (v.set (first + count) (v.getD first 0)) first 0
          count (v.getD (first + count) 0)).getD i 0) := by
    intro P hP
    apply hw.2.2 P (hP _ (by omega) (by omega))
    intro i h1 h2
    rw [getD_set_ne _ _ _ _ (by omega)]
    exact hP i h1 (by omega)
  have hlast : (adjust_heap (keyCmp key) (v.set (first + count) (v.getD first 0)) first 0
      count (v.getD (first + count) 0)).getD (first + count) 0 = v.getD first 0 := by
    rw [hw.2.1 _ (Or.inr (Nat.le_refl _)), getD_set_eq _ _ _ hlen]
  refine ⟨?_, ⟨?_, ?_, ?_⟩, hlast, hpres⟩
  · apply adjust_heap_heap key _ first 0 count _ (by rw [List.length_set]; omega) hc
    intro c h1 h2 h3
    rw [getD_set_ne _ _ _ _ (by omega), getD_set_ne _ _ _ _ (by omega)]
    exact hH c h1 (by omega) (Nat.zero_le _)
  · rw [hw.1, List.length_set]
  · intro i hi
    rw [hw.2.1 i (by omega), getD_set_ne _ _ _ _ (by omega)]
  · intro P hP i h1 h2
    by_cases e1 : i = first + count
    · rw [e1, hlast]
      exact hP first (by omega) (by omega)
    · exact hpres P hP i h1 (by omega)

theorem sort_heap_spec (key : Nat → Rat) (first last count : Nat) (v : List Nat)
    (hc : 1 ≤ count) (h1 : first + count ≤ last) (hl : last ≤ v.length)
    (hH : HeapFrom key v first count 0)
    (hdone : ∀ i, first + count ≤ i → i < last → ∀ j, first ≤ j → j < first + count →
      key (v.getD i 0) ≤ key (v.getD j 0)) :
    Within first (first + count) v (sort_heap (keyCmp key) first count v)
      ∧ ∀ i, first < i → i < last →
          key ((sort_heap (keyCmp key) first count v).getD i 0)
            ≤ key ((sort_heap (keyCmp key) first count v).getD first 0) := by
  induction count generalizing v with
  | zero => omega
  | succ count ih =>
    unfold sort_heap
    split
    · rename_i hgt
      obtain ⟨p1, p2, p3, p4⟩ := pop_heap_heap key v first count (by omega) (by omega) hH
      have := ih (pop_heap (keyCmp key) v first (first + count) (first + count)) (by omega)
        (by omega) (by rw [p2.1]; exact hl) p1 ?_
      · exact ⟨p2.within_trans (this.1.mono _ _ (Nat.le_refl _) (by omega)), this.2⟩
      · intro i hi1 hi2 j hj1 hj2
        by_cases e1 : i = first + count
        · rw [e1, p3]
          exact p4 (fun x => key (v.getD first 0) ≤ key x)
            (fun k hk1 hk2 => by
              have := heap_top_min key v first (count + 1) hH (k - first) (by omega)
              rw [show first + (k - first) = k by omega] at this
              exact this) j hj1 hj2
        · rw [p2.2.1 i (by omega)]
          exact p4 (fun x => key (v.getD i 0) ≤ key x)
            (fun k hk1 hk2 => hdone i (by omega) hi2 k hk1 (by omega)) j hj1 hj2
    · rename_i hgt
      have e : count = 0 := by omega
      subst e
      refine ⟨Within.within_refl _ _ _, ?_⟩
      intro i hi1 hi2
      exact hdone i (by omega) hi2 first (Nat.le_refl _) (by omega)

/-- The heap sort that `__introsort_loop` falls back to moves an element with the greatest key
of the range to its first position. -/
theorem partial_sort_spec (key : Nat → Rat) (v : List Nat) (first last : Nat)
    (h1 : first < last) (hl : last ≤ v.length) :
    Within first last v (partial_sort (keyCmp key) v first last last)
      ∧ ∀ i, first < i → i < last →
          key ((partial_sort (keyCmp key) v first last last).getD i 0)
            ≤ key ((partial_sort (keyCmp key) v first last last).getD first 0) := by
  obtain ⟨a, b⟩ := make_heap_heap key v first last hl
  have hs : heap_select (keyCmp key) v first last last = make_heap (keyCmp key) v first last := by
    unfold heap_select
    rw [Nat.sub_self]
    rfl
  unfold partial_sort
  rw [hs]
  have := sort_heap_spec key first last (last - first) (make_heap (keyCmp key) v first last)
    (by omega) (by omega) (by rw [b.1]; exact hl) a (fun i hi1 hi2 => by omega)
  have e : first + (last - first) = last := by omega
  rw [e] at this
  exact ⟨b.within_trans this.1, this.2⟩

theorem keyCmp_false (key : Nat → Rat) (a b : Nat) : keyCmp key a b = false ↔ key a ≤ key b := by
  unfold keyCmp
  rw [decide_eq_false_iff_not, not_lt]

theorem keyCmp_self (key : Nat → Rat) (a : Nat) : keyCmp key a a = false :=
  (keyCmp_false key a a).mpr (le_refl _)

theorem iter_swap_getD_left (v : List Nat) (i j : Nat) (hi : i < v.length) (hne : i ≠ j) :
    (iter_swap v i j).getD i 0 = v.getD j 0 := by
  unfold iter_swap
  rw [getD_set_ne _ _ _ _ (Ne.symm hne), getD_set_eq _ _ _ hi]

theorem iter_swap_getD_right (v : List Nat) (i j : Nat) (hj : j < v.length) :
    (iter_swap v i j).getD j 0 = v.getD i 0 := by
  unfold iter_swap
  rw [getD_set_eq _ _ _ (by rw [List.length_set]; exact hj)]

theorem iter_swap_getD_other (v : List Nat) (i j k : Nat) (h1 : k ≠ i) (h2 : k ≠ j) :
    (iter_swap v i j).getD k 0 = v.getD k 0 := by
  unfold iter_swap
  rw [getD_set_ne _ _ _ _ (Ne.symm h2), getD_set_ne _ _ _ _ (Ne.symm h1)]

theorem scan_up_checked_eq (cmp : Nat → Nat → Bool) (v : List Nat) (pivot j : Nat)
    (hj : j < v.length) (hs : cmp (v.getD j 0) (v.getD pivot 0) = false) (fuel first : Nat)
    (h1 : first ≤ j) (h2 : j < first + fuel) :
    scan_up_checked cmp v pivot fuel first = some (scan_up cmp v pivot fuel first)
      ∧ first ≤ scan_up cmp v pivot fuel first ∧ scan_up cmp v pivot fuel first ≤ j
      ∧ cmp (v.getD (scan_up cmp v pivot fuel first) 0) (v.getD pivot 0) = false
      ∧ ∀ i, first ≤ i → i < scan_up cmp v pivot fuel first →
          cmp (v.getD i 0) (v.getD pivot 0) = true := by
  induction fuel generalizing first with
  | zero => omega
  | succ fuel ih =>
    unfold scan_up_checked scan_up
    have hlt : first < v.length := by omega
    rw [if_pos hlt]
    by_cases hc : cmp (v.getD first 0) (v.getD pivot 0) = true
    · rw [if_pos hc, if_pos ⟨hlt, hc⟩]
      have hne : first ≠ j := by
        intro e
        rw [e, hs] at hc
        cases hc
      obtain ⟨a, b, c, d, e⟩ := ih (first + 1) (by omega) (by omega)
      refine ⟨a, by omega, c, d, ?_⟩
      intro i hi1 hi2
      by_cases e1 : i = first
      · rw [e1]; exact hc
      · exact e i (by omega) hi2
    · rw [if_neg hc, if_neg (fun h => hc h.2)]
      refine ⟨rfl, Nat.le_refl _, h1, Bool.eq_false_iff.mpr hc, ?_⟩
      intro i hi1 hi2
      omega

theorem scan_down_checked_eq (cmp : Nat → Nat → Bool) (v : List Nat) (pivot j : Nat)
    (hs : cmp (v.getD pivot 0) (v.getD j 0) = false) (last : Nat) (h1 : j ≤ last) :
    scan_down_checked cmp v pivot last = some (scan_down cmp v pivot last)
      ∧ j ≤ scan_down cmp v pivot last ∧ scan_down cmp v pivot last ≤ last
      ∧ cmp (v.getD pivot 0) (v.getD (scan_down cmp v pivot last) 0) = false
      ∧ ∀ i, scan_down cmp v pivot last < i → i ≤ last →
          cmp (v.getD pivot 0) (v.getD i 0) = true := by
  induction last with
  | zero =>
    have e : j = 0 := by omega
    subst e
    unfold scan_down_checked scan_down
    rw [hs]
    refine ⟨rfl, Nat.le_refl _, Nat.le_refl _, rfl, ?_⟩
    intro i hi1 hi2
    omega
  | succ last ih =>
    unfold scan_down_checked scan_down
    by_cases hc : cmp (v.getD pivot 0) (v.getD (last + 1) 0) = true
    · rw [if_pos hc, if_pos hc]
      have hne : j ≠ last + 1 := by
        intro e
        rw [e, hc] at hs
        cases hs
      obtain ⟨a, b, c, d, e⟩ := ih (by omega)
      refine ⟨a, b, by omega, d, ?_⟩
      intro i hi1 hi2
      by_cases e1 : i = last + 1
      · rw [e1]; exact hc
      · exact e i hi1 (by omega)
    · rw [if_neg hc, if_neg hc]
      refine ⟨rfl, h1, Nat.le_refl _, Bool.eq_false_iff.mpr hc, ?_⟩
      intro i hi1 hi2
      omega

/-- The median of three that `__move_median_to_first` puts at `first` leaves, after `first`
and before `last`, an element whose key is not above the key of the median. -/
theorem move_median_sentinel (key : Nat → Rat) (v : List Nat) (first mid last : Nat)
    (h1 : first + 1 < mid) (h2 : mid + 1 < last) (hl : last ≤ v.length) :
    Within first last v (move_median_to_first (keyCmp key) v first (first + 1) mid (last - 1))
      ∧ ∃ j, first + 1 ≤ j ∧ j < last
        ∧ key ((move_median_to_first (keyCmp key) v first (first + 1) mid (last - 1)).getD j 0)
          ≤ key ((move_median_to_first (keyCmp key) v first (first + 1) mid
              (last - 1)).getD first 0) := by
  have sw : ∀ x j, first < x → x < last → first < j → j < last → j ≠ x →
      key (v.getD j 0) ≤ key (v.getD x 0) →
      Within first last v (iter_swap v first x)
        ∧ ∃ j, first + 1 ≤ j ∧ j < last
          ∧ key ((iter_swap v first x).getD j 0) ≤ key ((iter_swap v first x).getD first 0) := by
    intro x j hx1 hx2 hj1 hj2 hne hk
    refine ⟨iter_swap_within v first last first x (Nat.le_refl _) (by omega) (by omega) hx2,
      j, hj1, hj2, ?_⟩
    rw [iter_swap_getD_other v first x j (by omega) hne,
      iter_swap_getD_left v first x (by omega) (by omega)]
    exact hk
  unfold move_median_to_first
  by_cases c1 : keyCmp key (v.getD (first + 1) 0) (v.getD mid 0) = true
  · rw [if_pos c1]
    have k1 := (keyCmp_true key _ _).mp c1
    by_cases c2 : keyCmp key (v.getD mid 0) (v.getD (last - 1) 0) = true
    · rw [if_pos c2]
      have k2 := (keyCmp_true key _ _).mp c2
      exact sw mid (last - 1) (by omega) (by omega) (by omega) (by omega) (by omega) k2.le
    · rw [if_neg c2]
      have k2 := (keyCmp_false key _ _).mp (Bool.eq_false_iff.mpr c2)
      by_cases c3 : keyCmp key (v.getD (first + 1) 0) (v.getD (last - 1) 0) = true
      · rw [if_pos c3]
        exact sw (last - 1) mid (by omega) (by omega) (by omega) (by omega) (by omega) k2
      · rw [if_neg c3]
        exact sw (first + 1) mid (by omega) (by omega) (by omega) (by omega) (by omega) k1.le
  · rw [if_neg c1]
    have k1 := (keyCmp_false key _ _).mp (Bool.eq_false_iff.mpr c1)
    by_cases c3 : keyCmp key (v.getD (first + 1) 0) (v.getD (last - 1) 0) = true
    · rw [if_pos c3]
      have k3 := (keyCmp_true key _ _).mp c3
      exact sw (first + 1) (last - 1) (by omega) (by omega) (by omega) (by omega) (by omega)
        k3.le
    · rw [if_neg c3]
      have k3 := (keyCmp_false key _ _).mp (Bool.eq_false_iff.mpr c3)
      by_cases c2 : keyCmp key (v.getD mid 0) (v.getD (last - 1) 0) = true
      · rw [if_pos c2]
        exact sw (last - 1) (first + 1) (by omega) (by omega) (by omega) (by omega) (by omega)
          k3
      · rw [if_neg c2]
        exact sw mid (first + 1) (by omega) (by omega) (by omega) (by omega) (by omega) k1

/-- The loop of `__unguarded_partition` around the pivot at `p`: with an element after `first`
whose key is not above the key of the pivot, no scan leaves the range, and the loop ends with
the keys before the cut not below the key of the pivot and the keys from the cut on not above
it. -/
theorem unguarded_partition_spec (key : Nat → Rat) (p last0 fuel : Nat) (v : List Nat)
    (first last : Nat) (hp : p < first) (hl : last ≤ last0) (hlen : last0 ≤ v.length)
    (hup : ∃ j, first ≤ j ∧ j ≤ last ∧ j < last0 ∧ key (v.getD j 0) ≤ key (v.getD p 0))
    (hfuel : last < first + fuel)
    (hleft : ∀ i, p ≤ i → i < first → key (v.getD p 0) ≤ key (v.getD i 0))
    (hright : ∀ i, last ≤ i → i < last0 → key (v.getD i 0) ≤ key (v.getD p 0)) :
    unguarded_partition_checked (keyCmp key) p fuel v first last
        = some (unguarded_partition (keyCmp key) p fuel v first last)
      ∧ Within (p + 1) last0 v (unguarded_partition (keyCmp key) p fuel v first last).1
      ∧ p < (unguarded_partition (keyCmp key) p fuel v first last).2
      ∧ (unguarded_partition (keyCmp key) p fuel v first last).2 < last0
      ∧ (∀ i, p ≤ i → i < (unguarded_partition (keyCmp key) p fuel v first last).2 →
          key (v.getD p 0)
            ≤ key ((unguarded_partition (keyCmp key) p fuel v first last).1.getD i 0))
      ∧ ∀ i, (unguarded_partition (keyCmp key) p fuel v first last).2 ≤ i → i < last0 →
          key ((unguarded_partition (keyCmp key) p fuel v first last).1.getD i 0)
            ≤ key (v.getD p 0) := by
  induction fuel generalizing v first last with
  | zero =>
    obtain ⟨j, h1, h2, _, _⟩ := hup
    omega
  | succ fuel ih =>
    obtain ⟨j, hj1, hj2, hj3, hj4⟩ := hup
    obtain ⟨u1, u2, u3, u4, u5⟩ := scan_up_checked_eq (keyCmp key) v p j (by omega)
      ((keyCmp_false key _ _).mpr hj4) v.length first hj1 (by omega)
    obtain ⟨d1, d2, d3, d4, d5⟩ := scan_down_checked_eq (keyCmp key) v p p
      (keyCmp_self key _) (last - 1) (by omega)
    have ku := (keyCmp_false key _ _).mp u4
    have kd := (keyCmp_false key _ _).mp d4
    have hl0 : ¬ (last = 0 ∨ v.length < last) := by omega
    unfold unguarded_partition_checked unguarded_partition
    rw [u1]
    simp only []
    rw [if_neg hl0, d1]
    simp only []
    by_cases hc : scan_up (keyCmp key) v p v.length first
        < scan_down (keyCmp key) v p (last - 1)
    · simp only [if_pos hc]
      have hsw := iter_swap_within v (p + 1) last0
        (scan_up (keyCmp key) v p v.length first) (scan_down (keyCmp key) v p (last - 1))
        (by omega) (by omega) (by omega) (by omega)
      have hpe : (iter_swap v (scan_up (keyCmp key) v p v.length first)
          (scan_down (keyCmp key) v p (last - 1))).getD p 0 = v.getD p 0 :=
        hsw.2.1 p (by omega)
      have hR : (iter_swap v (scan_up (keyCmp key) v p v.length first)
          (scan_down (keyCmp key) v p (last - 1))).getD
            (scan_down (keyCmp key) v p (last - 1)) 0
          = v.getD (scan_up (keyCmp key) v p v.length first) 0 :=
        iter_swap_getD_right v _ _ (by omega)
      have hL : (iter_swap v (scan_up (keyCmp key) v p v.length first)
          (scan_down (keyCmp key) v p (last - 1))).getD
            (scan_up (keyCmp key) v p v.length first) 0
          = v.getD (scan_down (keyCmp key) v p (last - 1)) 0 :=
        iter_swap_getD_left v _ _ (by omega) (by omega)
      obtain ⟨a, b, c, d, e, f⟩ := ih
        (iter_swap v (scan_up (keyCmp key) v p v.length first)
          (scan_down (keyCmp key) v p (last - 1)))
        (scan_up (keyCmp key) v p v.length first + 1) (scan_down (keyCmp key) v p (last - 1))
        (by omega) (by omega) (by rw [hsw.1]; exact hlen)
        ⟨scan_down (keyCmp key) v p (last - 1), by omega, Nat.le_refl _, by omega,
          by rw [hR, hpe]; exact ku⟩
        (by omega)
        (by
          intro i hi1 hi2
          rw [hpe]
          by_cases e1 : i = scan_up (keyCmp key) v p v.length first
          · rw [e1, hL]; exact kd
          · rw [iter_swap_getD_other v _ _ i e1 (by omega)]
            by_cases e2 : i < first
            · exact hleft i hi1 e2
            · exact ((keyCmp_true key _ _).mp (u5 i (by omega) (by omega))).le)
        (by
          intro i hi1 hi2
          rw [hpe]
          by_cases e1 : i = scan_down (keyCmp key) v p (last - 1)
          · rw [e1, hR]; exact ku
          · rw [iter_swap_getD_other v _ _ i (by omega) e1]
            by_cases e2 : last ≤ i
            · exact hright i e2 hi2
            · exact ((keyCmp_true key _ _).mp (d5 i (by omega) (by omega))).le)
      rw [hpe] at e f
      exact ⟨a, hsw.within_trans b, c, d, e, f⟩
    · simp only [if_neg hc]
      refine ⟨trivial, Within.within_refl _ _ _, by omega, by omega, ?_, ?_⟩
      · intro i hi1 hi2
        by_cases e2 : i < first
        · exact hleft i hi1 e2
        · exact ((keyCmp_true key _ _).mp (u5 i (by omega) hi2)).le
      · intro i hi1 hi2
        by_cases e2 : last ≤ i
        · exact hright i e2 hi2
        · by_cases e3 : i = scan_up (keyCmp key) v p v.length first
          · rw [e3]; exact ku
          · exact ((keyCmp_true key _ _).mp (d5 i (by omega) (by omega))).le

theorem unguarded_partition_pivot_spec (key : Nat → Rat) (v : List Nat) (first last : Nat)
    (hgt : last - first > 16) (hl : last ≤ v.length) :
    unguarded_partition_pivot_checked (keyCmp key) v first last
        = some (unguarded_partition_pivot (keyCmp key) v first last)
      ∧ Within first last v (unguarded_partition_pivot (keyCmp key) v first last).1
      ∧ first < (unguarded_partition_pivot (keyCmp key) v first last).2
      ∧ (unguarded_partition_pivot (keyCmp key) v first last).2 < last
      ∧ ∃ K : Rat,
        (∀ i, first ≤ i → i < (unguarded_partition_pivot (keyCmp key) v first last).2 →
          K ≤ key ((unguarded_partition_pivot (keyCmp key) v first last).1.getD i 0))
        ∧ ∀ i, (unguarded_partition_pivot (keyCmp key) v first last).2 ≤ i → i < last →
          key ((unguarded_partition_pivot (keyCmp key) v first last).1.getD i 0) ≤ K := by
  obtain ⟨hw, j, hj1, hj2, hj3⟩ := move_median_sentinel key v first
    (first + (last - first) / 2) last (by omega) (by omega) hl
  have hlen := hw.1
  obtain ⟨a, b, c, d, e, f⟩ := unguarded_partition_spec key first last v.length
    (move_median_to_first (keyCmp key) v first (first + 1) (first + (last - first) / 2)
      (last - 1))
    (first + 1) last (by omega) (Nat.le_refl _) (by rw [hlen]; exact hl)
    ⟨j, hj1, by omega, hj2, hj3⟩ (by omega)
    (fun i hi1 hi2 => by
      have : i = first := by omega
      rw [this])
    (fun i hi1 hi2 => by omega)
  unfold unguarded_partition_pivot_checked unguarded_partition_pivot
  exact ⟨a, hw.within_trans (b.mono _ _ (by omega) (Nat.le_refl _)), c, d, _, e, f⟩

/-- The function `__introsort_loop` never scans outside the vector, and leaves every element
from the seventeenth position of the range on with an earlier element of the range whose key
is not below its key. -/
theorem introsort_loop_spec (key : Nat → Rat) (depth_limit : Nat) (v : List Nat)
    (first last : Nat) (hl : last ≤ v.length) :
    introsort_loop_checked (keyCmp key) depth_limit v first last
        = some (introsort_loop (keyCmp key) depth_limit v first last)
      ∧ Within first last v (introsort_loop (keyCmp key) depth_limit v first last)
      ∧ ∀ i, first + 16 ≤ i → i < last → ∃ j, first ≤ j ∧ j < i
          ∧ key ((introsort_loop (keyCmp key) depth_limit v first last).getD i 0)
            ≤ key ((introsort_loop (keyCmp key) depth_limit v first last).getD j 0) := by
  induction depth_limit generalizing v first last with
  | zero =>
    unfold introsort_loop_checked introsort_loop
    by_cases hgt : last - first > 16
    · simp only [if_pos hgt]
      obtain ⟨a, b⟩ := partial_sort_spec key v first last (by omega) hl
      exact ⟨trivial, a, fun i hi1 hi2 => ⟨first, Nat.le_refl _, by omega, b i (by omega) hi2⟩⟩
    · simp only [if_neg hgt]
      exact ⟨trivial, Within.within_refl _ _ _, fun i hi1 hi2 => by omega⟩
  | succ depth_limit ih =>
    unfold introsort_loop_checked introsort_loop
    by_cases hgt : last - first > 16
    · simp only [if_pos hgt]
      obtain ⟨pe, pw, pc1, pc2, K, pl, pr⟩ := unguarded_partition_pivot_spec key v first last hgt hl
      obtain ⟨a1, a2, _⟩ := ih (unguarded_partition_pivot (keyCmp key) v first last).1
        (unguarded_partition_pivot (keyCmp key) v first last).2 last (by rw [pw.1]; exact hl)
      obtain ⟨b1, b2, b3⟩ := ih
        (introsort_loop (keyCmp key) depth_limit
          (unguarded_partition_pivot (keyCmp key) v first last).1
          (unguarded_partition_pivot (keyCmp key) v first last).2 last)
        first (unguarded_partition_pivot (keyCmp key) v first last).2
        (by rw [a2.1, pw.1]; omega)
      rw [pe]
      simp only []
      rw [a1]
      simp only []
      refine ⟨b1, (pw.within_trans (a2.mono _ _ (by omega) (Nat.le_refl _))).within_trans
        (b2.mono _ _ (Nat.le_refl _) (by omega)), ?_⟩
      intro i hi1 hi2
      by_cases hc : i < (unguarded_partition_pivot (keyCmp key) v first last).2
      · exact b3 i hi1 hc
      · refine ⟨first, Nat.le_refl _, by omega, ?_⟩
        rw [b2.2.1 i (by omega)]
        have h1 := a2.2.2 (fun x => key x ≤ K) pr i (by omega) hi2
        have h2 := b2.2.2 (fun x => K ≤ key x)
          (fun k hk1 hk2 => by
            rw [a2.2.1 k (by omega)]
            exact pl k hk1 hk2) first (Nat.le_refl _) pc1
        exact le_trans h1 h2
    · simp only [if_neg hgt]
      exact ⟨trivial, Within.within_refl _ _ _, fun i hi1 hi2 => by omega⟩

theorem Stopped.congr (cmp : Nat → Nat → Bool) (rest : List Nat) :
    ∀ (p q : List Nat), (∀ x, x ∈ p ↔ x ∈ q) → Stopped cmp p rest → Stopped cmp q rest := by
  induction rest with
  | nil => intro _ _ _ _; trivial
  | cons c rest ih =>
    intro p q hpq hs
    obtain ⟨⟨x, hx1, hx2⟩, h2⟩ := hs
    refine ⟨⟨x, (hpq x).mp hx1, hx2⟩, ih _ _ ?_ h2⟩
    intro y
    rw [List.mem_append, List.mem_append, hpq y]

theorem getD_append_left_nat (p r : List Nat) (j : Nat) (hj : j < p.length) :
    (p ++ r).getD j 0 = p.getD j 0 := by
  rw [List.getD_eq_getElem?_getD, List.getD_eq_getElem?_getD, List.getElem?_append_left hj]

theorem stopped_of_index (cmp : Nat → Nat → Bool) (rest : List Nat) :
    ∀ (p : List Nat),
      (∀ k, k < rest.length → ∃ j, j < p.length + k
        ∧ cmp ((p ++ rest).getD (p.length + k) 0) ((p ++ rest).getD j 0) = false) →
      Stopped cmp p rest := by
  induction rest with
  | nil => intro _ _; trivial
  | cons c rest ih =>
    intro p h
    constructor
    · obtain ⟨j, hj1, hj2⟩ := h 0 (by simp)
      rw [Nat.add_zero] at hj1 hj2
      rw [getD_append_cons, getD_append_left_nat _ _ _ hj1] at hj2
      refine ⟨p.getD j 0, ?_, hj2⟩
      rw [getD_eq_getElem_nat _ _ hj1]
      exact List.getElem_mem _
    · apply ih
      intro k hk
      obtain ⟨j, hj1, hj2⟩ := h (k + 1) (by simp; omega)
      refine ⟨j, by rw [List.length_append]; simp; omega, ?_⟩
      have e : p ++ [c] ++ rest = p ++ c :: rest := by simp
      have e2 : (p ++ [c]).length + k = p.length + (k + 1) := by
        rw [List.length_append]; simp; omega
      rw [e, e2]
      exact hj2

theorem unguarded_linear_insert_checked_eq (cmp : Nat → Nat → Bool) (val h : Nat)
    (v : List Nat) (hs : ∃ j, j < h ∧ cmp val (v.getD j 0) = false) :
    unguarded_linear_insert_checked cmp val h v
      = some (unguarded_linear_insert cmp val h v) := by
  induction h generalizing v with
  | zero =>
    obtain ⟨j, hj, _⟩ := hs
    omega
  | succ h ih =>
    obtain ⟨j, hj1, hj2⟩ := hs
    unfold unguarded_linear_insert_checked unguarded_linear_insert
    by_cases hc : cmp val (v.getD h 0) = true
    · rw [if_pos hc, if_pos hc]
      have hne : j ≠ h := by
        intro e
        rw [e, hc] at hj2
        cases hj2
      exact ih _ ⟨j, by omega, by rw [getD_set_ne _ _ _ _ (by omega)]; exact hj2⟩
    · rw [if_neg hc, if_neg hc]

theorem loop_checked_eq (round_c : List Nat → Nat → Option (List Nat))
    (round : List Nat → Nat → List Nat) (S : Nat → Prop)
    (h : ∀ v i, S i → round_c v i = some (round v i)) (l : List Nat) :
    ∀ (v : List Nat), (∀ i, i ∈ l → S i) → loop_checked round_c l v = some (l.foldl round v) := by
  induction l with
  | nil => intro v _; rfl
  | cons i l ih =>
    intro v hl
    unfold loop_checked
    rw [h v i (hl i (List.mem_cons_self _ _))]
    simp only [List.foldl_cons]
    exact ih _ (fun k hk => hl k (List.mem_cons_of_mem _ hk))

theorem insertion_sort_checked_eq (cmp : Nat → Nat → Bool) (v : List Nat) (first last : Nat) :
    insertion_sort_checked cmp v first last = some (insertion_sort cmp v first last) := by
  unfold insertion_sort_checked insertion_sort
  split
  · rfl
  · apply loop_checked_eq _ _ (fun i => first < i)
    · intro u i hi
      by_cases hc : cmp (u.getD i 0) (u.getD first 0) = true
      · simp only [if_pos hc]
      · simp only [if_neg hc]
        exact unguarded_linear_insert_checked_eq cmp _ i u
          ⟨first, hi, Bool.eq_false_iff.mpr hc⟩
    · intro i hi
      have := (List.mem_range'_1.mp hi).1
      omega

theorem loop_checked_stopped (cmp : Nat → Nat → Bool) (rest : List Nat) :
    ∀ (p tail : List Nat), p ≠ [] → Stopped cmp p rest →
      loop_checked (fun v i => unguarded_linear_insert_checked cmp (v.getD i 0) i v)
          (List.range' p.length rest.length) (p ++ rest ++ tail)
        = some ((List.range' p.length rest.length).foldl
            (fun v i => unguarded_linear_insert cmp (v.getD i 0) i v) (p ++ rest ++ tail)) := by
  induction rest with
  | nil => intro p tail _ _; rfl
  | cons c rest ih =>
    intro p tail hp hs
    obtain ⟨⟨x, hx1, hx2⟩, hs2⟩ := hs
    have e : p ++ c :: rest ++ tail = p ++ c :: (rest ++ tail) := by simp
    obtain ⟨p1, e1, e2, _⟩ := unguarded_round_spec cmp (fun _ _ => True)
      (fun _ _ _ _ _ => trivial) p c (rest ++ tail)
    obtain ⟨j, hj1, hj2⟩ := List.getElem_of_mem hx1
    have hsafe : unguarded_linear_insert_checked cmp ((p ++ c :: (rest ++ tail)).getD p.length 0)
        p.length (p ++ c :: (rest ++ tail))
        = some (unguarded_linear_insert cmp ((p ++ c :: (rest ++ tail)).getD p.length 0)
            p.length (p ++ c :: (rest ++ tail))) := by
      apply unguarded_linear_insert_checked_eq
      refine ⟨j, hj1, ?_⟩
      rw [getD_append_cons, getD_append_left_nat _ _ _ hj1, getD_eq_getElem_nat _ _ hj1, hj2]
      exact hx2
    have hl1 : p1.length = p.length + 1 := by
      rw [e2.length_eq, List.length_append]; rfl
    have hp1 : p1 ≠ [] := by
      intro hn
      rw [hn] at hl1
      cases hl1
    have hrec := ih p1 tail hp1
      (Stopped.congr cmp rest _ _ (fun y => (e2.mem_iff).symm) hs2)
    rw [List.length_cons, List.range'_succ, e]
    unfold loop_checked
    rw [hsafe]
    simp only [List.foldl_cons]
    rw [e1, ← List.append_assoc, ← hl1]
    exact hrec

theorem unguarded_insertion_sort_checked_eq (cmp : Nat → Nat → Bool) (p rest : List Nat)
    (hp : p ≠ []) (hs : Stopped cmp p rest) :
    unguarded_insertion_sort_checked cmp (p ++ rest) p.length (p.length + rest.length)
      = some (unguarded_insertion_sort cmp (p ++ rest) p.length (p.length + rest.length)) := by
  unfold unguarded_insertion_sort_checked unguarded_insertion_sort
  have hr : p.length + rest.length - p.length = rest.length := by omega
  rw [hr]
  have := loop_checked_stopped cmp rest p [] hp hs
  rw [List.append_nil] at this
  exact this

theorem final_insertion_sort_checked_eq (cmp : Nat → Nat → Bool) (v : List Nat) (hv : v ≠ [])
    (hs : ∀ i, 16 ≤ i → i < v.length → ∃ j, j < i ∧ cmp (v.getD i 0) (v.getD j 0) = false) :
    final_insertion_sort_checked cmp v 0 v.length
      = some (final_insertion_sort cmp v 0 v.length) := by
  unfold final_insertion_sort_checked final_insertion_sort
  split
  · rename_i hgt
    obtain ⟨h, t, rfl⟩ := List.exists_cons_of_ne_nil hv
    simp only [List.length_cons, Nat.sub_zero, Nat.zero_add] at hgt ⊢
    rw [insertion_sort_checked_eq]
    simp only []
    have hsplit : h :: t = h :: t.take 15 ++ t.drop 15 := by simp
    have hl15 : (t.take 15).length = 15 := by
      rw [List.length_take]; omega
    obtain ⟨p1, e1, e2, _⟩ := insertion_sort_spec cmp (fun _ _ => True)
      (fun _ _ _ _ _ => trivial) h (t.take 15) (t.drop 15)
    rw [hl15] at e1
    have e1b : insertion_sort cmp (h :: t) 0 16 = p1 ++ t.drop 15 := by
      rw [← e1, List.cons_append, List.take_append_drop]
    rw [e1b]
    have hp1l : p1.length = 16 := by
      rw [e2.length_eq]; simp [hl15]
    have hp1 : p1 ≠ [] := by
      intro hn; rw [hn] at hp1l; cases hp1l
    have hdl : (t.drop 15).length = t.length - 15 := List.length_drop _ _
    have hidx : t.length + 1 = p1.length + (t.drop 15).length := by
      rw [hp1l, hdl]; omega
    rw [hidx, ← hp1l]
    apply unguarded_insertion_sort_checked_eq cmp p1 (t.drop 15) hp1
    apply Stopped.congr cmp _ (h :: t.take 15) p1 (fun y => (e2.mem_iff).symm)
    apply stopped_of_index
    intro k hk
    have hlen : (h :: t.take 15).length = 16 := by
      rw [List.length_cons, hl15]
    obtain ⟨j, hj1, hj2⟩ := hs (16 + k) (by omega) (by rw [List.length_cons]; omega)
    rw [← hsplit, hlen]
    exact ⟨j, hj1, hj2⟩
  · rw [insertion_sort_checked_eq]

/-- With the comparator of `HNode::HNode`, no scan of `std::sort` leaves the vector: the sort
with its reads checked gives the result of `stdSort`. -/
theorem stdSort_checked_eq (key : Nat → Rat) (v : List Nat) :
    stdSort_checked (keyCmp key) v = some (stdSort (keyCmp key) v) := by
  unfold stdSort_checked stdSort
  split
  · rfl
  · rename_i hne
    obtain ⟨a, b, c⟩ := introsort_loop_spec key (log2 v.length * 2) v 0 v.length (Nat.le_refl _)
    rw [a]
    simp only []
    have hv1 : introsort_loop (keyCmp key) (log2 v.length * 2) v 0 v.length ≠ [] := by
      intro hn
      have := b.1
      rw [hn] at this
      exact hne this.symm
    have := final_insertion_sort_checked_eq (keyCmp key) _ hv1 (fun i hi1 hi2 => by
      obtain ⟨j, _, hj2, hj3⟩ := c i (by omega) (by rw [← b.1]; exact hi2)
      exact ⟨j, hj2, (keyCmp_false key _ _).mpr hj3⟩)
    rw [b.1] at this
    exact this

/-! ## The node built in an iteration -/

theorem init_congr {σ : Type} (C : Ctx σ) (nodes1 nodes2 : List HNode) (Q : Config)
    (p g h : Nat) (hd : (nodeAt nodes1 p).depth = (nodeAt nodes2 p).depth)
    (hp : (nodeAt nodes1 p).priorities = (nodeAt nodes2 p).priorities) :
    HNode.init C nodes1 Q (some p) g h = HNode.init C nodes2 Q (some p) g h := by
  unfold HNode.init initPriorities
  simp only [hd, hp]

theorem successor_new_node {σ : Type} (C : Ctx σ) (s : LaCAM) (H : Nat) (Q_to : Config)
    (w : σ) (hH : H < s.nodes.length) (i : Nat) (h1 : s.nodes.length ≤ i)
    (h2 : i < (successor C s H Q_to w).1.nodes.length) :
    nodeAt (successor C s H Q_to w).1.nodes i
      = HNode.init C s.nodes Q_to (some H) (get_g_val C.ins s.nodes H Q_to)
          (get_h_val C Q_to) := by
  unfold successor at h2 ⊢
  split at h2
  · rename_i hE
    simp only [hE]
    simp only [length_newHNode] at h2
    have : i = s.nodes.length := by omega
    rw [this]
    exact nodeAt_newHNode_new C s.nodes Q_to H _ _ hH
  · exfalso
    rename_i H_known _
    have hl := (rewrite_other C s H H_known).2.2.2.2.2
    split at h2
    · simp only at h2
      omega
    · simp only at h2
      omega

theorem expand_new_node {σ : Type} (C : Ctx σ) (s : LaCAM) (H : Nat) (w : σ)
    (hH : H < s.nodes.length) (i : Nat) (h1 : s.nodes.length ≤ i)
    (h2 : i < (expand C s H w).1.nodes.length) :
    ∃ Q g h, nodeAt (expand C s H w).1.nodes i = HNode.init C s.nodes Q (some H) g h := by
  cases hst : (nodeAt s.nodes H).search_tree with
  | nil =>
    rw [expand_nil C s H w hst] at h2
    simp only at h2
    omega
  | cons L rest =>
    obtain ⟨a, b, _⟩ := dequeued_frame C s H L rest w
    cases hres : (set_new_config C
      (low_level C { s with nodes := updNode s.nodes H fun n => { n with search_tree := rest } }
        H L w).1 H L (List.replicate C.ins.N none)
      (low_level C { s with nodes := updNode s.nodes H fun n => { n with search_tree := rest } }
        H L w).2).1 with
    | none =>
      rw [expand_cons_none C s H w L rest hst hres] at h2
      omega
    | some Q_to =>
      obtain ⟨u, w2, e, hu, _⟩ := expand_cons_some C s H w L rest Q_to hst hres
      rw [e] at h2 ⊢
      have hlen : u.nodes.length = s.nodes.length := by rw [hu]; exact a
      refine ⟨Q_to, get_g_val C.ins u.nodes H Q_to, get_h_val C Q_to, ?_⟩
      rw [successor_new_node C u H Q_to w2 (by rw [hlen]; exact hH) i
        (by rw [hlen]; exact h1) h2]
      have hc : SameCore (nodeAt u.nodes H) (nodeAt s.nodes H) := by rw [hu]; exact b H
      exact init_congr C _ _ Q_to H _ _ hc.2.2.2.2.2.2.1 hc.2.2.2.2.2.2.2.1

theorem iteration_new_node {σ : Type} (C : Ctx σ) (s : LaCAM) (w : σ) (h : Inv C s) (i : Nat)
    (h1 : s.nodes.length ≤ i) (h2 : i < (iteration C s w).2.1.nodes.length) :
    ∃ H Q g hv, H < s.nodes.length
      ∧ nodeAt (iteration C s w).2.1.nodes i = HNode.init C s.nodes Q (some H) g hv := by
  have h0 : Inv C { s with loop_cnt := s.loop_cnt + 1 } :=
    h.inv_of_nodes_eq rfl rfl (fun k hk => h.open_ok k hk) (fun k hk => h.goal_ok k hk) rfl
  obtain ⟨hI, _⟩ := random_insert_good C { s with loop_cnt := s.loop_cnt + 1 } w h0
  have hn : (random_insert C { s with loop_cnt := s.loop_cnt + 1 } w).1.nodes = s.nodes :=
    (random_insert_frame C { s with loop_cnt := s.loop_cnt + 1 } w).1
  have hH : (random_insert C { s with loop_cnt := s.loop_cnt + 1 } w).1.OPEN.headD 0
      < s.nodes.length := by
    cases hO : (random_insert C { s with loop_cnt := s.loop_cnt + 1 } w).1.OPEN with
    | nil => exact h.arena.pos
    | cons a l =>
      have := hI.open_ok a (by rw [hO]; exact List.mem_cons_self _ _)
      rw [hn] at this
      exact this
  unfold iteration visit at h2 ⊢
  simp only at h2 ⊢
  split at h2
  · simp only [hn] at h2
    omega
  · split at h2
    · simp only [hn] at h2
      omega
    · rename_i c1 c2
      simp only [if_neg c1, if_neg c2]
      obtain ⟨Q, g, hv, e⟩ := expand_new_node C _ _ _ (by rw [hn]; exact hH) i
        (by rw [hn]; exact h1) h2
      rw [hn] at e
      exact ⟨_, Q, g, hv, hH, e⟩

/-! ## C12: the priorities of the nodes of a run -/

/-- C12, as amended. At every point of a run, every priority of every search node is a
non-negative `float`, and an agent that is at its goal (distance `0`) has a priority below `1`.
A node that an iteration builds has a parent `H`, and for every agent `a`: when `a` is not at
its goal in the new node (distance not `0`), its priority is the `float` sum of the priority
it has in `H` and `1`, that is the sum rounded to the nearest `float`, which is within
`2^(-24)` of the sum relative to the sum, at least `1`, and not below the priority in `H`;
when it is at its goal, its priority is exactly the fractional part of the priority it has in
`H`, which lies in `[0, 1)`. -/
theorem child_priority_rule {σ : Type} (C : Ctx σ) (hwf : WellFormed C) (G : Graph) (w0 : σ)
    (fl : Flow) (s : LaCAM) (w : σ) (hr : Run C (initState C G) w0 fl s w) :
    (∀ k, k < s.nodes.length → ∀ a,
        0 ≤ (nodeAt s.nodes k).priorities.getD a 0
          ∧ IsF32 ((nodeAt s.nodes k).priorities.getD a 0)
          ∧ (a < C.ins.N → C.D a ((nodeAt s.nodes k).Q.getD a 0) = 0 →
              (nodeAt s.nodes k).priorities.getD a 0 < 1))
      ∧ ∀ i, s.nodes.length ≤ i → i < (iteration C s w).2.1.nodes.length →
          ∃ H, H < s.nodes.length
            ∧ (nodeAt (iteration C s w).2.1.nodes i).parent = some H
            ∧ ∀ a, a < C.ins.N →
                (C.D a ((nodeAt (iteration C s w).2.1.nodes i).Q.getD a 0) ≠ 0 →
                  (nodeAt (iteration C s w).2.1.nodes i).priorities.getD a 0
                      = roundF32 ((nodeAt s.nodes H).priorities.getD a 0 + 1)
                    ∧ |(nodeAt (iteration C s w).2.1.nodes i).priorities.getD a 0
                          - ((nodeAt s.nodes H).priorities.getD a 0 + 1)|
                        ≤ ((nodeAt s.nodes H).priorities.getD a 0 + 1) / 2 ^ 24
                    ∧ 1 ≤ (nodeAt (iteration C s w).2.1.nodes i).priorities.getD a 0
                    ∧ (nodeAt s.nodes H).priorities.getD a 0
                        ≤ (nodeAt (iteration C s w).2.1.nodes i).priorities.getD a 0)
                ∧ (C.D a ((nodeAt (iteration C s w).2.1.nodes i).Q.getD a 0) = 0 →
                  (nodeAt (iteration C s w).2.1.nodes i).priorities.getD a 0
                      = Int.fract ((nodeAt s.nodes H).priorities.getD a 0)
                    ∧ 0 ≤ (nodeAt (iteration C s w).2.1.nodes i).priorities.getD a 0
                    ∧ (nodeAt (iteration C s w).2.1.nodes i).priorities.getD a 0 < 1) := by
  obtain ⟨hinv, _⟩ := hr.good hwf (initState_inv C hwf G)
  have hset := hr.settled hwf (initState_inv C hwf G) (initState_settled C G)
  constructor
  · intro k hk a
    refine ⟨(hset.node_ok k hk).prio_nonneg a, (hset.node_ok k hk).prio_f32 a, fun ha hD => ?_⟩
    exact (hset.node_ok k hk).prio_goal a (by rw [hinv.arena.Q_len k hk]; exact ha) hD
  · intro i h1 h2
    obtain ⟨H, Q, g, hv, hH, e⟩ := iteration_new_node C s w hinv i h1 h2
    have hQl := (iteration_good C hwf s w hinv).1.arena.Q_len i h2
    rw [e] at hQl ⊢
    have hQl2 : Q.length = C.ins.N := hQl
    refine ⟨H, hH, rfl, ?_⟩
    intro a ha
    have hp0 := (hset.node_ok H hH).prio_nonneg a
    have hpf := (hset.node_ok H hH).prio_f32 a
    have hrule := initPriorities_child C s.nodes Q H a (by rw [hQl2]; exact ha)
    constructor
    · intro hD
      have hD1 : C.D a (List.getD Q a 0) ≠ 0 := hD
      have e2 : (initPriorities C s.nodes Q (some H)).getD a 0
          = roundF32 ((nodeAt s.nodes H).priorities.getD a 0 + 1) := by
        rw [hrule, if_pos hD1]
      show (initPriorities C s.nodes Q (some H)).getD a 0 = _
        ∧ |(initPriorities C s.nodes Q (some H)).getD a 0 - _| ≤ _
        ∧ 1 ≤ (initPriorities C s.nodes Q (some H)).getD a 0
        ∧ _ ≤ (initPriorities C s.nodes Q (some H)).getD a 0
      rw [e2]
      exact ⟨rfl, aged_priority _ hp0 hpf⟩
    · intro hD
      have hD1 : C.D a (List.getD Q a 0) = 0 := hD
      have e2 : (initPriorities C s.nodes Q (some H)).getD a 0
          = Int.fract ((nodeAt s.nodes H).priorities.getD a 0) := by
        rw [hrule, if_neg (fun hne => hne hD1), goal_priority_exact _ hp0 hpf]
      show (initPriorities C s.nodes Q (some H)).getD a 0 = _
        ∧ 0 ≤ (initPriorities C s.nodes Q (some H)).getD a 0
        ∧ (initPriorities C s.nodes Q (some H)).getD a 0 < 1
      rw [e2]
      exact ⟨rfl, Int.fract_nonneg _, Int.fract_lt_one _⟩

theorem child_priority_rule_witness :
    WellFormed (demoCtx true 3 100)
      ∧ (loopState (demoCtx true 3 100) 5 (initState (demoCtx true 3 100) demoGraph) ()).2.1.nodes.length
          = 3
      ∧ (nodeAt (loopState (demoCtx true 3 100) 5
            (initState (demoCtx true 3 100) demoGraph) ()).2.1.nodes 2).priorities
          = [2097257 / 1048576]
      ∧ (nodeAt (loopState (demoCtx true 3 100) 6
            (initState (demoCtx true 3 100) demoGraph) ()).2.1.nodes 3).priorities
          = [105 / 1048576]
      ∧ ∀ k, k < (loopState (demoCtx true 3 100) 5
            (initState (demoCtx true 3 100) demoGraph) ()).2.1.nodes.length → ∀ a,
          0 ≤ (nodeAt (loopState (demoCtx true 3 100) 5
              (initState (demoCtx true 3 100) demoGraph) ()).2.1.nodes k).priorities.getD a 0
            ∧ IsF32 ((nodeAt (loopState (demoCtx true 3 100) 5
              (initState (demoCtx true 3 100) demoGraph) ()).2.1.nodes k).priorities.getD a 0)
            ∧ (a < (demoCtx true 3 100).ins.N →
                (demoCtx true 3 100).D a ((nodeAt (loopState (demoCtx true 3 100) 5
                  (initState (demoCtx true 3 100) demoGraph) ()).2.1.nodes k).Q.getD a 0) = 0 →
                (nodeAt (loopState (demoCtx true 3 100) 5
                  (initState (demoCtx true 3 100) demoGraph) ()).2.1.nodes k).priorities.getD a 0
                  < 1) :=
  ⟨demo_wf true 3 100, by decide!, by decide!, by decide!,
    (child_priority_rule (demoCtx true 3 100) (demo_wf true 3 100) demoGraph () _ _ _
      (loopState_run (demoCtx true 3 100) 5 (initState (demoCtx true 3 100) demoGraph) ())).1⟩

/-- C12, as stated, fails: the sum is a `float` sum. The root of the run has the priority
`13743895 / 2^37` (the `float` nearest to `1 / 10000`) for its agent; in the first node built
from it the agent is not at its goal, and its priority is `8389447 / 2^23`, the `float`
nearest to the sum, not the priority of the parent plus `1`. -/
theorem child_priority_not_parent_plus_one :
    (nodeAt (loopState (demoCtx true 3 100) 2
        (initState (demoCtx true 3 100) demoGraph) ()).2.1.nodes 1).parent = some 0
      ∧ (demoCtx true 3 100).D 0 ((nodeAt (loopState (demoCtx true 3 100) 2
          (initState (demoCtx true 3 100) demoGraph) ()).2.1.nodes 1).Q.getD 0 0) ≠ 0
      ∧ (nodeAt (loopState (demoCtx true 3 100) 2
          (initState (demoCtx true 3 100) demoGraph) ()).2.1.nodes 0).priorities
          = [13743895 / 137438953472]
      ∧ (nodeAt (loopState (demoCtx true 3 100) 2
          (initState (demoCtx true 3 100) demoGraph) ()).2.1.nodes 1).priorities
          = [8389447 / 8388608]
      ∧ (nodeAt (loopState (demoCtx true 3 100) 2
          (initState (demoCtx true 3 100) demoGraph) ()).2.1.nodes 1).priorities.getD 0 0
          ≠ (nodeAt (loopState (demoCtx true 3 100) 2
              (initState (demoCtx true 3 100) demoGraph) ()).2.1.nodes 0).priorities.getD 0 0
            + 1 := by
  decide!

/-! ## The priorities stay in the range of the cast `(int)p` -/

theorem isF32_two_pow_24 : IsF32 16777216 :=
  ⟨8388608, 1, by norm_num, by norm_num, by norm_num⟩

theorem isF32_two_pow_31 : IsF32 2147483648 :=
  ⟨8388608, 8, by norm_num, by norm_num, by norm_num⟩

/-- The `float` values below `2^24` are at most `2^24 - 1`. -/
theorem isF32_lt_two_pow_24 (p : Rat) (hf : IsF32 p) (h : p < 16777216) : p ≤ 16777215 := by
  obtain ⟨m, k, _, hm, rfl⟩ := hf
  have hm1 : m ≤ 16777215 := by
    have := lt_of_le_of_lt (le_abs_self m) hm
    omega
  have hmq : (m : Rat) ≤ 16777215 := by exact_mod_cast hm1
  by_cases hk0 : 0 ≤ k
  · have e : (m : Rat) * (2 : Rat) ^ k = ((m * 2 ^ k.toNat : Int) : Rat) := by
      push_cast
      rw [← zpow_natCast, Int.toNat_of_nonneg hk0]
    rw [e] at h ⊢
    have h1 : m * 2 ^ k.toNat < 16777216 := by exact_mod_cast h
    have h2 : m * 2 ^ k.toNat ≤ 16777215 := by omega
    exact_mod_cast h2
  · by_cases hm0 : 0 ≤ m
    · have h1 : (2 : Rat) ^ k ≤ 1 := by
        have := zpow_le_zpow_right₀ (by norm_num : (1 : Rat) ≤ 2) (by omega : k ≤ 0)
        simpa using this
      have hmq0 : (0 : Rat) ≤ (m : Rat) := by exact_mod_cast hm0
      calc (m : Rat) * (2 : Rat) ^ k ≤ (m : Rat) * 1 := mul_le_mul_of_nonneg_left h1 hmq0
        _ ≤ 16777215 := by rw [mul_one]; exact hmq
    · have hmq0 : (m : Rat) ≤ 0 := by exact_mod_cast (by omega : m ≤ 0)
      have := mul_nonpos_of_nonpos_of_nonneg hmq0 (two_zpow_pos k).le
      linarith

theorem root_priority_le (d : Nat) (hd : d < 2 ^ 31) :
    roundF32 (roundF32 (d : Rat) / 10000) ≤ 16777216 := by
  have hq : (d : Rat) ≤ 2147483648 := by exact_mod_cast (by omega : d ≤ 2147483648)
  have h1 : roundF32 (d : Rat) ≤ 2147483648 := by
    rcases Nat.eq_zero_or_pos d with e | hpos
    · subst e
      rw [Nat.cast_zero, roundF32_zero]
      norm_num
    · exact roundF32_le _ _ (by exact_mod_cast hpos) isF32_two_pow_31 hq
  have h0 : 0 ≤ roundF32 (d : Rat) := roundF32_nonneg _ (Nat.cast_nonneg d)
  rcases h0.eq_or_lt with e | hpos
  · rw [← e, zero_div, roundF32_zero]
    norm_num
  · apply roundF32_le _ _ (by positivity) isF32_two_pow_24
    rw [div_le_iff₀ (by norm_num : (0 : Rat) < 10000)]
    linarith

theorem roundF32_two_pow_24_add_one : roundF32 (16777216 + 1) = 16777216 := by decide!

theorem aged_priority_le (p : Rat) (hp : 0 ≤ p) (hf : IsF32 p) (h : p ≤ 16777216) :
    roundF32 (p + 1) ≤ 16777216 := by
  rcases h.eq_or_lt with e | hlt
  · rw [e, roundF32_two_pow_24_add_one]
  · have := isF32_lt_two_pow_24 p hf hlt
    exact roundF32_le _ _ (by linarith) isF32_two_pow_24 (by linarith)

/-- With distances in the range of `int`, no priority of a run exceeds `2^24`: the cast
`(int)p` of `HNode::HNode` stays in the range of `int`, and no `float` operation leaves the
range of `float`. -/
theorem priorities_in_int_range {σ : Type} (C : Ctx σ) (hwf : WellFormed C)
    (hD : ∀ i v, C.D i v < 2 ^ 31) (G : Graph) (w0 : σ) (fl : Flow) (s : LaCAM) (w : σ)
    (hr : Run C (initState C G) w0 fl s w) :
    ∀ k, k < s.nodes.length → ∀ a, (nodeAt s.nodes k).priorities.getD a 0 ≤ 16777216 := by
  induction hr with
  | refl =>
    intro k hk a
    have hlen : (initState C G).nodes.length = 1 := by simp [initState, newHNode]
    have hk0 : k = 0 := by omega
    subst hk0
    show (nodeAt (newHNode C [] C.ins.starts none 0 0) 0).priorities.getD a 0 ≤ _
    rw [nodeAt_init_zero]
    show (initPriorities C [] C.ins.starts none).getD a 0 ≤ _
    by_cases ha : a < C.ins.starts.length
    · rw [initPriorities_root C [] C.ins.starts a ha]
      exact root_priority_le _ (hD _ _)
    · unfold initPriorities
      rw [getD_map_range_of_le _ _ _ (by omega)]
      norm_num
  | @step s1 w1 hr1 hO hE ih =>
    obtain ⟨hinv, _⟩ := hr1.good hwf (initState_inv C hwf G)
    have hset := hr1.settled hwf (initState_inv C hwf G) (initState_settled C G)
    obtain ⟨_, hlater⟩ := iteration_good C hwf s1 w1 hinv
    intro k hk a
    by_cases hold : k < s1.nodes.length
    · rw [hlater.priorities_eq k hold]
      exact ih k hold a
    · obtain ⟨H, Q, g, hv, hH, e⟩ := iteration_new_node C s1 w1 hinv k (by omega) hk
      rw [e]
      show (initPriorities C s1.nodes Q (some H)).getD a 0 ≤ _
      by_cases ha : a < Q.length
      · rw [initPriorities_child C s1.nodes Q H a ha]
        have hp0 := (hset.node_ok H hH).prio_nonneg a
        have hpf := (hset.node_ok H hH).prio_f32 a
        split
        · exact aged_priority_le _ hp0 hpf (ih H hH a)
        · rw [goal_priority_exact _ hp0 hpf]
          have := Int.fract_lt_one ((nodeAt s1.nodes H).priorities.getD a 0)
          linarith
      · unfold initPriorities
        rw [getD_map_range_of_le _ _ _ (by omega)]
        norm_num

/-! ## C13: the order of the agents in a node -/

/-- The `std::sort` of libstdc++ satisfies the part of the contract that the search relies on:
the sorted vector is a rearrangement of the given one. -/
theorem stdSort_permutes {σ : Type} (C : Ctx σ) (hsort : C.sort = stdSort) : SortPermutes C := by
  intro cmp l
  rw [hsort]
  exact stdSort_perm cmp l

/-- The `order` of a node built by `HNode::HNode` with the `std::sort` of libstdc++: a
permutation of the agent indices along which the priorities never increase, with agents of
equal priority in ascending index order when there are at most 16 agents. -/
theorem init_order_sorted {σ : Type} (C : Ctx σ) (hsort : C.sort = stdSort)
    (priorities : List Rat) (n : Nat) :
    List.Perm (initOrder C priorities n) (List.range n)
      ∧ List.Pairwise (fun a b => priorities.getD b 0 ≤ priorities.getD a 0)
          (initOrder C priorities n)
      ∧ (n ≤ 16 →
          List.Pairwise (fun a b => priorities.getD a 0 = priorities.getD b 0 → a < b)
            (initOrder C priorities n)) := by
  unfold initOrder
  rw [hsort]
  refine ⟨stdSort_perm _ _, stdSort_sorted (fun i => priorities.getD i 0) _, fun hn => ?_⟩
  have h := stdSort_stable_small (fun i => priorities.getD i 0) (List.range n)
    (by rw [List.length_range]; exact hn) (List.pairwise_lt_range _)
  refine h.imp ?_
  intro a b hab e
  rcases hab with h1 | ⟨_, h2⟩
  · have h3 : priorities.getD b 0 < priorities.getD a 0 := h1
    rw [e] at h3
    exact absurd h3 (lt_irrefl _)
  · exact h2

/-- The `order` of a node built by `HNode::HNode` is what the `std::sort` of libstdc++ computes
with every read of its unguarded scans inside the vector. -/
theorem init_order_checked {σ : Type} (C : Ctx σ) (hsort : C.sort = stdSort)
    (priorities : List Rat) (n : Nat) :
    stdSort_checked (keyCmp fun i => priorities.getD i 0) (List.range n)
      = some (initOrder C priorities n) := by
  unfold initOrder
  rw [hsort]
  exact stdSort_checked_eq (fun i => priorities.getD i 0) (List.range n)

/-- C13, as amended. With the `std::sort` of libstdc++, the `order` of every node that
`HNode::HNode` builds, and so of every search node at every point of a run, is a permutation
of the agent indices `0 .. N-1` along which the priorities never increase. With at most 16
agents (`std::sort` is then an insertion sort) agents of equal priority are in ascending index
order; with more agents `std::sort` partitions the vector first, and agents of equal priority
need not be in index order. The `order` is the result of the sort as the library has it: no
unguarded scan of `std::sort` reads outside the vector of agent indices. -/
theorem order_is_sorted_permutation {σ : Type} (C : Ctx σ) (hwf : WellFormed C)
    (hsort : C.sort = stdSort) (G : Graph) (w0 : σ) (fl : Flow) (s : LaCAM)
    (w : σ) (hr : Run C (initState C G) w0 fl s w) :
    (∀ (nodes : List HNode) (Q : Config) (parent : Option Nat) (g h : Nat),
      List.Perm (HNode.init C nodes Q parent g h).order (List.range Q.length)
        ∧ List.Pairwise
            (fun a b => (HNode.init C nodes Q parent g h).priorities.getD b 0
              ≤ (HNode.init C nodes Q parent g h).priorities.getD a 0)
            (HNode.init C nodes Q parent g h).order
        ∧ (Q.length ≤ 16 →
            List.Pairwise
              (fun a b => (HNode.init C nodes Q parent g h).priorities.getD a 0
                  = (HNode.init C nodes Q parent g h).priorities.getD b 0 → a < b)
              (HNode.init C nodes Q parent g h).order)
        ∧ stdSort_checked
            (keyCmp fun a => (HNode.init C nodes Q parent g h).priorities.getD a 0)
            (List.range Q.length) = some (HNode.init C nodes Q parent g h).order)
      ∧ ∀ k, k < s.nodes.length →
        List.Perm (nodeAt s.nodes k).order (List.range C.ins.N)
          ∧ List.Pairwise
              (fun a b => (nodeAt s.nodes k).priorities.getD b 0
                ≤ (nodeAt s.nodes k).priorities.getD a 0)
              (nodeAt s.nodes k).order
          ∧ (C.ins.N ≤ 16 →
              List.Pairwise
                (fun a b => (nodeAt s.nodes k).priorities.getD a 0
                    = (nodeAt s.nodes k).priorities.getD b 0 → a < b)
                (nodeAt s.nodes k).order) := by
  constructor
  · intro nodes Q parent g h
    obtain ⟨h1, h2, h3⟩ := init_order_sorted C hsort (initPriorities C nodes Q parent) Q.length
    exact ⟨h1, h2, h3, init_order_checked C hsort (initPriorities C nodes Q parent) Q.length⟩
  · obtain ⟨hinv, _⟩ := hr.good hwf (initState_inv C hwf G)
    have hset := hr.settled hwf (initState_inv C hwf G) (initState_settled C G)
    intro k hk
    have ho := (hset.node_ok k hk).order_eq
    rw [hinv.arena.Q_len k hk] at ho
    rw [ho]
    exact init_order_sorted C hsort _ _

theorem order_is_sorted_permutation_witness :
    WellFormed (duoCtx stdSort) ∧ (duoCtx stdSort).sort = stdSort
      ∧ (nodeAt (loopState (duoCtx stdSort) 6
            (initState (duoCtx stdSort) demoGraph) ()).2.1.nodes 3).priorities
          = [105 / 1048576, 3145833 / 1048576]
      ∧ (nodeAt (loopState (duoCtx stdSort) 6
            (initState (duoCtx stdSort) demoGraph) ()).2.1.nodes 3).order = [1, 0]
      ∧ ∀ k, k < (loopState (duoCtx stdSort) 6
            (initState (duoCtx stdSort) demoGraph) ()).2.1.nodes.length →
          List.Perm (nodeAt (loopState (duoCtx stdSort) 6
              (initState (duoCtx stdSort) demoGraph) ()).2.1.nodes k).order
            (List.range (duoCtx stdSort).ins.N)
          ∧ List.Pairwise
              (fun a b => (nodeAt (loopState (duoCtx stdSort) 6
                  (initState (duoCtx stdSort) demoGraph) ()).2.1.nodes k).priorities.getD b 0
                ≤ (nodeAt (loopState (duoCtx stdSort) 6
                  (initState (duoCtx stdSort) demoGraph) ()).2.1.nodes k).priorities.getD a 0)
              (nodeAt (loopState (duoCtx stdSort) 6
                (initState (duoCtx stdSort) demoGraph) ()).2.1.nodes k).order
          ∧ ((duoCtx stdSort).ins.N ≤ 16 →
              List.Pairwise
                (fun a b => (nodeAt (loopState (duoCtx stdSort) 6
                    (initState (duoCtx stdSort) demoGraph) ()).2.1.nodes k).priorities.getD a 0
                  = (nodeAt (loopState (duoCtx stdSort) 6
                    (initState (duoCtx stdSort) demoGraph) ()).2.1.nodes k).priorities.getD b 0
                  → a < b)
                (nodeAt (loopState (duoCtx stdSort) 6
                  (initState (duoCtx stdSort) demoGraph) ()).2.1.nodes k).order) :=
  ⟨duo_wf _, rfl, by decide!, by decide!,
    (order_is_sorted_permutation (duoCtx stdSort) (duo_wf _) rfl demoGraph () _ _ _
      (loopState_run (duoCtx stdSort) 6 (initState (duoCtx stdSort) demoGraph) ())).2⟩

/-- C13, as stated, fails: `std::sort` is not stable. The seventeen agents of `crowdCtx` all
have the root priority `13743895 / 2^37` (each is one step away from its goal), and the `order`
of the root is `8 16 15 14 13 12 11 10 9 0 7 6 5 4 3 2 1`: agent `8` comes before agent `0`,
so agents of equal priority are not in ascending index order. -/
theorem order_ties_not_by_index :
    crowdCtx.sort = stdSort
      ∧ (nodeAt (initState crowdCtx crowdGraph).nodes 0).priorities
          = List.replicate 17 (13743895 / 137438953472)
      ∧ (nodeAt (initState crowdCtx crowdGraph).nodes 0).order
          = [8, 16, 15, 14, 13, 12, 11, 10, 9, 0, 7, 6, 5, 4, 3, 2, 1]
      ∧ ¬ List.Pairwise
            (fun a b => (nodeAt (initState crowdCtx crowdGraph).nodes 0).priorities.getD a 0
                = (nodeAt (initState crowdCtx crowdGraph).nodes 0).priorities.getD b 0 → a < b)
            (nodeAt (initState crowdCtx crowdGraph).nodes 0).order := by
  refine ⟨rfl, by decide!, by decide!, by decide!⟩

/-! ## C17: the relaxation queue of `rewrite` runs empty -/

/-- C17. The relaxation loop of `rewrite` terminates from every state and every queue, whatever
the `neighbors` relation is (cycles and self-loops included): after `2 * sumG + |Q| + 1`
rounds the queue is empty, more rounds change nothing, and one relaxation step never raises
`2 * sumG + |Q|`, since a node is pushed only when its `g` gets strictly lower. In particular
the loop of every call `rewrite(H_from, H_to)` ends with an empty queue. -/
theorem rewrite_queue_runs_empty {σ : Type} (C : Ctx σ) (s : LaCAM) (Q : List Nat) (k : Nat) :
    (rewriteLoop C (2 * sumG s.nodes + Q.length + 1) Q s).2 = []
      ∧ rewriteLoop C (2 * sumG s.nodes + Q.length + 1 + k) Q s
          = rewriteLoop C (2 * sumG s.nodes + Q.length + 1) Q s
      ∧ (∀ n_from n_to,
          2 * sumG (relax C n_from n_to s Q).1.nodes + (relax C n_from n_to s Q).2.length
            ≤ 2 * sumG s.nodes + Q.length)
      ∧ ∀ H_from H_to,
          (rewriteLoop C
            (2 * sumG (updNode s.nodes H_from fun n =>
              { n with neighbors := setInsert s.nodes H_to n.neighbors }) + 2) [H_from]
            { s with nodes := updNode s.nodes H_from fun n =>
              { n with neighbors := setInsert s.nodes H_to n.neighbors } }).2 = [] := by
  have h1 := rewriteLoop_queue_empty C (2 * sumG s.nodes + Q.length + 1) Q s (Nat.lt_succ_self _)
  exact ⟨h1, rewriteLoop_more_fuel C _ k Q s h1, fun a b => relax_measure C a b s Q,
    fun a b => rewrite_rounds_suffice C s a b⟩

/-! ## C18: anytime mode with the start configuration as goal -/

theorem headD_of_all_zero (l : List Nat) (h : ∀ k, k ∈ l → k = 0) : l.headD 0 = 0 := by
  cases l with
  | nil => rfl
  | cons a t => exact h a (List.mem_cons_self _ _)

theorem iteration_at_goal_root {σ : Type} (C : Ctx σ) (hA : C.ANYTIME = true)
    (hsg : C.ins.starts = C.ins.goals) (G : Graph) (s : LaCAM) (w : σ)
    (hn : s.nodes = (initState C G).nodes) (hne : s.OPEN ≠ [])
    (hz : ∀ k, k ∈ s.OPEN → k = 0) (hg : s.H_goal = none ∨ s.H_goal = some 0) :
    (iteration C s w).1 = Flow.next
      ∧ (iteration C s w).2.1.nodes = (initState C G).nodes
      ∧ (iteration C s w).2.1.OPEN ≠ []
      ∧ (∀ k, k ∈ (iteration C s w).2.1.OPEN → k = 0)
      ∧ (iteration C s w).2.1.H_goal = some 0
      ∧ (iteration C s w).2.1.loop_cnt = s.loop_cnt + 1
      ∧ (s.H_goal = some 0 →
          (iteration C s w).2.1.OPEN
            = 0 :: (random_insert C { s with loop_cnt := s.loop_cnt + 1 } w).1.OPEN.tail) := by
  have hQ0 : (nodeAt s.nodes 0).Q = C.ins.goals := by
    rw [hn]
    show (nodeAt (newHNode C [] C.ins.starts none 0 0) 0).Q = _
    rw [nodeAt_init_zero]
    exact hsg
  rcases hg with hg | hg
  · rcases iteration_of_no_goal C s w hg with ⟨h1, _⟩ | ⟨_, h2⟩
    · exfalso
      rw [headD_of_all_zero s.OPEN hz, hQ0] at h1
      simp [is_same_config] at h1
    · rw [h2, hA, headD_of_all_zero s.OPEN hz]
      refine ⟨rfl, hn, hne, hz, rfl, rfl, ?_⟩
      intro e
      rw [hg] at e
      cases e
  · obtain ⟨f1, _, f3, _, _, f6⟩ := random_insert_frame C { s with loop_cnt := s.loop_cnt + 1 } w
    have f1a : (random_insert C { s with loop_cnt := s.loop_cnt + 1 } w).1.nodes = s.nodes := f1
    have f3a : (random_insert C { s with loop_cnt := s.loop_cnt + 1 } w).1.H_goal = some 0 := by
      rw [f3]; exact hg
    have f6a : (random_insert C { s with loop_cnt := s.loop_cnt + 1 } w).1.loop_cnt
        = s.loop_cnt + 1 := f6
    have hz1 : ∀ k, k ∈ (random_insert C { s with loop_cnt := s.loop_cnt + 1 } w).1.OPEN →
        k = 0 := by
      intro k hk
      rcases random_insert_open C { s with loop_cnt := s.loop_cnt + 1 } w with e | ⟨j, hj, e⟩
      · rw [e] at hk; exact hz k hk
      · rw [e] at hk
        rcases List.mem_cons.mp hk with e1 | e1
        · rw [e1]
          rcases hj with e2 | e2
          · exact e2
          · exact hz j e2
        · exact hz k e1
    have hcond : ((random_insert C { s with loop_cnt := s.loop_cnt + 1 } w).1.H_goal.isSome
        && decide ((nodeAt (random_insert C { s with loop_cnt := s.loop_cnt + 1 } w).1.nodes
              ((random_insert C { s with loop_cnt := s.loop_cnt + 1 } w).1.OPEN.headD 0)).g
            ≥ (nodeAt (random_insert C { s with loop_cnt := s.loop_cnt + 1 } w).1.nodes
              ((random_insert C { s with loop_cnt := s.loop_cnt + 1 } w).1.H_goal.getD 0)).g))
        = true := by
      rw [f3a, headD_of_all_zero _ hz1]
      simp
    unfold iteration visit
    simp only [hcond, if_true]
    refine ⟨trivial, ?_, List.cons_ne_nil _ _, ?_, f3a, f6a, fun _ => trivial⟩
    · rw [f1a]; exact hn
    · intro k hk
      rcases List.mem_cons.mp hk with e | e
      · exact e
      · exact hz1 k (List.mem_of_mem_tail e)

theorem run_at_goal_root {σ : Type} (C : Ctx σ) (hA : C.ANYTIME = true)
    (hsg : C.ins.starts = C.ins.goals) (G : Graph) (w0 : σ)
    {fl : Flow} {s : LaCAM} {w : σ} (hr : Run C (initState C G) w0 fl s w) :
    fl = Flow.next ∧ s.nodes = (initState C G).nodes ∧ s.OPEN ≠ [] ∧ (∀ k, k ∈ s.OPEN → k = 0)
      ∧ ((s.H_goal = none ∧ s.loop_cnt = 0) ∨ (s.H_goal = some 0 ∧ 0 < s.loop_cnt)) := by
  induction hr with
  | refl =>
    refine ⟨rfl, rfl, List.cons_ne_nil _ _, ?_, Or.inl ⟨rfl, rfl⟩⟩
    intro k hk
    exact List.mem_singleton.mp hk
  | @step s1 w1 _ _ _ ih =>
    obtain ⟨_, a, b, c, d⟩ := ih
    have hg : s1.H_goal = none ∨ s1.H_goal = some 0 := by
      rcases d with ⟨d1, _⟩ | ⟨d1, _⟩
      · exact Or.inl d1
      · exact Or.inr d1
    obtain ⟨i1, i2, i3, i4, i5, i6, _⟩ := iteration_at_goal_root C hA hsg G s1 w1 a b c hg
    exact ⟨i1, i2, i3, i4, Or.inr ⟨i5, by rw [i6]; exact Nat.succ_pos _⟩⟩

theorem searchLoop_at_goal_root {σ : Type} (C : Ctx σ) (hA : C.ANYTIME = true)
    (hsg : C.ins.starts = C.ins.goals) (hexp : ∀ k, C.is_expired k = false) (G : Graph)
    (fuel : Nat) (s : LaCAM) (w : σ) (hn : s.nodes = (initState C G).nodes) (hne : s.OPEN ≠ [])
    (hz : ∀ k, k ∈ s.OPEN → k = 0) (hg : s.H_goal = none ∨ s.H_goal = some 0) :
    searchLoop C fuel s w = none := by
  induction fuel generalizing s w with
  | zero => rfl
  | succ fuel ih =>
    obtain ⟨i1, i2, i3, i4, i5, _⟩ := iteration_at_goal_root C hA hsg G s w hn hne hz hg
    have hO : s.OPEN.isEmpty = false := by
      cases hO : s.OPEN with
      | nil => exact absurd hO hne
      | cons a l => rfl
    unfold searchLoop
    rw [hO, hexp]
    simp only [Bool.or_self, Bool.false_eq_true, if_false]
    have e : iteration C s w = (Flow.next, (iteration C s w).2.1, (iteration C s w).2.2) := by
      rw [← i1]
    rw [e]
    exact ih _ _ i2 i3 i4 (Or.inr i5)

/-- C18. In anytime mode, when the start configuration is the goal configuration and the
deadline never expires: at every loop test `OPEN` is non-empty (it holds only the root); the
first iteration records the root as goal; every iteration after that prunes the root
(`g = 0 ≥ 0`) and pushes it back to the front of `OPEN`; and the search loop does not end,
whatever the random draws are and however many iterations it is given, so `solve` does not
return. -/
theorem anytime_start_at_goal_never_stops {σ : Type} (C : Ctx σ) (hA : C.ANYTIME = true)
    (hsg : C.ins.starts = C.ins.goals) (hexp : ∀ k, C.is_expired k = false) (G : Graph)
    (w0 : σ) :
    (∀ fl s w, Run C (initState C G) w0 fl s w →
        fl = Flow.next ∧ s.OPEN ≠ [] ∧ (∀ k, k ∈ s.OPEN → k = 0)
          ∧ s.nodes = (initState C G).nodes
          ∧ (0 < s.loop_cnt →
              s.H_goal = some 0
                ∧ (nodeAt s.nodes 0).g ≥ (nodeAt s.nodes (s.H_goal.getD 0)).g
                ∧ (iteration C s w).2.1.OPEN
                    = 0 :: (random_insert C { s with loop_cnt := s.loop_cnt + 1 } w).1.OPEN.tail))
      ∧ (iteration C (initState C G) w0).2.1.H_goal = some 0
      ∧ ∀ fuel, searchLoop C fuel (initState C G) w0 = none ∧ solve C G w0 fuel = none := by
  have hinit : ∀ k, k ∈ (initState C G).OPEN → k = 0 := fun k hk => List.mem_singleton.mp hk
  refine ⟨?_, ?_, ?_⟩
  · intro fl s w hr
    obtain ⟨a, b, c, d, e⟩ := run_at_goal_root C hA hsg G w0 hr
    refine ⟨a, c, d, b, ?_⟩
    intro hpos
    have hg : s.H_goal = some 0 := by
      rcases e with ⟨_, e2⟩ | ⟨e1, _⟩
      · omega
      · exact e1
    refine ⟨hg, ?_, ?_⟩
    · rw [hg]; exact Nat.le_refl _
    · exact (iteration_at_goal_root C hA hsg G s w b c d (Or.inr hg)).2.2.2.2.2.2 hg
  · exact (iteration_at_goal_root C hA hsg G (initState C G) w0 rfl (List.cons_ne_nil _ _) hinit
      (Or.inl rfl)).2.2.2.2.1
  · intro fuel
    have h := searchLoop_at_goal_root C hA hsg hexp G fuel (initState C G) w0 rfl
      (List.cons_ne_nil _ _) hinit (Or.inl rfl)
    refine ⟨h, ?_⟩
    unfold solve
    rw [h]

theorem anytime_start_at_goal_never_stops_witness :
    (stuckCtx true).ANYTIME = true ∧ (stuckCtx true).ins.starts = (stuckCtx true).ins.goals
      ∧ (∀ k, (stuckCtx true).is_expired k = false)
      ∧ (loopState (stuckCtx true) 3 (initState (stuckCtx true) demoGraph) ()).2.1.OPEN = [0]
      ∧ (loopState (stuckCtx true) 3 (initState (stuckCtx true) demoGraph) ()).2.1.loop_cnt = 3
      ∧ ∀ fuel, searchLoop (stuckCtx true) fuel (initState (stuckCtx true) demoGraph) () = none
          ∧ solve (stuckCtx true) demoGraph () fuel = none :=
  ⟨rfl, rfl, fun _ => rfl, by decide!, by decide!,
    (anytime_start_at_goal_never_stops (stuckCtx true) rfl rfl (fun _ => rfl) demoGraph ()).2.2⟩

/-! ## The agents pinned by a constraint -/

theorem eq_take_of_getD (who order : List Nat) (n : Nat) (h1 : who.length = n)
    (h2 : n ≤ order.length) (h3 : ∀ d, d < n → who.getD d 0 = order.getD d 0) :
    who = order.take n := by
  apply List.ext_getElem?
  intro m
  rw [List.getElem?_take]
  by_cases hm : m < n
  · rw [if_pos hm]
    have hw : m < who.length := by omega
    have ho : m < order.length := by omega
    have := h3 m hm
    rw [getD_eq_getElem_nat who m hw, getD_eq_getElem_nat order m ho] at this
    rw [List.getElem?_eq_getElem hw, List.getElem?_eq_getElem ho, this]
  · rw [if_neg hm]
    exact List.getElem?_eq_none (by omega)

theorem order_facts {σ : Type} {C : Ctx σ} {n : HNode} (hn : NodeOk C n)
    (hperm : SortPermutes C) :
    List.Perm n.order (List.range n.Q.length) ∧ n.order.length = n.Q.length ∧ n.order.Nodup
      ∧ (∀ x, x ∈ n.order → x < n.Q.length)
      ∧ ∀ d, d < n.Q.length → n.order.getD d 0 < n.Q.length := by
  have hp : List.Perm n.order (List.range n.Q.length) := by
    rw [hn.order_eq]
    exact hperm _ _
  have hl : n.order.length = n.Q.length := by
    rw [hp.length_eq, List.length_range]
  have hm : ∀ x, x ∈ n.order → x < n.Q.length :=
    fun x hx => List.mem_range.mp (hp.subset hx)
  refine ⟨hp, hl, hp.nodup_iff.mpr (List.nodup_range _), hm, ?_⟩
  intro d hd
  rw [getD_eq_getElem_nat n.order d (by rw [hl]; exact hd)]
  exact hm _ (List.getElem_mem _)

theorem ConstraintOk.who_facts {σ : Type} {C : Ctx σ} {n : HNode} {L : LNode}
    (h : ConstraintOk n L) (hn : NodeOk C n) (hperm : SortPermutes C) :
    L.who = n.order.take L.depth ∧ L.who.Nodup ∧ (∀ x, x ∈ L.who → x < n.Q.length)
      ∧ ∀ d, d < L.depth → L.who.getD d 0 < n.Q.length := by
  obtain ⟨h1, _, h3, h4⟩ := h
  obtain ⟨_, hl, hnd, hm, _⟩ := order_facts hn hperm
  have e : L.who = n.order.take L.depth := eq_take_of_getD _ _ _ h1 (by rw [hl]; exact h3) h4
  have hmem : ∀ x, x ∈ L.who → x < n.Q.length := by
    intro x hx
    rw [e] at hx
    exact hm x (List.mem_of_mem_take hx)
  refine ⟨e, ?_, hmem, ?_⟩
  · rw [e]
    exact hnd.sublist (List.take_sublist _ _)
  · intro d hd
    rw [getD_eq_getElem_nat L.who d (by rw [h1]; exact hd)]
    exact hmem _ (List.getElem_mem _)

theorem getD_set_option (l : List (Option Nat)) (i j : Nat) (x : Option Nat) :
    (l.set i x).getD j none = if i = j ∧ i < l.length then x else l.getD j none := by
  rw [List.getD_eq_getElem?_getD, List.getD_eq_getElem?_getD, List.getElem?_set]
  by_cases e : i = j
  · by_cases e2 : i < l.length
    · rw [if_pos e, if_pos e2, if_pos ⟨e, e2⟩]
      rfl
    · rw [if_pos e, if_neg e2, if_neg (fun h => e2 h.2)]
      rw [List.getElem?_eq_none (by omega)]
  · rw [if_neg e, if_neg (fun h => e h.1)]

theorem pin_fold (who wh : List Nat) (Q0 : List (Option Nat)) (m : Nat) :
    ((List.range m).foldl (fun Q d => Q.set (who.getD d 0) (some (wh.getD d 0))) Q0).length
        = Q0.length
      ∧ (∀ a, (∀ d, d < m → who.getD d 0 ≠ a) →
          ((List.range m).foldl
            (fun Q d => Q.set (who.getD d 0) (some (wh.getD d 0))) Q0).getD a none
            = Q0.getD a none)
      ∧ ∀ d, d < m → (∀ d2, d < d2 → d2 < m → who.getD d2 0 ≠ who.getD d 0) →
          who.getD d 0 < Q0.length →
          ((List.range m).foldl
            (fun Q d => Q.set (who.getD d 0) (some (wh.getD d 0))) Q0).getD (who.getD d 0) none
            = some (wh.getD d 0) := by
  induction m with
  | zero =>
    refine ⟨rfl, fun _ _ => rfl, ?_⟩
    intro d hd
    exact absurd hd (Nat.not_lt_zero d)
  | succ m ih =>
    obtain ⟨i1, i2, i3⟩ := ih
    rw [List.range_succ, List.foldl_append]
    simp only [List.foldl_cons, List.foldl_nil]
    refine ⟨?_, ?_, ?_⟩
    · rw [List.length_set]; exact i1
    · intro a ha
      rw [getD_set_option, if_neg (fun h => ha m (Nat.lt_succ_self m) h.1)]
      exact i2 a (fun d hd => ha d (Nat.lt_succ_of_lt hd))
    · intro d hd hdist hlt
      rw [getD_set_option]
      by_cases e : d = m
      · subst e
        rw [if_pos ⟨rfl, by rw [i1]; exact hlt⟩]
      · have hdm : d < m := by omega
        rw [if_neg (fun h => hdist m hdm (Nat.lt_succ_self m) h.1)]
        exact i3 d hdm (fun d2 h1 h2 => hdist d2 h1 (Nat.lt_succ_of_lt h2)) hlt

theorem pin_spec (L : LNode) (N : Nat) (hw : L.who.length = L.depth) (hnd : L.who.Nodup)
    (hlt : ∀ x, x ∈ L.who → x < N) :
    (pin L (List.replicate N none)).length = N
      ∧ (∀ d, d < L.depth →
          (pin L (List.replicate N none)).getD (L.who.getD d 0) none
            = some (L.where_.getD d 0))
      ∧ ∀ a, a ∉ L.who → (pin L (List.replicate N none)).getD a none = none := by
  obtain ⟨p1, p2, p3⟩ := pin_fold L.who L.where_ (List.replicate N none) L.depth
  have hmem : ∀ d, d < L.depth → L.who.getD d 0 ∈ L.who := by
    intro d hd
    rw [getD_eq_getElem_nat L.who d (by rw [hw]; exact hd)]
    exact List.getElem_mem _
  unfold pin
  refine ⟨by rw [p1, List.length_replicate], ?_, ?_⟩
  · intro d hd
    apply p3 d hd
    · intro d2 h1 h2 e
      rw [getD_eq_getElem_nat L.who d (by rw [hw]; exact hd),
        getD_eq_getElem_nat L.who d2 (by rw [hw]; exact h2)] at e
      have := (List.Nodup.getElem_inj_iff hnd).mp e
      omega
    · rw [List.length_replicate]
      exact hlt _ (hmem d hd)
  · intro a ha
    rw [p2 a (fun d hd e => ha (by rw [← e]; exact hmem d hd))]
    rw [List.getD_eq_getElem?_getD, List.getElem?_replicate]
    split <;> rfl

/-! ## C14, C19 and C20: constraints, their children and the index accesses -/

theorem demo_sort_permutes (anytime : Bool) (goal deadline : Nat) :
    SortPermutes (demoCtx anytime goal deadline) :=
  fun _ l => List.Perm.refl l

theorem demo_random_int (anytime : Bool) (goal deadline : Nat) :
    RandomIntInRange (demoCtx anytime goal deadline) :=
  fun _ lo _ h => ⟨Nat.le_refl lo, h⟩

theorem set_new_config_dequeued {σ : Type} (C : Ctx σ) (s : LaCAM) (H : Nat) (L : LNode)
    (rest : List LNode) (w1 : σ) :
    set_new_config C
        (low_level C { s with nodes := updNode s.nodes H fun n => { n with search_tree := rest } }
          H L w1).1 H L (List.replicate C.ins.N none)
        (low_level C { s with nodes := updNode s.nodes H fun n => { n with search_tree := rest } }
          H L w1).2
      = C.pibt
          (low_level C
            { s with nodes := updNode s.nodes H fun n => { n with search_tree := rest } }
            H L w1).2
          (low_level C
            { s with nodes := updNode s.nodes H fun n => { n with search_tree := rest } }
            H L w1).1.G
          (nodeAt s.nodes H).Q (pin L (List.replicate C.ins.N none)) (nodeAt s.nodes H).order := by
  obtain ⟨_, b, _⟩ := dequeued_frame C s H L rest w1
  unfold set_new_config
  rw [(b H).1, (b H).2.2.2.2.2.2.2.2]

/-- C14. In a run, for a node `H` whose constraint queue has the constraint `L` at its front:
`L.depth` is at most `N`. If `L.depth < N`, then with `agent = H.order[L.depth]` (an agent index
below `N`) the queue of `H` after the dequeue and the low-level step is the rest of the queue
followed by one child of `L` per entry of the shuffled `actions` vector of the vertex of
`agent`, in the order of that vector, each child being `L` extended by the pair `(agent, u)`;
the shuffled vector is a permutation of the vector before the shuffle. If `L.depth = N` the
queue is just the rest. In both cases the step solver is called with the configuration of `H`,
the order of `H` and a vector of `N` entries in which the `d`-th pinned agent `L.who[d]` has
`L.where[d]` for every `d < L.depth` and every agent that `L.who` does not name is unassigned;
the pinned agents are pairwise distinct. -/
theorem low_level_enqueues_one_child_per_action {σ : Type} (C : Ctx σ) (hwf : WellFormed C)
    (hperm : SortPermutes C) (hshuf : ∀ w l, List.Perm (C.shuffle w l).1 l) (G : Graph) (w0 : σ)
    (fl : Flow) (s : LaCAM) (w : σ) (hr : Run C (initState C G) w0 fl s w) (H : Nat)
    (hH : H < s.nodes.length) (L : LNode) (rest : List LNode)
    (hst : (nodeAt s.nodes H).search_tree = L :: rest) (w1 : σ) :
    L.depth ≤ C.ins.N
      ∧ (L.depth < C.ins.N →
          (nodeAt s.nodes H).order.getD L.depth 0 < C.ins.N
            ∧ (nodeAt (low_level C
                { s with nodes := updNode s.nodes H fun n => { n with search_tree := rest } }
                H L w1).1.nodes H).search_tree
              = rest ++ ((C.shuffle w1 (s.G.getD ((nodeAt s.nodes H).Q.getD
                    ((nodeAt s.nodes H).order.getD L.depth 0) 0) [])).1).map
                  (LNode.child L ((nodeAt s.nodes H).order.getD L.depth 0))
            ∧ List.Perm
                (C.shuffle w1 (s.G.getD ((nodeAt s.nodes H).Q.getD
                  ((nodeAt s.nodes H).order.getD L.depth 0) 0) [])).1
                (s.G.getD ((nodeAt s.nodes H).Q.getD
                  ((nodeAt s.nodes H).order.getD L.depth 0) 0) [])
            ∧ ∀ u, LNode.child L ((nodeAt s.nodes H).order.getD L.depth 0) u
                = { who := L.who ++ [(nodeAt s.nodes H).order.getD L.depth 0],
                    where_ := L.where_ ++ [u], depth := L.depth + 1 })
      ∧ (L.depth = C.ins.N →
          (nodeAt (low_level C
            { s with nodes := updNode s.nodes H fun n => { n with search_tree := rest } }
            H L w1).1.nodes H).search_tree = rest)
      ∧ set_new_config C
            (low_level C
              { s with nodes := updNode s.nodes H fun n => { n with search_tree := rest } }
              H L w1).1 H L (List.replicate C.ins.N none)
            (low_level C
              { s with nodes := updNode s.nodes H fun n => { n with search_tree := rest } }
              H L w1).2
          = C.pibt
              (low_level C
                { s with nodes := updNode s.nodes H fun n => { n with search_tree := rest } }
                H L w1).2
              (low_level C
                { s with nodes := updNode s.nodes H fun n => { n with search_tree := rest } }
                H L w1).1.G
              (nodeAt s.nodes H).Q (pin L (List.replicate C.ins.N none)) (nodeAt s.nodes H).order
      ∧ (pin L (List.replicate C.ins.N none)).length = C.ins.N
      ∧ (∀ d, d < L.depth →
          (pin L (List.replicate C.ins.N none)).getD (L.who.getD d 0) none
            = some (L.where_.getD d 0))
      ∧ (∀ a, a ∉ L.who → (pin L (List.replicate C.ins.N none)).getD a none = none)
      ∧ L.who.Nodup := by
  obtain ⟨hinv, _⟩ := hr.good hwf (initState_inv C hwf G)
  have hset := hr.settled hwf (initState_inv C hwf G) (initState_settled C G)
  have hn := hset.node_ok H hH
  have hQl := hinv.arena.Q_len H hH
  have hL : ConstraintOk (nodeAt s.nodes H) L :=
    hn.tree_ok L (by rw [hst]; exact List.mem_cons_self _ _)
  obtain ⟨_, o2, _, _, o5⟩ := order_facts hn hperm
  obtain ⟨_, k2, k3, _⟩ := hL.who_facts hn hperm
  obtain ⟨_, t2⟩ := dequeued_tree C s H L rest w1 hH
  obtain ⟨p1, p2, p3⟩ := pin_spec L C.ins.N hL.1 k2 (fun x hx => by rw [← hQl]; exact k3 x hx)
  rw [hQl] at t2 o5
  refine ⟨by rw [← hQl]; exact hL.2.2.1, ?_, ?_, set_new_config_dequeued C s H L rest w1, p1, p2,
    p3, k2⟩
  · intro hlt
    refine ⟨o5 _ hlt, ?_, hshuf _ _, fun _ => rfl⟩
    rw [t2, if_pos hlt]
  · intro he
    rw [t2, if_neg (by omega)]

theorem low_level_enqueues_one_child_per_action_witness :
    WellFormed (duoCtx sortKeepingTies) ∧ SortPermutes (duoCtx sortKeepingTies)
      ∧ (∀ w l, List.Perm ((duoCtx sortKeepingTies).shuffle w l).1 l)
      ∧ 0 < (loopState (duoCtx sortKeepingTies) 3
          (initState (duoCtx sortKeepingTies) demoGraph) ()).2.1.nodes.length
      ∧ (nodeAt (loopState (duoCtx sortKeepingTies) 3
            (initState (duoCtx sortKeepingTies) demoGraph) ()).2.1.nodes 0).search_tree
          = { who := [0], where_ := [3], depth := 1 }
            :: [{ who := [0, 1], where_ := [1, 2], depth := 2 }]
      ∧ (nodeAt (low_level (duoCtx sortKeepingTies)
            { (loopState (duoCtx sortKeepingTies) 3
                (initState (duoCtx sortKeepingTies) demoGraph) ()).2.1 with
              nodes := updNode (loopState (duoCtx sortKeepingTies) 3
                  (initState (duoCtx sortKeepingTies) demoGraph) ()).2.1.nodes 0
                fun n => { n with
                  search_tree := [{ who := [0, 1], where_ := [1, 2], depth := 2 }] } }
            0 { who := [0], where_ := [3], depth := 1 } ()).1.nodes 0).search_tree
          = [{ who := [0, 1], where_ := [1, 2], depth := 2 },
             { who := [0, 1], where_ := [3, 2], depth := 2 }]
      ∧ pin { who := [0], where_ := [3], depth := 1 } (List.replicate 2 none) = [some 3, none]
      ∧ ∀ a, a ∉ ({ who := [0], where_ := [3], depth := 1 } : LNode).who →
          (pin { who := [0], where_ := [3], depth := 1 }
            (List.replicate (duoCtx sortKeepingTies).ins.N none)).getD a none = none :=
  ⟨duo_wf _, sortKeepingTies_permutes _ rfl, fun _ l => List.Perm.refl l, by decide!, by decide!,
    by decide!, by decide!,
    (low_level_enqueues_one_child_per_action (duoCtx sortKeepingTies) (duo_wf _)
      (sortKeepingTies_permutes _ rfl) (fun _ l => List.Perm.refl l) demoGraph () _ _ _
      (loopState_run (duoCtx sortKeepingTies) 3 (initState (duoCtx sortKeepingTies) demoGraph) ())
      0 (by decide!) { who := [0], where_ := [3], depth := 1 }
      [{ who := [0, 1], where_ := [1, 2], depth := 2 }] (by decide!) ()).2.2.2.2.2.2.1⟩

/-- C19. Given a start configuration of length `N`, a step solver that returns only
configurations of length `N`, and the contracts of `std::sort` and `get_random_int`: at every
loop test of a run with `OPEN` non-empty, the index drawn for `OPEN[...]` is below the size of
`OPEN`; `OPEN` is non-empty when `OPEN.front()` is read and its front is a node of the arena;
and for every node `H` and every constraint `L` of its queue: `Q`, `order` and `priorities` of
`H` have `N` entries; when `L.depth < N` the read `H.order[L.depth]` is in bounds and yields an
agent index below `N`; `who` and `where` of `L` have exactly `L.depth` entries; and every
`L.who[d]` with `d < L.depth` is below the length `N` of `Q_to`. -/
theorem index_accesses_in_bounds {σ : Type} (C : Ctx σ) (hwf : WellFormed C)
    (hperm : SortPermutes C) (hrand : RandomIntInRange C) (G : Graph) (w0 : σ) (fl : Flow)
    (s : LaCAM) (w : σ) (hr : Run C (initState C G) w0 fl s w) (hopen : s.OPEN ≠ []) :
    (∀ w1, (C.get_random_int w1 0 (s.OPEN.length - 1)).1 < s.OPEN.length)
      ∧ (random_insert C { s with loop_cnt := s.loop_cnt + 1 } w).1.OPEN ≠ []
      ∧ (random_insert C { s with loop_cnt := s.loop_cnt + 1 } w).1.OPEN.headD 0 < s.nodes.length
      ∧ ∀ H, H < s.nodes.length → ∀ L, L ∈ (nodeAt s.nodes H).search_tree →
          (nodeAt s.nodes H).Q.length = C.ins.N
            ∧ (nodeAt s.nodes H).order.length = C.ins.N
            ∧ (nodeAt s.nodes H).priorities.length = C.ins.N
            ∧ (L.depth < (nodeAt s.nodes H).Q.length →
                L.depth < (nodeAt s.nodes H).order.length
                  ∧ (nodeAt s.nodes H).order.getD L.depth 0 < (nodeAt s.nodes H).Q.length)
            ∧ L.who.length = L.depth ∧ L.where_.length = L.depth
            ∧ ∀ d, d < L.depth →
                L.who.getD d 0 < (List.replicate C.ins.N (none : Option Nat)).length := by
  obtain ⟨hinv, _⟩ := hr.good hwf (initState_inv C hwf G)
  have hset := hr.settled hwf (initState_inv C hwf G) (initState_settled C G)
  have hpos : 0 < s.OPEN.length := List.length_pos.mpr hopen
  have h0 : Inv C { s with loop_cnt := s.loop_cnt + 1 } :=
    hinv.inv_of_nodes_eq rfl rfl (fun k hk => hinv.open_ok k hk)
      (fun k hk => hinv.goal_ok k hk) rfl
  obtain ⟨hI, _⟩ := random_insert_good C { s with loop_cnt := s.loop_cnt + 1 } w h0
  have hn : (random_insert C { s with loop_cnt := s.loop_cnt + 1 } w).1.nodes = s.nodes :=
    (random_insert_frame C { s with loop_cnt := s.loop_cnt + 1 } w).1
  have hne : (random_insert C { s with loop_cnt := s.loop_cnt + 1 } w).1.OPEN ≠ [] := by
    rcases random_insert_open C { s with loop_cnt := s.loop_cnt + 1 } w with e | ⟨k, _, e⟩
    · rw [e]; exact hopen
    · rw [e]; exact List.cons_ne_nil _ _
  refine ⟨?_, hne, ?_, ?_⟩
  · intro w1
    have := (hrand w1 0 (s.OPEN.length - 1) (Nat.zero_le _)).2
    omega
  · cases hO : (random_insert C { s with loop_cnt := s.loop_cnt + 1 } w).1.OPEN with
    | nil => exact absurd hO hne
    | cons a l =>
      have := hI.open_ok a (by rw [hO]; exact List.mem_cons_self _ _)
      rw [hn] at this
      exact this
  · intro H hH L hL
    have hnk := hset.node_ok H hH
    have hQl := hinv.arena.Q_len H hH
    have hc := hnk.tree_ok L hL
    obtain ⟨_, o2, _, _, o5⟩ := order_facts hnk hperm
    obtain ⟨_, _, _, k4⟩ := hc.who_facts hnk hperm
    refine ⟨hQl, by rw [o2, hQl], by rw [hnk.prio_len, hQl], ?_, hc.1, hc.2.1, ?_⟩
    · intro hlt
      exact ⟨by rw [o2]; exact hlt, o5 _ hlt⟩
    · intro d hd
      rw [List.length_replicate, ← hQl]
      exact k4 d hd

theorem index_accesses_in_bounds_witness :
    WellFormed (demoCtx true 3 100) ∧ SortPermutes (demoCtx true 3 100)
      ∧ RandomIntInRange (demoCtx true 3 100)
      ∧ (loopState (demoCtx true 3 100) 8 (initState (demoCtx true 3 100) demoGraph) ()).2.1.OPEN
          = [0, 2, 2, 1, 1, 0, 0]
      ∧ ∀ w1, ((demoCtx true 3 100).get_random_int w1 0
            ((loopState (demoCtx true 3 100) 8
              (initState (demoCtx true 3 100) demoGraph) ()).2.1.OPEN.length - 1)).1
          < (loopState (demoCtx true 3 100) 8
              (initState (demoCtx true 3 100) demoGraph) ()).2.1.OPEN.length :=
  ⟨demo_wf true 3 100, demo_sort_permutes true 3 100, demo_random_int true 3 100, by decide!,
    (index_accesses_in_bounds (demoCtx true 3 100) (demo_wf true 3 100)
      (demo_sort_permutes true 3 100) (demo_random_int true 3 100) demoGraph () _ _ _
      (loopState_run (demoCtx true 3 100) 8 (initState (demoCtx true 3 100) demoGraph) ())
      (by decide!)).1⟩

/-- C20. Given the contract of `std::sort`, at every point of a run every constraint `L` in
the queue of a node `H` has `L.depth = |L.who| = |L.where| ≤ N` and `L.who[d] = H.order[d]` for
every `d < L.depth`, so `L.who` is the first `L.depth` entries of `H.order` and names pairwise
distinct agents. The constructor of a node seeds its queue with exactly one constraint, the
empty one of depth `0`; a child constraint has the `who` and `where` of its parent with one
pair appended and the depth of its parent plus one. -/
theorem constraints_follow_order {σ : Type} (C : Ctx σ) (hwf : WellFormed C)
    (hperm : SortPermutes C) (G : Graph) (w0 : σ) (fl : Flow) (s : LaCAM) (w : σ)
    (hr : Run C (initState C G) w0 fl s w) :
    (∀ H, H < s.nodes.length → ∀ L, L ∈ (nodeAt s.nodes H).search_tree →
        L.depth = L.who.length ∧ L.who.length = L.where_.length ∧ L.depth ≤ C.ins.N
          ∧ (∀ d, d < L.depth → L.who.getD d 0 = (nodeAt s.nodes H).order.getD d 0)
          ∧ L.who = (nodeAt s.nodes H).order.take L.depth
          ∧ L.who.Nodup)
      ∧ (∀ nodes Q parent g h,
          (HNode.init C nodes Q parent g h).search_tree = [LNode.root]
            ∧ LNode.root.depth = 0 ∧ LNode.root.who = [] ∧ LNode.root.where_ = [])
      ∧ ∀ (L : LNode) i v,
          (LNode.child L i v).who = L.who ++ [i] ∧ (LNode.child L i v).where_ = L.where_ ++ [v]
            ∧ (LNode.child L i v).depth = L.depth + 1 := by
  obtain ⟨hinv, _⟩ := hr.good hwf (initState_inv C hwf G)
  have hset := hr.settled hwf (initState_inv C hwf G) (initState_settled C G)
  refine ⟨?_, fun _ _ _ _ _ => ⟨rfl, rfl, rfl, rfl⟩, fun _ _ _ => ⟨rfl, rfl, rfl⟩⟩
  intro H hH L hL
  have hnk := hset.node_ok H hH
  have hc := hnk.tree_ok L hL
  obtain ⟨k1, k2, _, _⟩ := hc.who_facts hnk hperm
  refine ⟨hc.1.symm, hc.1.trans hc.2.1.symm, ?_, hc.2.2.2, k1, k2⟩
  rw [← hinv.arena.Q_len H hH]
  exact hc.2.2.1

theorem constraints_follow_order_witness :
    WellFormed (duoCtx sortKeepingTies) ∧ SortPermutes (duoCtx sortKeepingTies)
      ∧ (nodeAt (loopState (duoCtx sortKeepingTies) 6
            (initState (duoCtx sortKeepingTies) demoGraph) ()).2.1.nodes 1).search_tree
          = [{ who := [0, 1], where_ := [2, 2], depth := 2 }]
      ∧ ∀ H, H < (loopState (duoCtx sortKeepingTies) 6
            (initState (duoCtx sortKeepingTies) demoGraph) ()).2.1.nodes.length →
          ∀ L, L ∈ (nodeAt (loopState (duoCtx sortKeepingTies) 6
              (initState (duoCtx sortKeepingTies) demoGraph) ()).2.1.nodes H).search_tree →
            L.depth = L.who.length ∧ L.who.length = L.where_.length
              ∧ L.depth ≤ (duoCtx sortKeepingTies).ins.N
              ∧ (∀ d, d < L.depth → L.who.getD d 0
                  = (nodeAt (loopState (duoCtx sortKeepingTies) 6
                      (initState (duoCtx sortKeepingTies) demoGraph) ()).2.1.nodes H).order.getD
                        d 0)
              ∧ L.who = (nodeAt (loopState (duoCtx sortKeepingTies) 6
                  (initState (duoCtx sortKeepingTies) demoGraph) ()).2.1.nodes H).order.take
                    L.depth
              ∧ L.who.Nodup :=
  ⟨duo_wf _, sortKeepingTies_permutes _ rfl, by decide!,
    (constraints_follow_order (duoCtx sortKeepingTies) (duo_wf _)
      (sortKeepingTies_permutes _ rfl) demoGraph () _ _ _
      (loopState_run (duoCtx sortKeepingTies) 6
        (initState (duoCtx sortKeepingTies) demoGraph) ())).1⟩

/-! ## C15 and C16: depth and cost along the parent links -/

theorem hops_eq_depth {σ : Type} {C : Ctx σ} {s : LaCAM} (hinv : Inv C s) (hset : Settled C s)
    (fuel : Nat) (k : Nat) (hk : k < s.nodes.length) (hf : (nodeAt s.nodes k).depth < fuel) :
    hops s.nodes fuel k = some (nodeAt s.nodes k).depth := by
  induction fuel generalizing k with
  | zero => exact absurd hf (Nat.not_lt_zero _)
  | succ fuel ih =>
    unfold hops
    cases hp : (nodeAt s.nodes k).parent with
    | none =>
      have hk0 : k = 0 := by
        by_contra hne
        obtain ⟨p, e, _⟩ := hinv.arena.parent_ok k hk hne
        rw [hp] at e
        cases e
      simp only
      rw [hk0, hset.depth_inv.root_depth]
    | some p =>
      have hd := hset.depth_inv.depth_ok k p hp (hset.g_eq k p hp)
      have hpl := (parent_index_lt hinv hp).2
      simp only
      rw [ih p hpl (by omega), hd]
      rfl

theorem chain_cost_eq {σ : Type} {C : Ctx σ} {s : LaCAM} (hinv : Inv C s) (hset : Settled C s)
    (rest : List Nat) (k : Nat)
    (hc : List.Chain' (fun a b => (nodeAt s.nodes a).parent = some b) (k :: rest))
    (hl : (k :: rest).getLast? = some 0) :
    solution_cost C.ins ((k :: rest).map fun i => (nodeAt s.nodes i).Q).reverse
      = (nodeAt s.nodes k).g := by
  induction rest generalizing k with
  | nil =>
    have hk0 : k = 0 := by
      simpa using hl
    rw [hk0, hinv.arena.root_g]
    simp [solution_cost]
  | cons p r ih =>
    have hkp : (nodeAt s.nodes k).parent = some p := (List.chain'_cons.mp hc).1
    have h1 := ih p (List.chain'_cons.mp hc).2 (by rw [List.getLast?_cons_cons] at hl; exact hl)
    have hg := hset.g_eq k p hkp
    rw [reverse_map_cons_cons, solution_cost_snoc]
    rw [reverse_map_cons] at h1
    omega

/-- C15. At every loop test of a run (so also after every rewiring by `rewrite`), the root has
depth `0`, every other node has the depth of its parent plus one, and the `depth` field of
every node is the number of parent links from the node to the root: following the parent
links for more than `depth` rounds reaches the root after exactly `depth` links. -/
theorem depth_is_hop_count {σ : Type} (C : Ctx σ) (hwf : WellFormed C) (G : Graph) (w0 : σ)
    (fl : Flow) (s : LaCAM) (w : σ) (hr : Run C (initState C G) w0 fl s w) :
    (nodeAt s.nodes 0).depth = 0
      ∧ (∀ k, k < s.nodes.length → k ≠ 0 →
          ∃ p, (nodeAt s.nodes k).parent = some p ∧ p < s.nodes.length
            ∧ (nodeAt s.nodes k).depth = (nodeAt s.nodes p).depth + 1)
      ∧ ∀ k, k < s.nodes.length → ∀ fuel, (nodeAt s.nodes k).depth < fuel →
          hops s.nodes fuel k = some (nodeAt s.nodes k).depth := by
  obtain ⟨hinv, _⟩ := hr.good hwf (initState_inv C hwf G)
  have hset := hr.settled hwf (initState_inv C hwf G) (initState_settled C G)
  refine ⟨hset.depth_inv.root_depth, ?_, fun k hk fuel hf => hops_eq_depth hinv hset fuel k hk hf⟩
  intro k hk hk0
  obtain ⟨p, e, hp, _⟩ := hinv.arena.parent_ok k hk hk0
  exact ⟨p, e, hp, hset.depth_inv.depth_ok k p e (hset.g_eq k p e)⟩

theorem depth_is_hop_count_witness :
    WellFormed (demoCtx true 3 100)
      ∧ (nodeAt (loopState (demoCtx true 3 100) 8
            (initState (demoCtx true 3 100) demoGraph) ()).2.1.nodes 3).depth = 3
      ∧ (nodeAt (loopState (demoCtx true 3 100) 9
            (initState (demoCtx true 3 100) demoGraph) ()).2.1.nodes 3).depth = 1
      ∧ (nodeAt (loopState (demoCtx true 3 100) 9
            (initState (demoCtx true 3 100) demoGraph) ()).2.1.nodes 3).parent = some 0
      ∧ ∀ k, k < (loopState (demoCtx true 3 100) 9
            (initState (demoCtx true 3 100) demoGraph) ()).2.1.nodes.length →
          ∀ fuel, (nodeAt (loopState (demoCtx true 3 100) 9
              (initState (demoCtx true 3 100) demoGraph) ()).2.1.nodes k).depth < fuel →
            hops (loopState (demoCtx true 3 100) 9
                (initState (demoCtx true 3 100) demoGraph) ()).2.1.nodes fuel k
              = some (nodeAt (loopState (demoCtx true 3 100) 9
                  (initState (demoCtx true 3 100) demoGraph) ()).2.1.nodes k).depth :=
  ⟨demo_wf true 3 100, by decide!, by decide!, by decide!,
    (depth_is_hop_count (demoCtx true 3 100) (demo_wf true 3 100) demoGraph () _ _ _
      (loopState_run (demoCtx true 3 100) 9
        (initState (demoCtx true 3 100) demoGraph) ())).2.2⟩

/-- C16. At every loop test of a run, the root has `g = 0` and no parent; every other node `n`
has a parent `p` with `n.g = p.g + get_edge_cost(p.Q, n.Q)`, so `n.g` is the sum of the edge
costs along the parent links from the root to `n`; and in anytime mode every recorded edge
`a → b` (`b` in `a.neighbors`) has `b.g ≤ a.g + get_edge_cost(a.Q, b.Q)`. -/
theorem g_is_cost_along_parents {σ : Type} (C : Ctx σ) (hwf : WellFormed C) (G : Graph)
    (w0 : σ) (fl : Flow) (s : LaCAM) (w : σ) (hr : Run C (initState C G) w0 fl s w) :
    (nodeAt s.nodes 0).g = 0 ∧ (nodeAt s.nodes 0).parent = none
      ∧ (∀ k, k < s.nodes.length → k ≠ 0 →
          ∃ p, (nodeAt s.nodes k).parent = some p ∧ p < s.nodes.length
            ∧ (nodeAt s.nodes k).g
              = (nodeAt s.nodes p).g
                + get_edge_cost C.ins (nodeAt s.nodes p).Q (nodeAt s.nodes k).Q)
      ∧ (∀ k, k < s.nodes.length →
          ∃ c, parentChain s.nodes s.nodes.length (some k) = some c
            ∧ c.head? = some k ∧ c.getLast? = some 0
            ∧ solution_cost C.ins (c.map fun i => (nodeAt s.nodes i).Q).reverse
              = (nodeAt s.nodes k).g)
      ∧ (C.ANYTIME = true → ∀ a, a < s.nodes.length → ∀ b, b ∈ (nodeAt s.nodes a).neighbors →
          (nodeAt s.nodes b).g
            ≤ (nodeAt s.nodes a).g
              + get_edge_cost C.ins (nodeAt s.nodes a).Q (nodeAt s.nodes b).Q) := by
  obtain ⟨hinv, _⟩ := hr.good hwf (initState_inv C hwf G)
  have hset := hr.settled hwf (initState_inv C hwf G) (initState_settled C G)
  refine ⟨hinv.arena.root_g, hinv.arena.root_parent, ?_, ?_, ?_⟩
  · intro k hk hk0
    obtain ⟨p, e, hp, _⟩ := hinv.arena.parent_ok k hk hk0
    exact ⟨p, e, hp, hset.g_eq k p e⟩
  · intro k hk
    obtain ⟨c, h1, h2, h3, _, _, h6⟩ := chain_exists hinv.arena k hk
    refine ⟨c, h1, h2, h3, ?_⟩
    cases c with
    | nil => cases h2
    | cons a rest =>
      have : a = k := Option.some.inj h2
      subst this
      exact chain_cost_eq hinv hset rest a h6 h3
  · intro hA a _ b hb
    exact hset.edge_fix hA a b hb

theorem g_is_cost_along_parents_witness :
    WellFormed (demoCtx true 3 100)
      ∧ (nodeAt (loopState (demoCtx true 3 100) 8
            (initState (demoCtx true 3 100) demoGraph) ()).2.1.nodes 3).g = 3
      ∧ (nodeAt (loopState (demoCtx true 3 100) 9
            (initState (demoCtx true 3 100) demoGraph) ()).2.1.nodes 3).g = 1
      ∧ (nodeAt (loopState (demoCtx true 3 100) 9
            (initState (demoCtx true 3 100) demoGraph) ()).2.1.nodes 0).neighbors = [0, 1, 3]
      ∧ ((demoCtx true 3 100).ANYTIME = true →
          ∀ a, a < (loopState (demoCtx true 3 100) 9
              (initState (demoCtx true 3 100) demoGraph) ()).2.1.nodes.length →
            ∀ b, b ∈ (nodeAt (loopState (demoCtx true 3 100) 9
                (initState (demoCtx true 3 100) demoGraph) ()).2.1.nodes a).neighbors →
              (nodeAt (loopState (demoCtx true 3 100) 9
                  (initState (demoCtx true 3 100) demoGraph) ()).2.1.nodes b).g
                ≤ (nodeAt (loopState (demoCtx true 3 100) 9
                    (initState (demoCtx true 3 100) demoGraph) ()).2.1.nodes a).g
                  + get_edge_cost (demoCtx true 3 100).ins
                      (nodeAt (loopState (demoCtx true 3 100) 9
                        (initState (demoCtx true 3 100) demoGraph) ()).2.1.nodes a).Q
                      (nodeAt (loopState (demoCtx true 3 100) 9
                        (initState (demoCtx true 3 100) demoGraph) ()).2.1.nodes b).Q) :=
  ⟨demo_wf true 3 100, by decide!, by decide!, by decide!,
    (g_is_cost_along_parents (demoCtx true 3 100) (demo_wf true 3 100) demoGraph () _ _ _
      (loopState_run (demoCtx true 3 100) 9
        (initState (demoCtx true 3 100) demoGraph) ())).2.2.2.2⟩

end Lacam
